import Mathlib

/-!
PolicyPlayBook: template engine, utilities and repository.

A shallow embedding of `src/PlayBook/Templates.js`, `src/PlayBook/Utils.js`
and `src/PlayBook/Database.js`, and theorems about it.

Conventions of the embedding.

* A JavaScript string is a `List Char`; one `Char` stands for one UTF-16 code
  unit, so only strings over the Basic Multilingual Plane are represented.
* A thrown exception is `Except.error message`, the message being the value of
  `error.message`; `try`/`catch` is a `match` on the `Except`.
* Regular expressions are values of `Re`, run by a backtracking matcher that
  follows the ECMAScript matching rules (leftmost match, alternatives in
  order, greedy and lazy quantifiers, capture groups).
* Logging (`logInfo`, `logWarning`, `logError`) has no effect on results and
  is left out.
-/

namespace PlayBook

/-- A JavaScript string: the list of its UTF-16 code units. -/
abbrev Str := List Char

/-! ## Characters -/

/-- The characters matched by `\s` and removed by `trim`: ECMAScript WhiteSpace
and LineTerminator. -/
def isWhiteSpace (c : Char) : Bool :=
  let n := c.toNat
  (9 ≤ n && n ≤ 13) || n == 32 || n == 160 || n == 5760 || (8192 ≤ n && n ≤ 8202) ||
    n == 8232 || n == 8233 || n == 8239 || n == 8287 || n == 12288 || n == 65279

/-- The characters matched by `\d` and by `[0-9]`. -/
def isDigit (c : Char) : Bool :=
  let n := c.toNat
  48 ≤ n && n ≤ 57

/-- The characters matched by `\w`: `[A-Za-z0-9_]`. -/
def isWordChar (c : Char) : Bool :=
  let n := c.toNat
  (48 ≤ n && n ≤ 57) || (65 ≤ n && n ≤ 90) || (97 ≤ n && n ≤ 122) || n == 95

/-- The line terminators, which `.` does not match without the `s` flag. -/
def isLineTerminator (c : Char) : Bool :=
  let n := c.toNat
  n == 10 || n == 13 || n == 8232 || n == 8233

/-! ## Strings -/

/-- The method `String.prototype.trim`. -/
def trim (s : Str) : Str :=
  ((s.dropWhile isWhiteSpace).reverse.dropWhile isWhiteSpace).reverse

/-- The method `String.prototype.startsWith`. -/
def startsWith (s p : Str) : Bool := p.isPrefixOf s

/-- The method `String.prototype.includes`. -/
def includes : Str → Str → Bool
  | [], p => p.isPrefixOf []
  | c :: s, p => p.isPrefixOf (c :: s) || includes s p

/-- The method `Array.prototype.join` on an array of strings. -/
def join (sep : Str) : List Str → Str
  | [] => []
  | [x] => x
  | x :: y :: r => x ++ sep ++ join sep (y :: r)

/-- Decimal digits of a natural number, most significant first; `fuel` bounds
the number of digits. -/
def natDigits : Nat → Nat → Str
  | 0, _ => []
  | fuel + 1, n =>
    if n < 10 then [Char.ofNat (48 + n)]
    else natDigits fuel (n / 10) ++ [Char.ofNat (48 + n % 10)]

/-- Decimal text of a natural number. -/
def natToStr (n : Nat) : Str := natDigits (n + 1) n

/-- Decimal text of an integer, with a leading `-` when negative. -/
def intToStr (i : Int) : Str :=
  if i < 0 then '-' :: natToStr i.natAbs else natToStr i.natAbs

/-- Value of a string of digits in the given base; `none` when a character is
not a digit of that base. -/
def digitsValue (base : Nat) : Str → Nat → Option Nat
  | [], acc => some acc
  | c :: s, acc =>
    let n := c.toNat
    let d : Option Nat :=
      if 48 ≤ n ∧ n ≤ 57 then some (n - 48)
      else if 97 ≤ n ∧ n ≤ 102 then some (n - 87)
      else if 65 ≤ n ∧ n ≤ 70 then some (n - 55)
      else none
    match d with
    | some v => if v < base then digitsValue base s (acc * base + v) else none
    | none => none

/-- The method `String.prototype.padStart(n, '0')`. -/
def padStart0 (n : Nat) (s : Str) : Str := List.replicate (n - s.length) '0' ++ s

/-! ## Regular expressions -/

/-- The regular expressions used by the program. -/
inductive Re where
  /-- the empty pattern -/
  | empty
  /-- one character satisfying a test: a literal, a class, or `.` -/
  | chr (p : Char → Bool)
  /-- concatenation -/
  | seq (a b : Re)
  /-- alternation `a|b` -/
  | alt (a b : Re)
  /-- quantifier: `a{lo,hi}`, greedy or lazy; `hi = none` is unbounded -/
  | rep (a : Re) (lo : Nat) (hi : Option Nat) (greedy : Bool)
  /-- capture group number `i` -/
  | group (i : Nat) (a : Re)
  /-- start of input `^` -/
  | bol
  /-- end of input `$` -/
  | eol
  /-- word boundary `\b` (`neg = false`) or `\B` (`neg = true`) -/
  | wordB (neg : Bool)
  /-- lookahead `(?=a)` (`neg = false`) or `(?!a)` (`neg = true`) -/
  | look (neg : Bool) (a : Re)

namespace Re

/-- A literal character. -/
def char (c : Char) : Re := chr (fun x => x == c)

/-- A literal string. -/
def lit : Str → Re
  | [] => empty
  | [c] => char c
  | c :: s => seq (char c) (lit s)

/-- Concatenation of a list of patterns. -/
def seqs : List Re → Re
  | [] => empty
  | [r] => r
  | r :: rs => seq r (seqs rs)

/-- Alternation of a non-empty list of patterns, in order. -/
def alts : List Re → Re
  | [] => empty
  | [r] => r
  | r :: rs => alt r (alts rs)

/-- Greedy `a*`. -/
def star (a : Re) : Re := rep a 0 none true
/-- Greedy `a+`. -/
def plus (a : Re) : Re := rep a 1 none true
/-- Lazy `a*?`. -/
def starLazy (a : Re) : Re := rep a 0 none false

/-- The numbers of the capture groups inside a pattern. -/
def groups : Re → List Nat
  | empty => []
  | chr _ => []
  | seq a b => groups a ++ groups b
  | alt a b => groups a ++ groups b
  | rep a _ _ _ => groups a
  | group i a => i :: groups a
  | bol => []
  | eol => []
  | wordB _ => []
  | look _ a => groups a

end Re

/-- A position in the input: the text already passed, most recent character
first, and the text still ahead. -/
structure Pos where
  left : Str
  rest : Str

/-- The captures: group number and captured text, most recent first. -/
abbrev Caps := List (Nat × Str)

/-- The text captured by group `i`, if it took part in the match. -/
def capture (c : Caps) (i : Nat) : Option Str := (c.find? (fun e => e.1 == i)).map (·.2)

/-- Forget the captures of the listed groups (done at each iteration of a
quantifier). -/
def clearCaps (gs : List Nat) (c : Caps) : Caps := c.filter (fun e => !gs.contains e.1)

/-- A matcher continuation. -/
abbrev Cont := Pos → Caps → Option (Pos × Caps)

/-- Is the position at a word boundary? -/
def atWordBoundary (x : Pos) : Bool :=
  let a := match x.left with | [] => false | c :: _ => isWordChar c
  let b := match x.rest with | [] => false | c :: _ => isWordChar c
  a != b

/-- RepeatMatcher of ECMAScript: `m` matches one iteration, `clear` resets the
captures of the groups inside it. -/
def repLoop (m : Pos → Caps → Cont → Option (Pos × Caps)) (clear : Caps → Caps)
    (greedy : Bool) : Nat → Nat → Option Nat → Pos → Caps → Cont → Option (Pos × Caps)
  | 0, _, _, x, c, k => k x c
  | fuel + 1, lo, hi, x, c, k =>
    if hi = some 0 then k x c
    else
      let d : Cont := fun y cy =>
        if lo = 0 ∧ y.rest.length = x.rest.length then none
        else repLoop m clear greedy fuel (lo - 1) (hi.map (· - 1)) y cy k
      if lo ≠ 0 then m x (clear c) d
      else if greedy then (m x (clear c) d).orElse (fun _ => k x c)
      else (k x c).orElse (fun _ => m x (clear c) d)

/-- The backtracking matcher: `matchRe r x c k` matches `r` at position `x`
with captures `c` and then runs the continuation `k`. -/
def matchRe : Re → Pos → Caps → Cont → Option (Pos × Caps)
  | .empty, x, c, k => k x c
  | .chr p, x, c, k =>
    match x.rest with
    | [] => none
    | ch :: r => if p ch then k ⟨ch :: x.left, r⟩ c else none
  | .seq a b, x, c, k => matchRe a x c (fun y cy => matchRe b y cy k)
  | .alt a b, x, c, k => (matchRe a x c k).orElse (fun _ => matchRe b x c k)
  | .rep a lo hi greedy, x, c, k =>
    repLoop (matchRe a) (clearCaps a.groups) greedy (lo + x.rest.length + 1) lo hi x c k
  | .group i a, x, c, k =>
    matchRe a x c (fun y cy => k y ((i, x.rest.take (x.rest.length - y.rest.length)) :: cy))
  | .bol, x, c, k => if x.left.isEmpty then k x c else none
  | .eol, x, c, k => if x.rest.isEmpty then k x c else none
  | .wordB neg, x, c, k => if atWordBoundary x != neg then k x c else none
  | .look neg a, x, c, k =>
    match matchRe a x c (fun y cy => some (y, cy)) with
    | some (_, cy) => if neg then none else k x cy
    | none => if neg then k x c else none

/-- One match attempt at a position: the end position and the captures. -/
def matchAt (r : Re) (x : Pos) : Option (Pos × Caps) :=
  matchRe r x [] (fun y cy => some (y, cy))

/-- What a replacement sees of one match. -/
structure MatchInfo where
  /-- the matched text -/
  matched : Str
  /-- the captures -/
  caps : Caps
  /-- the input before the match -/
  before : Str
  /-- the input after the match -/
  after : Str

/-- A piece of the input as `String.prototype.replace` cuts it with a global
pattern: a character outside every match, or a match. -/
inductive Piece where
  | text (c : Char)
  | hit (info : MatchInfo)

/-- The loop of `String.prototype.replace` with a global pattern: scan the
input from the left; at a match record it and go on after it (one character
further when the match is empty), else pass one character. `fuel` bounds the
number of steps. -/
def pieces (r : Re) : Nat → Str → Str → List Piece
  | 0, _, rest => rest.map .text
  | fuel + 1, left, rest =>
    match matchAt r ⟨left, rest⟩ with
    | some (y, c) =>
      let n := rest.length - y.rest.length
      let h := Piece.hit ⟨rest.take n, c, left.reverse, y.rest⟩
      if n = 0 then
        match rest with
        | [] => [h]
        | ch :: t => h :: .text ch :: pieces r fuel (ch :: left) t
      else h :: pieces r fuel ((rest.take n).reverse ++ left) y.rest
    | none =>
      match rest with
      | [] => []
      | ch :: t => .text ch :: pieces r fuel (ch :: left) t

/-- The output of a replacement: each match gives way to what `f` makes of
it. -/
def render (f : MatchInfo → Str) : List Piece → Str
  | [] => []
  | .text c :: ps => c :: render f ps
  | .hit info :: ps => f info ++ render f ps

/-- The output of a replacement whose function may throw: the first exception,
in the order of the matches, goes to the caller. -/
def renderM (f : MatchInfo → Except Str Str) : List Piece → Except Str Str
  | [] => .ok []
  | .text c :: ps =>
    match renderM f ps with
    | .ok t => .ok (c :: t)
    | .error e => .error e
  | .hit info :: ps =>
    match f info with
    | .error e => .error e
    | .ok x =>
      match renderM f ps with
      | .ok t => .ok (x ++ t)
      | .error e => .error e

/-- The call `input.replace(r, f)` for a global pattern `r` and a replacement
function `f`. -/
def replaceAll (r : Re) (f : MatchInfo → Str) (input : Str) : Str :=
  render f (pieces r (input.length + 1) [] input)

/-- The call `input.replace(r, f)` for a global pattern `r` and a replacement
function `f` that may throw. -/
def replaceAllM (r : Re) (f : MatchInfo → Except Str Str) (input : Str) : Except Str Str :=
  renderM f (pieces r (input.length + 1) [] input)

/-- The loop of `RegExp.prototype.test` without the global flag: is there a
match at some position? -/
def testLoop (r : Re) : Str → Str → Bool
  | left, [] => (matchAt r ⟨left, []⟩).isSome
  | left, ch :: t => (matchAt r ⟨left, ch :: t⟩).isSome || testLoop r (ch :: left) t

/-- The call `r.test(input)`. -/
def test (r : Re) (input : Str) : Bool := testLoop r [] input

/-! ## Patterns built from a string: `new RegExp(source, 'g')`

The parser covers the pattern syntax without the `u` flag: literal characters,
`.`, the escapes `\d \D \s \S \w \W \b \B \f \n \r \t \v \0 \xHH \uHHHH \cX`
and identity escapes, classes `[...]`, groups `(...)` and `(?:...)`, lookahead,
alternation, `^`, `$` and the quantifiers `* + ? {n} {n,} {n,m}`, greedy or
lazy. Back-references, named groups and lookbehind are not covered: a source
using them is reported as a syntax error, as is a malformed source. -/

/-- A character escape after the backslash, common to atoms and classes:
the character it denotes and the rest of the source. -/
def parseCharEscape : Str → Option (Char × Str)
  | [] => none
  | 'f' :: t => some (Char.ofNat 12, t)
  | 'n' :: t => some (Char.ofNat 10, t)
  | 'r' :: t => some (Char.ofNat 13, t)
  | 't' :: t => some (Char.ofNat 9, t)
  | 'v' :: t => some (Char.ofNat 11, t)
  | '0' :: t =>
    match t with
    | d :: _ => if isDigit d then none else some (Char.ofNat 0, t)
    | [] => some (Char.ofNat 0, t)
  | 'x' :: a :: b :: t =>
    match digitsValue 16 [a, b] 0 with
    | some v => some (Char.ofNat v, t)
    | none => some ('x', a :: b :: t)
  | 'u' :: a :: b :: c :: d :: t =>
    match digitsValue 16 [a, b, c, d] 0 with
    | some v => some (Char.ofNat v, t)
    | none => some ('u', a :: b :: c :: d :: t)
  | 'c' :: l :: t =>
    if (65 ≤ l.toNat ∧ l.toNat ≤ 90) ∨ (97 ≤ l.toNat ∧ l.toNat ≤ 122) then
      some (Char.ofNat (l.toNat % 32), t)
    else none
  | c :: t => if isDigit c then none else some (c, t)

/-- A class escape after the backslash: `\d \D \s \S \w \W`. -/
def parseClassEscape : Str → Option ((Char → Bool) × Str)
  | 'd' :: t => some (isDigit, t)
  | 'D' :: t => some ((fun c => !isDigit c), t)
  | 's' :: t => some (isWhiteSpace, t)
  | 'S' :: t => some ((fun c => !isWhiteSpace c), t)
  | 'w' :: t => some (isWordChar, t)
  | 'W' :: t => some ((fun c => !isWordChar c), t)
  | _ => none

/-- One member of a class: a single character (`inl`) or a set (`inr`). -/
def parseClassAtom : Str → Option ((Char ⊕ (Char → Bool)) × Str)
  | [] => none
  | '\\' :: t =>
    match parseClassEscape t with
    | some (p, r) => some (.inr p, r)
    | none =>
      match t with
      | 'b' :: r => some (.inl (Char.ofNat 8), r)
      | '-' :: r => some (.inl '-', r)
      | _ =>
        match parseCharEscape t with
        | some (c, r) => some (.inl c, r)
        | none => none
  | c :: t => some (.inl c, t)

/-- The set denoted by one member of a class. -/
def classItemTest : Char ⊕ (Char → Bool) → Char → Bool
  | .inl c => fun x => x == c
  | .inr p => p

/-- The members of a class up to the closing bracket. -/
def parseClassBody : Nat → Str → (Char → Bool) → Option ((Char → Bool) × Str)
  | 0, _, _ => none
  | _ + 1, [], _ => none
  | _ + 1, ']' :: t, acc => some (acc, t)
  | fuel + 1, s, acc =>
    match parseClassAtom s with
    | none => none
    | some (a, '-' :: r) =>
      match r with
      | ']' :: _ => parseClassBody fuel r (fun x => acc x || classItemTest a x || x == '-')
      | _ =>
        match parseClassAtom r with
        | none => none
        | some (b, r2) =>
          match a, b with
          | .inl lo, .inl hi =>
            if hi.toNat < lo.toNat then none
            else parseClassBody fuel r2
              (fun x => acc x || (decide (lo.toNat ≤ x.toNat) && decide (x.toNat ≤ hi.toNat)))
          | _, _ =>
            parseClassBody fuel r2
              (fun x => acc x || classItemTest a x || x == '-' || classItemTest b x)
    | some (a, r) => parseClassBody fuel r (fun x => acc x || classItemTest a x)

/-- A class `[...]`, after the opening bracket. -/
def parseClass (s : Str) : Option ((Char → Bool) × Str) :=
  match s with
  | '^' :: t =>
    match parseClassBody (t.length + 1) t (fun _ => false) with
    | some (p, r) => some ((fun c => !p c), r)
    | none => none
  | _ => parseClassBody (s.length + 1) s (fun _ => false)

/-- The text after `{` when it is `n}`, `n,}` or `n,m}`: the bounds and the
rest of the source. -/
def parseBraces (s : Str) : Option (Nat × Option Nat × Str) :=
  let d1 := s.takeWhile isDigit
  let r1 := s.dropWhile isDigit
  if d1.isEmpty then none
  else
    match digitsValue 10 d1 0, r1 with
    | some lo, '}' :: t => some (lo, some lo, t)
    | some lo, ',' :: t =>
      let d2 := t.takeWhile isDigit
      match t.dropWhile isDigit with
      | '}' :: t2 =>
        if d2.isEmpty then some (lo, none, t2)
        else
          match digitsValue 10 d2 0 with
          | some hi => some (lo, some hi, t2)
          | none => none
      | _ => none
    | _, _ => none

/-- The quantifier after an atom, if any: `none` is a syntax error (bounds out
of order), `some (a, s)` the quantified atom and the rest of the source. -/
def parseQuantifier (a : Re) (s : Str) : Option (Re × Str) :=
  let q : Option (Option (Nat × Option Nat × Str)) :=
    match s with
    | '*' :: t => some (some (0, none, t))
    | '+' :: t => some (some (1, none, t))
    | '?' :: t => some (some (0, some 1, t))
    | '{' :: t =>
      match parseBraces t with
      | some (lo, some hi, r) => if hi < lo then none else some (some (lo, some hi, r))
      | some (lo, none, r) => some (some (lo, none, r))
      | none => some none
    | _ => some none
  match q with
  | none => none
  | some none => some (a, s)
  | some (some (lo, hi, r)) =>
    match r with
    | '?' :: r2 => some (.rep a lo hi false, r2)
    | _ => some (.rep a lo hi true, r)

/-- An atom that contains no group: `.`, an escape, a class or a character. -/
def parseSimpleAtom : Str → Option (Re × Str)
  | [] => none
  | '.' :: t => some (.chr (fun c => !isLineTerminator c), t)
  | '[' :: t =>
    match parseClass t with
    | some (p, r) => some (.chr p, r)
    | none => none
  | '\\' :: t =>
    match parseClassEscape t with
    | some (p, r) => some (.chr p, r)
    | none =>
      match parseCharEscape t with
      | some (c, r) => some (.char c, r)
      | none => none
  | '*' :: _ => none
  | '+' :: _ => none
  | '?' :: _ => none
  | '{' :: t =>
    match parseBraces t with
    | some _ => none
    | none => some (.char '{', t)
  | c :: t => some (.char c, t)

mutual
/-- Disjunction: alternatives separated by `|`. The last component counts the
capture groups opened so far. -/
def parseDisjunction : Nat → Str → Nat → Option (Re × Str × Nat)
  | 0, _, _ => none
  | fuel + 1, s, g =>
    match parseAlternative fuel s g [] with
    | none => none
    | some (a, '|' :: t, g1) =>
      match parseDisjunction fuel t g1 with
      | some (b, t2, g2) => some (.alt a b, t2, g2)
      | none => none
    | some (a, t, g1) => some (a, t, g1)
/-- Alternative: terms up to `|`, `)` or the end; `acc` holds the terms read,
last first. -/
def parseAlternative : Nat → Str → Nat → List Re → Option (Re × Str × Nat)
  | 0, _, _, _ => none
  | _ + 1, [], g, acc => some (Re.seqs acc.reverse, [], g)
  | fuel + 1, c :: t, g, acc =>
    if c == '|' || c == ')' then some (Re.seqs acc.reverse, c :: t, g)
    else
      match parseTerm fuel (c :: t) g with
      | none => none
      | some (r, t2, g1) => parseAlternative fuel t2 g1 (r :: acc)
/-- Term: an assertion, or an atom with its quantifier. -/
def parseTerm : Nat → Str → Nat → Option (Re × Str × Nat)
  | 0, _, _ => none
  | _ + 1, '^' :: t, g => some (.bol, t, g)
  | _ + 1, '$' :: t, g => some (.eol, t, g)
  | _ + 1, '\\' :: 'b' :: t, g => some (.wordB false, t, g)
  | _ + 1, '\\' :: 'B' :: t, g => some (.wordB true, t, g)
  | fuel + 1, '(' :: '?' :: x :: t, g =>
    if x == ':' || x == '=' || x == '!' then
      match parseDisjunction fuel t g with
      | some (a, ')' :: t2, g1) =>
        let b : Re := if x == ':' then a else .look (x == '!') a
        match parseQuantifier b t2 with
        | some (q, t3) => some (q, t3, g1)
        | none => none
      | _ => none
    else none
  | fuel + 1, '(' :: t, g =>
    match parseDisjunction fuel t (g + 1) with
    | some (a, ')' :: t2, g1) =>
      match parseQuantifier (.group (g + 1) a) t2 with
      | some (q, t3) => some (q, t3, g1)
      | none => none
    | _ => none
  | _ + 1, s, g =>
    match parseSimpleAtom s with
    | none => none
    | some (a, t) =>
      match parseQuantifier a t with
      | some (q, t2) => some (q, t2, g)
      | none => none
end

/-- The pattern compiled by `new RegExp(source, 'g')` with the number of its
capture groups; `none` when the constructor throws a SyntaxError. -/
def compileRegExp (source : Str) : Option (Re × Nat) :=
  match parseDisjunction (4 * source.length + 4) source 0 with
  | some (r, [], g) => some (r, g)
  | _ => none

/-! ## Replacement strings -/

/-- GetSubstitution of ECMAScript: expand `$$`, `$&`, the two positional
forms and `$n`, `$nn` in a replacement string; `m` is the number of capture
groups of the pattern. -/
def expandReplacement (m : Nat) (info : MatchInfo) : Str → Str
  | [] => []
  | '$' :: '$' :: t => '$' :: expandReplacement m info t
  | '$' :: '&' :: t => info.matched ++ expandReplacement m info t
  | '$' :: '`' :: t => info.before ++ expandReplacement m info t
  | '$' :: '\'' :: t => info.after ++ expandReplacement m info t
  | '$' :: a :: b :: t =>
    if isDigit a then
      let two := (a.toNat - 48) * 10 + (b.toNat - 48)
      let one := a.toNat - 48
      if isDigit b && decide (1 ≤ two) && decide (two ≤ m) then
        ((capture info.caps two).getD []) ++ expandReplacement m info t
      else if decide (1 ≤ one) && decide (one ≤ m) then
        ((capture info.caps one).getD []) ++ expandReplacement m info (b :: t)
      else '$' :: a :: expandReplacement m info (b :: t)
    else '$' :: expandReplacement m info (a :: b :: t)
  | '$' :: a :: [] =>
    if isDigit a && decide (1 ≤ a.toNat - 48) && decide (a.toNat - 48 ≤ m) then
      (capture info.caps (a.toNat - 48)).getD []
    else ['$', a]
  | c :: t => c :: expandReplacement m info t

/-- The call `input.replace(r, replacement)` for a global pattern `r` with `m`
capture groups and a replacement string. -/
def replaceAllStr (r : Re) (m : Nat) (replacement : Str) (input : Str) : Str :=
  replaceAll r (fun info => expandReplacement m info replacement) input

/-! ## Numbers -/

/-- A JavaScript number: NaN, an infinity, or the finite value `num / den`
(`den > 0`); the two zeros are not told apart. -/
inductive JSNum where
  | nan
  | inf (neg : Bool)
  | fin (num : Int) (den : Nat)

namespace JSNum

/-- The number `n`. -/
def ofInt (n : Int) : JSNum := fin n 1

/-- Is the number NaN? -/
def isNaN : JSNum → Bool
  | nan => true
  | _ => false

/-- Is the number `+0`, `-0`? -/
def isZero : JSNum → Bool
  | fin n _ => n == 0
  | _ => false

/-- The comparison `x < y`; false when an operand is NaN. -/
def lt : JSNum → JSNum → Bool
  | nan, _ => false
  | _, nan => false
  | inf a, inf b => a && !b
  | inf a, fin _ _ => a
  | fin _ _, inf b => !b
  | fin a b, fin c d => decide (a * d < c * b)

/-- The comparison `x > y`. -/
def gt (x y : JSNum) : Bool := lt y x

/-- The comparison `x <= y`; false when an operand is NaN. -/
def le (x y : JSNum) : Bool := !isNaN x && !isNaN y && !lt y x

/-- The comparison `x >= y`; false when an operand is NaN. -/
def ge (x y : JSNum) : Bool := !isNaN x && !isNaN y && !lt x y

/-- Numeric equality, as in `x == y` on numbers; false when an operand is NaN. -/
def eq : JSNum → JSNum → Bool
  | nan, _ => false
  | _, nan => false
  | inf a, inf b => a == b
  | inf _, fin _ _ => false
  | fin _ _, inf _ => false
  | fin a b, fin c d => decide (a * d = c * b)

end JSNum

/-- The power `b ^ n` by repeated squaring; `fuel` bounds the recursion. -/
def powLoop (b : Nat) : Nat → Nat → Nat
  | 0, _ => 1
  | fuel + 1, n =>
    if n = 0 then 1
    else
      let h := powLoop b fuel (n / 2)
      if n % 2 = 0 then h * h else h * h * b

/-- The power `b ^ n`. -/
def power (b n : Nat) : Nat := powLoop b n n

/-- Number of binary digits of `n`; `fuel` bounds the recursion. -/
def bitLen : Nat → Nat → Nat
  | 0, _ => 0
  | fuel + 1, n => if n = 0 then 0 else bitLen fuel (n / 2) + 1

/-- The integer part of the base-2 logarithm of `n ≥ 1`. -/
def log2Floor (n : Nat) : Nat := bitLen n n - 1

/-- The integer part of the base-2 logarithm of `num / den`, both positive. -/
def log2FloorRatio (num den : Nat) : Int :=
  let l : Int := (log2Floor num : Int) - (log2Floor den : Int)
  if 0 ≤ l then (if den * power 2 l.toNat ≤ num then l else l - 1)
  else (if den ≤ num * power 2 (-l).toNat then l else l - 1)

/-- The integer nearest to `n / d`, ties to even. -/
def roundHalfEven (n d : Nat) : Nat :=
  let q := n / d
  let r := n % d
  if 2 * r < d then q else if d < 2 * r then q + 1 else if q % 2 = 0 then q else q + 1

/-- The IEEE 754 double nearest to `± num / den` (round to nearest, ties to
even; overflow gives an infinity). -/
def roundToDouble (neg : Bool) (num den : Nat) : JSNum :=
  if num = 0 ∨ den = 0 then .fin 0 1
  else
    let e : Int := max (log2FloorRatio num den - 52) (-1074)
    let sign : Int := if neg then -1 else 1
    if 0 ≤ e then
      let m := roundHalfEven num (den * power 2 e.toNat)
      if power 2 1024 ≤ m * power 2 e.toNat then .inf neg
      else .fin (sign * (m * power 2 e.toNat : Nat)) 1
    else
      .fin (sign * (roundHalfEven (num * power 2 (-e).toNat) den : Nat)) (power 2 (-e).toNat)

/-- The value `± mant × 10 ^ exp` as a double. -/
def decimalToDouble (neg : Bool) (mant : Nat) (exp : Int) : JSNum :=
  if 0 ≤ exp then roundToDouble neg (mant * power 10 exp.toNat) 1
  else roundToDouble neg mant (power 10 (-exp).toNat)

/-- An optional sign: is it `-`, and the text after it. -/
def takeSign : Str → Bool × Str
  | '-' :: s => (true, s)
  | '+' :: s => (false, s)
  | s => (false, s)

/-- StrUnsignedDecimalLiteral without `Infinity`: digits, an optional
fraction, an optional exponent, and nothing else. -/
def parseUnsignedDecimal (neg : Bool) (s : Str) : JSNum :=
  let ip := s.takeWhile isDigit
  let r1 := s.dropWhile isDigit
  let fp : Str := match r1 with
    | '.' :: t => t.takeWhile isDigit
    | _ => []
  let r2 : Str := match r1 with
    | '.' :: t => t.dropWhile isDigit
    | _ => r1
  if ip.isEmpty && fp.isEmpty then .nan
  else
    match digitsValue 10 (ip ++ fp) 0 with
    | none => .nan
    | some mant =>
      match r2 with
      | [] => decimalToDouble neg mant (-(fp.length : Int))
      | c :: t =>
        if c == 'e' || c == 'E' then
          let (eneg, ds) := takeSign t
          if ds.isEmpty || !ds.all isDigit then .nan
          else
            match digitsValue 10 ds 0 with
            | none => .nan
            | some ev =>
              decimalToDouble neg mant ((if eneg then -(ev : Int) else (ev : Int)) - (fp.length : Int))
        else .nan

/-- StringToNumber of ECMAScript: the value of `Number(s)` for a string. -/
def stringToNumber (s : Str) : JSNum :=
  let t := trim s
  match t with
  | [] => .fin 0 1
  | '0' :: x :: ds =>
    let base : Option Nat :=
      if x == 'x' || x == 'X' then some 16
      else if x == 'o' || x == 'O' then some 8
      else if x == 'b' || x == 'B' then some 2
      else none
    match base with
    | some b =>
      if ds.isEmpty then .nan
      else
        match digitsValue b ds 0 with
        | some v => roundToDouble false v 1
        | none => .nan
    | none => parseUnsignedDecimal false t
  | _ =>
    let (neg, u) := takeSign t
    if u == "Infinity".toList then .inf neg else parseUnsignedDecimal neg u

/-- Search for the least `j` from `j` on with `den ≤ num * 10 ^ j`. -/
def findShift (num den : Nat) : Nat → Nat → Nat
  | 0, j => j
  | fuel + 1, j => if den ≤ num * power 10 j then j else findShift num den fuel (j + 1)

/-- The `n` of Number::toString for `num / den > 0`:
`10 ^ (n - 1) ≤ num / den < 10 ^ n`. -/
def decimalExponent (num den : Nat) : Int :=
  if den ≤ num then ((natToStr (num / den)).length : Int)
  else 1 - (findShift num den den 1 : Int)

/-- The digits `s` with `k` places for `num / den` in Number::toString, if `k`
places are enough to denote that double: the nearer of the two neighbours
that round to it. -/
def digitsWith (num den : Nat) (n : Int) (k : Nat) : Option Nat :=
  let e : Int := n - (k : Int)
  let tn := if 0 ≤ e then num else num * power 10 (-e).toNat
  let td := if 0 ≤ e then den * power 10 e.toNat else den
  let lo := tn / td
  let hi := lo + 1
  let okLo := JSNum.eq (decimalToDouble false lo e) (.fin num den)
  let okHi := JSNum.eq (decimalToDouble false hi e) (.fin num den)
  if okLo && okHi then
    (if 2 * (tn % td) < td then some lo
     else if td < 2 * (tn % td) then some hi
     else if lo % 2 = 0 then some lo else some hi)
  else if okLo then some lo
  else if okHi then some hi
  else none

/-- The least number of places, from `k` on, that denotes `num / den`, with the
digits `digitsWith` gives for it. Seventeen places denote every double; when
the fuel ends, which no double reaches, the digits are taken as they are. -/
def shortestDigits (num den : Nat) (n : Int) : Nat → Nat → Nat × Nat
  | 0, k => (k, (if 0 ≤ n - (k : Int) then num / (den * power 10 (n - (k : Int)).toNat)
                 else num * power 10 (-(n - (k : Int))).toNat / den))
  | fuel + 1, k =>
    match digitsWith num den n k with
    | some s => (k, s)
    | none => shortestDigits num den n fuel (k + 1)

/-- Number::toString for a positive finite number `num / den`. -/
def positiveToString (num den : Nat) : Str :=
  let n0 := decimalExponent num den
  let (k0, s0) := shortestDigits num den n0 17 1
  let carry := s0 == power 10 k0
  let n : Int := if carry then n0 + 1 else n0
  let ds : Str := if carry then ['1'] else natToStr s0
  let k : Int := ds.length
  if k ≤ n ∧ n ≤ 21 then ds ++ List.replicate (n - k).toNat '0'
  else if 0 < n ∧ n ≤ 21 then ds.take n.toNat ++ '.' :: ds.drop n.toNat
  else if -6 < n ∧ n ≤ 0 then '0' :: '.' :: List.replicate (-n).toNat '0' ++ ds
  else
    let e := n - 1
    let es : Str := (if e < 0 then '-' else '+') :: natToStr e.natAbs
    match ds with
    | [] => []
    | [d] => d :: 'e' :: es
    | d :: t => d :: '.' :: t ++ 'e' :: es

/-- Number::toString, radix 10. -/
def numberToString : JSNum → Str
  | .nan => "NaN".toList
  | .inf neg => if neg then "-Infinity".toList else "Infinity".toList
  | .fin num den =>
    if num = 0 then ['0']
    else if num < 0 then '-' :: positiveToString num.natAbs den
    else positiveToString num.natAbs den

/-! ## Values -/

/-- A JavaScript value. `native name` is the built-in function called `name`
that every object inherits from `Object.prototype`. -/
inductive JSValue where
  | undefined
  | null
  | bool (b : Bool)
  | num (x : JSNum)
  | str (s : Str)
  | arr (items : List JSValue)
  | obj (fields : List (Str × JSValue))
  | native (name : Str)

/-- The properties of an object in the order of `Object.entries`; the bag of
variables is one. -/
abbrev Bag := List (Str × JSValue)

namespace JSValue

/-- ToBoolean: is the value truthy? -/
def truthy : JSValue → Bool
  | undefined => false
  | null => false
  | bool b => b
  | num x => !(x.isNaN || x.isZero)
  | str s => !s.isEmpty
  | arr _ => true
  | obj _ => true
  | native _ => true

/-- Is the value `null` or `undefined`? -/
def isNullish : JSValue → Bool
  | undefined => true
  | null => true
  | _ => false

/-- Is `typeof v` the string `boolean`? -/
def isBoolean : JSValue → Bool
  | bool _ => true
  | _ => false

/-- Is `typeof v` the string `string`? -/
def isString : JSValue → Bool
  | str _ => true
  | _ => false

mutual
/-- ToString: the result of `String(v)` and of a template literal; for a value
other than `null` and `undefined` also the result of `v.toString()`. -/
def toStr : JSValue → Str
  | undefined => "undefined".toList
  | null => "null".toList
  | bool b => if b then "true".toList else "false".toList
  | num x => numberToString x
  | str s => s
  | arr items => joinItems items
  | obj _ => "[object Object]".toList
  | native name => "function ".toList ++ name ++ "() \x7b [native code] \x7d".toList
/-- The method `Array.prototype.join` with the separator `,`: `null` and
`undefined` items give the empty string. -/
def joinItems : List JSValue → Str
  | [] => []
  | [x] => if x.isNullish then [] else toStr x
  | x :: y :: r => (if x.isNullish then [] else toStr x) ++ ',' :: joinItems (y :: r)
end

/-- ToNumber: the result of `Number(v)`. -/
def toNumber : JSValue → JSNum
  | undefined => .nan
  | null => .fin 0 1
  | bool b => if b then .fin 1 1 else .fin 0 1
  | num x => x
  | str s => stringToNumber s
  | v => stringToNumber (toStr v)

/-- The loose comparison `v == s` with a string `s`. -/
def looseEqStr (v : JSValue) (s : Str) : Bool :=
  match v with
  | undefined => false
  | null => false
  | bool b => JSNum.eq (toNumber (bool b)) (stringToNumber s)
  | num x => JSNum.eq x (stringToNumber s)
  | str t => t == s
  | w => toStr w == s

/-- The strict comparison `a === b` on primitive values; two distinct arrays
or objects are never strictly equal. -/
def strictEq : JSValue → JSValue → Bool
  | undefined, undefined => true
  | null, null => true
  | bool a, bool b => a == b
  | num a, num b => JSNum.eq a b
  | str a, str b => a == b
  | native a, native b => a == b
  | _, _ => false

end JSValue

/-- The names every plain object inherits from `Object.prototype`, each with
the name of the function (or object) found there. -/
def objectPrototype (k : Str) : JSValue :=
  if k == "constructor".toList then .native "Object".toList
  else if k == "__proto__".toList then .obj []
  else if k ∈ ["__defineGetter__".toList, "__defineSetter__".toList, "hasOwnProperty".toList,
      "__lookupGetter__".toList, "__lookupSetter__".toList, "isPrototypeOf".toList,
      "propertyIsEnumerable".toList, "toString".toList, "valueOf".toList,
      "toLocaleString".toList] then .native k
  else .undefined

/-- Own property `k` of an object, if it has one. -/
def ownProp (b : Bag) (k : Str) : Option JSValue := (b.find? (fun e => e.1 == k)).map (·.2)

/-- The property read `o[k]` on a plain object: the own property, else what
`Object.prototype` gives, else `undefined`. -/
def getProp (b : Bag) (k : Str) : JSValue :=
  match ownProp b k with
  | some v => v
  | none => objectPrototype k

/-- The assignment `o[k] = v` on a plain object: an own property keeps its
place, a new one goes last. -/
def setProp : Bag → Str → JSValue → Bag
  | [], k, v => [(k, v)]
  | (k0, v0) :: r, k, v => if k0 == k then (k, v) :: r else (k0, v0) :: setProp r k v

/-- The property read `v.k` for a name `k` that no built-in prototype other
than `Object.prototype` defines: `undefined` on a primitive or an array. The
read throws on `null` and `undefined`, which the callers handle. -/
def field (v : JSValue) (k : Str) : JSValue :=
  match v with
  | .obj fs => getProp fs k
  | _ => .undefined

/-! ## JSON -/

/-- Drop the JSON white space: space, tab, line feed, carriage return. -/
def skipJsonSpace (s : Str) : Str :=
  s.dropWhile (fun c => c == ' ' || c == Char.ofNat 9 || c == Char.ofNat 10 || c == Char.ofNat 13)

/-- A JSON string after its opening quote: the text and the rest. -/
def parseJsonString : Nat → Str → Str → Option (Str × Str)
  | 0, _, _ => none
  | _ + 1, [], _ => none
  | _ + 1, '"' :: t, acc => some (acc.reverse, t)
  | fuel + 1, '\\' :: c :: t, acc =>
    if c == '"' || c == '\\' || c == '/' then parseJsonString fuel t (c :: acc)
    else if c == 'b' then parseJsonString fuel t (Char.ofNat 8 :: acc)
    else if c == 'f' then parseJsonString fuel t (Char.ofNat 12 :: acc)
    else if c == 'n' then parseJsonString fuel t (Char.ofNat 10 :: acc)
    else if c == 'r' then parseJsonString fuel t (Char.ofNat 13 :: acc)
    else if c == 't' then parseJsonString fuel t (Char.ofNat 9 :: acc)
    else if c == 'u' then
      match t with
      | h1 :: h2 :: h3 :: h4 :: t2 =>
        match digitsValue 16 [h1, h2, h3, h4] 0 with
        | some v => parseJsonString fuel t2 (Char.ofNat v :: acc)
        | none => none
      | _ => none
    else none
  | fuel + 1, c :: t, acc => if c.toNat < 32 then none else parseJsonString fuel t (c :: acc)

/-- A JSON number: `-? (0 | [1-9][0-9]*) (. [0-9]+)? ([eE] [+-]? [0-9]+)?`. -/
def parseJsonNumber (s : Str) : Option (JSNum × Str) :=
  let (neg, u) : Bool × Str := match s with
    | '-' :: t => (true, t)
    | _ => (false, s)
  let ip := u.takeWhile isDigit
  let r1 := u.dropWhile isDigit
  if ip.isEmpty || (decide (1 < ip.length) && ip.head? == some '0') then none
  else
    let fp : Option Str := match r1 with
      | '.' :: t => some (t.takeWhile isDigit)
      | _ => none
    let r2 : Str := match r1 with
      | '.' :: t => t.dropWhile isDigit
      | _ => r1
    if fp == some [] then none
    else
      let fd := fp.getD []
      let mant := (digitsValue 10 (ip ++ fd) 0).getD 0
      match r2 with
      | c :: t =>
        if c == 'e' || c == 'E' then
          let (eneg, ds0) := takeSign t
          let ds := ds0.takeWhile isDigit
          if ds.isEmpty then none
          else
            let ev := (digitsValue 10 ds 0).getD 0
            some (decimalToDouble neg mant ((if eneg then -(ev : Int) else (ev : Int)) - (fd.length : Int)),
              ds0.dropWhile isDigit)
        else some (decimalToDouble neg mant (-(fd.length : Int)), r2)
      | [] => some (decimalToDouble neg mant (-(fd.length : Int)), [])

mutual
/-- A JSON value at the head of the text (white space already dropped). -/
def parseJsonValue : Nat → Str → Option (JSValue × Str)
  | 0, _ => none
  | _ + 1, [] => none
  | fuel + 1, c :: t =>
    if c == '"' then
      match parseJsonString (t.length + 1) t [] with
      | some (x, r) => some (.str x, r)
      | none => none
    else if c == '[' then
      match skipJsonSpace t with
      | ']' :: r => some (.arr [], r)
      | t1 =>
        match parseJsonElements fuel t1 [] with
        | some (xs, r) => some (.arr xs, r)
        | none => none
    else if c == '{' then
      match skipJsonSpace t with
      | '}' :: r => some (.obj [], r)
      | t1 =>
        match parseJsonMembers fuel t1 [] with
        | some (fs, r) => some (.obj fs, r)
        | none => none
    else if "true".toList.isPrefixOf (c :: t) then some (.bool true, (c :: t).drop 4)
    else if "false".toList.isPrefixOf (c :: t) then some (.bool false, (c :: t).drop 5)
    else if "null".toList.isPrefixOf (c :: t) then some (.null, (c :: t).drop 4)
    else
      match parseJsonNumber (c :: t) with
      | some (x, r) => some (.num x, r)
      | none => none
/-- The elements of a JSON array up to the closing bracket. -/
def parseJsonElements : Nat → Str → List JSValue → Option (List JSValue × Str)
  | 0, _, _ => none
  | fuel + 1, s, acc =>
    match parseJsonValue fuel s with
    | none => none
    | some (v, r) =>
      match skipJsonSpace r with
      | ']' :: r2 => some ((v :: acc).reverse, r2)
      | ',' :: r2 => parseJsonElements fuel (skipJsonSpace r2) (v :: acc)
      | _ => none
/-- The members of a JSON object up to the closing brace; a repeated key
keeps its first place and its last value. -/
def parseJsonMembers : Nat → Str → Bag → Option (Bag × Str)
  | 0, _, _ => none
  | fuel + 1, s, acc =>
    match s with
    | '"' :: t =>
      match parseJsonString (t.length + 1) t [] with
      | none => none
      | some (k, r) =>
        match skipJsonSpace r with
        | ':' :: r1 =>
          match parseJsonValue fuel (skipJsonSpace r1) with
          | none => none
          | some (v, r2) =>
            match skipJsonSpace r2 with
            | '}' :: r3 => some (setProp acc k v, r3)
            | ',' :: r3 => parseJsonMembers fuel (skipJsonSpace r3) (setProp acc k v)
            | _ => none
        | _ => none
    | _ => none
end

/-- The call `JSON.parse(text)`: `none` when it throws a SyntaxError. -/
def jsonParse (text : Str) : Option JSValue :=
  match parseJsonValue (2 * text.length + 2) (skipJsonSpace text) with
  | some (v, r) => if (skipJsonSpace r).isEmpty then some v else none
  | none => none

mutual
/-- What `JSON.parse(JSON.stringify(v))` gives for a value inside an array or
an object: numbers that are not finite become `null`. -/
def jsonImage : JSValue → JSValue
  | .num (.fin n d) => .num (.fin n d)
  | .num _ => .null
  | .arr items => .arr (jsonImageItems items)
  | .obj fs => .obj (jsonImageFields fs)
  | .undefined => .null
  | .native _ => .null
  | v => v
/-- The items of an array: `undefined` and functions become `null`. -/
def jsonImageItems : List JSValue → List JSValue
  | [] => []
  | x :: r => jsonImage x :: jsonImageItems r
/-- The fields of an object: those holding `undefined` or a function are
left out. -/
def jsonImageFields : Bag → Bag
  | [] => []
  | (_, .undefined) :: r => jsonImageFields r
  | (_, .native _) :: r => jsonImageFields r
  | (k, v) :: r => (k, jsonImage v) :: jsonImageFields r
end

/-! ## The platform

What the program takes from its host and what the embedding does not fix: the
time zone of the script, `Date.parse` on strings that are not ISO dates, the
case mappings, the collation of `localeCompare`, and the wording of the
messages of built-in errors. -/

/-- The built-in errors the program can meet. -/
inductive NativeError where
  /-- SyntaxError of `JSON.parse(text)` -/
  | jsonSyntax (text : Str)
  /-- SyntaxError of `new RegExp(source, 'g')` -/
  | regExpSyntax (source : Str)
  /-- TypeError of a property read or method call on `null` or `undefined` -/
  | nullishRead (isNull : Bool) (property : Str)
  /-- TypeError of the call `content.replace(...)` on a value without that
  method -/
  | replaceNotAFunction
  /-- TypeError of the call `a.label.localeCompare(...)` on a value without
  that method -/
  | localeCompareNotAFunction
  /-- TypeError of `for (const varName of requiredVars)` on a value that is
  not iterable -/
  | notIterable

/-- The host of the program. -/
structure Platform where
  /-- minutes east of UTC of the script time zone, taken as a fixed offset -/
  tzOffset : Int
  /-- the time value `Date.parse` gives to a string that is not an ISO date -/
  dateParse : Str → Option Int
  /-- the method `String.prototype.toUpperCase` -/
  toUpperCase : Str → Str
  /-- the method `String.prototype.toLowerCase` -/
  toLowerCase : Str → Str
  /-- the method `String.prototype.localeCompare` -/
  localeCompare : Str → Str → Int
  /-- the message of a built-in error -/
  message : NativeError → Str

/-! ## Dates -/

/-- Milliseconds in a day. -/
def msPerDay : Int := 86400000

/-- Days since 1970-01-01 of the civil date `y-m-d` (proleptic Gregorian). -/
def daysFromCivil (y : Int) (m d : Nat) : Int :=
  let y1 : Int := if m ≤ 2 then y - 1 else y
  let era : Int := y1 / 400
  let yoe : Int := y1 - era * 400
  let mp : Int := if 2 < m then (m : Int) - 3 else (m : Int) + 9
  let doy : Int := (153 * mp + 2) / 5 + (d : Int) - 1
  let doe : Int := yoe * 365 + yoe / 4 - yoe / 100 + doy
  era * 146097 + doe - 719468

/-- The civil date (year, month, day of month) of a day number. -/
def civilFromDays (z : Int) : Int × Nat × Nat :=
  let z1 := z + 719468
  let era : Int := z1 / 146097
  let doe : Int := z1 - era * 146097
  let yoe : Int := (doe - doe / 1460 + doe / 36524 - doe / 146096) / 365
  let doy : Int := doe - (365 * yoe + yoe / 4 - yoe / 100)
  let mp : Int := (5 * doy + 2) / 153
  let d : Int := doy - (153 * mp + 2) / 5 + 1
  let m : Int := if mp < 10 then mp + 3 else mp - 9
  let y : Int := yoe + era * 400
  ((if m ≤ 2 then y + 1 else y), m.toNat, d.toNat)

/-- Number of days in a month. -/
def daysInMonth (y : Int) (m : Nat) : Nat :=
  if m = 2 then (if (y % 4 = 0 ∧ y % 100 ≠ 0) ∨ y % 400 = 0 then 29 else 28)
  else if m = 4 ∨ m = 6 ∨ m = 9 ∨ m = 11 then 30 else 31

/-- The time value of an ISO date `YYYY-MM-DD`, which `Date.parse` reads as
midnight UTC; `none` for any other text. -/
def parseIsoDate (s : Str) : Option Int :=
  match s with
  | [y1, y2, y3, y4, '-', m1, m2, '-', d1, d2] =>
    if [y1, y2, y3, y4, m1, m2, d1, d2].all isDigit then
      let y := (digitsValue 10 [y1, y2, y3, y4] 0).getD 0
      let m := (digitsValue 10 [m1, m2] 0).getD 0
      let d := (digitsValue 10 [d1, d2] 0).getD 0
      if 1 ≤ m ∧ m ≤ 12 ∧ 1 ≤ d ∧ d ≤ daysInMonth y m then
        some (daysFromCivil y m d * msPerDay)
      else none
    else none
  | _ => none

/-- The time value of `Date.parse(s)`; `none` is NaN. -/
def dateParse (P : Platform) (s : Str) : Option Int :=
  match parseIsoDate s with
  | some t => some t
  | none => P.dateParse s

/-- TimeClip of ECMAScript on a number: the integral part if it is a time
value, else NaN. -/
def timeClip : JSNum → Option Int
  | .fin n d =>
    let t : Int := if n < 0 then -((n.natAbs / d : Nat) : Int) else ((n.natAbs / d : Nat) : Int)
    if t.natAbs ≤ 8640000000000000 then some t else none
  | _ => none

/-- The time value of `new Date(v)`; `none` is an invalid date. -/
def newDate (P : Platform) (v : JSValue) : Option Int :=
  match v with
  | .str s => dateParse P s
  | .arr items => dateParse P (JSValue.arr items).toStr
  | .obj fs => dateParse P (JSValue.obj fs).toStr
  | .native n => dateParse P (JSValue.native n).toStr
  | w => timeClip w.toNumber

/-- The local day number of a time value. -/
def localDay (P : Platform) (t : Int) : Int := (t + P.tzOffset * 60000) / msPerDay

/-- The value of `getDay()`: 0 is Sunday, 6 is Saturday. -/
def getDay (P : Platform) (t : Int) : Int := (localDay P t + 4) % 7

/-- The value of `getFullYear()`. -/
def getFullYear (P : Platform) (t : Int) : Int := (civilFromDays (localDay P t)).1

/-- The value of `getMonth() + 1`. -/
def getMonth1 (P : Platform) (t : Int) : Nat := (civilFromDays (localDay P t)).2.1

/-- The value of `getDate()`. -/
def getDate (P : Platform) (t : Int) : Nat := (civilFromDays (localDay P t)).2.2

/-- The call `date.setDate(date.getDate() + n)` on a time value. -/
def addDays (t : Int) (n : Int) : Int := t + n * msPerDay

/-- The method `Date.prototype.toISOString` on a time value. -/
def toISOString (t : Int) : Str :=
  let day := t / msPerDay
  let ms := t % msPerDay
  let (y, m, d) := civilFromDays day
  let ys : Str :=
    if 0 ≤ y ∧ y ≤ 9999 then padStart0 4 (natToStr y.toNat)
    else (if y < 0 then '-' else '+') :: padStart0 6 (natToStr y.natAbs)
  ys ++ '-' :: padStart0 2 (natToStr m) ++ '-' :: padStart0 2 (natToStr d) ++
    'T' :: padStart0 2 (natToStr (ms / 3600000).toNat) ++
    ':' :: padStart0 2 (natToStr (ms / 60000 % 60).toNat) ++
    ':' :: padStart0 2 (natToStr (ms / 1000 % 60).toNat) ++
    '.' :: padStart0 3 (natToStr (ms % 1000).toNat) ++ ['Z']

/-! ## Utils.js -/

/-- The constant `HOLIDAY_LIST`: the holidays of 2024 to 2035. -/
def HOLIDAY_LIST : List String := [
  "2024-01-01", "2024-01-08", "2024-02-11", "2024-02-12", "2024-02-23",
  "2024-03-20", "2024-04-29", "2024-05-03", "2024-05-04", "2024-05-05",
  "2024-05-06", "2024-07-15", "2024-08-11", "2024-08-12", "2024-09-16",
  "2024-09-22", "2024-09-23", "2024-10-14", "2024-11-03", "2024-11-04",
  "2024-11-23", "2025-01-01", "2025-01-13", "2025-02-11", "2025-02-23",
  "2025-03-20", "2025-04-29", "2025-05-03", "2025-05-04", "2025-05-05",
  "2025-05-06", "2025-07-21", "2025-08-11", "2025-09-15", "2025-09-23",
  "2025-10-13", "2025-11-03", "2025-11-23", "2025-11-24", "2026-01-01",
  "2026-01-12", "2026-02-11", "2026-02-23", "2026-03-20", "2026-04-29",
  "2026-05-03", "2026-05-04", "2026-05-05", "2026-05-06", "2026-07-20",
  "2026-08-11", "2026-09-21", "2026-09-22", "2026-10-12", "2026-11-03",
  "2026-11-23", "2027-01-01", "2027-01-11", "2027-02-11", "2027-02-23",
  "2027-03-21", "2027-04-29", "2027-05-03", "2027-05-04", "2027-05-05",
  "2027-07-19", "2027-08-11", "2027-09-20", "2027-09-23", "2027-10-11",
  "2027-11-03", "2027-11-23", "2028-01-01", "2028-01-10", "2028-02-11",
  "2028-02-23", "2028-03-20", "2028-04-29", "2028-05-03", "2028-05-04",
  "2028-05-05", "2028-07-17", "2028-08-11", "2028-09-18", "2028-09-22",
  "2028-10-09", "2028-11-03", "2028-11-23", "2029-01-01", "2029-01-08",
  "2029-02-11", "2029-02-12", "2029-02-23", "2029-03-20", "2029-04-29",
  "2029-05-03", "2029-05-04", "2029-05-05", "2029-05-06", "2029-07-16",
  "2029-08-11", "2029-09-17", "2029-09-23", "2029-09-24", "2029-10-08",
  "2029-11-03", "2029-11-23", "2030-01-01", "2030-01-14", "2030-02-11",
  "2030-02-23", "2030-02-24", "2030-03-20", "2030-04-29", "2030-05-03",
  "2030-05-04", "2030-05-05", "2030-05-06", "2030-07-15", "2030-08-11",
  "2030-08-12", "2030-09-16", "2030-09-23", "2030-10-14", "2030-11-03",
  "2030-11-04", "2030-11-23", "2031-01-01", "2031-01-13", "2031-02-11",
  "2031-02-23", "2031-03-20", "2031-04-29", "2031-05-03", "2031-05-04",
  "2031-05-05", "2031-05-06", "2031-07-21", "2031-08-11", "2031-09-15",
  "2031-09-23", "2031-10-13", "2031-11-03", "2031-11-23", "2031-11-24",
  "2032-01-01", "2032-01-12", "2032-02-11", "2032-02-23", "2032-03-20",
  "2032-04-29", "2032-05-03", "2032-05-04", "2032-05-05", "2032-07-19",
  "2032-08-11", "2032-09-20", "2032-09-23", "2032-10-11", "2032-11-03",
  "2032-11-23", "2033-01-01", "2033-01-10", "2033-02-11", "2033-02-23",
  "2033-03-20", "2033-04-29", "2033-05-03", "2033-05-04", "2033-05-05",
  "2033-07-18", "2033-08-11", "2033-09-19", "2033-09-23", "2033-10-10",
  "2033-11-03", "2033-11-23", "2034-01-01", "2034-01-09", "2034-02-11",
  "2034-02-23", "2034-03-20", "2034-04-29", "2034-05-03", "2034-05-04",
  "2034-05-05", "2034-07-17", "2034-08-11", "2034-09-18", "2034-09-23",
  "2034-10-09", "2034-11-03", "2034-11-23", "2035-01-01", "2035-01-15",
  "2035-02-11", "2035-02-12", "2035-02-23", "2035-03-20", "2035-04-29",
  "2035-05-03", "2035-05-04", "2035-05-05", "2035-07-16", "2035-08-11",
  "2035-09-17", "2035-09-23", "2035-09-24", "2035-10-08", "2035-11-03",
  "2035-11-23"]

/-- What `toDateString` prints: day of the week, month, day of the month and
year of the local date. Two dates print the same string exactly when these
agree. -/
def toDateString (P : Platform) (t : Int) : Int × Nat × Nat × Int :=
  (getDay P t, getMonth1 P t, getDate P t, getFullYear P t)

/-- The holidays as `HOLIDAY_LIST.map(date => new Date(date))` makes them;
an entry that does not parse is an invalid date and equals no date. -/
def holidayDates (P : Platform) : List Int :=
  HOLIDAY_LIST.filterMap (fun h => dateParse P h.toList)

/-- The condition of the `while` loop of `getNextBusinessDay`. -/
def isSkipped (P : Platform) (t : Int) : Bool :=
  getDay P t == 0 || getDay P t == 6 ||
    (holidayDates P).any (fun h => toDateString P h == toDateString P t)

/-- The `while` loop of `getNextBusinessDay`; `fuel` bounds the number of
days skipped. -/
def skipDays (P : Platform) : Nat → Int → Int
  | 0, t => t
  | fuel + 1, t => if isSkipped P t then skipDays P fuel (addDays t 1) else t

/-- The function `getNextBusinessDay(startDate, addDays)`; `now` is the clock,
`startDate = none` the default argument. -/
def getNextBusinessDay (P : Platform) (now : Int) (startDate : Option Int) (addDaysArg : Int) : Int :=
  skipDays P (7 * (HOLIDAY_LIST.length + 1)) (addDays (startDate.getD now) addDaysArg)

/-- The function `formatDateForHoliday(date)`: local `YYYY-MM-DD`. -/
def formatDateForHoliday (P : Platform) (t : Int) : Str :=
  intToStr (getFullYear P t) ++ '-' :: padStart0 2 (natToStr (getMonth1 P t)) ++
    '-' :: padStart0 2 (natToStr (getDate P t))

/-- The function `isBusinessDay(date)` on a valid date. -/
def isBusinessDay (P : Platform) (t : Int) : Bool :=
  if getDay P t == 0 || getDay P t == 6 then false
  else !(HOLIDAY_LIST.map String.toList).contains (formatDateForHoliday P t)

/-- The pattern `/[^0-9]/g`. -/
def nonDigitRegex : Re := .chr (fun c => !isDigit c)

/-- The function `formatECID(ecid)`. -/
def formatECID (ecid : JSValue) : JSValue :=
  if !ecid.truthy then .str []
  else
    let cleanEcid := replaceAllStr nonDigitRegex 0 [] ecid.toStr
    if cleanEcid.length ≠ 10 then ecid
    else .str (cleanEcid.take 3 ++ '-' :: (cleanEcid.drop 3).take 3 ++ '-' :: cleanEcid.drop 6)

/-! ### CacheService -/

/-- A string held by the script properties, as `JSON.parse` sees it: not
valid JSON, or the value it decodes to. -/
inductive Stored where
  | invalid
  | json (v : JSValue)

/-- The state the program works on: the script properties behind the cache,
the values of the four sheets, and the clock (`Date.now()`). -/
structure World where
  props : List (Str × Stored)
  templatesSheet : List (List JSValue)
  variablesSheet : List (List JSValue)
  optionsSheet : List (List JSValue)
  footersSheet : List (List JSValue)
  now : Int

/-- The call `getProperty(k)`. -/
def getProperty (w : World) (k : Str) : Option Stored :=
  (w.props.find? (fun e => e.1 == k)).map (·.2)

/-- The call `setProperty(k, v)`. -/
def setProperty (w : World) (k : Str) (v : Stored) : World :=
  { w with props := if w.props.any (fun e => e.1 == k)
      then w.props.map (fun e => if e.1 == k then (k, v) else e)
      else w.props ++ [(k, v)] }

/-- The call `deleteProperty(k)`. -/
def deleteProperty (w : World) (k : Str) : World :=
  { w with props := w.props.filter (fun e => !(e.1 == k)) }

namespace CacheService

/-- The field `prefix` of the cache service. -/
def keyPrefix : Str := "cache_".toList

/-- The method `delete(key)`. -/
def delete (w : World) (key : Str) : World := deleteProperty w (keyPrefix ++ key)

/-- The test `data.expiry && data.expiry < Date.now()`. -/
def expired (w : World) (data : JSValue) : Bool :=
  (field data "expiry".toList).truthy &&
    JSNum.lt (field data "expiry".toList).toNumber (.ofInt w.now)

/-- The method `get(key)`. -/
def get (w : World) (key : Str) : JSValue × World :=
  match getProperty w (keyPrefix ++ key) with
  | none => (.null, w)
  | some .invalid => (.null, w)
  | some (.json data) =>
    if data.isNullish then (.null, w)
    else if expired w data then (.null, delete w key)
    else (field data "value".toList, w)

/-- The method `set(key, value, expiryMinutes)`. -/
def set (w : World) (key : Str) (value : JSValue) (expiryMinutes : Int) : World :=
  let data : JSValue := .obj [
    ("value".toList, value),
    ("expiry".toList,
      if expiryMinutes ≠ 0 then .num (.ofInt (w.now + expiryMinutes * 60 * 1000)) else .null),
    ("created".toList, .num (.ofInt w.now))]
  setProperty w (keyPrefix ++ key) (.json (jsonImage data))

/-- The method `has(key)`. -/
def has (w : World) (key : Str) : Bool × World :=
  match getProperty w (keyPrefix ++ key) with
  | none => (false, w)
  | some .invalid => (false, w)
  | some (.json data) =>
    if data.isNullish then (false, w)
    else if expired w data then (false, delete w key)
    else (true, w)

end CacheService

/-! ## Database.js -/

namespace DatabaseService

/-- The values `data[0]`, `data[1]`, ... below `data.length`, for an array or
a string; a value without a `length` has none. -/
def elements : JSValue → List JSValue
  | .arr items => items
  | .str s => s.map (fun c => .str [c])
  | _ => []

/-- The read `row[i]` on a value other than `null` and `undefined`. -/
def cell (row : JSValue) (i : Nat) : JSValue :=
  match row with
  | .arr items => items.getD i .undefined
  | .str s => (s.get? i).elim .undefined (fun c => .str [c])
  | .obj fs => getProp fs (natToStr i)
  | _ => .undefined

/-- The TypeError of the read `row[i]` when `row` is `null` or `undefined`. -/
def nullRow (P : Platform) (row : JSValue) (i : Nat) : Str :=
  P.message (.nullishRead (row matches .null) (natToStr i))

/-- The values of a sheet (`getValues()` on the whole sheet), for the four
names of `this.sheets`. -/
def sheetValues (w : World) (sheetName : Str) : Option (List (List JSValue)) :=
  if sheetName == "templates".toList then some w.templatesSheet
  else if sheetName == "variables".toList then some w.variablesSheet
  else if sheetName == "options".toList then some w.optionsSheet
  else if sheetName == "footers".toList then some w.footersSheet
  else none

/-- The method `getSheetData(sheetName)`. -/
def getSheetData (w : World) (sheetName : Str) : Except Str JSValue × World :=
  let cacheKey := "sheet_data_".toList ++ sheetName
  let (cached, w1) := CacheService.get w cacheKey
  if cached.truthy then (.ok cached, w1)
  else
    match sheetValues w1 sheetName with
    | none => (.error ("Sheet '".toList ++ sheetName ++ "' is not available".toList), w1)
    | some rows =>
      if rows.isEmpty then (.ok (.arr []), w1)
      else
        let data := JSValue.arr (rows.map .arr)
        (.ok data, CacheService.set w1 cacheKey data 10)

/-- The loop of `getTemplate`: the first row, after the header, whose first
cell is the id. -/
def findTemplateRow (P : Platform) (templateId : Str) : List JSValue → Except Str (Option JSValue)
  | [] => .ok none
  | row :: rest =>
    if row.isNullish then .error (nullRow P row 0)
    else if (cell row 0).strictEq (.str templateId) then .ok (some row)
    else findTemplateRow P templateId rest

/-- The template object `getTemplate` builds from a row. -/
def templateOfRow (row : JSValue) : JSValue :=
  .obj [("template_id".toList, cell row 0), ("category".toList, cell row 1),
    ("subcategory".toList, cell row 2), ("template_name".toList, cell row 3),
    ("template_content".toList, cell row 4), ("required_variables".toList, cell row 5),
    ("optional_variables".toList, cell row 6), ("is_active".toList, cell row 7),
    ("created_at".toList, cell row 8), ("updated_at".toList, cell row 9),
    ("created_by".toList, cell row 10), ("notes".toList, cell row 11)]

/-- The method `getTemplate(templateId)`. -/
def getTemplate (P : Platform) (w : World) (templateId : Str) : Except Str JSValue × World :=
  if templateId.isEmpty then (.error "Template ID parameter is required".toList, w)
  else
    let cacheKey := "template_".toList ++ templateId
    let (cached, w1) := CacheService.get w cacheKey
    if cached.truthy then (.ok cached, w1)
    else
      match getSheetData w1 "templates".toList with
      | (.error e, w2) => (.error e, w2)
      | (.ok data, w2) =>
        match findTemplateRow P templateId ((elements data).drop 1) with
        | .error e => (.error e, w2)
        | .ok none => (.ok .null, w2)
        | .ok (some row) =>
          let template := templateOfRow row
          (.ok template, CacheService.set w2 cacheKey template 60)

/-- The loop of `getActiveFooter`: the first row, after the header, with an id
and the active flag `true`. -/
def findActiveFooterRow (P : Platform) : List JSValue → Except Str (Option JSValue)
  | [] => .ok none
  | row :: rest =>
    if row.isNullish then .error (nullRow P row 0)
    else if (cell row 0).truthy && (cell row 3).strictEq (.bool true) then .ok (some row)
    else findActiveFooterRow P rest

/-- The footer object `getActiveFooter` builds from a row. -/
def footerOfRow (row : JSValue) : JSValue :=
  .obj [("footer_id".toList, cell row 0), ("footer_name".toList, cell row 1),
    ("footer_content".toList, cell row 2), ("is_active".toList, cell row 3),
    ("created_at".toList, cell row 4), ("updated_at".toList, cell row 5),
    ("notes".toList, cell row 6)]

/-- The method `getActiveFooter()`. -/
def getActiveFooter (P : Platform) (w : World) : Except Str JSValue × World :=
  let cacheKey := "active_footer".toList
  let (cached, w1) := CacheService.get w cacheKey
  if cached.truthy then (.ok cached, w1)
  else
    match getSheetData w1 "footers".toList with
    | (.error e, w2) => (.error e, w2)
    | (.ok data, w2) =>
      match findActiveFooterRow P ((elements data).drop 1) with
      | .error e => (.error e, w2)
      | .ok none => (.ok .null, w2)
      | .ok (some row) =>
        let footer := footerOfRow row
        (.ok footer, CacheService.set w2 cacheKey footer 30)

/-- The value of `x || y`. -/
def orElse (x y : JSValue) : JSValue := if x.truthy then x else y

/-- The loop of `getOptionsByVariable`: the option objects of the rows, after
the header, of the variable that have the active flag `true`. -/
def collectOptions (P : Platform) (variableName : JSValue) :
    List JSValue → Except Str (List JSValue)
  | [] => .ok []
  | row :: rest =>
    if row.isNullish then .error (nullRow P row 0)
    else
      match collectOptions P variableName rest with
      | .error e => .error e
      | .ok os =>
        if (cell row 0).strictEq variableName && (cell row 4).strictEq (.bool true) then
          .ok (.obj [("value".toList, cell row 1), ("label".toList, cell row 2),
            ("sortOrder".toList, orElse (cell row 3) (.num (.ofInt 999))),
            ("condition".toList, orElse (cell row 5) (.str []))] :: os)
        else .ok os

/-- The comparator of the sort in `getOptionsByVariable`: the sign of its
result. -/
def compareOptions (P : Platform) (a b : JSValue) : Except Str Int :=
  if (field a "sortOrder".toList).strictEq (field b "sortOrder".toList) then
    match field a "label".toList with
    | .str x => .ok (P.localeCompare x (field b "label".toList).toStr)
    | .undefined => .error (P.message (.nullishRead false "localeCompare".toList))
    | .null => .error (P.message (.nullishRead true "localeCompare".toList))
    | _ => .error (P.message .localeCompareNotAFunction)
  else
    let x := (field a "sortOrder".toList).toNumber
    let y := (field b "sortOrder".toList).toNumber
    .ok (if JSNum.lt x y then -1 else if JSNum.lt y x then 1 else 0)

/-- The loop of `CountAndMakeRun` in the sort of V8: how many of the elements
after `previous` continue the run. Each element is compared with the one
before it, as `cmp(current, previous)`. -/
def runTail (cmp : JSValue → JSValue → Except Str Int) (descending : Bool) :
    JSValue → List JSValue → Except Str Nat
  | _, [] => .ok 0
  | previous, current :: rest =>
    match cmp current previous with
    | .error e => .error e
    | .ok order =>
      if (if descending then decide (0 ≤ order) else decide (order < 0)) then .ok 0
      else
        match runTail cmp descending current rest with
        | .error e => .error e
        | .ok n => .ok (n + 1)

/-- The function `CountAndMakeRun` of V8 on an array of two or more elements
`first, second, rest...`: the run the array begins with, made ascending (a
strictly descending run is reversed), and the elements after it. The first
call is `cmp(second, first)`. -/
def countAndMakeRun (cmp : JSValue → JSValue → Except Str Int) (first second : JSValue)
    (rest : List JSValue) : Except Str (List JSValue × List JSValue) :=
  match cmp second first with
  | .error e => .error e
  | .ok order =>
    let descending := decide (order < 0)
    match runTail cmp descending second rest with
    | .error e => .error e
    | .ok n =>
      let run := first :: second :: rest.take n
      .ok (if descending then run.reverse else run, rest.drop n)

/-- The binary search of `BinaryInsertionSort` in V8: the place of `pivot` in
the sorted elements between `left` and `right`. Each call is
`cmp(pivot, sorted[mid])`; `fuel` bounds the number of halvings. -/
def searchSlot (cmp : JSValue → JSValue → Except Str Int) (pivot : JSValue)
    (sorted : List JSValue) : Nat → Nat → Nat → Except Str Nat
  | 0, left, _ => .ok left
  | fuel + 1, left, right =>
    if left < right then
      let mid := left + (right - left) / 2
      match cmp pivot (sorted.getD mid .undefined) with
      | .error e => .error e
      | .ok order =>
        if order < 0 then searchSlot cmp pivot sorted fuel left mid
        else searchSlot cmp pivot sorted fuel (mid + 1) right
    else .ok left

/-- The function `BinaryInsertionSort` of V8: the elements of the second list
are put, one after the other, into the sorted first list. -/
def binaryInsertionSort (cmp : JSValue → JSValue → Except Str Int) :
    List JSValue → List JSValue → Except Str (List JSValue)
  | sorted, [] => .ok sorted
  | sorted, pivot :: rest =>
    match searchSlot cmp pivot sorted sorted.length 0 sorted.length with
    | .error e => .error e
    | .ok i => binaryInsertionSort cmp (sorted.take i ++ pivot :: sorted.drop i) rest

/-- The method `Array.prototype.sort(cmp)` on an array without `undefined`
elements, as V8 sorts an array of fewer than 64 elements: no call of `cmp` for
fewer than two elements; else `CountAndMakeRun` on the whole array, then
`BinaryInsertionSort` of the elements after the run. The comparator is always
called with the later element of the array first. Longer arrays are sorted
the same way here; V8 merges runs of them, with the same result for a
comparator that is a consistent ordering and does not throw. -/
def sortBy (cmp : JSValue → JSValue → Except Str Int) :
    List JSValue → Except Str (List JSValue)
  | first :: second :: rest =>
    match countAndMakeRun cmp first second rest with
    | .error e => .error e
    | .ok (run, others) => binaryInsertionSort cmp run others
  | items => .ok items

/-- The method `getOptionsByVariable(variableName)`. -/
def getOptionsByVariable (P : Platform) (w : World) (variableName : JSValue) :
    Except Str JSValue × World :=
  if !variableName.truthy then (.error "Variable name parameter is required".toList, w)
  else
    let cacheKey := "options_by_variable_".toList ++ variableName.toStr
    let (cached, w1) := CacheService.get w cacheKey
    if cached.truthy then (.ok cached, w1)
    else
      match getSheetData w1 "options".toList with
      | (.error e, w2) => (.error e, w2)
      | (.ok data, w2) =>
        match collectOptions P variableName ((elements data).drop 1) with
        | .error e => (.error e, w2)
        | .ok os =>
          match sortBy (compareOptions P) os with
          | .error e => (.error e, w2)
          | .ok sorted => (.ok (.arr sorted), CacheService.set w2 cacheKey (.arr sorted) 30)

end DatabaseService

/-! ## Code.js -/

/-- The field `title` of `APP_CONFIG`, which `getConfig('title')` returns. -/
def configTitle : Str := "PolicyPlayBook - Auto Email Generator".toList

/-- The field `version` of `APP_CONFIG`, which `getConfig('version')` returns. -/
def configVersion : Str := "1.0.0".toList

/-- The trigger `onEdit(e)` for an edit that the event `e` reports in the sheet
`sheetName` at the row `editedRow`; `none` stands for an event without source
or range. For the sheets Templates, Variables, Options and Footers the trigger
calls `CacheService.getScriptCache()` before it collects the keys to delete.
The name `CacheService` is the class of Utils.js, which has no such method, so
the call throws a TypeError; the `try` around the body catches it and logs it.
No path writes to the script properties: the state is returned as it is. -/
def onEdit (w : World) (e : Option (Str × Nat)) : World :=
  match e with
  | none => w
  | some (sheetName, _) =>
    if ["Templates".toList, "Variables".toList, "Options".toList, "Footers".toList].contains
        sheetName then w
    else w

/-! ## Templates.js -/

namespace TemplateEngine

open Re

/-- The text of group `i` of a match, as the replacement function receives
it. -/
def arg (info : MatchInfo) (i : Nat) : Str := (capture info.caps i).getD []

/-- The method `isValidDate(date)`. -/
def isValidDate (P : Platform) (date : JSValue) : Bool := (newDate P date).isSome

/-- The method `formatDate(date)` on a Date object, given by its time value
(`none` for an invalid date). -/
def formatDate (P : Platform) (date : Option Int) : Str :=
  match date with
  | none => []
  | some t => natToStr (getMonth1 P t) ++ " 月 ".toList ++ natToStr (getDate P t) ++ " 日".toList

/-- The method `getTemplateWithCache(templateId)`. -/
def getTemplateWithCache (P : Platform) (w : World) (templateId : Str) :
    Except Str JSValue × World :=
  let cacheKey := "template_".toList ++ templateId
  let (cached, w1) := CacheService.get w cacheKey
  if cached.truthy then (.ok cached, w1)
  else
    match DatabaseService.getTemplate P w1 templateId with
    | (.error e, w2) => (.error e, w2)
    | (.ok template, w2) =>
      if template.truthy then (.ok template, CacheService.set w2 cacheKey template 30)
      else (.ok template, w2)

/-- The pattern of one hyphen with the flag `g`, used to strip hyphens. -/
def hyphenRegex : Re := char '-'

/-- The pattern `/^\d{10}$/`. -/
def tenDigitsRegex : Re := seqs [bol, rep (chr isDigit) 10 (some 10) true, eol]

/-- The checks of `validateVariableValues` on one entry of the bag. -/
def validateEntry (P : Platform) (key : Str) (value : JSValue) : Except Str Unit :=
  if key == "ecid".toList && value.truthy
      && !test tenDigitsRegex (replaceAllStr hyphenRegex 0 [] value.toStr) then
    .error ("Invalid ECID format: ".toList ++ value.toStr ++
      ". Must be 10 digits (e.g., 1234567890 or 123-456-7890).".toList)
  else if (includes key "date".toList || includes key "Date".toList)
      && value.truthy && !isValidDate P value then
    .error ("Invalid date format: ".toList ++ value.toStr)
  else if value.isString && decide (10000 < value.toStr.length) then
    .error ("Variable ".toList ++ key ++ " exceeds maximum length (10000 characters)".toList)
  else .ok ()

/-- The method `validateVariableValues(variables)`. -/
def validateVariableValues (P : Platform) : Bag → Except Str Unit
  | [] => .ok ()
  | (key, value) :: rest =>
    match validateEntry P key value with
    | .error e => .error e
    | .ok _ => validateVariableValues P rest

/-- The test of `validateVariables` for a missing value. -/
def isMissing (value : JSValue) : Bool :=
  value.isNullish || (!value.isBoolean && (trim value.toStr).isEmpty)

/-- The method `Array.prototype.join(sep)`. -/
def joinValues (sep : Str) (xs : List JSValue) : Str :=
  join sep (xs.map (fun x => if x.isNullish then [] else x.toStr))

/-- The body of the `try` block of `validateVariables`. -/
def validateVariablesBody (P : Platform) (template : JSValue) (vars : Bag) : Except Str Unit :=
  let text := (DatabaseService.orElse (field template "required_variables".toList)
    (.str "[]".toList)).toStr
  match jsonParse text with
  | none => .error (P.message (.jsonSyntax text))
  | some requiredVars =>
    let names : Option (List JSValue) :=
      match requiredVars with
      | .arr items => some items
      | .str s => some (s.map (fun c => .str [c]))
      | _ => none
    match names with
    | none => .error (P.message .notIterable)
    | some ns =>
      let missingVars := ns.filter (fun varName => isMissing (getProp vars varName.toStr))
      if 0 < missingVars.length then
        .error ("Required variables missing: ".toList ++ joinValues ", ".toList missingVars)
      else validateVariableValues P vars

/-- The method `validateVariables(template, variables)`. -/
def validateVariables (P : Platform) (template : JSValue) (vars : Bag) : Except Str Unit :=
  match validateVariablesBody P template vars with
  | .ok u => .ok u
  | .error message =>
    if includes message "Required variables missing".toList then .error message
    else .error ("Variable validation failed: ".toList ++ message)

/-- The read `statusMap[k]` on the object literal of `preprocessVariables`. -/
def statusMap (k : Str) : JSValue :=
  getProp [("0".toList, .str "制限付き".toList), ("1".toList, .str "不承認".toList)] k

/-- The detection loop of `convertSelectOptionsToText`: the first cells of the
rows, after the header, that are truthy and whose row has the active flag
`true`, each once, in order of first appearance. -/
def selectVariableNames (P : Platform) : List JSValue → List JSValue → Except Str (List JSValue)
  | [], acc => .ok acc.reverse
  | row :: rest, acc =>
    if row.isNullish then .error (DatabaseService.nullRow P row 0)
    else
      let variableName := DatabaseService.cell row 0
      if variableName.truthy && (DatabaseService.cell row 4).strictEq (.bool true)
          && !acc.any (fun n => n.strictEq variableName) then
        selectVariableNames P rest (variableName :: acc)
      else selectVariableNames P rest acc

/-- The call `options.find(opt => String(opt.value).toUpperCase() ===
currentValue.toUpperCase())`; `none` when the test throws on a `null` or
`undefined` option before a match. -/
def findOption (P : Platform) (currentValue : Str) : List JSValue → Option JSValue
  | [] => some .undefined
  | opt :: rest =>
    if opt.isNullish then none
    else if P.toUpperCase (field opt "value".toList).toStr == P.toUpperCase currentValue then
      some opt
    else findOption P currentValue rest

/-- The body of the loop of `convertSelectOptionsToText` for one variable. -/
def convertOne (P : Platform) (w : World) (processed : Bag) (varName : JSValue) : Bag × World :=
  let current := getProp processed varName.toStr
  if current matches .undefined then (processed, w)
  else
    match DatabaseService.getOptionsByVariable P w varName with
    | (.error _, w1) => (processed, w1)
    | (.ok (.arr (o :: os)), w1) =>
      let currentValue : Str :=
        match current with
        | .bool b => if b then "TRUE".toList else "FALSE".toList
        | v => v.toStr
      match findOption P currentValue (o :: os) with
      | none => (processed, w1)
      | some matchedOption =>
        if matchedOption.truthy then
          (setProp processed varName.toStr (field matchedOption "label".toList), w1)
        else (processed, w1)
    | (.ok _, w1) => (processed, w1)

/-- The conversion loop of `convertSelectOptionsToText`. -/
def convertAll (P : Platform) : List JSValue → World → Bag → Bag × World
  | [], w, processed => (processed, w)
  | varName :: rest, w, processed =>
    let (processed1, w1) := convertOne P w processed varName
    convertAll P rest w1 processed1

/-- The method `convertSelectOptionsToText(variables)`. -/
def convertSelectOptionsToText (P : Platform) (w : World) (vars : Bag) : Bag × World :=
  match DatabaseService.getSheetData w "options".toList with
  | (.error _, w1) => (vars, w1)
  | (.ok allOptionsData, w1) =>
    match selectVariableNames P ((DatabaseService.elements allOptionsData).drop 1) [] with
    | .error _ => (vars, w1)
    | .ok names => convertAll P names w1 vars

/-- The footer step of `preprocessVariables`. -/
def preprocessFooter (P : Platform) (w : World) (processed : Bag) : Except Str Bag × World :=
  let footer := getProp processed "footer".toList
  if footer.strictEq (.bool true) || footer.strictEq (.str "true".toList)
      || footer.strictEq (.str "TRUE".toList) then
    match DatabaseService.getActiveFooter P w with
    | (.error e, w1) => (.error e, w1)
    | (.ok activeFooter, w1) =>
      if activeFooter.truthy && (field activeFooter "footer_content".toList).truthy then
        (.ok (setProp processed "footer".toList (field activeFooter "footer_content".toList)), w1)
      else (.ok (setProp processed "footer".toList (.str [])), w1)
  else (.ok (setProp processed "footer".toList (.str [])), w)

/-- The steps of `preprocessVariables` before the footer: ECID, status, today
and the reply date. -/
def preprocessBasics (P : Platform) (w : World) (vars : Bag) : Bag :=
  let p1 : Bag :=
    if (getProp vars "ecid".toList).truthy then
      setProp vars "formattedECID".toList (formatECID (getProp vars "ecid".toList))
    else vars
  let p2 : Bag :=
    match getProp p1 "status".toList with
    | .undefined => p1
    | status =>
      let statusText := DatabaseService.orElse (statusMap status.toStr) status
      setProp (setProp p1 "status".toList statusText) "statusText".toList statusText
  let p3 : Bag := setProp p2 "today".toList (.str (formatDate P (some w.now)))
  if (getProp p3 "replyDate".toList).truthy then
    setProp p3 "formattedReplyDate".toList
      (.str (formatDate P (newDate P (getProp p3 "replyDate".toList))))
  else
    setProp p3 "formattedReplyDate".toList
      (.str (formatDate P (some (getNextBusinessDay P w.now none 1))))

/-- The method `preprocessVariables(variables)`. -/
def preprocessVariables (P : Platform) (w : World) (vars : Bag) : Except Str Bag × World :=
  match preprocessFooter P w (preprocessBasics P w vars) with
  | (.error e, w1) => (.error e, w1)
  | (.ok processed, w1) =>
    let (converted, w2) := convertSelectOptionsToText P w1 processed
    (.ok converted, w2)

/-- The pattern `/\[([^\]]+)\]\(([^)]+)\)/g`. -/
def linkRegex : Re :=
  seqs [char '[', group 1 (plus (chr (fun c => c != ']'))), char ']', char '(',
    group 2 (plus (chr (fun c => c != ')'))), char ')']

/-- The method `processLinks(content)`. -/
def processLinks (content : Str) : Str :=
  replaceAll linkRegex (fun info =>
    let validUrl := trim (arg info 2)
    if !startsWith validUrl "http://".toList && !startsWith validUrl "https://".toList then
      info.matched
    else "\x7b\x7bLINK:".toList ++ arg info 1 ++ "::".toList ++ validUrl ++ "\x7d\x7d".toList) content

/-- The source of the pattern built by `replaceBasicVariables` for a key. -/
def tokenSource (key : Str) : Str := "\x7b\x7b\\s*".toList ++ key ++ "\\s*\x7d\x7d".toList

/-- One round of the loop of `replaceBasicVariables`. -/
def replaceVariable (P : Platform) (processed : Str) (key : Str) (value : JSValue) :
    Except Str Str :=
  match compileRegExp (tokenSource key) with
  | none => .error (P.message (.regExpSyntax (tokenSource key)))
  | some (regex, m) =>
    let replacement : Str := if value.isNullish then [] else value.toStr
    .ok (replaceAllStr regex m replacement processed)

/-- The method `replaceBasicVariables(content, variables)`. -/
def replaceBasicVariables (P : Platform) (content : Str) : Bag → Except Str Str
  | [] => .ok content
  | (key, value) :: rest =>
    match replaceVariable P content key value with
    | .error e => .error e
    | .ok processed => replaceBasicVariables P processed rest

/-- The pattern
`/{{if\s+(\w+)\s*(==|!=|>|<|>=|<=)\s*"([^"]+)"}}(.*?){{endif}}/gs`. -/
def conditionalRegex : Re :=
  seqs [lit "\x7b\x7bif".toList, plus (chr isWhiteSpace), group 1 (plus (chr isWordChar)),
    star (chr isWhiteSpace),
    group 2 (alts [lit "==".toList, lit "!=".toList, lit ">".toList, lit "<".toList,
      lit ">=".toList, lit "<=".toList]),
    star (chr isWhiteSpace), char '"', group 3 (plus (chr (fun c => c != '"'))),
    lit "\"\x7d\x7d".toList, group 4 (starLazy (chr (fun _ => true))), lit "\x7b\x7bendif\x7d\x7d".toList]

/-- The pattern `/{{if\s+(\w+)}}(.*?){{endif}}/gs`. -/
def existenceRegex : Re :=
  seqs [lit "\x7b\x7bif".toList, plus (chr isWhiteSpace), group 1 (plus (chr isWordChar)),
    lit "\x7d\x7d".toList, group 2 (starLazy (chr (fun _ => true))), lit "\x7b\x7bendif\x7d\x7d".toList]

/-- The `switch` of `processConditionals`: the condition for an operator. -/
def evalCondition (operator : Str) (varValue : JSValue) (value : Str) : Bool :=
  if operator == "==".toList then varValue.looseEqStr value
  else if operator == "!=".toList then !varValue.looseEqStr value
  else if operator == ">".toList then JSNum.gt varValue.toNumber (stringToNumber value)
  else if operator == "<".toList then JSNum.lt varValue.toNumber (stringToNumber value)
  else if operator == ">=".toList then JSNum.ge varValue.toNumber (stringToNumber value)
  else if operator == "<=".toList then JSNum.le varValue.toNumber (stringToNumber value)
  else false

/-- The method `processConditionals(content, variables)`. -/
def processConditionals (content : Str) (vars : Bag) : Str :=
  let processed := replaceAll conditionalRegex (fun info =>
    if evalCondition (arg info 2) (getProp vars (arg info 1)) (arg info 3) then arg info 4
    else []) content
  replaceAll existenceRegex (fun info =>
    let varValue := getProp vars (arg info 1)
    if varValue.truthy && !(trim varValue.toStr).isEmpty then arg info 2 else []) processed

/-- The pattern `/{{for\s+(\w+)\s+in\s+(\w+)}}(.*?){{endfor}}/gs`. -/
def loopRegex : Re :=
  seqs [lit "\x7b\x7bfor".toList, plus (chr isWhiteSpace), group 1 (plus (chr isWordChar)),
    plus (chr isWhiteSpace), lit "in".toList, plus (chr isWhiteSpace),
    group 2 (plus (chr isWordChar)), lit "\x7d\x7d".toList,
    group 3 (starLazy (chr (fun _ => true))), lit "\x7b\x7bendfor\x7d\x7d".toList]

/-- The call `content.replace(new RegExp(source, 'g'), value.toString())`. -/
def replaceWithValue (P : Platform) (source : Str) (value : JSValue) (content : Str) :
    Except Str Str :=
  match compileRegExp source with
  | none => .error (P.message (.regExpSyntax source))
  | some (regex, m) =>
    match value with
    | .undefined => .error (P.message (.nullishRead false "toString".toList))
    | .null => .error (P.message (.nullishRead true "toString".toList))
    | v => .ok (replaceAllStr regex m v.toStr content)

/-- The result of `Object.entries(item)` for an array or an object. -/
def entries : JSValue → Bag
  | .arr items => (List.range items.length).zip items |>.map (fun e => (natToStr e.1, e.2))
  | .obj fs => fs
  | _ => []

/-- The property loop of `processLoops` for an item that is an object. -/
def replaceItemProps (P : Platform) (itemVar : Str) : Bag → Str → Except Str Str
  | [], itemContent => .ok itemContent
  | (key, value) :: rest, itemContent =>
    match replaceWithValue P ("\x7b\x7b\\s*".toList ++ itemVar ++ "\\.".toList ++ key ++ "\\s*\x7d\x7d".toList)
        value itemContent with
    | .error e => .error e
    | .ok c => replaceItemProps P itemVar rest c

/-- The function given to `list.map` in `processLoops`. -/
def renderItem (P : Platform) (itemVar innerContent : Str) (item : JSValue) : Except Str Str :=
  match replaceWithValue P (tokenSource itemVar) item innerContent with
  | .error e => .error e
  | .ok itemContent => replaceItemProps P itemVar (entries item) itemContent

/-- The call `list.map(render).join('')`. -/
def renderItems (P : Platform) (itemVar innerContent : Str) : List JSValue → Except Str Str
  | [] => .ok []
  | item :: rest =>
    match renderItem P itemVar innerContent item with
    | .error e => .error e
    | .ok x =>
      match renderItems P itemVar innerContent rest with
      | .error e => .error e
      | .ok t => .ok (x ++ t)

/-- The method `processLoops(content, variables)`. -/
def processLoops (P : Platform) (content : Str) (vars : Bag) : Except Str Str :=
  replaceAllM loopRegex (fun info =>
    match getProp vars (arg info 2) with
    | .arr list => renderItems P (arg info 1) (arg info 3) list
    | _ => .ok []) content

/-- The pattern `/{{name\((\w+)\)}}/g` for a function name. -/
def functionRegex (name : Str) : Re :=
  seqs [lit ("\x7b\x7b".toList ++ name ++ "(".toList), group 1 (plus (chr isWordChar)), lit ")\x7d\x7d".toList]

/-- The method `processFunctions(content, variables)`. -/
def processFunctions (P : Platform) (content : Str) (vars : Bag) : Str :=
  let p1 := replaceAll (functionRegex "formatDate".toList) (fun info =>
    let dateValue := getProp vars (arg info 1)
    if dateValue.truthy then formatDate P (newDate P dateValue) else []) content
  let p2 := replaceAll (functionRegex "formatECID".toList) (fun info =>
    let ecidValue := getProp vars (arg info 1)
    if ecidValue.truthy then (formatECID ecidValue).toStr else []) p1
  let p3 := replaceAll (functionRegex "upper".toList) (fun info =>
    let value := getProp vars (arg info 1)
    if value.truthy then P.toUpperCase value.toStr else []) p2
  replaceAll (functionRegex "lower".toList) (fun info =>
    let value := getProp vars (arg info 1)
    if value.truthy then P.toLowerCase value.toStr else []) p3

/-- The method `processSpecialVariables(content, variables)`; `now` is the
clock. -/
def processSpecialVariables (P : Platform) (now : Int) (content : Str) : Str :=
  let p1 := replaceAllStr (lit "\x7b\x7btoday\x7d\x7d".toList) 0 (formatDate P (some now)) content
  let p2 := replaceAllStr (lit "\x7b\x7bnow\x7d\x7d".toList) 0 (toISOString now) p1
  let p3 := replaceAllStr (lit "\x7b\x7btimestamp\x7d\x7d".toList) 0 (intToStr now) p2
  let p4 := replaceAllStr (lit "\x7b\x7bnextBusinessDay\x7d\x7d".toList) 0
    (formatDate P (some (getNextBusinessDay P now none 1))) p3
  let p5 := replaceAllStr (lit "\x7b\x7bversion\x7d\x7d".toList) 0 configVersion p4
  replaceAllStr (lit "\x7b\x7bappName\x7d\x7d".toList) 0 configTitle p5

/-- The method `processTemplate(content, variables)` on a string. -/
def processTemplate (P : Platform) (now : Int) (content : Str) (vars : Bag) : Except Str Str :=
  match replaceBasicVariables P (processLinks content) vars with
  | .error e => .error e
  | .ok p1 =>
    match processLoops P (processConditionals p1 vars) vars with
    | .error e => .error e
    | .ok p3 => .ok (processSpecialVariables P now (processFunctions P p3 vars))

/-- The pattern `/\n\s*\n\s*\n/g`. -/
def blankLinesRegex : Re :=
  seqs [char '\n', star (chr isWhiteSpace), char '\n', star (chr isWhiteSpace), char '\n']

/-- The method `postProcessContent(content)`. -/
def postProcessContent (content : Str) : Str :=
  trim (replaceAllStr blankLinesRegex 0 ['\n', '\n'] content)

/-- The object `generate` returns. -/
inductive GenerateResult where
  | success (content : Str) (templateId : Str) (templateName category subcategory : JSValue)
      (generatedAt : Str) (variableCount : Nat)
  | failure (error : Str) (templateId : Str) (generatedAt : Str)

/-- The body of the `try` block of `generate`. -/
def generateBody (P : Platform) (w : World) (templateId : Str) (vars : Bag) :
    Except Str GenerateResult × World :=
  match getTemplateWithCache P w templateId with
  | (.error e, w1) => (.error e, w1)
  | (.ok template, w1) =>
    if !template.truthy then (.error ("Template not found: ".toList ++ templateId), w1)
    else
      match preprocessVariables P w1 vars with
      | (.error e, w2) => (.error e, w2)
      | (.ok processedVariables, w2) =>
        match validateVariables P template processedVariables with
        | .error e => (.error e, w2)
        | .ok _ =>
          match field template "template_content".toList with
          | .str content =>
            match processTemplate P w2.now content processedVariables with
            | .error e => (.error e, w2)
            | .ok processedContent =>
              (.ok (.success (postProcessContent processedContent) templateId
                (field template "template_name".toList) (field template "category".toList)
                (field template "subcategory".toList) (toISOString w2.now)
                processedVariables.length), w2)
          | .undefined => (.error (P.message (.nullishRead false "replace".toList)), w2)
          | .null => (.error (P.message (.nullishRead true "replace".toList)), w2)
          | _ => (.error (P.message .replaceNotAFunction), w2)

/-- The method `generate(templateId, variables)`. -/
def generate (P : Platform) (w : World) (templateId : Str) (vars : Bag) :
    GenerateResult × World :=
  match generateBody P w templateId vars with
  | (.ok result, w1) => (result, w1)
  | (.error message, w1) => (.failure message templateId (toISOString w1.now), w1)

end TemplateEngine

/-! ## Notions used in the statements -/

/-- A host for the worked examples: the time zone Asia/Tokyo, case mappings
and ordering by character code as they are on ASCII text, no date format
beyond ISO dates, and messages in the wording of V8. -/
def sampleHost : Platform where
  tzOffset := 540
  dateParse := fun _ => none
  toUpperCase := fun s => s.map Char.toUpper
  toLowerCase := fun s => s.map Char.toLower
  localeCompare := fun a b => if a = b then 0 else if a < b then -1 else 1
  message := fun e =>
    match e with
    | .jsonSyntax _ => "Unexpected token in JSON".toList
    | .regExpSyntax source => "Invalid regular expression: /".toList ++ source ++ "/: Syntax error".toList
    | .nullishRead isNull property =>
      "Cannot read properties of ".toList ++ (if isNull then "null".toList else "undefined".toList) ++
        " (reading '".toList ++ property ++ "')".toList
    | .replaceNotAFunction => "content.replace is not a function".toList
    | .localeCompareNotAFunction => "a.label.localeCompare is not a function".toList
    | .notIterable => "requiredVars is not iterable".toList

/-- A state for the worked examples: nothing cached, one active template
`welcome` with the given body and stored list of required variables, no
options, no footer; the clock reads 2025-01-06T03:00:00Z. -/
def sampleWorld (body required : String) : World where
  props := []
  templatesSheet := [
    ["template_id", "category", "subcategory", "template_name", "template_content",
      "required_variables", "optional_variables", "is_active", "created_at", "updated_at",
      "created_by", "notes"].map (fun s => JSValue.str s.toList),
    [.str "welcome".toList, .str "general".toList, .str "greeting".toList,
      .str "Welcome".toList, .str body.toList, .str required.toList, .str "[]".toList,
      .bool true, .str "2025-01-01".toList, .str "2025-01-01".toList, .str "System".toList,
      .str []]]
  variablesSheet := []
  optionsSheet := []
  footersSheet := []
  now := 1736132400000

/-- The position `y` lies ahead of `x` in the same input. -/
def Reaches (x y : Pos) : Prop := ∃ s, x.rest = s ++ y.rest ∧ y.left = s.reverse ++ x.left

/-- An error message that is the message of a built-in error or starts with a
character other than `R`. -/
def Benign (P : Platform) (e : Str) : Prop :=
  (∃ ne, e = P.message ne) ∨ (∃ c t, e = c :: t ∧ c ≠ 'R')

/-- The message of the ECID failure of `validateVariableValues`. -/
def ecidFailure (value : JSValue) : Str :=
  "Invalid ECID format: ".toList ++ value.toStr ++
    ". Must be 10 digits (e.g., 1234567890 or 123-456-7890).".toList

/-- The integer that a decimal integer string denotes: digits, with an
optional minus sign in front. -/
def decimalInt : Str → Option Int
  | '-' :: ds =>
    if ds.isEmpty || !ds.all isDigit then none
    else
      match digitsValue 10 ds 0 with
      | some n => some (-(Int.ofNat n))
      | none => none
  | ds =>
    if ds.isEmpty || !ds.all isDigit then none
    else
      match digitsValue 10 ds 0 with
      | some n => some (Int.ofNat n)
      | none => none

/-- The ordering that an operator denotes on the integers. -/
def holds (op : Str) (a b : Int) : Bool :=
  if op == ">".toList then decide (b < a)
  else if op == "<".toList then decide (a < b)
  else if op == ">=".toList then decide (b ≤ a)
  else if op == "<=".toList then decide (a ≤ b)
  else false

/-- The text of a comparison block, with one space around the operator. -/
def comparisonBlock (name op lit body : Str) : Str :=
  "\x7b\x7bif ".toList ++ name ++ " ".toList ++ op ++ " \"".toList ++ lit ++ "\"\x7d\x7d".toList ++
    body ++ "\x7b\x7bendif\x7d\x7d".toList

/-- The text of an existence block. -/
def existenceBlock (name body : Str) : Str :=
  "\x7b\x7bif ".toList ++ name ++ "\x7d\x7d".toList ++ body ++ "\x7b\x7bendif\x7d\x7d".toList

/-- The four ordering operators. -/
def orderingOperators : List Str := [">".toList, "<".toList, ">=".toList, "<=".toList]

/-- The state of `sampleWorld` with the template `welcome` marked inactive:
the cell `is_active` of its row holds `false`. -/
def inactiveWorld (body required : String) : World where
  props := []
  templatesSheet := [
    ["template_id", "category", "subcategory", "template_name", "template_content",
      "required_variables", "optional_variables", "is_active", "created_at", "updated_at",
      "created_by", "notes"].map (fun s => JSValue.str s.toList),
    [.str "welcome".toList, .str "general".toList, .str "greeting".toList,
      .str "Welcome".toList, .str body.toList, .str required.toList, .str "[]".toList,
      .bool false, .str "2025-01-01".toList, .str "2025-01-01".toList, .str "System".toList,
      .str []]]
  variablesSheet := []
  optionsSheet := []
  footersSheet := []
  now := 1736132400000

mutual
/-- A serialisable value: one that JSON can write down, that is `null`, a
boolean, a finite number, a string, or an array or object of such values. -/
def isJsonValue : JSValue → Bool
  | .null => true
  | .bool _ => true
  | .num (.fin _ _) => true
  | .num _ => false
  | .str _ => true
  | .arr items => areJsonValues items
  | .obj fs => areJsonFields fs
  | .undefined => false
  | .native _ => false
/-- Serialisable items of an array. -/
def areJsonValues : List JSValue → Bool
  | [] => true
  | x :: r => isJsonValue x && areJsonValues r
/-- Serialisable fields of an object. -/
def areJsonFields : Bag → Bool
  | [] => true
  | (_, v) :: r => isJsonValue v && areJsonFields r
end

/-- A stored string to stand for any: one that is not valid JSON. -/
instance : Inhabited Stored := ⟨Stored.invalid⟩

/-- The state when the clock reads `t`. -/
def atTime (w : World) (t : Int) : World := { w with now := t }

/-- A host like `sampleHost` whose `Date.parse` is lenient: it reads every
text that is not an ISO date as some date (the time value 0), among them the
text that `formatDate` prints. -/
def lenientHost : Platform := { sampleHost with dateParse := fun _ => some 0 }

/-- A host like `sampleHost` in a script time zone west of UTC: five hours
behind, as America/New_York is in winter. -/
def westHost : Platform := { sampleHost with tzOffset := -300 }

/-- The day numbers (days since 1970-01-01) of the calendar dates listed in
`HOLIDAY_LIST`. -/
def holidayDays : List Int :=
  HOLIDAY_LIST.filterMap (fun h => (parseIsoDate h.toList).map (fun t => t / msPerDay))

/-- The day numbers of `holidayDays` written out. -/
def holidayDayNumbers : List Int :=
  [19723, 19730, 19764, 19765, 19776, 19802, 19842, 19846, 19847, 19848, 19849, 19919, 19946,
    19947, 19982, 19988, 19989, 20010, 20030, 20031, 20050, 20089, 20101, 20130, 20142, 20167,
    20207, 20211, 20212, 20213, 20214, 20290, 20311, 20346, 20354, 20374, 20395, 20415, 20416,
    20454, 20465, 20495, 20507, 20532, 20572, 20576, 20577, 20578, 20579, 20654, 20676, 20717,
    20718, 20738, 20760, 20780, 20819, 20829, 20860, 20872, 20898, 20937, 20941, 20942, 20943,
    21018, 21041, 21081, 21084, 21102, 21125, 21145, 21184, 21193, 21225, 21237, 21263, 21303,
    21307, 21308, 21309, 21382, 21407, 21445, 21449, 21466, 21491, 21511, 21550, 21557, 21591,
    21592, 21603, 21628, 21668, 21672, 21673, 21674, 21675, 21746, 21772, 21809, 21815, 21816,
    21830, 21856, 21876, 21915, 21928, 21956, 21968, 21969, 21993, 22033, 22037, 22038, 22039,
    22040, 22110, 22137, 22138, 22173, 22180, 22201, 22221, 22222, 22241, 22280, 22292, 22321,
    22333, 22358, 22398, 22402, 22403, 22404, 22405, 22481, 22502, 22537, 22545, 22565, 22586,
    22606, 22607, 22645, 22656, 22686, 22698, 22724, 22764, 22768, 22769, 22770, 22845, 22868,
    22908, 22911, 22929, 22952, 22972, 23011, 23020, 23052, 23064, 23089, 23129, 23133, 23134,
    23135, 23209, 23233, 23272, 23276, 23293, 23317, 23337, 23376, 23384, 23417, 23429, 23454,
    23494, 23498, 23499, 23500, 23573, 23598, 23636, 23641, 23657, 23682, 23702, 23741, 23755,
    23782, 23783, 23794, 23819, 23859, 23863, 23864, 23865, 23937, 23963, 24000, 24006, 24007,
    24021, 24047, 24067]

/-- Is the calendar date with this day number a Saturday or a Sunday? -/
def isWeekendDay (z : Int) : Bool := (z + 4) % 7 == 0 || (z + 4) % 7 == 6

/-- A business day: a calendar date that is not a Saturday, not a Sunday and
not a date of `HOLIDAY_LIST`. -/
def businessDay (z : Int) : Bool := !isWeekendDay z && !holidayDays.contains z

/-- The text of a markdown link. -/
def linkText (text url : Str) : Str := "[".toList ++ text ++ "](".toList ++ url ++ ")".toList

/-- The internal marker of a link. -/
def linkMarker (text url : Str) : Str :=
  "\x7b\x7bLINK:".toList ++ text ++ "::".toList ++ url ++ "\x7d\x7d".toList

/-- The state of `sampleWorld` with the given script properties. -/
def storeWith (entries : List (Str × Stored)) : World :=
  { sampleWorld "Hello" "[]" with props := entries }

/-- Does the store hold under the key an entry that has expired: a stored
string that decodes to a JSON value other than `null` whose `expiry` is truthy
(not absent, not `null`, not 0, not the empty string) and, converted to a
number, lies before the clock. -/
def staleEntry (w : World) (key : Str) : Bool :=
  match getProperty w (CacheService.keyPrefix ++ key) with
  | some (.json data) =>
    !data.isNullish && (field data "expiry".toList).truthy &&
      JSNum.lt (field data "expiry".toList).toNumber (.ofInt w.now)
  | _ => false

/-- The pattern `new RegExp` builds from the source `{{\s*key\s*}}` when the key is a name:
two opening braces, white space, the characters of the key, white space, two
closing braces. -/
def tokenRe (key : Str) : Re :=
  Re.seqs ([Re.char '{', Re.char '{', Re.star (.chr isWhiteSpace)] ++ key.map Re.char ++
    [Re.star (.chr isWhiteSpace), Re.char '}', Re.char '}'])

/-- The token `{{name}}`. -/
def token (name : Str) : Str := "\x7b\x7b".toList ++ name ++ "\x7d\x7d".toList

/-- The keys of a bag. -/
def bagKeys (vars : Bag) : List Str := vars.map Prod.fst

/-- The text `formatDateForHoliday` makes of a civil date. -/
def formatCivil (c : Int × Nat × Nat) : Str :=
  intToStr c.1 ++ '-' :: padStart0 2 (natToStr c.2.1) ++ '-' :: padStart0 2 (natToStr c.2.2)

/-- The matches among the pieces of a scan. -/
def hits : List Piece → List MatchInfo
  | [] => []
  | .text _ :: ps => hits ps
  | .hit info :: ps => info :: hits ps

/-- The matches the loop `while ((match = regex.exec(content)) !== null)` goes
through for a global pattern that matches no empty text: each match starts
where the one before ended. -/
def execAll (r : Re) (content : Str) : List MatchInfo :=
  hits (pieces r (content.length + 1) [] content)

namespace TemplateEngine

namespace AnalyzeTemplate

open Re

/-- The pattern `/{{([^}]+)}}/g` of `analyzeTemplate`. -/
def varRegex : Re :=
  seqs [lit "\x7b\x7b".toList, group 1 (plus (chr (fun c => c != '}'))), lit "\x7d\x7d".toList]

/-- The pattern `/{{if\s+([^}]+)}}/g` of `analyzeTemplate`. -/
def conditionalRegex : Re :=
  seqs [lit "\x7b\x7bif".toList, plus (chr isWhiteSpace), group 1 (plus (chr (fun c => c != '}'))),
    lit "\x7d\x7d".toList]

/-- The pattern `/{{for\s+([^}]+)}}/g` of `analyzeTemplate`. -/
def loopRegex : Re :=
  seqs [lit "\x7b\x7bfor".toList, plus (chr isWhiteSpace), group 1 (plus (chr (fun c => c != '}'))),
    lit "\x7d\x7d".toList]

/-- The pattern `/{{(\w+)\([^}]*\)}/g` of `analyzeTemplate`. -/
def functionRegex : Re :=
  seqs [lit "\x7b\x7b".toList, group 1 (plus (chr isWordChar)), char '(',
    star (chr (fun c => c != '}')), char ')', char '}']

/-- The loop `if (!list.includes(x)) list.push(x)` over the values `xs`. -/
def pushDistinct : List Str → List Str → List Str
  | acc, [] => acc
  | acc, x :: xs => if acc.contains x then pushDistinct acc xs else pushDistinct (acc ++ [x]) xs

end AnalyzeTemplate

/-- The object `analyzeTemplate` returns. -/
structure Analysis where
  /-- the field `variables` -/
  vars : List Str
  /-- the field `conditionals` -/
  conditionals : List Str
  /-- the field `loops` -/
  loops : List Str
  /-- the field `functions` -/
  functions : List Str
  /-- the field `complexity` -/
  complexity : Nat

/-- The method `analyzeTemplate(content)`. -/
def analyzeTemplate (content : Str) : Analysis :=
  let vars := AnalyzeTemplate.pushDistinct []
    ((execAll AnalyzeTemplate.varRegex content).map (fun info => trim (arg info 1)))
  let conditionals :=
    (execAll AnalyzeTemplate.conditionalRegex content).map (fun info => trim (arg info 1))
  let loops := (execAll AnalyzeTemplate.loopRegex content).map (fun info => trim (arg info 1))
  let functions := AnalyzeTemplate.pushDistinct []
    ((execAll AnalyzeTemplate.functionRegex content).map (fun info => arg info 1))
  { vars := vars, conditionals := conditionals, loops := loops, functions := functions,
    complexity := vars.length + conditionals.length * 2 + loops.length * 3 + functions.length }

end TemplateEngine


/-- The pattern matches only at a text that starts with the character `c`. -/
def OpensWith (r : Re) (c : Char) : Prop :=
  ∀ (l s : Str), (∀ t, s ≠ c :: t) → matchAt r ⟨l, s⟩ = none

/-- The template of the end-to-end example:
`Hello {{name}}, {{if vip}}welcome back{{endif}}`. -/
def helloTemplate : Str :=
  "Hello \x7b\x7bname\x7d\x7d, \x7b\x7bif vip\x7d\x7dwelcome back\x7b\x7bendif\x7d\x7d".toList

/-- The call `postProcessContent(processTemplate(content, variables))`; an
exception of `processTemplate` goes to the caller. -/
def renderTemplate (P : Platform) (now : Int) (content : Str) (vars : Bag) : Except Str Str :=
  match TemplateEngine.processTemplate P now content vars with
  | .error e => .error e
  | .ok s => .ok (TemplateEngine.postProcessContent s)


/-- The token of a call of the function `fn` on `arg`: `{{fn(arg)}}`. -/
def callToken (fn arg : Str) : Str :=
  "\x7b\x7b".toList ++ fn ++ "(".toList ++ arg ++ ")\x7d\x7d".toList

/-- The order in which a greedy `\s*` hands on to what follows it: after the
whole run `R` first, then after one character less, down to the start of the
run; the first success counts. -/
def back (k : Cont) : Str → Str → Str → Caps → Option (Pos × Caps)
  | l, [], r, c => k ⟨l, r⟩ c
  | l, a :: R, r, c => (back k (a :: l) R r c).orElse (fun _ => k ⟨l, a :: (R ++ r)⟩ c)

/-- Cut a text at its last line feed: the text before it and the text after
it. -/
def cutLast : Str → Option (Str × Str)
  | [] => none
  | a :: R =>
    match cutLast R with
    | some (pre, post) => some (a :: pre, post)
    | none => if a = '\n' then some ([], R) else none

/-- The number of line feeds in the white space a text starts with. -/
def leadingBreaks (s : Str) : Nat := (s.takeWhile isWhiteSpace).count '\n'

/-- No run of white space in the text holds more than two line feeds. -/
def Calm (x : Str) : Prop := ∀ s, s <:+ x → leadingBreaks s ≤ 2

/-- Is the row of the Footers sheet an active footer: it has an id and its
active flag is `true`. -/
def activeFooterRow (row : List JSValue) : Bool :=
  (row.getD 0 .undefined).truthy && (row.getD 3 .undefined).strictEq (.bool true)

/-- The first active footer in storage order, the header row left out. -/
def firstActiveFooter (sheet : List (List JSValue)) : Option (List JSValue) :=
  (sheet.drop 1).find? activeFooterRow

/-- The content of the first active footer; the empty string when no footer
is active or the content is falsy. -/
def footerContent (sheet : List (List JSValue)) : JSValue :=
  match firstActiveFooter sheet with
  | some row => if (row.getD 2 .undefined).truthy then row.getD 2 .undefined else .str []
  | none => .str []

/-- The test of `preprocessVariables` on the footer of the bag: `true`,
`"true"` or `"TRUE"`. -/
def footerWanted (v : JSValue) : Bool :=
  v.strictEq (.bool true) || v.strictEq (.str "true".toList) || v.strictEq (.str "TRUE".toList)

/-- A state with a cold cache: the Footers sheet has the header row, a footer
that is not active and two active footers; the Options sheet lists options of
the variable `tone` under its header row. -/
def footerWorld : World where
  props := []
  templatesSheet := []
  variablesSheet := []
  optionsSheet := [
    [.str "variable_name".toList, .str "option_value".toList, .str "option_label".toList,
      .str "sort_order".toList, .str "is_active".toList, .str "condition".toList],
    [.str "tone".toList, .str "f".toList, .str "Formal".toList, .num (.ofInt 1), .bool true,
      .str []]]
  footersSheet := [
    [.str "footer_id".toList, .str "footer_name".toList, .str "footer_content".toList,
      .str "is_active".toList],
    [.str "F1".toList, .str "Old".toList, .str "Bye".toList, .bool false],
    [.str "F2".toList, .str "Standard".toList, .str "Regards".toList, .bool true],
    [.str "F3".toList, .str "Other".toList, .str "Cheers".toList, .bool true]]
  now := 1700000000000

/-- The state a minute after `preprocessVariables` ran in `footerWorld` with
the footer `true` and the content of the footer F2, in row 3 of the Footers
sheet, was then changed to `Best wishes`. -/
def footerEdited : World :=
  { (TemplateEngine.preprocessVariables sampleHost footerWorld
      [("footer".toList, .bool true)]).2 with
    footersSheet := [
      [.str "footer_id".toList, .str "footer_name".toList, .str "footer_content".toList,
        .str "is_active".toList],
      [.str "F1".toList, .str "Old".toList, .str "Bye".toList, .bool false],
      [.str "F2".toList, .str "Standard".toList, .str "Best wishes".toList, .bool true],
      [.str "F3".toList, .str "Other".toList, .str "Cheers".toList, .bool true]]
    now := footerWorld.now + 60000 }

/-- The option object that `getOptionsByVariable` builds from a row of the
Options sheet: a sort order that is empty or zero becomes 999. -/
def optionOfRow (row : List JSValue) : JSValue :=
  .obj [("value".toList, row.getD 1 .undefined), ("label".toList, row.getD 2 .undefined),
    ("sortOrder".toList, DatabaseService.orElse (row.getD 3 .undefined) (.num (.ofInt 999))),
    ("condition".toList, DatabaseService.orElse (row.getD 5 .undefined) (.str []))]

/-- Is the row an active option of the variable: its first cell is the name
and its active flag is `true`. -/
def activeOptionRow (name : JSValue) (row : List JSValue) : Bool :=
  (row.getD 0 .undefined).strictEq name && (row.getD 4 .undefined).strictEq (.bool true)

/-- The active options of a variable in storage order, the header row left
out. -/
def activeOptions (sheet : List (List JSValue)) (name : JSValue) : List JSValue :=
  ((sheet.drop 1).filter (activeOptionRow name)).map optionOfRow

/-- The string form of a value of the bag in `convertSelectOptionsToText`:
booleans as `TRUE` and `FALSE`, every other value as `String` prints it. -/
def selectText (current : JSValue) : Str :=
  match current with
  | .bool b => if b then "TRUE".toList else "FALSE".toList
  | v => v.toStr

/-- Does the option match the text, ignoring case. -/
def optionMatches (P : Platform) (text : Str) (o : JSValue) : Bool :=
  P.toUpperCase (field o "value".toList).toStr == P.toUpperCase text

/-- The value that the conversion of select options gives the variable `name`
whose value in the bag is `current`: nothing for a variable that is absent;
else the label of the first option, among the active options of the variable
as `getOptionsByVariable` sorts them, that matches the string form of
`current`; `current` itself when no option matches or the sort throws. -/
def convertedValue (P : Platform) (sheet : List (List JSValue)) (name : Str)
    (current : JSValue) : JSValue :=
  match current with
  | .undefined => .undefined
  | _ =>
    match DatabaseService.sortBy (DatabaseService.compareOptions P)
        (activeOptions sheet (.str name)) with
    | .error _ => current
    | .ok sorted =>
      match sorted.find? (optionMatches P (selectText current)) with
      | some o => field o "label".toList
      | none => current

/-- A state with a cold cache whose Options sheet lists, under its header row,
four options of the variable `tone`: `a` with the label `Zero` and the sort
order 0, `A` with the label `Five` and the sort order 5, `b` with the label
`Bee` and the sort order 1, and `c` with the label `Sea`, which is not
active. -/
def optionsWorld : World where
  props := []
  templatesSheet := []
  variablesSheet := []
  optionsSheet := [
    [.str "variable_name".toList, .str "option_value".toList, .str "option_label".toList,
      .str "sort_order".toList, .str "is_active".toList, .str "condition".toList],
    [.str "tone".toList, .str "a".toList, .str "Zero".toList, .num (.ofInt 0), .bool true,
      .str []],
    [.str "tone".toList, .str "A".toList, .str "Five".toList, .num (.ofInt 5), .bool true,
      .str []],
    [.str "tone".toList, .str "b".toList, .str "Bee".toList, .num (.ofInt 1), .bool true,
      .str []],
    [.str "tone".toList, .str "c".toList, .str "Sea".toList, .num (.ofInt 2), .bool false,
      .str []]]
  footersSheet := []
  now := 1700000000000

/-- The order "(sortOrder, label)" on rows of the Options sheet, read from the
cells as they are stored: the sort order as a number first, the label
second. -/
def rowBefore (P : Platform) (a b : List JSValue) : Bool :=
  JSNum.lt (a.getD 3 .undefined).toNumber (b.getD 3 .undefined).toNumber ||
    (!JSNum.lt (b.getD 3 .undefined).toNumber (a.getD 3 .undefined).toNumber &&
      decide (P.localeCompare (a.getD 2 .undefined).toStr (b.getD 2 .undefined).toStr ≤ 0))

/-- The first row of a list in the order `rowBefore`, an earlier row winning a
tie. -/
def firstRow (P : Platform) : List (List JSValue) → Option (List JSValue)
  | [] => none
  | r :: rs =>
    match firstRow P rs with
    | none => some r
    | some m => if rowBefore P r m then some r else some m

/-- The value a select variable gets when every stored sort order counts as
it is written: the label of the first row in the order `rowBefore` among the
active rows of the variable whose value matches the string form of `current`,
and `current` when no row matches. -/
def labelByStoredOrder (P : Platform) (sheet : List (List JSValue)) (name : Str)
    (current : JSValue) : JSValue :=
  match firstRow P (((sheet.drop 1).filter (activeOptionRow (.str name))).filter
      (fun r => P.toUpperCase (r.getD 1 .undefined).toStr == P.toUpperCase (selectText current)))
    with
  | some r => r.getD 2 .undefined
  | none => current

/-- The keys that `preprocessVariables` writes whatever the Options data are:
the formatted ECID, the status and its text, today, the formatted reply date
and the footer. -/
def preprocessedKeys : List Str :=
  ["formattedECID".toList, "status".toList, "statusText".toList, "today".toList,
    "formattedReplyDate".toList, "footer".toList]

/-- The rows of the Options data as the program reads them in a state: the
copy of the sheet in the cache when the cache holds one that has not expired,
else the values of the sheet. -/
def optionsData (w : World) : List JSValue :=
  match (DatabaseService.getSheetData w "options".toList).1 with
  | .ok data => DatabaseService.elements data
  | .error _ => []

/-- The names of the select variables of a state: the first cells, as strings,
of the rows of the Options data after the header that have a name and the
active flag `true`. These are the variables whose values
`convertSelectOptionsToText` may replace by a label. -/
def selectNames (w : World) : List Str :=
  (((optionsData w).drop 1).filter (fun row =>
    (DatabaseService.cell row 0).truthy &&
      (DatabaseService.cell row 4).strictEq (.bool true))).map
    (fun row => (DatabaseService.cell row 0).toStr)

/-- Two states read the same Options data: they hold the same entry in the
cache under the key of the Options sheet, and have the same clock and the same
Options sheet. -/
def SameOptions (w w2 : World) : Prop :=
  getProperty w2 (CacheService.keyPrefix ++ "sheet_data_options".toList) =
      getProperty w (CacheService.keyPrefix ++ "sheet_data_options".toList) ∧
    w2.now = w.now ∧ w2.optionsSheet = w.optionsSheet

end PlayBook

namespace PlayBook

/-! # Theorems -/

section

/-! ## The matcher -/

theorem clearCaps_nil (c : Caps) : clearCaps [] c = c := by
  simp [clearCaps]

theorem matchRe_seq (a b : Re) (x : Pos) (c : Caps) (k : Cont) :
    matchRe (.seq a b) x c k = matchRe a x c (fun y cy => matchRe b y cy k) := by
  simp [matchRe]

theorem matchRe_alt (a b : Re) (x : Pos) (c : Caps) (k : Cont) :
    matchRe (.alt a b) x c k = (matchRe a x c k).orElse (fun _ => matchRe b x c k) := by
  simp [matchRe]

theorem matchRe_rep (a : Re) (lo : Nat) (hi : Option Nat) (greedy : Bool) (x : Pos) (c : Caps)
    (k : Cont) :
    matchRe (.rep a lo hi greedy) x c k =
      repLoop (matchRe a) (clearCaps a.groups) greedy (lo + x.rest.length + 1) lo hi x c k := by
  simp [matchRe]

theorem matchRe_bol (x : Pos) (c : Caps) (k : Cont) :
    matchRe .bol x c k = if x.left.isEmpty = true then k x c else none := by
  simp [matchRe]

theorem matchRe_eol (x : Pos) (c : Caps) (k : Cont) :
    matchRe .eol x c k = if x.rest.isEmpty = true then k x c else none := by
  simp [matchRe]

theorem matchRe_chr_cons (p : Char → Bool) (l : Str) (ch : Char) (r : Str) (c : Caps) (k : Cont) :
    matchRe (.chr p) ⟨l, ch :: r⟩ c k = if p ch then k ⟨ch :: l, r⟩ c else none := by
  simp [matchRe]

theorem matchRe_chr_nil (p : Char → Bool) (l : Str) (c : Caps) (k : Cont) :
    matchRe (.chr p) ⟨l, []⟩ c k = none := by
  simp [matchRe]

theorem matchRe_char_cons (a : Char) (l : Str) (ch : Char) (r : Str) (c : Caps) (k : Cont) :
    matchRe (Re.char a) ⟨l, ch :: r⟩ c k = if ch = a then k ⟨ch :: l, r⟩ c else none := by
  simp [Re.char, matchRe]

theorem matchRe_group (i : Nat) (a : Re) (x : Pos) (c : Caps) (k : Cont) :
    matchRe (.group i a) x c k =
      matchRe a x c (fun y cy => k y ((i, x.rest.take (x.rest.length - y.rest.length)) :: cy)) := by
  simp [matchRe]

theorem matchRe_lit (s : Str) (l r : Str) (c : Caps) (k : Cont) :
    matchRe (Re.lit s) ⟨l, s ++ r⟩ c k = k ⟨s.reverse ++ l, r⟩ c := by
  induction s generalizing l with
  | nil => simp [Re.lit, matchRe]
  | cons a t ih =>
    cases t with
    | nil => simp [Re.lit, Re.char, matchRe]
    | cons b u =>
      have h := ih (a :: l)
      rw [show Re.lit (a :: b :: u) = .seq (Re.char a) (Re.lit (b :: u)) from rfl, matchRe_seq]
      rw [show (a :: b :: u) ++ r = a :: ((b :: u) ++ r) from rfl, matchRe_char_cons, if_pos rfl, h]
      simp

theorem matchRe_lit_some (s : Str) (x : Pos) (c : Caps) (k : Cont) (res : Pos × Caps)
    (h : matchRe (Re.lit s) x c k = some res) :
    ∃ r, x.rest = s ++ r ∧ k ⟨s.reverse ++ x.left, r⟩ c = some res := by
  obtain ⟨l, rest⟩ := x
  induction s generalizing l rest with
  | nil => exact ⟨rest, rfl, by simpa [Re.lit, matchRe] using h⟩
  | cons a t ih =>
    cases t with
    | nil =>
      cases rest with
      | nil => simp [Re.lit, Re.char, matchRe] at h
      | cons ch r =>
        simp only [Re.lit, matchRe_char_cons] at h
        split at h
        · rename_i hc
          subst hc
          exact ⟨r, rfl, by simpa using h⟩
        · simp at h
    | cons b u =>
      cases rest with
      | nil => simp [Re.lit, Re.char, matchRe] at h
      | cons ch r =>
        rw [show Re.lit (a :: b :: u) = .seq (Re.char a) (Re.lit (b :: u)) from rfl, matchRe_seq,
          matchRe_char_cons] at h
        split at h
        · rename_i hc
          subst hc
          obtain ⟨r2, h1, h2⟩ := ih (ch :: l) r h
          simp only at h1 h2
          refine ⟨r2, by simp [h1], ?_⟩
          simpa using h2
        · simp at h

theorem matchRe_lit_none (s : Str) (x : Pos) (c : Caps) (k : Cont)
    (h : ¬ s <+: x.rest) : matchRe (Re.lit s) x c k = none := by
  cases hm : matchRe (Re.lit s) x c k with
  | none => rfl
  | some res =>
    obtain ⟨r, h1, _⟩ := matchRe_lit_some s x c k res hm
    exact absurd ⟨r, h1.symm⟩ h

end

section

/-- A greedy quantifier over a character class takes the whole run of
characters of the class, when what follows cannot start inside the run. -/
theorem repLoop_class_greedy (p : Char → Bool) (k : Cont)
    (hk : ∀ (y : Pos) (cy : Caps) (ch : Char) (t : Str), y.rest = ch :: t → p ch = true →
      k y cy = none) :
    ∀ (run : Str) (fuel lo : Nat) (l r : Str) (c : Caps),
      (∀ ch ∈ run, p ch = true) → (∀ ch t, r = ch :: t → p ch = false) →
      lo ≤ run.length → run.length < fuel →
      repLoop (matchRe (.chr p)) (clearCaps []) true fuel lo none ⟨l, run ++ r⟩ c k =
        k ⟨run.reverse ++ l, r⟩ c := by
  intro run
  induction run with
  | nil =>
    intro fuel lo l r c _ hr hlo hfuel
    obtain ⟨f, rfl⟩ : ∃ f, fuel = f + 1 := ⟨fuel - 1, by simp at hfuel; omega⟩
    have hlo0 : lo = 0 := by simpa using hlo
    subst hlo0
    have hm : ∀ d : Cont, matchRe (.chr p) ⟨l, r⟩ (clearCaps [] c) d = none := by
      intro d
      cases r with
      | nil => exact matchRe_chr_nil _ _ _ _
      | cons ch t => rw [matchRe_chr_cons, hr ch t rfl]; simp
    simp [repLoop, hm]
  | cons a run ih =>
    intro fuel lo l r c hrun hr hlo hfuel
    obtain ⟨f, rfl⟩ : ∃ f, fuel = f + 1 := ⟨fuel - 1, by simp at hfuel; omega⟩
    have hpa : p a = true := hrun a (by simp)
    have hrun2 : ∀ ch ∈ run, p ch = true := fun ch h => hrun ch (by simp [h])
    have hf : run.length < f := by simp at hfuel; omega
    have hstep : ∀ lo2, lo2 ≤ run.length →
        repLoop (matchRe (.chr p)) (clearCaps []) true f lo2 none ⟨a :: l, run ++ r⟩ c k =
          k ⟨(a :: run).reverse ++ l, r⟩ c := by
      intro lo2 h2
      rw [ih f lo2 (a :: l) r c hrun2 hr h2 hf]
      simp
    by_cases hlo0 : lo = 0
    · subst hlo0
      simp only [repLoop, clearCaps_nil, List.cons_append, matchRe_chr_cons, hpa, if_true]
      simp only [List.length_cons, List.length_append]
      have hne : ¬ (True ∧ run.length + r.length = run.length + r.length + 1) := by omega
      simp only [hne, if_false, Nat.zero_sub, Option.map_none', reduceCtorEq, ne_eq,
        not_true_eq_false]
      rw [hstep 0 (Nat.zero_le _)]
      cases hend : k ⟨(a :: run).reverse ++ l, r⟩ c with
      | some v => simp
      | none =>
        simp only [Option.orElse]
        exact hk ⟨l, a :: (run ++ r)⟩ c a (run ++ r) rfl hpa
    · simp only [repLoop, clearCaps_nil, List.cons_append, matchRe_chr_cons, hpa, if_true]
      simp only [hlo0, false_and, if_false, Option.map_none', reduceCtorEq, ne_eq,
        not_false_eq_true, if_true]
      exact hstep (lo - 1) (by simp at hlo; omega)

/-- The matcher form of `repLoop_class_greedy`. -/
theorem matchRe_class_greedy (p : Char → Bool) (k : Cont) (lo : Nat) (run l r : Str) (c : Caps)
    (hk : ∀ (y : Pos) (cy : Caps) (ch : Char) (t : Str), y.rest = ch :: t → p ch = true →
      k y cy = none)
    (hrun : ∀ ch ∈ run, p ch = true) (hr : ∀ ch t, r = ch :: t → p ch = false)
    (hlo : lo ≤ run.length) :
    matchRe (.rep (.chr p) lo none true) ⟨l, run ++ r⟩ c k = k ⟨run.reverse ++ l, r⟩ c := by
  rw [matchRe_rep]
  exact repLoop_class_greedy p k hk run _ lo l r c hrun hr hlo (by simp; omega)

end

section

/-- A quantifier with equal bounds over a character class takes exactly that
many characters of the class. -/
theorem repLoop_class_exact (p : Char → Bool) (k : Cont) :
    ∀ (n fuel : Nat) (l s : Str) (c : Caps), n < fuel →
      repLoop (matchRe (.chr p)) (clearCaps []) true fuel n (some n) ⟨l, s⟩ c k =
        if n ≤ s.length ∧ (s.take n).all p = true then k ⟨(s.take n).reverse ++ l, s.drop n⟩ c
        else none := by
  intro n
  induction n with
  | zero =>
    intro fuel l s c hf
    obtain ⟨f, rfl⟩ : ∃ f, fuel = f + 1 := ⟨fuel - 1, by omega⟩
    simp [repLoop]
  | succ n ih =>
    intro fuel l s c hf
    obtain ⟨f, rfl⟩ : ∃ f, fuel = f + 1 := ⟨fuel - 1, by omega⟩
    cases s with
    | nil => simp [repLoop, matchRe_chr_nil]
    | cons ch t =>
      simp only [repLoop, clearCaps_nil, matchRe_chr_cons]
      by_cases hp : p ch = true
      · simp only [hp, if_true]
        have h := ih f (ch :: l) t c (by omega)
        simp only [Nat.add_sub_cancel, Option.map_some', Nat.add_one_ne_zero, false_and,
          if_false, ne_eq, not_false_eq_true, if_true, Option.some.injEq] at h ⊢
        rw [h]
        simp [hp]
      · simp [hp]

/-- The matcher form of `repLoop_class_exact`. -/
theorem matchRe_class_exact (p : Char → Bool) (k : Cont) (n : Nat) (l s : Str) (c : Caps) :
    matchRe (.rep (.chr p) n (some n) true) ⟨l, s⟩ c k =
      if n ≤ s.length ∧ (s.take n).all p = true then k ⟨(s.take n).reverse ++ l, s.drop n⟩ c
      else none := by
  rw [matchRe_rep]
  exact repLoop_class_exact p k n _ l s c (by omega)

/-- A lazy `.*?` with the flag `s` stops at the first place where what follows
matches. -/
theorem repLoop_any_lazy (k : Cont) :
    ∀ (B : Str) (fuel : Nat) (l tail : Str) (c : Caps), B.length < fuel →
      (∀ B1 b B2, B = B1 ++ b :: B2 → k ⟨B1.reverse ++ l, b :: B2 ++ tail⟩ c = none) →
      (k ⟨B.reverse ++ l, tail⟩ c).isSome = true →
      repLoop (matchRe (.chr (fun _ => true))) (clearCaps []) false fuel 0 none ⟨l, B ++ tail⟩ c k =
        k ⟨B.reverse ++ l, tail⟩ c := by
  intro B
  induction B with
  | nil =>
    intro fuel l tail c hf _ hend
    obtain ⟨f, rfl⟩ : ∃ f, fuel = f + 1 := ⟨fuel - 1, by omega⟩
    obtain ⟨v, hv⟩ := Option.isSome_iff_exists.mp hend
    simp only [List.reverse_nil, List.nil_append] at hv
    simp [repLoop, hv]
  | cons b B ih =>
    intro fuel l tail c hf hfail hend
    obtain ⟨f, rfl⟩ : ∃ f, fuel = f + 1 := ⟨fuel - 1, by omega⟩
    have h0 : k ⟨l, b :: B ++ tail⟩ c = none := by
      simpa using hfail [] b B rfl
    have hfail2 : ∀ B1 b2 B2, B = B1 ++ b2 :: B2 →
        k ⟨B1.reverse ++ (b :: l), b2 :: B2 ++ tail⟩ c = none := by
      intro B1 b2 B2 hB
      have := hfail (b :: B1) b2 B2 (by simp [hB])
      simpa using this
    have hend2 : (k ⟨B.reverse ++ (b :: l), tail⟩ c).isSome = true := by
      simpa using hend
    have h := ih f (b :: l) tail c (by simp at hf; omega) hfail2 hend2
    simp only [repLoop, clearCaps_nil, List.cons_append, matchRe_chr_cons, if_true]
    simp only [List.cons_append] at h0
    simp only [h0, List.length_cons, List.length_append]
    have hne : ¬ (True ∧ B.length + tail.length = B.length + tail.length + 1) := by omega
    simp only [hne, if_false, Nat.zero_sub, Option.map_none', reduceCtorEq, ne_eq,
      not_true_eq_false, Option.orElse]
    rw [h]
    simp

/-- The matcher form of `repLoop_any_lazy`. -/
theorem matchRe_any_lazy (k : Cont) (B l tail : Str) (c : Caps)
    (hfail : ∀ B1 b B2, B = B1 ++ b :: B2 → k ⟨B1.reverse ++ l, b :: B2 ++ tail⟩ c = none)
    (hend : (k ⟨B.reverse ++ l, tail⟩ c).isSome = true) :
    matchRe (Re.starLazy (.chr (fun _ => true))) ⟨l, B ++ tail⟩ c k =
      k ⟨B.reverse ++ l, tail⟩ c := by
  rw [Re.starLazy, matchRe_rep]
  exact repLoop_any_lazy k B _ l tail c (by simp; omega) hfail hend

theorem Reaches.refl (x : Pos) : Reaches x x := ⟨[], by simp, by simp⟩

theorem Reaches.trans {x y z : Pos} (h1 : Reaches x y) (h2 : Reaches y z) : Reaches x z := by
  obtain ⟨s, hs1, hs2⟩ := h1
  obtain ⟨t, ht1, ht2⟩ := h2
  exact ⟨s ++ t, by simp [hs1, ht1], by simp [hs2, ht2]⟩

theorem Reaches.suffix {x y : Pos} (h : Reaches x y) : y.rest <:+ x.rest := by
  obtain ⟨s, hs, _⟩ := h
  exact ⟨s, hs.symm⟩

/-- A repetition hands on to its continuation only at positions ahead. -/
theorem repLoop_sound (m : Pos → Caps → Cont → Option (Pos × Caps)) (clear : Caps → Caps)
    (greedy : Bool)
    (hm : ∀ x c k res, m x c k = some res → ∃ y cy, Reaches x y ∧ k y cy = some res) :
    ∀ (fuel lo : Nat) (hi : Option Nat) (x : Pos) (c : Caps) (k : Cont) (res : Pos × Caps),
      repLoop m clear greedy fuel lo hi x c k = some res →
      ∃ y cy, Reaches x y ∧ k y cy = some res := by
  intro fuel
  induction fuel with
  | zero =>
    intro lo hi x c k res h
    exact ⟨x, c, Reaches.refl x, by simpa [repLoop] using h⟩
  | succ f ih =>
    intro lo hi x c k res h
    have hd : ∀ res2, m x (clear c) (fun y cy =>
        if lo = 0 ∧ y.rest.length = x.rest.length then none
        else repLoop m clear greedy f (lo - 1) (hi.map (· - 1)) y cy k) = some res2 →
        ∃ y cy, Reaches x y ∧ k y cy = some res2 := by
      intro res2 h2
      obtain ⟨y, cy, hxy, hy⟩ := hm _ _ _ _ h2
      split at hy
      · simp at hy
      · obtain ⟨z, cz, hyz, hz⟩ := ih _ _ _ _ _ _ hy
        exact ⟨z, cz, hxy.trans hyz, hz⟩
    simp only [repLoop] at h
    split at h
    · exact ⟨x, c, Reaches.refl x, h⟩
    · split at h
      · exact hd res h
      · split at h
        · cases hmm : m x (clear c) (fun y cy =>
            if lo = 0 ∧ y.rest.length = x.rest.length then none
            else repLoop m clear greedy f (lo - 1) (hi.map (· - 1)) y cy k) with
          | some v =>
            rw [hmm] at h
            have hv : v = res := by simpa [Option.orElse] using h
            subst hv
            exact hd v hmm
          | none =>
            rw [hmm] at h
            simp only [Option.orElse] at h
            exact ⟨x, c, Reaches.refl x, h⟩
        · cases hkk : k x c with
          | some v =>
            rw [hkk] at h
            have hv : v = res := by simpa [Option.orElse] using h
            subst hv
            exact ⟨x, c, Reaches.refl x, hkk⟩
          | none =>
            rw [hkk] at h
            simp only [Option.orElse] at h
            exact hd res h

/-- The matcher hands on to its continuation only at positions ahead. -/
theorem matchRe_sound : ∀ (r : Re) (x : Pos) (c : Caps) (k : Cont) (res : Pos × Caps),
    matchRe r x c k = some res → ∃ y cy, Reaches x y ∧ k y cy = some res := by
  intro r
  induction r with
  | empty =>
    intro x c k res h
    exact ⟨x, c, Reaches.refl x, by simpa [matchRe] using h⟩
  | chr p =>
    intro x c k res h
    obtain ⟨l, rest⟩ := x
    cases rest with
    | nil => simp [matchRe] at h
    | cons ch t =>
      rw [matchRe_chr_cons] at h
      split at h
      · exact ⟨⟨ch :: l, t⟩, c, ⟨[ch], by simp, by simp⟩, h⟩
      · simp at h
  | seq a b iha ihb =>
    intro x c k res h
    rw [matchRe_seq] at h
    obtain ⟨y, cy, hxy, hy⟩ := iha _ _ _ _ h
    obtain ⟨z, cz, hyz, hz⟩ := ihb _ _ _ _ hy
    exact ⟨z, cz, hxy.trans hyz, hz⟩
  | alt a b iha ihb =>
    intro x c k res h
    simp only [matchRe] at h
    cases ha : matchRe a x c k with
    | some v =>
      rw [ha] at h
      have hv : v = res := by simpa [Option.orElse] using h
      subst hv
      exact iha _ _ _ _ ha
    | none =>
      rw [ha] at h
      simp only [Option.orElse] at h
      exact ihb _ _ _ _ h
  | rep a lo hi greedy iha =>
    intro x c k res h
    simp only [matchRe] at h
    exact repLoop_sound (matchRe a) _ greedy iha _ _ _ _ _ _ _ h
  | group i a iha =>
    intro x c k res h
    rw [matchRe_group] at h
    obtain ⟨y, cy, hxy, hy⟩ := iha _ _ _ _ h
    exact ⟨y, _, hxy, hy⟩
  | bol =>
    intro x c k res h
    simp only [matchRe] at h
    split at h
    · exact ⟨x, c, Reaches.refl x, h⟩
    · simp at h
  | eol =>
    intro x c k res h
    simp only [matchRe] at h
    split at h
    · exact ⟨x, c, Reaches.refl x, h⟩
    · simp at h
  | wordB neg =>
    intro x c k res h
    simp only [matchRe] at h
    split at h
    · exact ⟨x, c, Reaches.refl x, h⟩
    · simp at h
  | look neg a _ =>
    intro x c k res h
    simp only [matchRe] at h
    split at h
    · split at h
      · simp at h
      · exact ⟨x, _, Reaches.refl x, h⟩
    · split at h
      · exact ⟨x, c, Reaches.refl x, h⟩
      · simp at h

end

section

/-! ## The replacement loop -/

theorem render_text (f : MatchInfo → Str) (s : Str) : render f (s.map .text) = s := by
  induction s with
  | nil => rfl
  | cons c t ih => simp [render, ih]

/-- Where the pattern matches nowhere, the input is cut into its characters. -/
theorem pieces_no_match (r : Re) :
    ∀ (rest : Str) (fuel : Nat) (left : Str),
      (∀ l s, s <:+ rest → matchAt r ⟨l, s⟩ = none) →
      pieces r fuel left rest = rest.map .text := by
  intro rest
  induction rest with
  | nil =>
    intro fuel left h
    cases fuel with
    | zero => rfl
    | succ f => simp [pieces, h left [] (List.suffix_refl _)]
  | cons ch t ih =>
    intro fuel left h
    cases fuel with
    | zero => rfl
    | succ f =>
      have ht : ∀ l s, s <:+ t → matchAt r ⟨l, s⟩ = none :=
        fun l s hs => h l s (hs.trans (List.suffix_cons ch t))
      simp [pieces, h left (ch :: t) (List.suffix_refl _), ih f (ch :: left) ht]

/-- Where the pattern matches nowhere, the replacement changes nothing. -/
theorem replaceAll_no_match (r : Re) (f : MatchInfo → Str) (input : Str)
    (h : ∀ l s, s <:+ input → matchAt r ⟨l, s⟩ = none) : replaceAll r f input = input := by
  simp [replaceAll, pieces_no_match r input _ [] h, render_text]

/-- Where the pattern matches the whole of a non-empty input at its start, the
input is cut into that one match. -/
theorem pieces_whole (r : Re) (fuel : Nat) (left rest : Str) (y : Pos) (caps : Caps)
    (hm : matchAt r ⟨left, rest⟩ = some (y, caps)) (hy : y.rest = []) (hne : rest ≠ [])
    (hempty : ∀ l, matchAt r ⟨l, []⟩ = none) :
    pieces r (fuel + 1) left rest = [.hit ⟨rest, caps, left.reverse, []⟩] := by
  have hlen : rest.length ≠ 0 := by
    intro h0
    exact hne (List.length_eq_zero.mp h0)
  have htail : pieces r fuel (rest.reverse ++ left) [] = [] := by
    cases fuel with
    | zero => rfl
    | succ f => simp [pieces, hempty]
  simp [pieces, hm, hy, hlen, htail]

/-- A pattern of one character class with an empty replacement removes the
characters of the class. -/
theorem pieces_chr_render (p : Char → Bool) (f : MatchInfo → Str) (hf : ∀ info, f info = []) :
    ∀ (rest : Str) (fuel : Nat) (left : Str), rest.length < fuel →
      render f (pieces (.chr p) fuel left rest) = rest.filter (fun c => !p c) := by
  intro rest
  induction rest with
  | nil =>
    intro fuel left hfuel
    obtain ⟨n, rfl⟩ : ∃ n, fuel = n + 1 := ⟨fuel - 1, by simp at hfuel; omega⟩
    simp [pieces, matchAt, matchRe_chr_nil, render]
  | cons ch t ih =>
    intro fuel left hfuel
    obtain ⟨n, rfl⟩ : ∃ n, fuel = n + 1 := ⟨fuel - 1, by simp at hfuel; omega⟩
    have hn : t.length < n := by simp at hfuel; omega
    by_cases hp : p ch = true
    · simp [pieces, matchAt, matchRe_chr_cons, hp, render, hf, ih n _ hn]
    · simp [pieces, matchAt, matchRe_chr_cons, hp, render, ih n _ hn]

theorem expandReplacement_nil (m : Nat) (info : MatchInfo) : expandReplacement m info [] = [] := by
  simp [expandReplacement]

/-- Replacing every character of a class by the empty string removes them. -/
theorem replaceAllStr_chr_nil (p : Char → Bool) (m : Nat) (s : Str) :
    replaceAllStr (.chr p) m [] s = s.filter (fun c => !p c) := by
  simp only [replaceAllStr, replaceAll]
  exact pieces_chr_render p _ (fun info => expandReplacement_nil m info) s _ [] (by omega)

/-- One attempt of the pattern of ten digits between `^` and `$`. -/
theorem matchAt_tenDigits (l t : Str) :
    (matchAt TemplateEngine.tenDigitsRegex ⟨l, t⟩).isSome =
      (l.isEmpty && decide (t.length = 10) && t.all isDigit) := by
  simp only [matchAt, TemplateEngine.tenDigitsRegex, Re.seqs, matchRe_seq, matchRe_bol,
    matchRe_class_exact, matchRe_eol]
  by_cases hl : l.isEmpty = true
  · by_cases h10 : t.length = 10
    · have hd : t.drop 10 = [] := List.drop_eq_nil_of_le (by omega)
      have ht : t.take 10 = t := List.take_of_length_le (by omega)
      by_cases hall : t.all isDigit = true
      · simp [hl, h10, hd, ht, hall]
      · simp [hl, h10, hd, ht, hall]
    · by_cases hlt : 10 ≤ t.length
      · have hd : (t.drop 10).isEmpty = false := by
          cases hdd : t.drop 10 with
          | nil =>
            have := List.drop_eq_nil_iff.mp hdd
            omega
          | cons _ _ => rfl
        by_cases hall : (t.take 10).all isDigit = true
        · simp [hl, h10, hlt, hd, hall]
        · simp [hl, h10, hlt, hall]
      · simp [hl, h10, hlt]
  · simp [hl]

/-- The test of the pattern of ten digits between `^` and `$`. -/
theorem test_tenDigits (s : Str) :
    test TemplateEngine.tenDigitsRegex s = (decide (s.length = 10) && s.all isDigit) := by
  have hloop : ∀ (t : Str) (l : Str), l ≠ [] →
      testLoop TemplateEngine.tenDigitsRegex l t = false := by
    intro t
    induction t with
    | nil =>
      intro l hl
      cases l with
      | nil => exact absurd rfl hl
      | cons a b => simp [testLoop, matchAt_tenDigits]
    | cons ch u ih =>
      intro l hl
      cases l with
      | nil => exact absurd rfl hl
      | cons a b => simp [testLoop, matchAt_tenDigits, ih (ch :: a :: b) (by simp)]
  cases s with
  | nil => simp [test, testLoop, matchAt_tenDigits]
  | cons ch u =>
    simp only [test, testLoop, matchAt_tenDigits, hloop u [ch] (by simp), Bool.or_false,
      List.isEmpty_nil, Bool.true_and]

end

section

/-- C6: for a non-empty ECID string `s` with `d` its digits (every non-digit
character removed), `formatECID(s)` is `d[0..3]-d[3..6]-d[6..10]` when `d` has
exactly ten digits and `s` unchanged otherwise; `1234567890` and
`123-456-7890` both give `123-456-7890`, and `12345` comes back unchanged. -/
theorem formatECID_digits (s : Str) (hs : s ≠ []) :
    formatECID (.str s) =
        (if (s.filter isDigit).length = 10 then
          .str ((s.filter isDigit).take 3 ++ '-' :: ((s.filter isDigit).drop 3).take 3 ++
            '-' :: ((s.filter isDigit).drop 6).take 4)
        else .str s)
      ∧ formatECID (.str "1234567890".toList) = .str "123-456-7890".toList
      ∧ formatECID (.str "123-456-7890".toList) = .str "123-456-7890".toList
      ∧ formatECID (.str "12345".toList) = .str "12345".toList := by
  refine ⟨?_, by rfl, by rfl, by rfl⟩
  have htruthy : (JSValue.str s).truthy = true := by
    cases s with
    | nil => exact absurd rfl hs
    | cons a t => rfl
  have hclean : replaceAllStr nonDigitRegex 0 [] (JSValue.str s).toStr = s.filter isDigit := by
    rw [nonDigitRegex, replaceAllStr_chr_nil]
    simp [JSValue.toStr]
  simp only [formatECID, htruthy, hclean]
  by_cases h : (s.filter isDigit).length = 10
  · have h4 : ((s.filter isDigit).drop 6).take 4 = (s.filter isDigit).drop 6 :=
      List.take_of_length_le (by simp [h])
    simp [h, h4]
  · simp [h]

/-- The statement of `formatECID_digits` at the ECID `12345`. -/
theorem formatECID_digits_witness :
    "12345".toList ≠ [] ∧
      formatECID (.str "12345".toList) =
        (if ("12345".toList.filter isDigit).length = 10 then
          .str (("12345".toList.filter isDigit).take 3 ++
            '-' :: (("12345".toList.filter isDigit).drop 3).take 3 ++
            '-' :: (("12345".toList.filter isDigit).drop 6).take 4)
        else .str "12345".toList) :=
  ⟨by decide, (formatECID_digits "12345".toList (by decide)).1⟩

end

section

open TemplateEngine

/-! ## Messages -/

/-- A text that differs from a start `q` of `p` within the length of `q` does
not start with `p`, whatever follows it. -/
theorem not_prefix_append (p q a x : Str) (hq : q <+: p) (hlen : q.length ≤ a.length)
    (h : a.take q.length ≠ q) : ¬ p <+: a ++ x := by
  intro hp
  have h1 := List.prefix_iff_eq_take.mp (hq.trans hp)
  rw [List.take_append_of_le_length hlen] at h1
  exact h h1.symm

/-- An entry whose key is not `ecid` never fails with an ECID message. -/
theorem validateEntry_not_ecid (P : Platform) (key : Str) (value : JSValue) (msg : Str)
    (hkey : key ≠ "ecid".toList) (h : validateEntry P key value = .error msg) :
    ¬ "Invalid ECID".toList <+: msg := by
  have hk : (key == "ecid".toList) = false := by simpa using hkey
  simp only [validateEntry, hk, Bool.false_and, Bool.false_eq_true, if_false] at h
  split at h
  · injection h with h
    subst h
    exact not_prefix_append _ "Invalid E".toList _ _ (by decide) (by decide) (by decide)
  · split at h
    · injection h with h
      subst h
      rw [List.append_assoc]
      exact not_prefix_append _ "I".toList _ _ (by decide) (by decide) (by decide)
    · cases h

/-- A bag without the key `ecid` never fails with an ECID message. -/
theorem validateVariableValues_not_ecid (P : Platform) (bag : Bag) (msg : Str)
    (hbag : ∀ e ∈ bag, e.1 ≠ "ecid".toList) (h : validateVariableValues P bag = .error msg) :
    ¬ "Invalid ECID".toList <+: msg := by
  induction bag with
  | nil => simp [validateVariableValues] at h
  | cons e rest ih =>
    obtain ⟨key, value⟩ := e
    simp only [validateVariableValues] at h
    split at h
    · rename_i e2 he
      injection h with h
      subst h
      exact validateEntry_not_ecid P key value _ (hbag (key, value) (by simp)) he
    · exact ih (fun e he => hbag e (by simp [he])) h

theorem ecidFailure_start (v : JSValue) : "Invalid ECID".toList <+: ecidFailure v := by
  refine ⟨" format: ".toList ++ v.toStr ++
    ". Must be 10 digits (e.g., 1234567890 or 123-456-7890).".toList, ?_⟩
  simp [ecidFailure]

/-- Entries that pass their checks do not change the outcome of the rest. -/
theorem validateVariableValues_append (P : Platform) (pre bag : Bag)
    (hpre : ∀ e ∈ pre, validateEntry P e.1 e.2 = .ok ()) :
    validateVariableValues P (pre ++ bag) = validateVariableValues P bag := by
  induction pre with
  | nil => rfl
  | cons e pre ih =>
    have he := hpre e (by simp)
    obtain ⟨key, value⟩ := e
    simp only at he
    simp only [List.cons_append, validateVariableValues, he]
    exact ih (fun e2 h2 => hpre e2 (by simp [h2]))

/-- The checks on a present `ecid`. -/
theorem validateEntry_ecid (P : Platform) (v : JSValue) (hv : v.truthy = true) :
    validateEntry P "ecid".toList v =
      if (v.toStr.filter (fun c => c != '-')).length = 10 ∧
          (v.toStr.filter (fun c => c != '-')).all isDigit = true then
        (if (v.isString && decide (10000 < v.toStr.length)) = true then
          .error ("Variable ".toList ++ "ecid".toList ++
            " exceeds maximum length (10000 characters)".toList)
        else .ok ())
      else .error (ecidFailure v) := by
  have hstrip : replaceAllStr hyphenRegex 0 [] v.toStr = v.toStr.filter (fun c => c != '-') := by
    rw [hyphenRegex, Re.char, replaceAllStr_chr_nil]
    rfl
  have hdate : (includes "ecid".toList "date".toList || includes "ecid".toList "Date".toList)
      = false := by decide
  simp only [validateEntry, hv, hstrip, test_tenDigits, beq_self_eq_true, Bool.true_and, hdate,
    Bool.false_and, Bool.false_eq_true, if_false]
  by_cases hgood : (v.toStr.filter (fun c => c != '-')).length = 10 ∧
      (v.toStr.filter (fun c => c != '-')).all isDigit = true
  · have hb : (decide ((v.toStr.filter (fun c => c != '-')).length = 10) &&
        (v.toStr.filter (fun c => c != '-')).all isDigit) = true := by
      simp [hgood.1, hgood.2]
    simp only [hb, Bool.not_true, Bool.false_eq_true, if_false, if_pos hgood]
  · have hb : (decide ((v.toStr.filter (fun c => c != '-')).length = 10) &&
        (v.toStr.filter (fun c => c != '-')).all isDigit) = false := by
      cases hd : decide ((v.toStr.filter (fun c => c != '-')).length = 10) with
      | false => rfl
      | true =>
        cases ha : (v.toStr.filter (fun c => c != '-')).all isDigit with
        | false => rfl
        | true => exact absurd ⟨of_decide_eq_true hd, ha⟩ hgood
    simp only [hb, Bool.not_false, if_true, if_neg hgood]
    rfl

/-- C7, as the code has it: a present `ecid` is accepted exactly when its
string form, with every hyphen removed, consists of exactly ten digits;
otherwise validation fails with the ECID message. The bag is taken with the
entries before `ecid` passing their own checks and the key `ecid` occurring
once. `1234567890` and `123-456-7890` are accepted, `12345` is rejected. -/
theorem validateVariableValues_ecid (P : Platform) (pre post : Bag) (v : JSValue)
    (hv : v.truthy = true)
    (hpre : ∀ e ∈ pre, validateEntry P e.1 e.2 = .ok ())
    (hpost : ∀ e ∈ post, e.1 ≠ "ecid".toList) :
    (validateVariableValues P (pre ++ ("ecid".toList, v) :: post) = .error (ecidFailure v) ↔
        ¬ ((v.toStr.filter (fun c => c != '-')).length = 10 ∧
            (v.toStr.filter (fun c => c != '-')).all isDigit = true))
      ∧ validateVariableValues P [("ecid".toList, .str "1234567890".toList)] = .ok ()
      ∧ validateVariableValues P [("ecid".toList, .str "123-456-7890".toList)] = .ok ()
      ∧ validateVariableValues P [("ecid".toList, .str "12345".toList)] =
          .error (ecidFailure (.str "12345".toList)) := by
  refine ⟨?_, by rfl, by rfl, by rfl⟩
  rw [validateVariableValues_append P pre _ hpre]
  simp only [validateVariableValues, validateEntry_ecid P v hv]
  by_cases hgood : (v.toStr.filter (fun c => c != '-')).length = 10 ∧
      (v.toStr.filter (fun c => c != '-')).all isDigit = true
  · rw [if_pos hgood]
    refine iff_of_false ?_ (not_not.mpr hgood)
    by_cases hlen : (v.isString && decide (10000 < v.toStr.length)) = true
    · rw [if_pos hlen]
      intro h
      injection h with h
      have h2 := ecidFailure_start v
      rw [← h, List.append_assoc] at h2
      exact not_prefix_append _ "I".toList _ _ (by decide) (by decide) (by decide) h2
    · rw [if_neg hlen]
      intro h
      exact validateVariableValues_not_ecid P post _ hpost h (ecidFailure_start v)
  · rw [if_neg hgood]
    exact iff_of_true rfl hgood

/-- The statement of `validateVariableValues_ecid` at the bag `{ecid: "12345"}`. -/
theorem validateVariableValues_ecid_witness :
    validateVariableValues sampleHost ([] ++ ("ecid".toList, .str "12345".toList) :: []) =
        .error (ecidFailure (.str "12345".toList)) ↔
      ¬ (((JSValue.str "12345".toList).toStr.filter (fun c => c != '-')).length = 10 ∧
          ((JSValue.str "12345".toList).toStr.filter (fun c => c != '-')).all isDigit = true) :=
  (validateVariableValues_ecid sampleHost [] [] (.str "12345".toList) (by decide)
    (by simp) (by simp)).1

/-- C7 as stated fails: the ECID `123 456 7890` has exactly ten digits once
every non-digit character is removed, and `formatECID` formats it, yet
`validateVariableValues` rejects it, since it removes hyphens only. -/
theorem validateVariableValues_ecid_spaces :
    ("123 456 7890".toList.filter isDigit).length = 10
      ∧ formatECID (.str "123 456 7890".toList) = .str "123-456-7890".toList
      ∧ validateVariableValues sampleHost [("ecid".toList, .str "123 456 7890".toList)] =
          .error ("Invalid ECID format: 123 456 7890. Must be 10 digits (e.g., 1234567890 or 123-456-7890).".toList) := by
  refine ⟨by decide, by rfl, by rfl⟩

end

section

open TemplateEngine

/-- A text that starts with a character other than `R` is not a
missing-variable message. -/
theorem not_missing_of_head (c : Char) (t : Str) (hc : c ≠ 'R') :
    ¬ "Required variables missing: ".toList <+: c :: t := by
  intro h
  have h1 : "R".toList <+: c :: t := (show "R".toList <+: _ by decide).trans h
  obtain ⟨u, hu⟩ := h1
  injection hu with h2 _
  exact hc h2.symm

/-- The failures of the checks on an entry start with `I` or `V`. -/
theorem validateEntry_error_head (P : Platform) (key : Str) (value : JSValue) (msg : Str)
    (h : validateEntry P key value = .error msg) :
    ∃ c t, msg = c :: t ∧ c ≠ 'R' := by
  simp only [validateEntry] at h
  split at h
  · injection h with h
    exact ⟨'I', _, h.symm.trans (by simp; rfl), by decide⟩
  · split at h
    · injection h with h
      exact ⟨'I', _, h.symm.trans (by simp; rfl), by decide⟩
    · split at h
      · injection h with h
        exact ⟨'V', _, h.symm.trans (by simp; rfl), by decide⟩
      · cases h

/-- The failures of `validateVariableValues` start with `I` or `V`. -/
theorem validateVariableValues_error_head (P : Platform) (bag : Bag) (msg : Str)
    (h : validateVariableValues P bag = .error msg) :
    ∃ c t, msg = c :: t ∧ c ≠ 'R' := by
  induction bag with
  | nil => simp [validateVariableValues] at h
  | cons e rest ih =>
    obtain ⟨key, value⟩ := e
    simp only [validateVariableValues] at h
    split at h
    · rename_i e2 he
      injection h with h
      subst h
      exact validateEntry_error_head P key value _ he
    · exact ih h

theorem includes_of_start (s p : Str) (hs : s ≠ []) (h : p <+: s) : includes s p = true := by
  cases s with
  | nil => exact absurd rfl hs
  | cons c t => simp [includes, List.isPrefixOf_iff_prefix.mpr h]

theorem joinValues_str (sep : Str) (l : List Str) :
    joinValues sep (l.map .str) = join sep l := by
  simp only [joinValues, List.map_map]
  congr 1
  induction l with
  | nil => rfl
  | cons a t ih =>
    rw [List.map_cons, ih]
    simp [JSValue.isNullish, JSValue.toStr]

/-- The outcomes of `validateVariables` when the stored list of required
variables decodes to the names `rs`: the missing-variable failure with every
missing name when one is missing, no such failure when none is. -/
theorem validateVariables_cases (P : Platform) (template : JSValue) (vars : Bag)
    (rs : List Str)
    (hdec : jsonParse (DatabaseService.orElse (field template "required_variables".toList)
      (.str "[]".toList)).toStr = some (.arr (rs.map .str))) :
    (rs.filter (fun r => isMissing (getProp vars r)) ≠ [] →
        validateVariables P template vars =
          .error ("Required variables missing: ".toList ++
            join ", ".toList (rs.filter (fun r => isMissing (getProp vars r)))))
      ∧ (rs.filter (fun r => isMissing (getProp vars r)) = [] →
          ∀ msg, validateVariables P template vars = .error msg →
            ¬ "Required variables missing: ".toList <+: msg)
      ∧ (∀ v : JSValue, isMissing v = true ↔
          (v = .null ∨ v = .undefined ∨ ((∀ b, v ≠ .bool b) ∧ trim v.toStr = []))) := by
  have hfilter : (rs.map JSValue.str).filter (fun varName => isMissing (getProp vars varName.toStr))
      = (rs.filter (fun r => isMissing (getProp vars r))).map .str := by
    rw [List.filter_map]
    congr 1
  have hbody : validateVariablesBody P template vars =
      if 0 < (rs.filter (fun r => isMissing (getProp vars r))).length then
        .error ("Required variables missing: ".toList ++
          join ", ".toList (rs.filter (fun r => isMissing (getProp vars r))))
      else validateVariableValues P vars := by
    simp only [validateVariablesBody, hdec, hfilter, joinValues_str, List.length_map]
  refine ⟨?_, ?_, ?_⟩
  · intro hne
    have hpos : 0 < (rs.filter (fun r => isMissing (getProp vars r))).length :=
      List.length_pos.mpr hne
    have hinc : includes ("Required variables missing: ".toList ++
        join ", ".toList (rs.filter (fun r => isMissing (getProp vars r))))
        "Required variables missing".toList = true :=
      includes_of_start _ _ (by simp)
        ((show "Required variables missing".toList <+: "Required variables missing: ".toList
          by decide).trans (List.prefix_append _ _))
    simp only [validateVariables, hbody, if_pos hpos, hinc, if_true]
  · intro hnil msg hmsg
    have hzero : ¬ 0 < (rs.filter (fun r => isMissing (getProp vars r))).length := by
      simp [hnil]
    simp only [validateVariables, hbody, if_neg hzero] at hmsg
    split at hmsg
    · cases hmsg
    · rename_i m hm
      obtain ⟨c, t, hct, hc⟩ := validateVariableValues_error_head P vars m hm
      split at hmsg
      · injection hmsg with hmsg
        rw [← hmsg, hct]
        exact not_missing_of_head c t hc
      · injection hmsg with hmsg
        rw [← hmsg]
        exact not_missing_of_head 'V' _ (by decide)
  · intro v
    cases v <;> simp [isMissing, JSValue.isNullish, JSValue.isBoolean]

/-- C3: when the stored list of required variables decodes to the names
`rs`, `validateVariables` fails with the missing-variable message exactly
when some name is missing, and the one message lists all the missing names
in the order of `rs`, joined by a comma and a space. A name is missing when
its value is `null` or `undefined` or, for a value that is not a boolean, its
trimmed string form is empty. -/
theorem validateVariables_missing (P : Platform) (template : JSValue) (vars : Bag)
    (rs : List Str)
    (hdec : jsonParse (DatabaseService.orElse (field template "required_variables".toList)
      (.str "[]".toList)).toStr = some (.arr (rs.map .str))) :
    (rs.filter (fun r => isMissing (getProp vars r)) ≠ [] →
        validateVariables P template vars =
          .error ("Required variables missing: ".toList ++
            join ", ".toList (rs.filter (fun r => isMissing (getProp vars r)))))
      ∧ (rs.filter (fun r => isMissing (getProp vars r)) = [] →
          ∀ msg, validateVariables P template vars = .error msg →
            ¬ "Required variables missing: ".toList <+: msg)
      ∧ (∀ v : JSValue, isMissing v = true ↔
          (v = .null ∨ v = .undefined ∨ ((∀ b, v ≠ .bool b) ∧ trim v.toStr = []))) :=
  validateVariables_cases P template vars rs hdec

/-- The statement of `validateVariables_missing` for the required list
`["a","b"]` and a bag that has `a` empty and lacks `b`. -/
theorem validateVariables_missing_witness :
    validateVariables sampleHost
        (.obj [("required_variables".toList, .str "[\"a\",\"b\"]".toList)])
        [("a".toList, .str [])] =
      .error "Required variables missing: a, b".toList :=
  (validateVariables_missing sampleHost
    (.obj [("required_variables".toList, .str "[\"a\",\"b\"]".toList)])
    [("a".toList, .str [])] ["a".toList, "b".toList] (by rfl)).1 (by decide)

end

section

open TemplateEngine

/-- A replacement string without a dollar sign stands for itself. -/
theorem expandReplacement_plain (m : Nat) (info : MatchInfo) :
    ∀ (s : Str), (∀ ch ∈ s, ch ≠ '$') → expandReplacement m info s = s := by
  intro s
  induction s with
  | nil => intro _; simp [expandReplacement]
  | cons c t ih =>
    intro h
    have hc : c ≠ '$' := h c (by simp)
    have ht := ih (fun ch hch => h ch (by simp [hch]))
    unfold expandReplacement
    split <;> simp_all

/-- C1 as stated fails: with the bag `{a: "{{b}}", b: "X"}`, in that order,
the template `{{a}}` renders as `X`: the token brought in by the value of `a`
is expanded when the loop reaches `b`. -/
theorem replaceBasicVariables_reexpands :
    replaceBasicVariables sampleHost "\x7b\x7ba\x7d\x7d".toList
        [("a".toList, .str "\x7b\x7bb\x7d\x7d".toList), ("b".toList, .str "X".toList)] =
      .ok "X".toList := by
  rfl


/-- C2 at the failing input: the value `US$$100` of `price` is not put into
the text character for character; the replacement string is read as a
pattern and the two dollar signs come out as one. -/
theorem replaceBasicVariables_dollar :
    replaceBasicVariables sampleHost "Price: \x7b\x7bprice\x7d\x7d".toList
        [("price".toList, .str "US$$100".toList)] = .ok "Price: US$100".toList
      ∧ replaceBasicVariables sampleHost "Price: \x7b\x7b price \x7d\x7d".toList
        [("price".toList, .str "$&".toList)] = .ok "Price: \x7b\x7b price \x7d\x7d".toList := by
  constructor <;> rfl

/-- C5 at the failing input: a stored list of required variables that is not
valid JSON makes `validateVariables` fail, and `generate` returns a failure
result, though the bag passes every format check. -/
theorem generate_invalid_required_list :
    validateVariables sampleHost
        (.obj [("required_variables".toList, .str "not json".toList)]) [] =
        .error "Variable validation failed: Unexpected token in JSON".toList
      ∧ validateVariableValues sampleHost [] = .ok ()
      ∧ (generate sampleHost (sampleWorld "Hello" "not json") "welcome".toList []).1 =
        .failure "Variable validation failed: Unexpected token in JSON".toList
          "welcome".toList "2025-01-06T03:00:00.000Z".toList := by
  refine ⟨by rfl, by rfl, by rfl⟩

/-- C4 as stated fails: the template requires `footer`, the caller supplies
the non-empty value `yes` for it, and `generate` still returns the
missing-variable failure, because preprocessing has set `footer` to the empty
string before validation. -/
theorem generate_missing_after_preprocessing :
    (generate sampleHost (sampleWorld "Hello" "[\"footer\"]") "welcome".toList
        [("footer".toList, .str "yes".toList)]).1 =
      .failure "Required variables missing: footer".toList "welcome".toList
        "2025-01-06T03:00:00.000Z".toList := by
  rfl

end

section

open TemplateEngine DatabaseService

/-! ## Where failures come from -/

theorem Benign.not_missing {P : Platform} {e : Str} (h : Benign P e)
    (hP : ∀ ne, ¬ "Required variables missing: ".toList <+: P.message ne) :
    ¬ "Required variables missing: ".toList <+: e := by
  rcases h with ⟨ne, rfl⟩ | ⟨c, t, rfl, hc⟩
  · exact hP ne
  · exact not_missing_of_head c t hc

theorem benign_native (P : Platform) (ne : NativeError) : Benign P (P.message ne) :=
  .inl ⟨ne, rfl⟩

theorem getSheetData_error (P : Platform) (w : World) (name e : Str)
    (h : (getSheetData w name).1 = .error e) : Benign P e := by
  unfold getSheetData at h
  simp only at h
  split at h
  · cases h
  · split at h
    · injection h with h
      exact .inr ⟨'S', _, h.symm.trans (by simp; rfl), by decide⟩
    · split at h <;> cases h

theorem findTemplateRow_error (P : Platform) (id : Str) (rows : List JSValue) (e : Str)
    (h : findTemplateRow P id rows = .error e) : Benign P e := by
  induction rows with
  | nil => cases h
  | cons row rest ih =>
    simp only [findTemplateRow] at h
    split at h
    · injection h with h
      exact h ▸ benign_native P _
    · split at h
      · cases h
      · exact ih h

theorem getTemplate_error (P : Platform) (w : World) (id e : Str)
    (h : (getTemplate P w id).1 = .error e) : Benign P e := by
  unfold getTemplate at h
  split at h
  · injection h with h
    exact .inr ⟨'T', _, h.symm.trans (by rfl), by decide⟩
  · simp only at h
    split at h
    · cases h
    · split at h
      · rename_i e2 w2 hs
        injection h with h
        subst h
        exact getSheetData_error P _ _ _ (by rw [hs])
      · split at h
        · rename_i e2 hf
          injection h with h
          subst h
          exact findTemplateRow_error P _ _ _ hf
        · cases h
        · cases h

theorem getTemplateWithCache_error (P : Platform) (w : World) (id e : Str)
    (h : (getTemplateWithCache P w id).1 = .error e) : Benign P e := by
  unfold getTemplateWithCache at h
  simp only at h
  split at h
  · cases h
  · split at h
    · rename_i e2 w2 hs
      injection h with h
      subst h
      exact getTemplate_error P _ _ _ (by rw [hs])
    · split at h <;> cases h

theorem findActiveFooterRow_error (P : Platform) (rows : List JSValue) (e : Str)
    (h : findActiveFooterRow P rows = .error e) : Benign P e := by
  induction rows with
  | nil => cases h
  | cons row rest ih =>
    simp only [findActiveFooterRow] at h
    split at h
    · injection h with h
      exact h ▸ benign_native P _
    · split at h
      · cases h
      · exact ih h

theorem getActiveFooter_error (P : Platform) (w : World) (e : Str)
    (h : (getActiveFooter P w).1 = .error e) : Benign P e := by
  unfold getActiveFooter at h
  simp only at h
  split at h
  · cases h
  · split at h
    · rename_i e2 w2 hs
      injection h with h
      subst h
      exact getSheetData_error P _ _ _ (by rw [hs])
    · split at h
      · rename_i e2 hf
        injection h with h
        subst h
        exact findActiveFooterRow_error P _ _ hf
      · cases h
      · cases h

theorem preprocessVariables_error (P : Platform) (w : World) (vars : Bag) (e : Str)
    (h : (preprocessVariables P w vars).1 = .error e) : Benign P e := by
  unfold preprocessVariables at h
  split at h
  · rename_i e2 w1 hf
    injection h with h
    subst h
    unfold preprocessFooter at hf
    simp only at hf
    split at hf
    · split at hf
      · rename_i e3 w3 ha
        injection hf with hf1 hf2
        injection hf1 with hf1
        subst hf1
        exact getActiveFooter_error P _ _ (by rw [ha])
      · split at hf <;> cases hf
    · cases hf
  · cases h

theorem replaceVariable_error (P : Platform) (s key : Str) (v : JSValue) (e : Str)
    (h : replaceVariable P s key v = .error e) : Benign P e := by
  unfold replaceVariable at h
  split at h
  · injection h with h
    exact h ▸ benign_native P _
  · cases h

theorem replaceBasicVariables_error (P : Platform) (bag : Bag) (s e : Str)
    (h : replaceBasicVariables P s bag = .error e) : Benign P e := by
  induction bag generalizing s with
  | nil => cases h
  | cons kv rest ih =>
    obtain ⟨k, v⟩ := kv
    simp only [replaceBasicVariables] at h
    split at h
    · rename_i e2 he
      injection h with h
      subst h
      exact replaceVariable_error P _ _ _ _ he
    · exact ih _ h

theorem replaceWithValue_error (P : Platform) (source : Str) (v : JSValue) (s e : Str)
    (h : replaceWithValue P source v s = .error e) : Benign P e := by
  unfold replaceWithValue at h
  split at h
  · injection h with h
    exact h ▸ benign_native P _
  · split at h
    · injection h with h
      exact h ▸ benign_native P _
    · injection h with h
      exact h ▸ benign_native P _
    · cases h

theorem replaceItemProps_error (P : Platform) (itemVar : Str) (fs : Bag) (s e : Str)
    (h : replaceItemProps P itemVar fs s = .error e) : Benign P e := by
  induction fs generalizing s with
  | nil => cases h
  | cons kv rest ih =>
    obtain ⟨k, v⟩ := kv
    simp only [replaceItemProps] at h
    split at h
    · rename_i e2 he
      injection h with h
      subst h
      exact replaceWithValue_error P _ _ _ _ he
    · exact ih _ h

theorem renderItems_error (P : Platform) (itemVar inner : Str) (items : List JSValue) (e : Str)
    (h : renderItems P itemVar inner items = .error e) : Benign P e := by
  induction items with
  | nil => cases h
  | cons item rest ih =>
    simp only [renderItems] at h
    split at h
    · rename_i e2 he
      injection h with h
      subst h
      unfold renderItem at he
      split at he
      · rename_i e3 h3
        injection he with he
        subst he
        exact replaceWithValue_error P _ _ _ _ h3
      · exact replaceItemProps_error P _ _ _ _ he
    · split at h
      · rename_i e2 he
        injection h with h
        subst h
        exact ih he
      · cases h

theorem renderM_error (P : Platform) (f : MatchInfo → Except Str Str)
    (hf : ∀ info e, f info = .error e → Benign P e) (ps : List Piece) (e : Str)
    (h : renderM f ps = .error e) : Benign P e := by
  induction ps with
  | nil => cases h
  | cons p rest ih =>
    cases p with
    | text c =>
      simp only [renderM] at h
      split at h
      · cases h
      · rename_i e2 he
        injection h with h
        subst h
        exact ih he
    | hit info =>
      simp only [renderM] at h
      split at h
      · rename_i e2 he
        injection h with h
        subst h
        exact hf _ _ he
      · split at h
        · cases h
        · rename_i e2 he
          injection h with h
          subst h
          exact ih he

theorem processLoops_error (P : Platform) (s : Str) (vars : Bag) (e : Str)
    (h : processLoops P s vars = .error e) : Benign P e := by
  unfold processLoops replaceAllM at h
  refine renderM_error P _ ?_ _ _ h
  intro info e2 he
  split at he
  · exact renderItems_error P _ _ _ _ he
  · cases he

theorem processTemplate_error (P : Platform) (now : Int) (s : Str) (vars : Bag) (e : Str)
    (h : processTemplate P now s vars = .error e) : Benign P e := by
  unfold processTemplate at h
  split at h
  · rename_i e2 he
    injection h with h
    subst h
    exact replaceBasicVariables_error P _ _ _ he
  · split at h
    · rename_i e2 he
      injection h with h
      subst h
      exact processLoops_error P _ _ _ he
    · cases h

end

section

open TemplateEngine DatabaseService

theorem generateBody_ok (P : Platform) (w : World) (id : Str) (vars : Bag) (r : GenerateResult)
    (h : (generateBody P w id vars).1 = .ok r) :
    ∃ c t n cat sub g k, r = .success c t n cat sub g k := by
  unfold generateBody at h
  split at h
  · cases h
  · split at h
    · cases h
    · split at h
      · cases h
      · split at h
        · cases h
        · split at h
          · split at h
            · cases h
            · injection h with h
              exact ⟨_, _, _, _, _, _, _, h.symm⟩
          · cases h
          · cases h
          · cases h

theorem generateBody_error (P : Platform) (w : World) (id : Str) (vars : Bag) (e : Str)
    (hP : ∀ ne, ¬ "Required variables missing: ".toList <+: P.message ne)
    (hreq : ∀ template processed,
      (getTemplateWithCache P w id).1 = .ok template →
      (preprocessVariables P (getTemplateWithCache P w id).2 vars).1 = .ok processed →
      ∃ rs : List Str,
        jsonParse (DatabaseService.orElse (field template "required_variables".toList)
          (.str "[]".toList)).toStr = some (.arr (rs.map .str)) ∧
        ∀ r ∈ rs, isMissing (getProp processed r) = false)
    (h : (generateBody P w id vars).1 = .error e) :
    ¬ "Required variables missing: ".toList <+: e := by
  unfold generateBody at h
  split at h
  · rename_i e2 w1 ht
    injection h with h
    subst h
    exact (getTemplateWithCache_error P w id _ (by rw [ht])).not_missing hP
  · rename_i template w1 ht
    split at h
    · injection h with h
      subst h
      exact not_missing_of_head 'T' _ (by decide)
    · split at h
      · rename_i e2 w2 hp
        injection h with h
        subst h
        exact (preprocessVariables_error P w1 vars _ (by rw [hp])).not_missing hP
      · rename_i processed w2 hp
        split at h
        · rename_i e2 hv
          injection h with h
          subst h
          obtain ⟨rs, hdec, hpresent⟩ := hreq template processed (by rw [ht])
            (by rw [ht]; simp only; rw [hp])
          have hnil : rs.filter (fun r => isMissing (getProp processed r)) = [] := by
            rw [List.filter_eq_nil_iff]
            intro r hr
            simp [hpresent r hr]
          exact (validateVariables_cases P template processed rs hdec).2.1 hnil _ hv
        · split at h
          · split at h
            · rename_i e2 he
              injection h with h
              subst h
              exact (processTemplate_error P _ _ _ _ he).not_missing hP
            · cases h
          · injection h with h
            subst h
            exact hP _
          · injection h with h
            subst h
            exact hP _
          · injection h with h
            subst h
            exact hP _

theorem sampleHost_messages (ne : NativeError) :
    ¬ "Required variables missing: ".toList <+: sampleHost.message ne := by
  cases ne with
  | jsonSyntax t =>
    exact not_prefix_append _ "R".toList "Unexpected".toList _ (by decide) (by decide) (by decide)
  | regExpSyntax s =>
    show ¬ _ <+: "Invalid regular expression: /".toList ++ _ ++ _
    rw [List.append_assoc]
    exact not_prefix_append _ "R".toList _ _ (by decide) (by decide) (by decide)
  | nullishRead b p =>
    show ¬ _ <+: "Cannot read properties of ".toList ++ _ ++ _ ++ _ ++ _
    rw [List.append_assoc, List.append_assoc, List.append_assoc]
    exact not_prefix_append _ "R".toList _ _ (by decide) (by decide) (by decide)
  | replaceNotAFunction => decide
  | localeCompareNotAFunction => decide
  | notIterable => decide

end

section

/-! ## Character classes -/

theorem not_word_of_ws (ch : Char) (h : isWhiteSpace ch = true) : isWordChar ch = false := by
  simp only [isWhiteSpace, isWordChar, Bool.or_eq_true, Bool.and_eq_true, decide_eq_true_eq,
    beq_iff_eq] at h
  simp only [isWordChar, Bool.or_eq_false_iff, Bool.and_eq_false_iff, decide_eq_false_iff_not,
    beq_eq_false_iff_ne, ne_eq]
  omega

theorem not_ws_of_word (ch : Char) (h : isWordChar ch = true) : isWhiteSpace ch = false := by
  cases hw : isWhiteSpace ch with
  | false => rfl
  | true => rw [not_word_of_ws ch hw] at h; cases h

theorem ne_of_word (ch c : Char) (h : isWordChar ch = true) (hc : isWordChar c = false) :
    ch ≠ c := by
  intro heq
  subst heq
  rw [hc] at h
  cases h

theorem ne_of_ws (ch c : Char) (h : isWhiteSpace ch = true) (hc : isWhiteSpace c = false) :
    ch ≠ c := by
  intro heq
  subst heq
  rw [hc] at h
  cases h

/-! ## Occurrences -/

theorem includes_iff (s p : Str) : includes s p = true ↔ ∃ t, t <:+ s ∧ p <+: t := by
  induction s with
  | nil =>
    simp only [includes, List.isPrefixOf_iff_prefix, List.suffix_nil]
    constructor
    · intro h; exact ⟨[], rfl, h⟩
    · rintro ⟨t, rfl, h⟩; exact h
  | cons c s ih =>
    simp only [includes, Bool.or_eq_true, List.isPrefixOf_iff_prefix, ih]
    constructor
    · rintro (h | ⟨t, ht, hp⟩)
      · exact ⟨c :: s, List.suffix_refl _, h⟩
      · exact ⟨t, ht.trans (List.suffix_cons c s), hp⟩
    · rintro ⟨t, ht, hp⟩
      rcases List.suffix_cons_iff.mp ht with rfl | h
      · exact .inl hp
      · exact .inr ⟨t, h, hp⟩

theorem not_prefix_of_not_includes (s p t : Str) (h : includes s p = false) (ht : t <:+ s) :
    ¬ p <+: t := by
  intro hp
  have := (includes_iff s p).mpr ⟨t, ht, hp⟩
  rw [h] at this
  cases this

theorem includes_suffix (s p t : Str) (h : includes s p = false) (ht : t <:+ s) :
    includes t p = false := by
  cases hi : includes t p with
  | false => rfl
  | true =>
    obtain ⟨u, hu, hp⟩ := (includes_iff t p).mp hi
    exact absurd hp (not_prefix_of_not_includes s p u h (hu.trans ht))

/-- An occurrence of `p` in `x ++ y` lies in `x`, lies in `y`, or straddles
the two. -/
theorem includes_append (x y p : Str) (h : includes (x ++ y) p = true) :
    includes x p = true ∨ includes y p = true ∨
      ∃ p1 p2, p = p1 ++ p2 ∧ p1 ≠ [] ∧ p2 ≠ [] ∧ p1 <:+ x ∧ p2 <+: y := by
  obtain ⟨t, ht, hp⟩ := (includes_iff _ _).mp h
  obtain ⟨a, ha⟩ := ht
  obtain ⟨b, hb⟩ := hp
  -- a ++ t = x ++ y and p ++ b = t
  rcases List.append_eq_append_iff.mp ha with ⟨a', rfl, rfl⟩ | ⟨c', rfl, rfl⟩
  · -- x = a ++ a', t = a' ++ y
    rcases List.append_eq_append_iff.mp hb with ⟨d, hd1, hd2⟩ | ⟨d, hd1, hd2⟩
    · -- a' = p ++ d
      left
      exact (includes_iff _ _).mpr ⟨a', ⟨a, rfl⟩, ⟨d, hd1.symm⟩⟩
    · -- p = a' ++ d, y = d ++ b
      by_cases hd : d = []
      · subst hd
        left
        simp only [List.append_nil] at hd1
        subst hd1
        exact (includes_iff _ _).mpr ⟨p, ⟨a, rfl⟩, List.prefix_refl _⟩
      · by_cases ha' : a' = []
        · subst ha'
          right; left
          simp only [List.nil_append] at hd1
          subst hd1
          exact (includes_iff _ _).mpr ⟨y, List.suffix_refl _, ⟨b, hd2.symm⟩⟩
        · right; right
          exact ⟨a', d, hd1, ha', hd, ⟨a, rfl⟩, ⟨b, hd2.symm⟩⟩
  · -- a = x ++ c', y = c' ++ t
    right; left
    exact (includes_iff _ _).mpr ⟨t, ⟨c', rfl⟩, ⟨b, hb⟩⟩

/-- The closing tag has no border: a proper non-empty end of it is not a
start of it. -/
theorem endif_border_free :
    ∀ c ∈ "\x7b\x7bendif\x7d\x7d".toList.tails, c <+: "\x7b\x7bendif\x7d\x7d".toList →
      c = [] ∨ c = "\x7b\x7bendif\x7d\x7d".toList := by
  decide

/-- A body without the closing tag, followed by the closing tag: the tag
occurs at no place inside the body. -/
theorem endif_not_early (x r : Str) (hx : x ≠ [])
    (h : includes x "\x7b\x7bendif\x7d\x7d".toList = false) :
    ¬ "\x7b\x7bendif\x7d\x7d".toList <+: x ++ ("\x7b\x7bendif\x7d\x7d".toList ++ r) := by
  intro hp
  obtain ⟨b, hb⟩ := hp
  rcases List.append_eq_append_iff.mp hb with ⟨d, hd1, hd2⟩ | ⟨d, hd1, hd2⟩
  · -- x = E ++ d
    have := (includes_iff x _).mpr ⟨x, List.suffix_refl _, ⟨d, hd1.symm⟩⟩
    rw [h] at this
    cases this
  · -- E = x ++ d, E ++ r = d ++ b
    have hdE : d <+: "\x7b\x7bendif\x7d\x7d".toList := by
      have hlen : d.length ≤ "\x7b\x7bendif\x7d\x7d".toList.length := by
        have := congrArg List.length hd1
        simp only [List.length_append] at this
        omega
      have h2 : d <+: "\x7b\x7bendif\x7d\x7d".toList ++ r := ⟨b, hd2.symm⟩
      exact List.prefix_of_prefix_length_le h2 (List.prefix_append _ _) hlen
    have hmem : d ∈ "\x7b\x7bendif\x7d\x7d".toList.tails :=
      (List.mem_tails _ _).mpr ⟨x, hd1.symm⟩
    rcases endif_border_free d hmem hdE with hd | hd
    · subst hd
      rw [List.append_nil] at hd1
      have := (includes_iff x _).mpr ⟨x, List.suffix_refl _, by rw [← hd1]⟩
      rw [h] at this
      cases this
    · rw [hd] at hd1
      have := congrArg List.length hd1
      simp only [List.length_append] at this
      have hx0 : x.length = 0 := by omega
      exact hx (List.length_eq_zero.mp hx0)

end

section

open TemplateEngine

/-- A greedy quantifier from zero over a class takes nothing where the input
does not start with a character of the class. -/
theorem matchRe_class_zero (p : Char → Bool) (k : Cont) (l r : Str) (c : Caps) (greedy : Bool)
    (hr : ∀ ch t, r = ch :: t → p ch = false) :
    matchRe (.rep (.chr p) 0 none greedy) ⟨l, r⟩ c k = k ⟨l, r⟩ c := by
  rw [matchRe_rep]
  have hm : ∀ d : Cont, matchRe (.chr p) ⟨l, r⟩ (clearCaps [] c) d = none := by
    intro d
    cases r with
    | nil => exact matchRe_chr_nil _ _ _ _
    | cons ch t => rw [matchRe_chr_cons, hr ch t rfl]; simp
  cases greedy <;> simp [repLoop, hm, Re.groups]

/-- A quantifier from one over a class fails where the input does not start
with a character of the class. -/
theorem matchRe_class_fail (p : Char → Bool) (k : Cont) (l r : Str) (c : Caps) (lo : Nat)
    (greedy : Bool) (hlo : lo ≠ 0) (hr : ∀ ch t, r = ch :: t → p ch = false) :
    matchRe (.rep (.chr p) lo none greedy) ⟨l, r⟩ c k = none := by
  rw [matchRe_rep]
  have hm : ∀ d : Cont, matchRe (.chr p) ⟨l, r⟩ (clearCaps [] c) d = none := by
    intro d
    cases r with
    | nil => exact matchRe_chr_nil _ _ _ _
    | cons ch t => rw [matchRe_chr_cons, hr ch t rfl]; simp
  simp [repLoop, hm, hlo, Re.groups]

theorem take_append_sub (a b : Str) : (a ++ b).take ((a ++ b).length - b.length) = a := by
  simp

/-- The alternatives of the comparison operators fail on a character that
starts none of them. -/
theorem matchRe_operators_fail (l : Str) (ch : Char) (t : Str) (c : Caps) (k : Cont)
    (h1 : ch ≠ '=') (h2 : ch ≠ '!') (h3 : ch ≠ '>') (h4 : ch ≠ '<') :
    matchRe (Re.alts [Re.lit "==".toList, Re.lit "!=".toList, Re.lit ">".toList,
      Re.lit "<".toList, Re.lit ">=".toList, Re.lit "<=".toList]) ⟨l, ch :: t⟩ c k = none := by
  simp [Re.alts, Re.lit, matchRe_alt, matchRe_seq, matchRe_char_cons, h1, h2, h3, h4, Option.orElse]

end

section

/-- The alternatives of the comparison operators take an ordering operator
that is followed by a space, when what follows them cannot start with `=`. -/
theorem matchRe_operators (l op t : Str) (c : Caps) (k : Cont)
    (hop : op = ">".toList ∨ op = "<".toList ∨ op = ">=".toList ∨ op = "<=".toList)
    (hk : ∀ (y : Pos) (cy : Caps) (u : Str), y.rest = '=' :: u → k y cy = none) :
    matchRe (Re.alts [Re.lit "==".toList, Re.lit "!=".toList, Re.lit ">".toList,
        Re.lit "<".toList, Re.lit ">=".toList, Re.lit "<=".toList]) ⟨l, op ++ ' ' :: t⟩ c k =
      k ⟨op.reverse ++ l, ' ' :: t⟩ c := by
  rcases hop with rfl | rfl | rfl | rfl
  · simp only [Re.alts, Re.lit, matchRe_alt, matchRe_seq, matchRe_char_cons, String.toList,
      List.cons_append, List.nil_append, List.reverse_cons, List.reverse_nil]
    simp [Option.orElse]
    cases k ⟨'>' :: l, ' ' :: t⟩ c <;> rfl
  · simp only [Re.alts, Re.lit, matchRe_alt, matchRe_seq, matchRe_char_cons, String.toList,
      List.cons_append, List.nil_append, List.reverse_cons, List.reverse_nil]
    simp [Option.orElse]
    cases k ⟨'<' :: l, ' ' :: t⟩ c <;> rfl
  · simp only [Re.alts, Re.lit, matchRe_alt, matchRe_seq, matchRe_char_cons, String.toList,
      List.cons_append, List.nil_append, List.reverse_cons, List.reverse_nil]
    simp [Option.orElse, hk ⟨'>' :: l, '=' :: ' ' :: t⟩ c (' ' :: t) rfl]
    cases k ⟨'=' :: '>' :: l, ' ' :: t⟩ c <;> rfl
  · simp only [Re.alts, Re.lit, matchRe_alt, matchRe_seq, matchRe_char_cons, String.toList,
      List.cons_append, List.nil_append, List.reverse_cons, List.reverse_nil]
    simp [Option.orElse, hk ⟨'<' :: l, '=' :: ' ' :: t⟩ c (' ' :: t) rfl]

end

section

open TemplateEngine

/-- The comparison pattern matches a well-formed comparison block as a whole
and captures its name, operator, literal and body. -/
theorem matchAt_conditional (l name op lit body : Str)
    (hname : name ≠ []) (hword : ∀ ch ∈ name, isWordChar ch = true)
    (hop : op = ">".toList ∨ op = "<".toList ∨ op = ">=".toList ∨ op = "<=".toList)
    (hlit : lit ≠ []) (hquote : ∀ ch ∈ lit, ch ≠ '"')
    (hbody : includes body "\x7b\x7bendif\x7d\x7d".toList = false) :
    ∃ y, matchAt conditionalRegex ⟨l, "\x7b\x7bif".toList ++ ([' '] ++ (name ++ ([' '] ++ (op ++
        ([' '] ++ ('"' :: (lit ++ ("\"\x7d\x7d".toList ++ (body ++
          ("\x7b\x7bendif\x7d\x7d".toList ++ []))))))))))⟩ =
        some (y, [(4, body), (3, lit), (2, op), (1, name)]) ∧ y.rest = [] := by
  have hws1 : ∀ ch ∈ [' '], isWhiteSpace ch = true := by decide
  simp only [matchAt, conditionalRegex, Re.seqs, matchRe_seq, Re.plus, Re.star]
  rw [matchRe_lit]
  -- the white space after `if`
  rw [matchRe_class_greedy isWhiteSpace _ 1 [' '] _ _ _ ?_ hws1 ?_ (by simp)]
  rotate_left
  · intro y cy ch t hy hch
    obtain ⟨yl, yr⟩ := y
    simp only at hy
    subst hy
    rw [matchRe_group]
    exact matchRe_class_fail _ _ _ _ _ _ _ (by decide)
      (fun ch2 t2 h2 => by injection h2 with h2 _; subst h2; exact not_word_of_ws _ hch)
  · intro ch t ht
    cases name with
    | nil => exact absurd rfl hname
    | cons a u =>
      injection ht with ht _
      subst ht
      exact not_ws_of_word _ (hword _ (by simp))
  -- the name
  rw [matchRe_group]
  rw [matchRe_class_greedy isWordChar _ 1 name _ _ _ ?_ hword ?_
    (Nat.one_le_iff_ne_zero.mpr (fun h => hname (List.length_eq_zero.mp h)))]
  rotate_left
  · intro y cy ch t hy hch
    obtain ⟨yl, yr⟩ := y
    simp only at hy
    subst hy
    simp only []
    rw [matchRe_class_zero _ _ _ _ _ _
      (fun ch2 t2 h2 => by injection h2 with h2 _; subst h2; exact not_ws_of_word _ hch)]
    rw [matchRe_group]
    exact matchRe_operators_fail _ _ _ _ _ (ne_of_word _ _ hch (by decide))
      (ne_of_word _ _ hch (by decide)) (ne_of_word _ _ hch (by decide))
      (ne_of_word _ _ hch (by decide))
  · intro ch t ht
    injection ht with ht _
    subst ht
    decide
  simp only [take_append_sub]
  -- the white space before the operator
  rw [matchRe_class_greedy isWhiteSpace _ 0 [' '] _ _ _ ?_ hws1 ?_ (by simp)]
  rotate_left
  · intro y cy ch t hy hch
    obtain ⟨yl, yr⟩ := y
    simp only at hy
    subst hy
    rw [matchRe_group]
    exact matchRe_operators_fail _ _ _ _ _ (ne_of_ws _ _ hch (by decide))
      (ne_of_ws _ _ hch (by decide)) (ne_of_ws _ _ hch (by decide))
      (ne_of_ws _ _ hch (by decide))
  · intro ch t ht
    rcases hop with rfl | rfl | rfl | rfl <;>
    · injection ht with ht _
      subst ht
      decide
  -- the operator
  rw [matchRe_group]
  rw [show [' '] ++ ('"' :: (lit ++ ("\"\x7d\x7d".toList ++ (body ++
      ("\x7b\x7bendif\x7d\x7d".toList ++ []))))) = ' ' :: ('"' :: (lit ++ ("\"\x7d\x7d".toList ++
      (body ++ ("\x7b\x7bendif\x7d\x7d".toList ++ []))))) from rfl]
  rw [matchRe_operators _ op _ _ _ hop ?_]
  rotate_left
  · intro y cy u hy
    obtain ⟨yl, yr⟩ := y
    simp only at hy
    subst hy
    simp only []
    rw [matchRe_class_zero _ _ _ _ _ _
      (fun ch2 t2 h2 => by injection h2 with h2 _; subst h2; decide)]
    rw [matchRe_char_cons]
    simp
  simp only [List.length_append, List.length_cons, Nat.add_sub_cancel]
  have htake : ∀ r : Str, List.take op.length (op ++ r) = op := by
    intro r
    simp
  rw [htake]
  -- the white space after the operator and the opening quote
  rw [show ' ' :: '"' :: (lit ++ ("\"\x7d\x7d".toList ++ (body ++
      ("\x7b\x7bendif\x7d\x7d".toList ++ [])))) = [' '] ++ ('"' :: (lit ++ ("\"\x7d\x7d".toList ++
      (body ++ ("\x7b\x7bendif\x7d\x7d".toList ++ []))))) from rfl]
  rw [matchRe_class_greedy isWhiteSpace _ 0 [' '] _ _ _ ?_ hws1 ?_ (by simp)]
  rotate_left
  · intro y cy ch t hy hch
    obtain ⟨yl, yr⟩ := y
    simp only at hy
    subst hy
    rw [matchRe_char_cons, if_neg (ne_of_ws _ _ hch (by decide))]
  · intro ch t ht
    injection ht with ht _
    subst ht
    decide
  rw [matchRe_char_cons, if_pos rfl]
  -- the literal
  rw [matchRe_group]
  rw [matchRe_class_greedy (fun c => c != '"') _ 1 lit _ _ _ ?_ ?_ ?_
    (Nat.one_le_iff_ne_zero.mpr (fun h => hlit (List.length_eq_zero.mp h)))]
  rotate_left
  · intro y cy ch t hy hch
    obtain ⟨yl, yr⟩ := y
    simp only at hy
    subst hy
    simp only []
    apply matchRe_lit_none
    intro hp
    obtain ⟨u, hu⟩ := hp
    injection hu with hu _
    subst hu
    simp at hch
  · intro ch hch
    simpa using hquote ch hch
  · intro ch t ht
    injection ht with ht _
    subst ht
    decide
  simp only [take_append_sub]
  rw [matchRe_lit]
  -- the body
  rw [matchRe_group]
  rw [matchRe_any_lazy _ body _ _ _ ?_ ?_]
  rotate_left
  · intro B1 b B2 hB
    simp only []
    apply matchRe_lit_none
    have hsuf : (b :: B2) <:+ body := ⟨B1, hB.symm⟩
    exact endif_not_early (b :: B2) [] (by simp)
      (includes_suffix body _ _ hbody hsuf)
  · simp only []
    rw [matchRe_lit]
    rfl
  simp only [take_append_sub]
  rw [matchRe_lit]
  exact ⟨_, rfl, rfl⟩

end

section

open TemplateEngine

/-- The comparison pattern matches only where the input starts with the
opening tag. -/
theorem matchAt_conditional_none (l s : Str) (h : ¬ "\x7b\x7bif".toList <+: s) :
    matchAt conditionalRegex ⟨l, s⟩ = none := by
  simp only [matchAt, conditionalRegex, Re.seqs, matchRe_seq]
  exact matchRe_lit_none _ _ _ _ h

/-- The existence pattern matches only where the input starts with the
opening tag. -/
theorem matchAt_existence_none (l s : Str) (h : ¬ "\x7b\x7bif".toList <+: s) :
    matchAt existenceRegex ⟨l, s⟩ = none := by
  simp only [matchAt, existenceRegex, Re.seqs, matchRe_seq]
  exact matchRe_lit_none _ _ _ _ h

/-- The existence pattern matches only where the closing tag lies ahead. -/
theorem matchAt_existence_endif (l s : Str)
    (h : includes s "\x7b\x7bendif\x7d\x7d".toList = false) :
    matchAt existenceRegex ⟨l, s⟩ = none := by
  cases hm : matchAt existenceRegex ⟨l, s⟩ with
  | none => rfl
  | some res =>
    exfalso
    simp only [matchAt, existenceRegex, Re.seqs, matchRe_seq] at hm
    obtain ⟨y1, c1, r1, hm⟩ := matchRe_sound _ _ _ _ _ hm
    obtain ⟨y2, c2, r2, hm⟩ := matchRe_sound _ _ _ _ _ hm
    obtain ⟨y3, c3, r3, hm⟩ := matchRe_sound _ _ _ _ _ hm
    obtain ⟨y4, c4, r4, hm⟩ := matchRe_sound _ _ _ _ _ hm
    obtain ⟨y5, c5, r5, hm⟩ := matchRe_sound _ _ _ _ _ hm
    obtain ⟨r, hr, _⟩ := matchRe_lit_some _ _ _ _ _ hm
    have hsuf : y5.rest <:+ s :=
      (r1.trans (r2.trans (r3.trans (r4.trans r5)))).suffix
    exact not_prefix_of_not_includes s _ y5.rest h hsuf ⟨r, hr.symm⟩

/-- The existence pattern matches a well-formed existence block as a whole and
captures its name and body. -/
theorem matchAt_existence (l name body : Str)
    (hname : name ≠ []) (hword : ∀ ch ∈ name, isWordChar ch = true)
    (hbody : includes body "\x7b\x7bendif\x7d\x7d".toList = false) :
    ∃ y, matchAt existenceRegex ⟨l, "\x7b\x7bif".toList ++ ([' '] ++ (name ++
        ("\x7d\x7d".toList ++ (body ++ ("\x7b\x7bendif\x7d\x7d".toList ++ [])))))⟩ =
        some (y, [(2, body), (1, name)]) ∧ y.rest = [] := by
  have hws1 : ∀ ch ∈ [' '], isWhiteSpace ch = true := by decide
  simp only [matchAt, existenceRegex, Re.seqs, matchRe_seq, Re.plus, Re.star]
  rw [matchRe_lit]
  rw [matchRe_class_greedy isWhiteSpace _ 1 [' '] _ _ _ ?_ hws1 ?_ (by simp)]
  rotate_left
  · intro y cy ch t hy hch
    obtain ⟨yl, yr⟩ := y
    simp only at hy
    subst hy
    rw [matchRe_group]
    exact matchRe_class_fail _ _ _ _ _ _ _ (by decide)
      (fun ch2 t2 h2 => by injection h2 with h2 _; subst h2; exact not_word_of_ws _ hch)
  · intro ch t ht
    cases name with
    | nil => exact absurd rfl hname
    | cons a u =>
      injection ht with ht _
      subst ht
      exact not_ws_of_word _ (hword _ (by simp))
  rw [matchRe_group]
  rw [matchRe_class_greedy isWordChar _ 1 name _ _ _ ?_ hword ?_
    (Nat.one_le_iff_ne_zero.mpr (fun h => hname (List.length_eq_zero.mp h)))]
  rotate_left
  · intro y cy ch t hy hch
    obtain ⟨yl, yr⟩ := y
    simp only at hy
    subst hy
    simp only []
    apply matchRe_lit_none
    intro hp
    obtain ⟨u, hu⟩ := hp
    injection hu with hu _
    subst hu
    revert hch
    decide
  · intro ch t ht
    injection ht with ht _
    subst ht
    decide
  simp only [take_append_sub]
  rw [matchRe_lit]
  rw [matchRe_group]
  rw [matchRe_any_lazy _ body _ _ _ ?_ ?_]
  rotate_left
  · intro B1 b B2 hB
    simp only []
    apply matchRe_lit_none
    have hsuf : (b :: B2) <:+ body := ⟨B1, hB.symm⟩
    exact endif_not_early (b :: B2) [] (by simp)
      (includes_suffix body _ _ hbody hsuf)
  · simp only []
    rw [matchRe_lit]
    rfl
  simp only [take_append_sub]
  rw [matchRe_lit]
  exact ⟨_, rfl, rfl⟩

/-- The comparison pattern does not match at the start of an existence
block: after the name comes a brace, not an operator. -/
theorem matchAt_conditional_existence (l name r : Str)
    (hname : name ≠ []) (hword : ∀ ch ∈ name, isWordChar ch = true) :
    matchAt conditionalRegex ⟨l, "\x7b\x7bif".toList ++ ([' '] ++ (name ++
        ("\x7d\x7d".toList ++ r)))⟩ = none := by
  have hws1 : ∀ ch ∈ [' '], isWhiteSpace ch = true := by decide
  simp only [matchAt, conditionalRegex, Re.seqs, matchRe_seq, Re.plus, Re.star]
  rw [matchRe_lit]
  rw [matchRe_class_greedy isWhiteSpace _ 1 [' '] _ _ _ ?_ hws1 ?_ (by simp)]
  rotate_left
  · intro y cy ch t hy hch
    obtain ⟨yl, yr⟩ := y
    simp only at hy
    subst hy
    rw [matchRe_group]
    exact matchRe_class_fail _ _ _ _ _ _ _ (by decide)
      (fun ch2 t2 h2 => by injection h2 with h2 _; subst h2; exact not_word_of_ws _ hch)
  · intro ch t ht
    cases name with
    | nil => exact absurd rfl hname
    | cons a u =>
      injection ht with ht _
      subst ht
      exact not_ws_of_word _ (hword _ (by simp))
  rw [matchRe_group]
  rw [matchRe_class_greedy isWordChar _ 1 name _ _ _ ?_ hword ?_
    (Nat.one_le_iff_ne_zero.mpr (fun h => hname (List.length_eq_zero.mp h)))]
  rotate_left
  · intro y cy ch t hy hch
    obtain ⟨yl, yr⟩ := y
    simp only at hy
    subst hy
    simp only []
    rw [matchRe_class_zero _ _ _ _ _ _
      (fun ch2 t2 h2 => by injection h2 with h2 _; subst h2; exact not_ws_of_word _ hch)]
    rw [matchRe_group]
    exact matchRe_operators_fail _ _ _ _ _ (ne_of_word _ _ hch (by decide))
      (ne_of_word _ _ hch (by decide)) (ne_of_word _ _ hch (by decide))
      (ne_of_word _ _ hch (by decide))
  · intro ch t ht
    injection ht with ht _
    subst ht
    decide
  simp only []
  rw [show "\x7d\x7d".toList ++ r = '\x7d' :: ('\x7d' :: r) from rfl]
  rw [matchRe_class_zero _ _ _ _ _ _
    (fun ch2 t2 h2 => by injection h2 with h2 _; subst h2; decide)]
  rw [matchRe_group]
  exact matchRe_operators_fail _ _ _ _ _ (by decide) (by decide) (by decide) (by decide)

end

section

theorem powLoop_eq (b : Nat) : ∀ (fuel n : Nat), n ≤ fuel → powLoop b fuel n = b ^ n := by
  intro fuel
  induction fuel with
  | zero =>
    intro n hn
    have h0 : n = 0 := by omega
    subst h0
    rfl
  | succ f ih =>
    intro n hn
    simp only [powLoop]
    by_cases h0 : n = 0
    · subst h0
      simp
    · rw [if_neg h0, ih (n / 2) (by omega)]
      have hdm := Nat.div_add_mod n 2
      by_cases h2 : n % 2 = 0
      · rw [if_pos h2, ← Nat.pow_add]
        congr 1
        omega
      · rw [if_neg h2, ← Nat.pow_add, ← Nat.pow_succ]
        congr 1
        omega

theorem power_eq (b n : Nat) : power b n = b ^ n := powLoop_eq b n n (Nat.le_refl n)

theorem bitLen_le : ∀ (fuel n k : Nat), n < 2 ^ k → bitLen fuel n ≤ k := by
  intro fuel
  induction fuel with
  | zero =>
    intro n k _
    simp [bitLen]
  | succ f ih =>
    intro n k hk
    simp only [bitLen]
    by_cases h0 : n = 0
    · rw [if_pos h0]
      exact Nat.zero_le k
    · rw [if_neg h0]
      cases k with
      | zero =>
        simp at hk
        exact absurd hk h0
      | succ j =>
        have hj : n / 2 < 2 ^ j := by
          rw [Nat.pow_succ] at hk
          omega
        have := ih (n / 2) j hj
        omega

theorem roundHalfEven_one (n : Nat) : roundHalfEven n 1 = n := by
  simp [roundHalfEven, Nat.mod_one]

theorem log2FloorRatio_bounds (n : Nat) (h : n < 2 ^ 53) :
    -1 ≤ log2FloorRatio n 1 ∧ log2FloorRatio n 1 ≤ 52 := by
  have hb : bitLen n n ≤ 53 := bitLen_le n n 53 h
  have h1 : log2Floor 1 = 0 := rfl
  have hl : log2Floor n ≤ 52 := by
    simp only [log2Floor]
    omega
  simp only [log2FloorRatio, h1]
  constructor
  · split_ifs <;> omega
  · split_ifs <;> omega

/-- A natural number up to `2 ^ 53` is a double: rounding leaves its value. -/
theorem roundToDouble_exact (neg : Bool) (n : Nat) (h : n ≤ 2 ^ 53) :
    ∃ d : Nat, 0 < d ∧
      roundToDouble neg n 1 = .fin ((if neg then -1 else 1) * ((n * d : Nat) : Int)) d := by
  by_cases h0 : n = 0
  · subst h0
    exact ⟨1, by decide, by simp [roundToDouble]⟩
  by_cases h53 : n = 2 ^ 53
  · subst h53
    refine ⟨1, by decide, ?_⟩
    cases neg <;> rfl
  have hlt : n < 2 ^ 53 := by omega
  obtain ⟨hlo, hhi⟩ := log2FloorRatio_bounds n hlt
  have hne : ¬ (n = 0 ∨ 1 = 0) := by omega
  simp only [roundToDouble, if_neg hne]
  have he : max (log2FloorRatio n 1 - 52) (-1074) = log2FloorRatio n 1 - 52 := by omega
  rw [he]
  by_cases hz : 0 ≤ log2FloorRatio n 1 - 52
  · have h52 : log2FloorRatio n 1 - 52 = 0 := by omega
    rw [h52]
    have hp : power 2 (0 : Int).toNat = 1 := rfl
    have hpow : ∀ k, 53 < k → ¬ power 2 k ≤ n := by
      intro k hk
      rw [power_eq]
      exact Nat.not_le_of_lt (Nat.lt_of_le_of_lt h (Nat.pow_lt_pow_right (by decide) hk))
    have hbig : ¬ power 2 1024 ≤ n := hpow 1024 (by decide)
    simp only [hp, Nat.mul_one, roundHalfEven_one, le_refl, if_true, if_neg hbig]
    exact ⟨1, by decide, by simp⟩
  · rw [if_neg hz]
    refine ⟨power 2 (-(log2FloorRatio n 1 - 52)).toNat, ?_, ?_⟩
    · rw [power_eq]
      exact Nat.two_pow_pos _
    · simp only [roundHalfEven_one]

end

section

theorem not_ws_of_digit (c : Char) (h : isDigit c = true) : isWhiteSpace c = false := by
  simp only [isDigit, Bool.and_eq_true, decide_eq_true_eq] at h
  simp only [isWhiteSpace, Bool.or_eq_false_iff, Bool.and_eq_false_iff, decide_eq_false_iff_not,
    beq_eq_false_iff_ne, ne_eq]
  omega

theorem dropWhile_none (p : Char → Bool) (s : Str) (h : ∀ c ∈ s, p c = false) :
    s.dropWhile p = s := by
  cases s with
  | nil => rfl
  | cons a t => simp [List.dropWhile, h a (by simp)]

theorem trim_self (s : Str) (h : ∀ c ∈ s, isWhiteSpace c = false) : trim s = s := by
  simp only [trim]
  rw [dropWhile_none _ s h, dropWhile_none _ s.reverse (fun c hc => h c (List.mem_reverse.mp hc)),
    List.reverse_reverse]

/-- What a decimal integer string is made of. -/
theorem decimalInt_some (s : Str) (a : Int) (h : decimalInt s = some a) :
    (∃ ds n, s = '-' :: ds ∧ ds ≠ [] ∧ (∀ c ∈ ds, isDigit c = true) ∧
        digitsValue 10 ds 0 = some n ∧ a = -(n : Int)) ∨
      (∃ n, s ≠ [] ∧ (∀ c ∈ s, isDigit c = true) ∧ digitsValue 10 s 0 = some n ∧
        a = (n : Int)) := by
  unfold decimalInt at h
  split at h
  · rename_i ds
    left
    by_cases hc : (ds.isEmpty || !ds.all isDigit) = true
    · rw [if_pos hc] at h
      cases h
    · rw [if_neg hc] at h
      simp only [Bool.or_eq_true, Bool.not_eq_true', not_or, Bool.not_eq_true,
        Bool.not_eq_false] at hc
      obtain ⟨hne, hall⟩ := hc
      cases hv : digitsValue 10 ds 0 with
      | none => rw [hv] at h; cases h
      | some n =>
        rw [hv] at h
        simp only [Option.some.injEq] at h
        refine ⟨ds, n, rfl, ?_, ?_, hv, h.symm⟩
        · intro hnil
          subst hnil
          simp at hne
        · intro c hcm
          exact List.all_eq_true.mp hall c hcm
  · right
    by_cases hc : (s.isEmpty || !s.all isDigit) = true
    · rw [if_pos hc] at h
      cases h
    · rw [if_neg hc] at h
      simp only [Bool.or_eq_true, Bool.not_eq_true', not_or, Bool.not_eq_true,
        Bool.not_eq_false] at hc
      obtain ⟨hne, hall⟩ := hc
      cases hv : digitsValue 10 s 0 with
      | none => rw [hv] at h; cases h
      | some n =>
        rw [hv] at h
        simp only [Option.some.injEq] at h
        refine ⟨n, ?_, ?_, rfl, h.symm⟩
        · intro hnil
          subst hnil
          simp at hne
        · intro c hcm
          exact List.all_eq_true.mp hall c hcm

/-- The decimal reading of a string of digits. -/
theorem parseUnsignedDecimal_digits (neg : Bool) (ds : Str) (n : Nat) (hne : ds ≠ [])
    (hd : ∀ c ∈ ds, isDigit c = true) (hv : digitsValue 10 ds 0 = some n) :
    parseUnsignedDecimal neg ds = roundToDouble neg n 1 := by
  have htake : ds.takeWhile isDigit = ds := List.takeWhile_eq_self_iff.mpr hd
  have hdrop : ds.dropWhile isDigit = [] := List.dropWhile_eq_nil_iff.mpr hd
  have hemp : ds.isEmpty = false := by
    cases ds with
    | nil => exact absurd rfl hne
    | cons a t => rfl
  have hp : power 10 0 = 1 := rfl
  simp [parseUnsignedDecimal, htake, hdrop, hemp, hv, decimalToDouble, hp]

/-- The reading of a string of digits as a number. -/
theorem stringToNumber_digits (ds : Str) (n : Nat) (hne : ds ≠ [])
    (hd : ∀ c ∈ ds, isDigit c = true) (hv : digitsValue 10 ds 0 = some n) :
    stringToNumber ds = roundToDouble false n 1 := by
  have htrim : trim ds = ds := trim_self ds (fun c hc => not_ws_of_digit c (hd c hc))
  rw [← parseUnsignedDecimal_digits false ds n hne hd hv]
  unfold stringToNumber
  simp only [htrim]
  split
  · exact absurd rfl hne
  · rename_i x t
    have hx : isDigit x = true := hd x (by simp)
    have h1 : (x == 'x' || x == 'X') = false := by
      cases hb : (x == 'x' || x == 'X') with
      | false => rfl
      | true =>
        simp only [Bool.or_eq_true, beq_iff_eq] at hb
        rcases hb with rfl | rfl <;> revert hx <;> decide
    have h2 : (x == 'o' || x == 'O') = false := by
      cases hb : (x == 'o' || x == 'O') with
      | false => rfl
      | true =>
        simp only [Bool.or_eq_true, beq_iff_eq] at hb
        rcases hb with rfl | rfl <;> revert hx <;> decide
    have h3 : (x == 'b' || x == 'B') = false := by
      cases hb : (x == 'b' || x == 'B') with
      | false => rfl
      | true =>
        simp only [Bool.or_eq_true, beq_iff_eq] at hb
        rcases hb with rfl | rfl <;> revert hx <;> decide
    simp [h1, h2, h3]
  · cases ds with
    | nil => exact absurd rfl hne
    | cons c t =>
      have hc : isDigit c = true := hd c (by simp)
      have hsign : takeSign (c :: t) = (false, c :: t) := by
        unfold takeSign
        split
        · rename_i heq
          injection heq with heq _
          rw [heq] at hc
          exact absurd hc (by decide)
        · rename_i heq
          injection heq with heq _
          rw [heq] at hc
          exact absurd hc (by decide)
        · rfl
      have hinf : (c :: t == "Infinity".toList) = false := by
        cases hb : (c :: t == "Infinity".toList) with
        | false => rfl
        | true =>
          have := eq_of_beq hb
          injection this with this _
          subst this
          revert hc
          decide
      simp only [hsign, hinf]
      rfl

/-- The reading of a minus sign and a string of digits as a number. -/
theorem stringToNumber_negative (ds : Str) (n : Nat) (hne : ds ≠ [])
    (hd : ∀ c ∈ ds, isDigit c = true) (hv : digitsValue 10 ds 0 = some n) :
    stringToNumber ('-' :: ds) = roundToDouble true n 1 := by
  have htrim : trim ('-' :: ds) = '-' :: ds := by
    apply trim_self
    intro c hc
    rcases List.mem_cons.mp hc with rfl | hc
    · decide
    · exact not_ws_of_digit c (hd c hc)
  rw [← parseUnsignedDecimal_digits true ds n hne hd hv]
  unfold stringToNumber
  simp only [htrim]
  cases ds with
  | nil => exact absurd rfl hne
  | cons c t =>
    have hc : isDigit c = true := hd c (by simp)
    have hinf : (c :: t == "Infinity".toList) = false := by
      cases hb : (c :: t == "Infinity".toList) with
      | false => rfl
      | true =>
        have := eq_of_beq hb
        injection this with this _
        subst this
        revert hc
        decide
    simp only [takeSign, hinf]
    rfl

/-- A decimal integer string of magnitude up to `2 ^ 53` reads as the number
it denotes. -/
theorem stringToNumber_decimalInt (s : Str) (a : Int) (h : decimalInt s = some a)
    (hb : a.natAbs ≤ 2 ^ 53) :
    ∃ d : Nat, 0 < d ∧ stringToNumber s = .fin (a * (d : Int)) d := by
  rcases decimalInt_some s a h with ⟨ds, n, rfl, hne, hd, hv, rfl⟩ | ⟨n, hne, hd, hv, rfl⟩
  · have hn : n ≤ 2 ^ 53 := by simpa using hb
    obtain ⟨d, hd0, hr⟩ := roundToDouble_exact true n hn
    refine ⟨d, hd0, ?_⟩
    rw [stringToNumber_negative ds n hne hd hv, hr]
    simp
  · have hn : n ≤ 2 ^ 53 := by simpa using hb
    obtain ⟨d, hd0, hr⟩ := roundToDouble_exact false n hn
    refine ⟨d, hd0, ?_⟩
    rw [stringToNumber_digits s n hne hd hv, hr]
    simp

end

section

open TemplateEngine

theorem lt_fin (a b : Int) (d e : Nat) (hd : 0 < d) (he : 0 < e) :
    JSNum.lt (.fin (a * (d : Int)) d) (.fin (b * (e : Int)) e) = decide (a < b) := by
  simp only [JSNum.lt]
  have hd0 : (0 : Int) < (d : Int) := by exact_mod_cast hd
  have he0 : (0 : Int) < (e : Int) := by exact_mod_cast he
  have hde : (0 : Int) < (d : Int) * (e : Int) := Int.mul_pos hd0 he0
  have h1 : a * (d : Int) * (e : Int) = a * ((d : Int) * (e : Int)) := by ring
  have h2 : b * (e : Int) * (d : Int) = b * ((d : Int) * (e : Int)) := by ring
  rw [h1, h2]
  congr 1
  exact propext (mul_lt_mul_right hde)

/-- An ordering comparison of two decimal integer strings of magnitude up to
`2 ^ 53` is the comparison of the integers. -/
theorem evalCondition_decimalInt (op v lit : Str) (a b : Int) (hop : op ∈ orderingOperators)
    (hv : decimalInt v = some a) (hl : decimalInt lit = some b)
    (ha : a.natAbs ≤ 2 ^ 53) (hb : b.natAbs ≤ 2 ^ 53) :
    evalCondition op (.str v) lit = holds op a b := by
  obtain ⟨d, hd, hvn⟩ := stringToNumber_decimalInt v a hv ha
  obtain ⟨e, he, hln⟩ := stringToNumber_decimalInt lit b hl hb
  simp only [orderingOperators, List.mem_cons, List.mem_singleton, List.not_mem_nil,
    or_false] at hop
  have hnot : ∀ x y : Int, (!decide (x < y)) = decide (y ≤ x) := by
    intro x y
    by_cases h : x < y
    · simp [h]
    · simp [h, not_lt.mp h]
  have hab := hnot a b
  have hba := hnot b a
  rcases hop with rfl | rfl | rfl | rfl
  · simp only [evalCondition, holds, JSValue.toNumber, hvn, hln, JSNum.gt, lt_fin _ _ _ _ he hd]
    rfl
  · simp only [evalCondition, holds, JSValue.toNumber, hvn, hln, lt_fin _ _ _ _ hd he]
    rfl
  · simp only [evalCondition, holds, JSValue.toNumber, hvn, hln, JSNum.ge, JSNum.isNaN,
      lt_fin _ _ _ _ hd he, Bool.not_true, Bool.not_false, Bool.true_and, hab]
    rfl
  · simp only [evalCondition, holds, JSValue.toNumber, hvn, hln, JSNum.le, JSNum.isNaN,
      lt_fin _ _ _ _ he hd, Bool.not_true, Bool.not_false, Bool.true_and, hba]
    rfl

/-- An ordering comparison against a literal that reads as NaN is false. -/
theorem evalCondition_nan (op lit : Str) (x : JSValue) (hop : op ∈ orderingOperators)
    (hnan : (stringToNumber lit).isNaN = true) : evalCondition op x lit = false := by
  have hn : stringToNumber lit = .nan := by
    cases h : stringToNumber lit with
    | nan => rfl
    | inf s => rw [h] at hnan; cases hnan
    | fin p q => rw [h] at hnan; cases hnan
  simp only [orderingOperators, List.mem_cons, List.mem_singleton, List.not_mem_nil,
    or_false] at hop
  rcases hop with rfl | rfl | rfl | rfl
  · simp only [evalCondition, hn, JSNum.gt, JSNum.lt]
    rfl
  · simp only [evalCondition, hn]
    cases x.toNumber <;> rfl
  · simp only [evalCondition, hn, JSNum.ge, JSNum.isNaN]
    cases x.toNumber <;> rfl
  · simp only [evalCondition, hn, JSNum.le, JSNum.isNaN]
    cases x.toNumber <;> rfl

/-- The second pass leaves a text without the closing tag as it is. -/
theorem replaceAll_existence_none (f : MatchInfo → Str) (s : Str)
    (h : includes s "\x7b\x7bendif\x7d\x7d".toList = false) :
    replaceAll existenceRegex f s = s :=
  replaceAll_no_match _ _ _ (fun l t ht => matchAt_existence_endif l t (includes_suffix s _ t h ht))

/-- A comparison block renders as its body or as nothing, as the condition of
its operator decides. -/
theorem processConditionals_comparison (vars : Bag) (name op lit body : Str)
    (hname : name ≠ []) (hword : ∀ ch ∈ name, isWordChar ch = true)
    (hop : op ∈ orderingOperators) (hlit : lit ≠ []) (hquote : ∀ ch ∈ lit, ch ≠ '"')
    (hbody : includes body "\x7b\x7bendif\x7d\x7d".toList = false) :
    processConditionals (comparisonBlock name op lit body) vars =
      if evalCondition op (getProp vars name) lit then body else [] := by
  have hop2 : op = ">".toList ∨ op = "<".toList ∨ op = ">=".toList ∨ op = "<=".toList := by
    simpa [orderingOperators] using hop
  obtain ⟨y, hm, hy⟩ := matchAt_conditional [] name op lit body hname hword hop2 hlit hquote hbody
  have hshape : comparisonBlock name op lit body =
      "\x7b\x7bif".toList ++ ([' '] ++ (name ++ ([' '] ++ (op ++
        ([' '] ++ ('"' :: (lit ++ ("\"\x7d\x7d".toList ++ (body ++
          ("\x7b\x7bendif\x7d\x7d".toList ++ [])))))))))) := by
    simp only [comparisonBlock, List.append_assoc, List.append_nil]
    rfl
  rw [hshape]
  obtain ⟨B, hB⟩ : ∃ B : Str, B = "\x7b\x7bif".toList ++ ([' '] ++ (name ++ ([' '] ++ (op ++
        ([' '] ++ ('"' :: (lit ++ ("\"\x7d\x7d".toList ++ (body ++
          ("\x7b\x7bendif\x7d\x7d".toList ++ [])))))))))) := ⟨_, rfl⟩
  rw [← hB] at hm ⊢
  have hne : B ≠ [] := by
    rw [hB]
    simp
  have hpieces := pieces_whole conditionalRegex B.length [] B y _ hm hy hne
    (fun l => matchAt_conditional_none l [] (by decide))
  have hfirst : replaceAll conditionalRegex (fun info =>
      if evalCondition (arg info 2) (getProp vars (arg info 1)) (arg info 3) then arg info 4
      else []) B = if evalCondition op (getProp vars name) lit then body else [] := by
    simp [replaceAll, hpieces, render, arg, capture]
  simp only [processConditionals]
  rw [hfirst]
  apply replaceAll_existence_none
  split_ifs
  · exact hbody
  · rfl

end

section

open TemplateEngine

/-- A decimal integer string is not empty and holds no double quote. -/
theorem decimalInt_plain (s : Str) (a : Int) (h : decimalInt s = some a) :
    s ≠ [] ∧ ∀ ch ∈ s, ch ≠ '"' := by
  have hdq : ∀ ch : Char, isDigit ch = true → ch ≠ '"' := by
    intro ch hch heq
    rw [heq] at hch
    exact absurd hch (by decide)
  rcases decimalInt_some s a h with ⟨ds, n, rfl, _, hd, _, _⟩ | ⟨n, hne, hd, _, _⟩
  · refine ⟨List.cons_ne_nil _ _, ?_⟩
    intro ch hch
    rcases List.mem_cons.mp hch with rfl | hch
    · decide
    · exact hdq ch (hd ch hch)
  · exact ⟨hne, fun ch hch => hdq ch (hd ch hch)⟩

/-- C8, as the code has it: for a variable value `v` and a literal `l` that are decimal
integer strings denoting integers `a` and `b` of magnitude up to `2 ^ 53`,
for a name made of word characters, each ordering operator and every body
that does not contain the closing tag, `processConditionals` renders the
comparison block as the body exactly when the comparison of `a` and `b` holds,
and as the empty string otherwise. -/
theorem processConditionals_ordering (vars : Bag) (name op v lit body : Str) (a b : Int)
    (hname : name ≠ []) (hword : ∀ ch ∈ name, isWordChar ch = true)
    (hop : op ∈ orderingOperators) (hget : getProp vars name = .str v)
    (hv : decimalInt v = some a) (hl : decimalInt lit = some b)
    (ha : a.natAbs ≤ 2 ^ 53) (hb : b.natAbs ≤ 2 ^ 53)
    (hbody : includes body "\x7b\x7bendif\x7d\x7d".toList = false) :
    processConditionals (comparisonBlock name op lit body) vars =
      if holds op a b then body else [] := by
  obtain ⟨hlit, hquote⟩ := decimalInt_plain lit b hl
  rw [processConditionals_comparison vars name op lit body hname hword hop hlit hquote hbody,
    hget, evalCondition_decimalInt op v lit a b hop hv hl ha hb]

/-- The statement of `processConditionals_ordering` at the block
`{{if amt > "0"}}positive{{endif}}` with `amt = "5"` and with `amt = "-1"`. -/
theorem processConditionals_ordering_witness :
    processConditionals (comparisonBlock "amt".toList ">".toList "0".toList "positive".toList)
        [("amt".toList, .str "5".toList)] =
        (if holds ">".toList 5 0 then "positive".toList else [])
      ∧ processConditionals (comparisonBlock "amt".toList ">".toList "0".toList "positive".toList)
        [("amt".toList, .str "-1".toList)] =
        (if holds ">".toList (-1) 0 then "positive".toList else []) :=
  ⟨processConditionals_ordering [("amt".toList, .str "5".toList)] "amt".toList ">".toList
      "5".toList "0".toList "positive".toList 5 0 (by decide) (by decide) (by decide) rfl rfl rfl
      (by decide) (by decide) (by decide),
    processConditionals_ordering [("amt".toList, .str "-1".toList)] "amt".toList ">".toList
      "-1".toList "0".toList "positive".toList (-1) 0 (by decide) (by decide) (by decide) rfl rfl rfl
      (by decide) (by decide) (by decide)⟩

/-- C8 as stated fails: `9007199254740993` and `9007199254740992` are decimal
integer strings and the first integer is greater than the second, yet the
block `{{if n > "9007199254740992"}}big{{endif}}` renders as the empty string
for `n = "9007199254740993"`, because both read as the same double. -/
theorem processConditionals_ordering_rounds :
    decimalInt "9007199254740993".toList = some 9007199254740993
      ∧ decimalInt "9007199254740992".toList = some 9007199254740992
      ∧ holds ">".toList 9007199254740993 9007199254740992 = true
      ∧ includes "big".toList "\x7b\x7bendif\x7d\x7d".toList = false
      ∧ processConditionals
          (comparisonBlock "n".toList ">".toList "9007199254740992".toList "big".toList)
          [("n".toList, .str "9007199254740993".toList)] = [] := by
  refine ⟨by rfl, by rfl, by rfl, by rfl, by rfl⟩

/-- C9, as the code has it: for a literal whose reading as a number is NaN, for a name
made of word characters, each ordering operator and every body that does not
contain the closing tag, `processConditionals` renders the comparison block
as the empty string, whatever the bag holds. -/
theorem processConditionals_ordering_nan (vars : Bag) (name op lit body : Str)
    (hname : name ≠ []) (hword : ∀ ch ∈ name, isWordChar ch = true)
    (hop : op ∈ orderingOperators) (hlit : lit ≠ []) (hquote : ∀ ch ∈ lit, ch ≠ '"')
    (hnan : (stringToNumber lit).isNaN = true)
    (hbody : includes body "\x7b\x7bendif\x7d\x7d".toList = false) :
    processConditionals (comparisonBlock name op lit body) vars = [] := by
  rw [processConditionals_comparison vars name op lit body hname hword hop hlit hquote hbody,
    evalCondition_nan op lit _ hop hnan]
  rfl

/-- The statement of `processConditionals_ordering_nan` at the block
`{{if amt >= "abc"}}positive{{endif}}` with `amt = "5"`. -/
theorem processConditionals_ordering_nan_witness :
    processConditionals (comparisonBlock "amt".toList ">=".toList "abc".toList "positive".toList)
      [("amt".toList, .str "5".toList)] = [] :=
  processConditionals_ordering_nan [("amt".toList, .str "5".toList)] "amt".toList ">=".toList
    "abc".toList "positive".toList (by decide) (by decide) (by decide) (by decide) (by decide)
    (by rfl) (by decide)

/-- C9 as stated fails: the literal of one space is not empty and is not a
number, yet it reads as the number 0, and the block
`{{if amt >= " "}}positive{{endif}}` renders as its body for `amt = "5"`. -/
theorem processConditionals_ordering_space :
    decimalInt " ".toList = none
      ∧ " ".toList.any isDigit = false
      ∧ stringToNumber " ".toList = .fin 0 1
      ∧ processConditionals
          (comparisonBlock "amt".toList ">=".toList " ".toList "positive".toList)
          [("amt".toList, .str "5".toList)] = "positive".toList := by
  refine ⟨by rfl, by rfl, by rfl, by rfl⟩

end

section

open TemplateEngine

/-- A pattern occurs in a concatenation only inside a part or across the
seam. -/
theorem includes_append_false (x y p : Str) (hx : includes x p = false)
    (hy : includes y p = false)
    (hseam : ∀ n, 0 < n → n < p.length → p.take n <:+ x → p.drop n <+: y → False) :
    includes (x ++ y) p = false := by
  cases h : includes (x ++ y) p with
  | false => rfl
  | true =>
    exfalso
    rcases includes_append x y p h with h1 | h2 | ⟨p1, p2, hp, hp1, hp2, hs, hpre⟩
    · rw [hx] at h1
      cases h1
    · rw [hy] at h2
      cases h2
    · have hlen1 : 0 < p1.length := List.length_pos.mpr hp1
      have hlen2 : 0 < p2.length := List.length_pos.mpr hp2
      refine hseam p1.length hlen1 ?_ ?_ ?_
      · rw [hp, List.length_append]
        omega
      · rw [hp, List.take_left']
        · exact hs
        · rfl
      · rw [hp, List.drop_left']
        · exact hpre
        · rfl

/-- The opening tag does not occur in a name. -/
theorem includes_name (name : Str) (hword : ∀ ch ∈ name, isWordChar ch = true) :
    includes name "\x7b\x7bif".toList = false := by
  cases h : includes name "\x7b\x7bif".toList with
  | false => rfl
  | true =>
    exfalso
    obtain ⟨t, ht, hp⟩ := (includes_iff _ _).mp h
    have hmem : '\x7b' ∈ name := ht.subset (hp.subset (by decide))
    exact absurd (hword _ hmem) (by decide)

/-- After its first character, an existence block whose body has no opening
tag has no opening tag. -/
theorem includes_existence_tail (name body : Str) (hword : ∀ ch ∈ name, isWordChar ch = true)
    (hif : includes body "\x7b\x7bif".toList = false) :
    includes ("\x7bif ".toList ++ (name ++ ("\x7d\x7d".toList ++
      (body ++ "\x7b\x7bendif\x7d\x7d".toList)))) "\x7b\x7bif".toList = false := by
  have h1 : includes (body ++ "\x7b\x7bendif\x7d\x7d".toList) "\x7b\x7bif".toList = false := by
    apply includes_append_false _ _ _ hif (by decide)
    intro n hn0 hn4 _ hpre
    have hn : n = 1 ∨ n = 2 ∨ n = 3 := by
      have : "\x7b\x7bif".toList.length = 4 := rfl
      omega
    rcases hn with rfl | rfl | rfl <;> exact absurd hpre (by decide)
  have h2 : includes ("\x7d\x7d".toList ++ (body ++ "\x7b\x7bendif\x7d\x7d".toList))
      "\x7b\x7bif".toList = false := by
    apply includes_append_false _ _ _ (by decide) h1
    intro n hn0 hn4 hsuf _
    have hn : n = 1 ∨ n = 2 ∨ n = 3 := by
      have : "\x7b\x7bif".toList.length = 4 := rfl
      omega
    rcases hn with rfl | rfl | rfl <;> exact absurd hsuf (by decide)
  have h3 : includes (name ++ ("\x7d\x7d".toList ++ (body ++ "\x7b\x7bendif\x7d\x7d".toList)))
      "\x7b\x7bif".toList = false := by
    apply includes_append_false _ _ _ (includes_name name hword) h2
    intro n hn0 hn4 hsuf _
    have hn : n = 1 ∨ n = 2 ∨ n = 3 := by
      have : "\x7b\x7bif".toList.length = 4 := rfl
      omega
    have hmem : '\x7b' ∈ name := by
      rcases hn with rfl | rfl | rfl <;> exact hsuf.subset (by decide)
    exact absurd (hword _ hmem) (by decide)
  apply includes_append_false _ _ _ (by decide) h3
  intro n hn0 hn4 hsuf _
  have hn : n = 1 ∨ n = 2 ∨ n = 3 := by
    have : "\x7b\x7bif".toList.length = 4 := rfl
    omega
  rcases hn with rfl | rfl | rfl <;> exact absurd hsuf (by decide)

/-- C10, as the code has it: for every bag, a name made of word characters and every
body that contains neither the closing tag nor the opening tag,
`processConditionals` renders the existence block as the body if the value
that the bag gives for the name is truthy and its string form, trimmed, is
not empty, and as the empty string otherwise. -/
theorem processConditionals_existence (vars : Bag) (name body : Str)
    (hname : name ≠ []) (hword : ∀ ch ∈ name, isWordChar ch = true)
    (hbody : includes body "\x7b\x7bendif\x7d\x7d".toList = false)
    (hif : includes body "\x7b\x7bif".toList = false) :
    processConditionals (existenceBlock name body) vars =
      if (getProp vars name).truthy && !(trim (getProp vars name).toStr).isEmpty then body
      else [] := by
  obtain ⟨y, hm, hy⟩ := matchAt_existence [] name body hname hword hbody
  have hshape : existenceBlock name body =
      "\x7b\x7bif".toList ++ ([' '] ++ (name ++
        ("\x7d\x7d".toList ++ (body ++ ("\x7b\x7bendif\x7d\x7d".toList ++ []))))) := by
    simp only [existenceBlock, List.append_assoc, List.append_nil]
    rfl
  have htail : ∀ s, s <:+ ("\x7bif ".toList ++ (name ++ ("\x7d\x7d".toList ++
      (body ++ "\x7b\x7bendif\x7d\x7d".toList)))) → ¬ "\x7b\x7bif".toList <+: s :=
    fun s hs => not_prefix_of_not_includes _ _ s (includes_existence_tail name body hword hif) hs
  have hnone : ∀ l s, s <:+ existenceBlock name body →
      matchAt conditionalRegex ⟨l, s⟩ = none := by
    intro l s hs
    rw [hshape] at hs
    rcases List.suffix_cons_iff.mp hs with heq | hs2
    · rw [heq]
      exact matchAt_conditional_existence l name _ hname hword
    · apply matchAt_conditional_none
      apply htail s
      simpa using hs2
  rw [hshape] at hnone ⊢
  obtain ⟨B, hB⟩ : ∃ B : Str, B = "\x7b\x7bif".toList ++ ([' '] ++ (name ++
        ("\x7d\x7d".toList ++ (body ++ ("\x7b\x7bendif\x7d\x7d".toList ++ []))))) := ⟨_, rfl⟩
  rw [← hB] at hm hnone ⊢
  have hne : B ≠ [] := by
    rw [hB]
    simp
  have hpieces := pieces_whole existenceRegex B.length [] B y _ hm hy hne
    (fun l => matchAt_existence_none l [] (by decide))
  simp only [processConditionals]
  rw [replaceAll_no_match conditionalRegex _ B hnone]
  simp [replaceAll, hpieces, render, arg, capture]

/-- The statement of `processConditionals_existence` at the block
`{{if note}}Note{{endif}}` with `note = "x"`. -/
theorem processConditionals_existence_witness :
    processConditionals (existenceBlock "note".toList "Note".toList)
        [("note".toList, .str "x".toList)] =
      (if (getProp [("note".toList, .str "x".toList)] "note".toList).truthy &&
          !(trim (getProp [("note".toList, JSValue.str "x".toList)]
            "note".toList).toStr).isEmpty then "Note".toList
        else []) :=
  processConditionals_existence [("note".toList, .str "x".toList)] "note".toList "Note".toList
    (by decide) (by decide) (by decide) (by decide)

/-- C10 as stated fails, in two ways. In the bag `{n: 0}` the name `n` is
present and its string form is `0`, which is not empty, yet the block
`{{if n}}B{{endif}}` renders as the empty string, since the number 0 is falsy.
And the body `{{if b == "1"}}Y` does not contain the closing tag, yet with
`a = "x"` and `b = "1"` the block `{{if a}}{{if b == "1"}}Y{{endif}}` renders
as `{{if a}}Y`, not as the body: the comparison pass pairs the inner opening
tag with the closing tag first. -/
theorem processConditionals_existence_zero :
    ownProp [("n".toList, .num (JSNum.ofInt 0))] "n".toList = some (.num (JSNum.ofInt 0))
      ∧ trim (JSValue.num (JSNum.ofInt 0)).toStr = "0".toList
      ∧ includes "B".toList "\x7b\x7bendif\x7d\x7d".toList = false
      ∧ processConditionals (existenceBlock "n".toList "B".toList)
          [("n".toList, .num (JSNum.ofInt 0))] = []
      ∧ includes "\x7b\x7bif b == \"1\"\x7d\x7dY".toList "\x7b\x7bendif\x7d\x7d".toList = false
      ∧ processConditionals (existenceBlock "a".toList "\x7b\x7bif b == \"1\"\x7d\x7dY".toList)
          [("a".toList, .str "x".toList), ("b".toList, .str "1".toList)] =
          "\x7b\x7bif a\x7d\x7dY".toList := by
  refine ⟨by rfl, by rfl, by rfl, by rfl, by rfl, by rfl⟩

end

section

/-! ## The cache -/

mutual
theorem jsonImage_isJsonValue : ∀ v : JSValue, isJsonValue v = true → jsonImage v = v
  | .null, _ => rfl
  | .bool _, _ => rfl
  | .num (.fin _ _), _ => rfl
  | .num .nan, h => by simp [isJsonValue] at h
  | .num (.inf _), h => by simp [isJsonValue] at h
  | .str _, _ => rfl
  | .arr items, h => by
    simp only [isJsonValue] at h
    simp only [jsonImage, jsonImageItems_areJsonValues items h]
  | .obj fs, h => by
    simp only [isJsonValue] at h
    simp only [jsonImage, jsonImageFields_areJsonFields fs h]
  | .undefined, h => by simp [isJsonValue] at h
  | .native _, h => by simp [isJsonValue] at h
theorem jsonImageItems_areJsonValues : ∀ items : List JSValue, areJsonValues items = true →
    jsonImageItems items = items
  | [], _ => rfl
  | x :: r, h => by
    simp only [areJsonValues, Bool.and_eq_true] at h
    simp only [jsonImageItems, jsonImage_isJsonValue x h.1, jsonImageItems_areJsonValues r h.2]
theorem jsonImageFields_areJsonFields : ∀ fs : Bag, areJsonFields fs = true →
    jsonImageFields fs = fs
  | [], _ => rfl
  | (k, v) :: r, h => by
    simp only [areJsonFields, Bool.and_eq_true] at h
    have hv := jsonImage_isJsonValue v h.1
    have hr := jsonImageFields_areJsonFields r h.2
    cases v with
    | undefined => simp [isJsonValue] at h
    | native n => simp [isJsonValue] at h
    | null => simp only [jsonImageFields, hr, jsonImage]
    | bool b => simp only [jsonImageFields, hr, jsonImage]
    | num x => simp only [jsonImageFields, hr, hv]
    | str s => simp only [jsonImageFields, hr, jsonImage]
    | arr items => simp only [jsonImageFields, hr, hv]
    | obj fs => simp only [jsonImageFields, hr, hv]
end

theorem find_map_same (k : Str) (v : Stored) : ∀ l : List (Str × Stored),
    l.any (fun e => e.1 == k) = true →
    (l.map (fun e => if e.1 == k then (k, v) else e)).find? (fun e => e.1 == k) = some (k, v)
  | [], h => by cases h
  | e :: r, h => by
    rw [List.map_cons, List.find?_cons]
    by_cases he : (e.1 == k) = true
    · rw [if_pos he]
      simp
    · rw [if_neg he]
      have he2 : (e.1 == k) = false := by simpa using he
      rw [he2]
      rw [List.any_cons, he2, Bool.false_or] at h
      exact find_map_same k v r h

theorem find_append_new (k : Str) (v : Stored) : ∀ l : List (Str × Stored),
    l.any (fun e => e.1 == k) = false →
    (l ++ [(k, v)]).find? (fun e => e.1 == k) = some (k, v)
  | [], _ => by simp [List.find?]
  | e :: r, h => by
    rw [List.any_cons, Bool.or_eq_false_iff] at h
    rw [List.cons_append, List.find?_cons, h.1]
    exact find_append_new k v r h.2

theorem getProperty_setProperty (w : World) (k : Str) (v : Stored) :
    getProperty (setProperty w k v) k = some v := by
  simp only [getProperty, setProperty]
  by_cases hany : w.props.any (fun e => e.1 == k) = true
  · rw [if_pos hany, find_map_same k v _ hany]
    rfl
  · rw [if_neg hany, find_append_new k v _ (Bool.eq_false_iff.mpr hany)]
    rfl

theorem now_setProperty (w : World) (k : Str) (v : Stored) : (setProperty w k v).now = w.now := rfl

theorem find_filter_ne (k k2 : Str) : ∀ l : List (Str × Stored),
    (l.filter (fun e => !(e.1 == k))).find? (fun e => e.1 == k2) =
      if k2 = k then none else l.find? (fun e => e.1 == k2)
  | [] => by simp
  | e :: r => by
    have ih := find_filter_ne k k2 r
    by_cases hek : (e.1 == k) = true
    · have hf : (!(e.1 == k)) = false := by simp [hek]
      rw [List.filter_cons, hf]
      simp only [Bool.false_eq_true, if_false]
      rw [ih, List.find?_cons]
      by_cases hk2 : k2 = k
      · rw [if_pos hk2, if_pos hk2]
      · rw [if_neg hk2, if_neg hk2]
        have hne : (e.1 == k2) = false := by
          have h1 : e.1 = k := by simpa using hek
          simp only [beq_eq_false_iff_ne, ne_eq]
          intro h2
          exact hk2 (h2.symm.trans h1)
        rw [hne]
    · have hf : (!(e.1 == k)) = true := by simp [hek]
      rw [List.filter_cons, hf]
      simp only [if_true]
      rw [List.find?_cons, List.find?_cons]
      by_cases he2 : (e.1 == k2) = true
      · rw [he2]
        have hk2 : ¬ k2 = k := by
          intro h
          have h1 : e.1 = k2 := by simpa using he2
          exact hek (by simpa using h1.trans h)
        rw [if_neg hk2]
      · have he3 : (e.1 == k2) = false := by simpa using he2
        rw [he3]
        exact ih

theorem getProperty_deleteProperty (w : World) (k k2 : Str) :
    getProperty (deleteProperty w k) k2 = if k2 = k then none else getProperty w k2 := by
  simp only [getProperty, deleteProperty, find_filter_ne]
  split_ifs <;> rfl

end

section

theorem jsonImageFields_cons (k : Str) (v : JSValue) (r : Bag) (hv : isJsonValue v = true) :
    jsonImageFields ((k, v) :: r) = (k, v) :: jsonImageFields r := by
  have h := jsonImage_isJsonValue v hv
  cases v with
  | undefined => simp [isJsonValue] at hv
  | native n => simp [isJsonValue] at hv
  | null => simp only [jsonImageFields, jsonImage]
  | bool b => simp only [jsonImageFields, jsonImage]
  | num x => simp only [jsonImageFields, h]
  | str s => simp only [jsonImageFields, jsonImage]
  | arr items => simp only [jsonImageFields, h]
  | obj fs => simp only [jsonImageFields, h]

/-- The expiry that `set` writes: the clock plus the minutes, or `null` for
zero minutes. -/
theorem expiry_of_set (w : World) (key : Str) (value : JSValue) (ttl : Int) :
    ∃ fs, getProperty (CacheService.set w key value ttl) (CacheService.keyPrefix ++ key) = some (.json (.obj fs)) ∧
      field (.obj fs) "expiry".toList =
        (if ttl ≠ 0 then .num (.ofInt (w.now + ttl * 60 * 1000)) else .null) := by
  simp only [CacheService.set, getProperty_setProperty]
  by_cases h0 : ttl ≠ 0
  · simp only [if_pos h0]
    cases value <;> exact ⟨_, rfl, rfl⟩
  · simp only [if_neg h0]
    cases value <;> exact ⟨_, rfl, rfl⟩

/-- An expiry at or after the clock, or none, is not expired. -/
theorem expired_of_set (w w1 : World) (fs : Bag) (ttl : Nat) (hnow : w1.now = w.now)
    (hf : field (.obj fs) "expiry".toList =
      (if (ttl : Int) ≠ 0 then .num (.ofInt (w.now + (ttl : Int) * 60 * 1000)) else .null)) :
    CacheService.expired w1 (.obj fs) = false := by
  simp only [CacheService.expired, hf, hnow]
  by_cases h0 : (ttl : Int) ≠ 0
  · simp only [if_pos h0, JSValue.toNumber, JSNum.ofInt, JSNum.lt]
    have hge : ¬ ((w.now + (ttl : Int) * 60 * 1000) * ((1 : Nat) : Int) < w.now * ((1 : Nat) : Int)) := by
      have : (0 : Int) ≤ (ttl : Int) := Int.ofNat_nonneg ttl
      omega
    simp [hge]
  · simp only [if_neg h0]
    rfl

/-- An entry written with a number of minutes that is not negative reads back
at the same clock reading. -/
theorem get_after_set (w : World) (key : Str) (value : JSValue) (ttl : Nat)
    (hv : isJsonValue value = true) :
    (CacheService.get (CacheService.set w key value ttl) key).1 = value := by
  have hentry : getProperty (CacheService.set w key value ttl) (CacheService.keyPrefix ++ key) =
      some (.json (.obj [("value".toList, value),
        ("expiry".toList, if (ttl : Int) ≠ 0 then .num (.ofInt (w.now + (ttl : Int) * 60 * 1000))
          else .null),
        ("created".toList, .num (.ofInt w.now))])) := by
    simp only [CacheService.set, getProperty_setProperty, jsonImage, jsonImageFields_cons _ _ _ hv]
    by_cases h0 : (ttl : Int) ≠ 0
    · simp only [if_pos h0]
      rfl
    · simp only [if_neg h0]
      rfl
  have hexp := expired_of_set w (CacheService.set w key value ttl) _ ttl rfl
    (show field (.obj [("value".toList, value),
        ("expiry".toList, if (ttl : Int) ≠ 0 then .num (.ofInt (w.now + (ttl : Int) * 60 * 1000))
          else .null),
        ("created".toList, .num (.ofInt w.now))]) "expiry".toList = _ from rfl)
  simp only [CacheService.get, hentry, JSValue.isNullish, hexp]
  rfl

/-- C13 (amended): for every key, every serialisable value and every number of
minutes `ttl` that is not negative (an integer, as `set` takes it), `set(key,
value, ttl)` followed by `get(key)` at the same clock reading returns `value`
unchanged. -/
theorem set_then_get (w : World) (key : Str) (value : JSValue) (ttl : Int)
    (hv : isJsonValue value = true) (httl : 0 ≤ ttl) :
    (CacheService.get (CacheService.set w key value ttl) key).1 = value := by
  obtain ⟨n, hn⟩ := Int.eq_ofNat_of_zero_le httl
  subst hn
  exact get_after_set w key value n hv

/-- The statement of `set_then_get` for the value `{"n": [1, "x", null]}`
kept for 30 minutes. -/
theorem set_then_get_witness :
    (CacheService.get (CacheService.set (sampleWorld "Hello" "[]") "k".toList
      (.obj [("n".toList, .arr [.num (.ofInt 1), .str "x".toList, .null])]) 30)
      "k".toList).1 = .obj [("n".toList, .arr [.num (.ofInt 1), .str "x".toList, .null])] :=
  set_then_get (sampleWorld "Hello" "[]") "k".toList
    (.obj [("n".toList, .arr [.num (.ofInt 1), .str "x".toList, .null])]) 30 (by rfl) (by decide)

/-- C13 as stated fails for a negative number of minutes: `set("k", "v", -1)`
writes an expiry one minute before the clock, and `get("k")` at the same clock
reading returns `null` and deletes the entry. -/
theorem set_negative_then_get :
    CacheService.get (CacheService.set (sampleWorld "Hello" "[]") "k".toList
      (.str "v".toList) (-1)) "k".toList = (.null, sampleWorld "Hello" "[]") := by
  rfl

end

section

theorem getProperty_atTime (w : World) (t : Int) (k : Str) :
    getProperty (atTime w t) k = getProperty w k := rfl

/-- What `get` and `has` do with an entry that has expired: both answer that
there is none and delete it. -/
theorem expired_entry (w : World) (key : Str) (fs : Bag)
    (hentry : getProperty w (CacheService.keyPrefix ++ key) = some (.json (.obj fs)))
    (hexp : CacheService.expired w (.obj fs) = true) :
    CacheService.get w key = (.null, CacheService.delete w key) ∧
      CacheService.has w key = (false, CacheService.delete w key) := by
  simp only [CacheService.get, CacheService.has, hentry, JSValue.isNullish, hexp]
  exact ⟨rfl, rfl⟩

/-- What `get` and `has` do with an entry that has not expired. -/
theorem live_entry (w : World) (key : Str) (fs : Bag)
    (hentry : getProperty w (CacheService.keyPrefix ++ key) = some (.json (.obj fs)))
    (hexp : CacheService.expired w (.obj fs) = false) :
    CacheService.get w key = (field (.obj fs) "value".toList, w) ∧
      CacheService.has w key = (true, w) := by
  simp only [CacheService.get, CacheService.has, hentry, JSValue.isNullish, hexp]
  exact ⟨rfl, rfl⟩

/-- After `delete(key)` there is no entry for the key. -/
theorem absent_after_delete (w : World) (key : Str) :
    CacheService.get (CacheService.delete w key) key = (.null, CacheService.delete w key) ∧
      CacheService.has (CacheService.delete w key) key = (false, CacheService.delete w key) := by
  have h : getProperty (CacheService.delete w key) (CacheService.keyPrefix ++ key) = none := by
    simp [CacheService.delete, getProperty_deleteProperty]
  simp only [CacheService.get, CacheService.has, h]
  exact ⟨trivial, trivial⟩

/-- A number that is not zero and lies before the clock is an expired
expiry. -/
theorem expired_of_before (w : World) (fs : Bag) (e : JSNum)
    (hf : field (.obj fs) "expiry".toList = .num e) (hz : e.isZero = false)
    (hlt : JSNum.lt e (.ofInt w.now) = true) : CacheService.expired w (.obj fs) = true := by
  have hnan : e.isNaN = false := by
    cases e with
    | nan => simp [JSNum.lt] at hlt
    | inf b => rfl
    | fin n d => rfl
  simp only [CacheService.expired, hf, JSValue.truthy, JSValue.toNumber, hz, hnan, hlt]
  rfl

/-- A number that does not lie before the clock is not an expired expiry. -/
theorem expired_of_not_before (w : World) (fs : Bag) (e : JSNum)
    (hf : field (.obj fs) "expiry".toList = .num e)
    (hlt : JSNum.lt e (.ofInt w.now) = false) : CacheService.expired w (.obj fs) = false := by
  simp only [CacheService.expired, hf, JSValue.toNumber, hlt, Bool.and_false]

/-- C14, as the code has it: for every key, every value and every positive
number of minutes `ttl`, with a clock that is not before the epoch, after
`set(key, value, ttl)`, once the clock has advanced by more than `ttl`
minutes, `get(key)` returns `null` and a subsequent `has(key)` returns
`false`. -/
theorem set_then_expire (w : World) (key : Str) (value : JSValue) (ttl : Nat) (t : Int)
    (httl : 0 < ttl) (hnow : 0 ≤ w.now) (ht : w.now + (ttl : Int) * 60 * 1000 < t) :
    (CacheService.get (atTime (CacheService.set w key value ttl) t) key).1 = .null ∧
      (CacheService.has (CacheService.get (atTime (CacheService.set w key value ttl) t) key).2
        key).1 = false := by
  obtain ⟨fs, hentry, hf⟩ := expiry_of_set w key value ttl
  have h0 : (ttl : Int) ≠ 0 := by omega
  rw [if_pos h0] at hf
  have hexp : CacheService.expired (atTime (CacheService.set w key value ttl) t) (.obj fs) = true := by
    apply expired_of_before _ fs _ hf
    · simp only [JSNum.ofInt, JSNum.isZero, beq_eq_false_iff_ne, ne_eq]
      omega
    · simp only [JSNum.ofInt, JSNum.lt, atTime, decide_eq_true_eq]
      omega
  have hget := (expired_entry (atTime (CacheService.set w key value ttl) t) key fs
    (by rw [getProperty_atTime]; exact hentry) hexp).1
  rw [hget]
  exact ⟨rfl, by rw [(absent_after_delete _ key).2]⟩

/-- The statement of `set_then_expire` for an entry kept for 30 minutes and
read 31 minutes later. -/
theorem set_then_expire_witness :
    (CacheService.get (atTime (CacheService.set (sampleWorld "Hello" "[]") "k".toList
        (.str "v".toList) (30 : Nat)) (1736132400000 + 31 * 60 * 1000)) "k".toList).1 = .null ∧
      (CacheService.has (CacheService.get (atTime (CacheService.set (sampleWorld "Hello" "[]")
        "k".toList (.str "v".toList) (30 : Nat)) (1736132400000 + 31 * 60 * 1000))
        "k".toList).2 "k".toList).1 = false :=
  set_then_expire (sampleWorld "Hello" "[]") "k".toList (.str "v".toList) 30
    (1736132400000 + 31 * 60 * 1000) (by decide) (by decide) (by decide)

/-- C14 as stated fails: after `set(key, value, 0)` the entry has no expiry,
and a day later, which is more than zero minutes, `get(key)` still returns
the value and `has(key)` returns `true`. -/
theorem set_zero_never_expires :
    (CacheService.get (atTime (CacheService.set (sampleWorld "Hello" "[]") "k".toList
        (.str "v".toList) 0) (1736132400000 + 86400000)) "k".toList).1 = .str "v".toList ∧
      (CacheService.has (CacheService.get (atTime (CacheService.set (sampleWorld "Hello" "[]")
        "k".toList (.str "v".toList) 0) (1736132400000 + 86400000))
        "k".toList).2 "k".toList).1 = true := by
  exact ⟨by rfl, by rfl⟩

end

section

/-- What `get` does to the store: it deletes the entry under the key when the
entry has expired, and changes nothing else. -/
theorem get_store (w : World) (key : Str) :
    (CacheService.get w key).2 = if staleEntry w key then CacheService.delete w key else w := by
  unfold staleEntry CacheService.get
  cases hentry : getProperty w (CacheService.keyPrefix ++ key) with
  | none => rfl
  | some stored =>
    cases stored with
    | invalid => rfl
    | json data =>
      simp only [CacheService.expired]
      by_cases hn : data.isNullish = true
      · simp only [hn, if_true, Bool.not_true, Bool.false_and, Bool.false_eq_true, if_false]
      · have hn2 : data.isNullish = false := by simpa using hn
        simp only [hn2, Bool.false_eq_true, if_false, Bool.not_false, Bool.true_and]
        split <;> rfl

/-- The value `get` returns for an entry that has expired. -/
theorem get_stale (w : World) (key : Str) (h : staleEntry w key = true) :
    (CacheService.get w key).1 = .null := by
  unfold staleEntry at h
  unfold CacheService.get
  cases hentry : getProperty w (CacheService.keyPrefix ++ key) with
  | none => rfl
  | some stored =>
    cases stored with
    | invalid => rfl
    | json data =>
      rw [hentry] at h
      simp only [Bool.and_eq_true, Bool.not_eq_true'] at h
      have hexp : CacheService.expired w data = true := by
        simp only [CacheService.expired, h.1.2, h.2, Bool.and_self]
      simp only [h.1.1, Bool.false_eq_true, if_false, hexp, if_true]

/-- C15, as the code has it: for every state of the store and every key,
`get(key)` removes the entry exactly when it has expired, that is when the
stored string decodes to a JSON value other than `null` whose expiry is truthy
and, as a number, lies before the current time (`staleEntry`): it then returns
`null` and leaves the store equal to the old store with exactly the entry
`prefix + key` removed, every other entry unchanged. In every other case (no
entry, a string that is not JSON, an expiry that is absent, `null`, zero or not
before the current time) `get(key)` leaves the store unchanged. -/
theorem get_frame (w : World) (key : Str) :
    (staleEntry w key = true →
        (CacheService.get w key).1 = .null ∧
          (CacheService.get w key).2 =
            { w with props := w.props.filter (fun en => en.1 != CacheService.keyPrefix ++ key) } ∧
          ∀ k2, getProperty (CacheService.get w key).2 k2 =
            if k2 = CacheService.keyPrefix ++ key then none else getProperty w k2)
      ∧ (staleEntry w key = false → (CacheService.get w key).2 = w) := by
  constructor
  · intro h
    have hstore := get_store w key
    rw [h, if_pos rfl] at hstore
    refine ⟨get_stale w key h, ?_, ?_⟩
    · rw [hstore]
      rfl
    · intro k2
      rw [hstore]
      exact getProperty_deleteProperty w _ k2
  · intro h
    have hstore := get_store w key
    rw [h] at hstore
    exact hstore

/-- The statement of `get_frame` for a store with two entries: the one read
expired at time 1000 and is removed with the other left as it is, also when its
expiry is the string `"1000"`; an entry without expiry is left in the store. -/
theorem get_frame_witness :
    CacheService.get (storeWith [
        ("cache_k".toList, .json (.obj [("value".toList, .str "v".toList),
          ("expiry".toList, .num (.ofInt 1000))])),
        ("cache_j".toList, .json (.obj [("value".toList, .str "u".toList),
          ("expiry".toList, .null)]))]) "k".toList =
      (.null, storeWith [("cache_j".toList, .json (.obj [("value".toList, .str "u".toList),
          ("expiry".toList, .null)]))]) ∧
    (CacheService.get (storeWith [
        ("cache_k".toList, .json (.obj [("value".toList, .str "v".toList),
          ("expiry".toList, .str "1000".toList)])),
        ("cache_j".toList, .json (.obj [("value".toList, .str "u".toList),
          ("expiry".toList, .null)]))]) "k".toList).2 =
      storeWith [("cache_j".toList, .json (.obj [("value".toList, .str "u".toList),
          ("expiry".toList, .null)]))] ∧
    (CacheService.get (storeWith [
        ("cache_k".toList, .json (.obj [("value".toList, .str "v".toList),
          ("expiry".toList, .num (.ofInt 1000))])),
        ("cache_j".toList, .json (.obj [("value".toList, .str "u".toList),
          ("expiry".toList, .null)]))]) "j".toList).2 =
      storeWith [
        ("cache_k".toList, .json (.obj [("value".toList, .str "v".toList),
          ("expiry".toList, .num (.ofInt 1000))])),
        ("cache_j".toList, .json (.obj [("value".toList, .str "u".toList),
          ("expiry".toList, .null)]))] :=
  ⟨Prod.ext
      ((get_frame (storeWith [
        ("cache_k".toList, .json (.obj [("value".toList, .str "v".toList),
          ("expiry".toList, .num (.ofInt 1000))])),
        ("cache_j".toList, .json (.obj [("value".toList, .str "u".toList),
          ("expiry".toList, .null)]))]) "k".toList).1 rfl).1
      ((get_frame (storeWith [
        ("cache_k".toList, .json (.obj [("value".toList, .str "v".toList),
          ("expiry".toList, .num (.ofInt 1000))])),
        ("cache_j".toList, .json (.obj [("value".toList, .str "u".toList),
          ("expiry".toList, .null)]))]) "k".toList).1 rfl).2.1,
    ((get_frame (storeWith [
        ("cache_k".toList, .json (.obj [("value".toList, .str "v".toList),
          ("expiry".toList, .str "1000".toList)])),
        ("cache_j".toList, .json (.obj [("value".toList, .str "u".toList),
          ("expiry".toList, .null)]))]) "k".toList).1 rfl).2.1,
    (get_frame (storeWith [
        ("cache_k".toList, .json (.obj [("value".toList, .str "v".toList),
          ("expiry".toList, .num (.ofInt 1000))])),
        ("cache_j".toList, .json (.obj [("value".toList, .str "u".toList),
          ("expiry".toList, .null)]))]) "j".toList).2 rfl⟩

/-- C15 as stated fails: the expiry 0 of the entry lies before the current
time, yet `get(key)` returns the value and leaves the entry in the store. -/
theorem get_keeps_zero_expiry :
    JSNum.lt (.ofInt 0) (.ofInt (storeWith [("cache_k".toList,
        .json (.obj [("value".toList, .str "v".toList),
          ("expiry".toList, .num (.ofInt 0))]))]).now) = true ∧
      CacheService.get (storeWith [("cache_k".toList,
        .json (.obj [("value".toList, .str "v".toList),
          ("expiry".toList, .num (.ofInt 0))]))]) "k".toList =
        (.str "v".toList, storeWith [("cache_k".toList,
          .json (.obj [("value".toList, .str "v".toList),
            ("expiry".toList, .num (.ofInt 0))]))]) := by
  exact ⟨by rfl, by rfl⟩

/-- C16, as the code has it: for every state of the store, `get(key)` and
`has(key)` return a result and raise nothing; for an entry whose stored string
is not valid JSON, or is the JSON `null`, `get(key)` returns `null` and
`has(key)` returns `false`, and the store is left as it is. -/
theorem get_fail_open (w : World) (key : Str)
    (h : getProperty w (CacheService.keyPrefix ++ key) = some .invalid ∨
      getProperty w (CacheService.keyPrefix ++ key) = some (.json .null)) :
    CacheService.get w key = (.null, w) ∧ CacheService.has w key = (false, w) := by
  rcases h with h | h
  · simp only [CacheService.get, CacheService.has, h]
    exact ⟨trivial, trivial⟩
  · simp only [CacheService.get, CacheService.has, h, JSValue.isNullish]
    exact ⟨rfl, rfl⟩

/-- The statement of `get_fail_open` for an entry that is not valid JSON. -/
theorem get_fail_open_witness :
    CacheService.get (storeWith [("cache_k".toList, .invalid)]) "k".toList =
        (.null, storeWith [("cache_k".toList, .invalid)]) ∧
      CacheService.has (storeWith [("cache_k".toList, .invalid)]) "k".toList =
        (false, storeWith [("cache_k".toList, .invalid)]) :=
  get_fail_open (storeWith [("cache_k".toList, .invalid)]) "k".toList (Or.inl rfl)

/-- C16 as stated fails: the stored string `5` is valid JSON and does not
decode to an envelope object; `get(key)` returns `undefined` for it, not
`null`, and `has(key)` returns `true`. -/
theorem has_accepts_non_envelope :
    CacheService.get (storeWith [("cache_k".toList, .json (.num (.ofInt 5)))]) "k".toList =
        (.undefined, storeWith [("cache_k".toList, .json (.num (.ofInt 5)))]) ∧
      CacheService.has (storeWith [("cache_k".toList, .json (.num (.ofInt 5)))]) "k".toList =
        (true, storeWith [("cache_k".toList, .json (.num (.ofInt 5)))]) := by
  exact ⟨by rfl, by rfl⟩

end

section

open TemplateEngine

/-- C12 at the failing input: the stored template `welcome` has its active
flag `false` and the cache is empty, yet `DatabaseService.getTemplate` and
`getTemplateWithCache` return the template, and `generate` goes on with it:
on a host whose lenient `Date.parse` lets the bag pass validation it returns
a success result with the content of the template, and on `sampleHost` a
validation failure, in neither case the failure `Template not found: welcome`. -/
theorem generate_inactive_template :
    (inactiveWorld "Hello" "[]").props = []
      ∧ field ((DatabaseService.getTemplate sampleHost (inactiveWorld "Hello" "[]")
          "welcome".toList).1.toOption.getD .null) "is_active".toList = .bool false
      ∧ field ((getTemplateWithCache sampleHost (inactiveWorld "Hello" "[]")
          "welcome".toList).1.toOption.getD .null) "template_content".toList = .str "Hello".toList
      ∧ (generate lenientHost (inactiveWorld "Hello" "[]") "welcome".toList []).1 =
        .success "Hello".toList "welcome".toList (.str "Welcome".toList) (.str "general".toList)
          (.str "greeting".toList) "2025-01-06T03:00:00.000Z".toList 3
      ∧ (generate sampleHost (inactiveWorld "Hello" "[]") "welcome".toList []).1 =
        .failure "Variable validation failed: Invalid date format: 1 月 7 日".toList
          "welcome".toList "2025-01-06T03:00:00.000Z".toList := by
  refine ⟨by rfl, by rfl, by rfl, ?_, ?_⟩
  · set_option maxRecDepth 100000 in
    rfl
  · set_option maxRecDepth 100000 in
    rfl

end

section

open TemplateEngine

/-! ## Links -/

/-- The link pattern matches a well-formed link as a whole and captures its
text and its address. -/
theorem matchAt_link (l text url : Str) (htext : text ≠ []) (ht : ∀ c ∈ text, c ≠ ']')
    (hurl : url ≠ []) (hu : ∀ c ∈ url, c ≠ ')') :
    ∃ y, matchAt linkRegex ⟨l, '[' :: (text ++ (']' :: '(' :: (url ++ [')'])))⟩ =
        some (y, [(2, url), (1, text)]) ∧ y.rest = [] := by
  simp only [matchAt, linkRegex, Re.seqs, matchRe_seq, Re.plus]
  rw [matchRe_char_cons, if_pos rfl]
  rw [matchRe_group]
  rw [matchRe_class_greedy (fun c => c != ']') _ 1 text _ _ _ ?_ ?_ ?_
    (Nat.one_le_iff_ne_zero.mpr (fun h => htext (List.length_eq_zero.mp h)))]
  rotate_left
  · intro y cy ch t hy hch
    obtain ⟨yl, yr⟩ := y
    simp only at hy
    subst hy
    simp only []
    rw [matchRe_char_cons, if_neg (by simpa using hch)]
  · intro ch hch
    simpa using ht ch hch
  · intro ch t h
    injection h with h _
    subst h
    decide
  simp only [take_append_sub]
  rw [matchRe_char_cons, if_pos rfl, matchRe_char_cons, if_pos rfl]
  rw [matchRe_group]
  rw [matchRe_class_greedy (fun c => c != ')') _ 1 url _ _ _ ?_ ?_ ?_
    (Nat.one_le_iff_ne_zero.mpr (fun h => hurl (List.length_eq_zero.mp h)))]
  rotate_left
  · intro y cy ch t hy hch
    obtain ⟨yl, yr⟩ := y
    simp only at hy
    subst hy
    simp only []
    rw [matchRe_char_cons, if_neg (by simpa using hch)]
  · intro ch hch
    simpa using hu ch hch
  · intro ch t h
    injection h with h _
    subst h
    decide
  simp only [take_append_sub]
  rw [matchRe_char_cons, if_pos rfl]
  exact ⟨_, rfl, rfl⟩

/-- The link pattern matches only where the input starts with a bracket. -/
theorem matchAt_link_none (l : Str) (c : Char) (s : Str) (h : c ≠ '[') :
    matchAt linkRegex ⟨l, c :: s⟩ = none := by
  simp only [matchAt, linkRegex, Re.seqs, matchRe_seq]
  rw [matchRe_char_cons, if_neg h]

theorem matchAt_link_nil (l : Str) : matchAt linkRegex ⟨l, []⟩ = none := by
  simp only [matchAt, linkRegex, Re.seqs, matchRe_seq, Re.char]
  exact matchRe_chr_nil _ _ _ _

/-- The link pattern does not match a link with an empty address. -/
theorem matchAt_link_empty (l t3 : Str) (ht : ∀ c ∈ t3, c ≠ ']') :
    matchAt linkRegex ⟨l, '[' :: (t3 ++ (']' :: '(' :: [')']))⟩ = none := by
  simp only [matchAt, linkRegex, Re.seqs, matchRe_seq, Re.plus]
  rw [matchRe_char_cons, if_pos rfl]
  rw [matchRe_group]
  cases t3 with
  | nil =>
    exact matchRe_class_fail _ _ _ _ _ _ _ (by decide)
      (fun ch t h => by injection h with h _; subst h; decide)
  | cons a u =>
    rw [matchRe_class_greedy (fun c => c != ']') _ 1 (a :: u) _ _ _ ?_ ?_ ?_ (by simp)]
    rotate_left
    · intro y cy ch t hy hch
      obtain ⟨yl, yr⟩ := y
      simp only at hy
      subst hy
      simp only []
      rw [matchRe_char_cons, if_neg (by simpa using hch)]
    · intro ch hch
      simpa using ht ch hch
    · intro ch t h
      injection h with h _
      subst h
      decide
    simp only []
    rw [matchRe_char_cons, if_pos rfl, matchRe_char_cons, if_pos rfl]
    rw [matchRe_group]
    exact matchRe_class_fail _ _ _ _ _ _ _ (by decide)
      (fun ch t h => by injection h with h _; subst h; decide)

end

section

open TemplateEngine

/-- The link pattern matches nowhere in a link with an empty address. -/
theorem matchAt_link_empty_suffix (text : Str) (ht : ∀ c ∈ text, c ≠ ']') (l s : Str)
    (hs : s <:+ '[' :: (text ++ (']' :: '(' :: [')']))) : matchAt linkRegex ⟨l, s⟩ = none := by
  cases s with
  | nil => exact matchAt_link_nil l
  | cons c s2 =>
    by_cases hc : c = '['
    · subst hc
      rcases List.suffix_cons_iff.mp hs with heq | hs2
      · injection heq with _ heq
        subst heq
        exact matchAt_link_empty l text ht
      · obtain ⟨p, hp⟩ := hs2
        rcases List.append_eq_append_iff.mp hp with ⟨a, ha1, ha2⟩ | ⟨a, ha1, ha2⟩
        · -- text = p ++ a and the suffix is a ++ tail
          cases a with
          | nil =>
            simp only [List.nil_append] at ha2
            injection ha2 with h1 _
            exact absurd h1 (by decide)
          | cons b t3 =>
            simp only [List.cons_append] at ha2
            injection ha2 with h1 h2
            subst h2
            apply matchAt_link_empty l t3
            intro c hc
            apply ht
            rw [ha1]
            simp [hc]
        · -- the suffix lies in the tail
          have hmem : '[' ∈ (']' :: '(' :: [')']) := by
            rw [ha2]
            simp
          exact absurd hmem (by decide)
    · exact matchAt_link_none l c s2 hc

/-- C20, as the code has it: for every link text that is not empty and
contains no `]` and every address that contains no `)`, `processLinks`
rewrites `[text](url)` to the marker `{{LINK:text::u}}`, where `u` is the
address trimmed, if `u` begins with `http://` or `https://`, and leaves the
text `[text](url)` unchanged otherwise. -/
theorem processLinks_single (text url : Str) (htext : text ≠ []) (ht : ∀ c ∈ text, c ≠ ']')
    (hu : ∀ c ∈ url, c ≠ ')') :
    processLinks (linkText text url) =
      if startsWith (trim url) "http://".toList || startsWith (trim url) "https://".toList then
        linkMarker text (trim url)
      else linkText text url := by
  have hshape : linkText text url = '[' :: (text ++ (']' :: '(' :: (url ++ [')']))) := by
    simp only [linkText, List.append_assoc]
    rfl
  by_cases hurl : url = []
  · subst hurl
    have hno : processLinks (linkText text []) = linkText text [] := by
      apply replaceAll_no_match
      intro l s hs
      rw [hshape] at hs
      exact matchAt_link_empty_suffix text ht l s hs
    rw [hno]
    rfl
  · obtain ⟨y, hm, hy⟩ := matchAt_link [] text url htext ht hurl hu
    rw [hshape]
    obtain ⟨B, hB⟩ : ∃ B : Str, B = '[' :: (text ++ (']' :: '(' :: (url ++ [')']))) := ⟨_, rfl⟩
    rw [← hB] at hm ⊢
    have hne : B ≠ [] := by
      rw [hB]
      exact List.cons_ne_nil _ _
    have hpieces := pieces_whole linkRegex B.length [] B y _ hm hy hne matchAt_link_nil
    have harg1 : arg ⟨B, [(2, url), (1, text)], [].reverse, []⟩ 1 = text := rfl
    have harg2 : arg ⟨B, [(2, url), (1, text)], [].reverse, []⟩ 2 = url := rfl
    simp only [processLinks, replaceAll, hpieces, render, harg1, harg2, List.append_nil]
    generalize startsWith (trim url) "http://".toList = b1
    generalize startsWith (trim url) "https://".toList = b2
    cases b1 <;> cases b2 <;> rfl

/-- The statement of `processLinks_single` for a link to `https://example.com`
and for a relative link. -/
theorem processLinks_single_witness :
    processLinks (linkText "site".toList "https://example.com".toList) =
        linkMarker "site".toList "https://example.com".toList
      ∧ processLinks (linkText "site".toList "/docs/a".toList) =
        linkText "site".toList "/docs/a".toList :=
  ⟨processLinks_single "site".toList "https://example.com".toList (by decide) (by decide)
      (by decide),
    processLinks_single "site".toList "/docs/a".toList (by decide) (by decide) (by decide)⟩

/-- C20 as stated fails: the address ` http://x`, with a space in front, does
not begin with `http://`, yet the link is rewritten, with the address trimmed;
the address `http://x `, with a space behind, is put into the marker without
that space; and a link with an empty text is left unchanged though its
address begins with `http://`. -/
theorem processLinks_trims :
    startsWith " http://x".toList "http://".toList = false
      ∧ processLinks (linkText "t".toList " http://x".toList) =
        linkMarker "t".toList "http://x".toList
      ∧ processLinks (linkText "t".toList "http://x ".toList) =
        linkMarker "t".toList "http://x".toList
      ∧ processLinks (linkText [] "http://x".toList) = linkText [] "http://x".toList := by
  refine ⟨by rfl, by rfl, by rfl, by rfl⟩

end

section

/-! ## The calendar -/

theorem yoe_le (doe : Int) (h0 : 0 ≤ doe) (h1 : doe ≤ 146096) :
    (doe - doe / 1460 + doe / 36524 - doe / 146096) / 365 ≤ 399 := by
  omega

theorem yoe_ge (doe : Int) (h0 : 0 ≤ doe) (h1 : doe ≤ 146096) :
    0 ≤ (doe - doe / 1460 + doe / 36524 - doe / 146096) / 365 := by
  omega

theorem doy_le (doe yoe : Int) (h0 : 0 ≤ doe) (h1 : doe ≤ 146096)
    (hy : yoe = (doe - doe / 1460 + doe / 36524 - doe / 146096) / 365) :
    doe - (365 * yoe + yoe / 4 - yoe / 100) ≤ 366 := by
  omega

theorem doy_ge (doe yoe : Int) (h0 : 0 ≤ doe) (h1 : doe ≤ 146096)
    (hy : yoe = (doe - doe / 1460 + doe / 36524 - doe / 146096) / 365) :
    0 ≤ doe - (365 * yoe + yoe / 4 - yoe / 100) := by
  have hd : doe / 36524 = 0 ∨ doe / 36524 = 1 ∨ doe / 36524 = 2 ∨ doe / 36524 = 3 ∨
      doe / 36524 = 4 := by omega
  have hA : yoe / 4 ≤ doe / 1460 := by
    rcases hd with hd | hd | hd | hd | hd <;> omega
  have hB : doe / 36524 - doe / 146096 ≤ yoe / 100 := by
    rcases hd with hd | hd | hd | hd | hd
    · omega
    · have : 36499 ≤ doe - doe / 1460 := by omega
      omega
    · have : 72998 ≤ doe - doe / 1460 := by omega
      omega
    · have : 109497 ≤ doe - doe / 1460 := by omega
      omega
    · have : 145996 ≤ doe - doe / 1460 := by omega
      omega
  omega

/-- The day number of a civil date made from a year of the era, a day of the
year and the month and day that belong to it. -/
theorem daysFromCivil_parts (era yoe doy : Int) (hy0 : 0 ≤ yoe) (hy1 : yoe ≤ 399)
    (hd0 : 0 ≤ doy) (hd1 : doy ≤ 366) :
    daysFromCivil
      (if (if (5 * doy + 2) / 153 < 10 then (5 * doy + 2) / 153 + 3 else (5 * doy + 2) / 153 - 9) ≤ 2
        then yoe + era * 400 + 1 else yoe + era * 400)
      (if (5 * doy + 2) / 153 < 10 then (5 * doy + 2) / 153 + 3
        else (5 * doy + 2) / 153 - 9).toNat
      (doy - (153 * ((5 * doy + 2) / 153) + 2) / 5 + 1).toNat =
      era * 146097 + (yoe * 365 + yoe / 4 - yoe / 100 + doy) - 719468 := by
  have hmp0 : 0 ≤ (5 * doy + 2) / 153 := by omega
  have hmp1 : (5 * doy + 2) / 153 ≤ 11 := by omega
  generalize hmp : (5 * doy + 2) / 153 = mp at *
  have hdd : 1 ≤ doy - (153 * mp + 2) / 5 + 1 := by omega
  obtain ⟨dn, hdn⟩ : ∃ dn : Nat, doy - (153 * mp + 2) / 5 + 1 = (dn : Int) :=
    ⟨(doy - (153 * mp + 2) / 5 + 1).toNat, (Int.toNat_of_nonneg (by omega)).symm⟩
  rw [hdn, Int.toNat_ofNat]
  by_cases h10 : mp < 10
  · simp only [if_pos h10]
    obtain ⟨mn, hmn⟩ : ∃ mn : Nat, mp + 3 = (mn : Int) :=
      ⟨(mp + 3).toNat, (Int.toNat_of_nonneg (by omega)).symm⟩
    rw [hmn, Int.toNat_ofNat]
    have hm2 : ¬ ((mn : Int) ≤ 2) := by omega
    have hm3 : ¬ (mn ≤ 2) := by omega
    have hm4 : 2 < mn := by omega
    simp only [daysFromCivil, if_neg hm2, if_neg hm3, if_pos hm4]
    omega
  · simp only [if_neg h10]
    obtain ⟨mn, hmn⟩ : ∃ mn : Nat, mp - 9 = (mn : Int) :=
      ⟨(mp - 9).toNat, (Int.toNat_of_nonneg (by omega)).symm⟩
    rw [hmn, Int.toNat_ofNat]
    have hm2 : (mn : Int) ≤ 2 := by omega
    have hm3 : mn ≤ 2 := by omega
    have hm4 : ¬ (2 < mn) := by omega
    simp only [daysFromCivil, if_pos hm2, if_pos hm3, if_neg hm4]
    omega

/-- The civil date of a day number gives the day number back. -/
theorem civil_roundtrip (z : Int) :
    daysFromCivil (civilFromDays z).1 (civilFromDays z).2.1 (civilFromDays z).2.2 = z := by
  have h0 : 0 ≤ z + 719468 - (z + 719468) / 146097 * 146097 := by omega
  have h1 : z + 719468 - (z + 719468) / 146097 * 146097 ≤ 146096 := by omega
  have hz : z = (z + 719468) / 146097 * 146097 +
      (z + 719468 - (z + 719468) / 146097 * 146097) - 719468 := by omega
  simp only [civilFromDays]
  generalize (z + 719468) / 146097 = era at *
  generalize z + 719468 - era * 146097 = doe at *
  have hy0 := yoe_ge doe h0 h1
  have hy1 := yoe_le doe h0 h1
  have hd0 := doy_ge doe _ h0 h1 rfl
  have hd1 := doy_le doe _ h0 h1 rfl
  generalize (doe - doe / 1460 + doe / 36524 - doe / 146096) / 365 = yoe at *
  have hdoy : doe = (doe - (365 * yoe + yoe / 4 - yoe / 100)) + (365 * yoe + yoe / 4 - yoe / 100) := by
    omega
  generalize doe - (365 * yoe + yoe / 4 - yoe / 100) = doy at *
  rw [daysFromCivil_parts era yoe doy hy0 hy1 hd0 hd1]
  omega

/-- Two day numbers with the same civil date are the same. -/
theorem civilFromDays_injective (a b : Int) (h : civilFromDays a = civilFromDays b) : a = b := by
  rw [← civil_roundtrip a, ← civil_roundtrip b, h]

/-- What `toDateString` prints is a function of the local day number. -/
theorem toDateString_localDay (P : Platform) (t : Int) :
    toDateString P t = ((localDay P t + 4) % 7, (civilFromDays (localDay P t)).2.1,
      (civilFromDays (localDay P t)).2.2, (civilFromDays (localDay P t)).1) := rfl

/-- Two dates print the same with `toDateString` exactly when they fall on the
same local calendar day. -/
theorem toDateString_eq_iff (P : Platform) (s t : Int) :
    toDateString P s = toDateString P t ↔ localDay P s = localDay P t := by
  constructor
  · intro h
    rw [toDateString_localDay, toDateString_localDay] at h
    simp only [Prod.mk.injEq] at h
    obtain ⟨_, h2, h3, h4⟩ := h
    apply civilFromDays_injective
    exact Prod.ext h4 (Prod.ext h2 h3)
  · intro h
    rw [toDateString_localDay, toDateString_localDay, h]

/-- Adding days moves the local day number by as many days. -/
theorem localDay_addDays (P : Platform) (t n : Int) :
    localDay P (addDays t n) = localDay P t + n := by
  simp only [localDay, addDays, msPerDay]
  omega

/-- Midnight UTC of a day falls on that day in a time zone at or east of
UTC. -/
theorem localDay_midnight (P : Platform) (d : Int) (h0 : 0 ≤ P.tzOffset) (h1 : P.tzOffset < 1440) :
    localDay P (d * msPerDay) = d := by
  simp only [localDay, msPerDay]
  omega

end

section

/-! ## Business days -/

theorem filterMap_dates (P : Platform) : ∀ L : List String,
    L.all (fun h => match parseIsoDate h.toList with
      | some t => decide (t % msPerDay = 0)
      | none => false) = true →
    L.filterMap (fun h => dateParse P h.toList) =
      (L.filterMap (fun h => (parseIsoDate h.toList).map (fun t => t / msPerDay))).map
        (fun d => d * msPerDay)
  | [], _ => rfl
  | h :: r, hall => by
    rw [List.all_cons, Bool.and_eq_true] at hall
    have ih := filterMap_dates P r hall.2
    have hh := hall.1
    cases hp : parseIsoDate h.toList with
    | none =>
      rw [hp] at hh
      cases hh
    | some t =>
      rw [hp] at hh
      have ht : t % msPerDay = 0 := by simpa using hh
      simp only [List.filterMap_cons, dateParse, hp, Option.map_some', List.map_cons, ih]
      congr 1
      simp only [msPerDay] at ht ⊢
      omega

set_option maxRecDepth 100000 in
/-- Every entry of `HOLIDAY_LIST` is an ISO date. -/
theorem holidays_parse :
    HOLIDAY_LIST.all (fun h => match parseIsoDate h.toList with
      | some t => decide (t % msPerDay = 0)
      | none => false) = true := by
  rfl

/-- The holidays as dates: midnight UTC of the listed days. -/
theorem holidayDates_eq (P : Platform) :
    holidayDates P = holidayDays.map (fun d => d * msPerDay) :=
  filterMap_dates P HOLIDAY_LIST holidays_parse

end

section

/-- In a time zone at or east of UTC, the loop of `getNextBusinessDay` goes on
exactly at the dates that are not business days. -/
theorem isSkipped_eq (P : Platform) (t : Int) (h0 : 0 ≤ P.tzOffset) (h1 : P.tzOffset < 1440) :
    isSkipped P t = !businessDay (localDay P t) := by
  have hany : (holidayDates P).any (fun h => toDateString P h == toDateString P t) =
      holidayDays.contains (localDay P t) := by
    rw [holidayDates_eq, Bool.eq_iff_iff]
    simp only [List.any_eq_true, List.mem_map, List.contains_iff_exists_mem_beq, beq_iff_eq]
    constructor
    · rintro ⟨x, ⟨d, hd, rfl⟩, hx⟩
      refine ⟨d, hd, ?_⟩
      have := (toDateString_eq_iff P _ _).mp hx
      rw [localDay_midnight P d h0 h1] at this
      exact this.symm
    · rintro ⟨d, hd, hz⟩
      refine ⟨d * msPerDay, ⟨d, hd, rfl⟩, ?_⟩
      apply (toDateString_eq_iff P _ _).mpr
      rw [localDay_midnight P d h0 h1]
      exact hz.symm
  simp only [isSkipped, hany, businessDay, isWeekendDay, getDay]
  cases ((localDay P t + 4) % 7 == 0) <;> cases ((localDay P t + 4) % 7 == 6) <;>
    cases (holidayDays.contains (localDay P t)) <;> rfl

/-- Among three days in a row one is not a Saturday or Sunday. -/
theorem weekday_near (z : Int) : ∃ i : Nat, i ≤ 2 ∧ isWeekendDay (z + i) = false := by
  have h : (z + 4) % 7 = 0 ∨ (z + 4) % 7 = 1 ∨ (z + 4) % 7 = 2 ∨ (z + 4) % 7 = 3 ∨
      (z + 4) % 7 = 4 ∨ (z + 4) % 7 = 5 ∨ (z + 4) % 7 = 6 := by omega
  simp only [isWeekendDay, Bool.or_eq_false_iff, beq_eq_false_iff_ne, ne_eq]
  rcases h with h | h | h | h | h | h | h
  · exact ⟨1, by omega, by omega, by omega⟩
  · exact ⟨0, by omega, by omega, by omega⟩
  · exact ⟨0, by omega, by omega, by omega⟩
  · exact ⟨0, by omega, by omega, by omega⟩
  · exact ⟨0, by omega, by omega, by omega⟩
  · exact ⟨0, by omega, by omega, by omega⟩
  · exact ⟨2, by omega, by omega, by omega⟩

set_option maxRecDepth 100000 in
theorem holidayDays_eq : holidayDays = holidayDayNumbers := by
  rfl

set_option maxRecDepth 100000 in
set_option maxHeartbeats 2000000 in
theorem business_after_holiday_numbers :
    holidayDayNumbers.all (fun h => (List.range 10).any (fun i =>
      !isWeekendDay (h + (i : Int)) && !holidayDayNumbers.contains (h + (i : Int)))) = true := by
  rfl

/-- After every listed holiday a business day comes within ten days. -/
theorem business_after_holiday :
    holidayDays.all (fun h => (List.range 10).any (fun i => businessDay (h + (i : Int)))) =
      true := by
  simp only [businessDay, holidayDays_eq]
  exact business_after_holiday_numbers

/-- From every day on, a business day comes within twelve days. -/
theorem business_near (z : Int) : ∃ i : Nat, i < 12 ∧ businessDay (z + i) = true := by
  obtain ⟨i, hi, hw⟩ := weekday_near z
  by_cases hh : holidayDays.contains (z + i) = true
  · have hmem : (z + (i : Int)) ∈ holidayDays := by simpa using hh
    have hall := List.all_eq_true.mp business_after_holiday _ hmem
    obtain ⟨j, hj, hb⟩ := List.any_eq_true.mp hall
    have hj10 : j < 10 := List.mem_range.mp hj
    refine ⟨i + j, by omega, ?_⟩
    rw [← hb]
    congr 1
    push_cast
    omega
  · refine ⟨i, by omega, ?_⟩
    simp only [businessDay, hw, Bool.not_false, Bool.true_and, Bool.not_eq_true']
    simpa using hh

theorem addDays_addDays (t a b : Int) : addDays (addDays t a) b = addDays t (a + b) := by
  simp only [addDays, msPerDay]
  omega

theorem addDays_zero (t : Int) : addDays t 0 = t := by
  simp [addDays]

/-- The loop stops at the first date at which its condition is false, when one
comes before the fuel runs out. -/
theorem skipDays_spec (P : Platform) : ∀ (fuel : Nat) (t : Int),
    (∃ i : Nat, i < fuel ∧ isSkipped P (addDays t i) = false) →
    ∃ n : Nat, n < fuel ∧ skipDays P fuel t = addDays t n ∧
      isSkipped P (addDays t n) = false ∧
      ∀ i : Nat, i < n → isSkipped P (addDays t i) = true := by
  intro fuel
  induction fuel with
  | zero =>
    rintro t ⟨i, hi, _⟩
    omega
  | succ f ih =>
    rintro t ⟨i, hi, hs⟩
    by_cases h0 : isSkipped P t = true
    · have hne : i ≠ 0 := by
        intro hz
        subst hz
        simp only [Nat.cast_zero, addDays_zero] at hs
        rw [h0] at hs
        cases hs
      obtain ⟨j, rfl⟩ : ∃ j, i = j + 1 := ⟨i - 1, by omega⟩
      have hs2 : isSkipped P (addDays (addDays t 1) j) = false := by
        rw [addDays_addDays]
        rw [← hs]
        congr 2
        push_cast
        omega
      obtain ⟨n, hn, hres, hstop, hall⟩ := ih (addDays t 1) ⟨j, by omega, hs2⟩
      refine ⟨n + 1, by omega, ?_, ?_, ?_⟩
      · simp only [skipDays, h0, if_true, hres, addDays_addDays]
        congr 1
        push_cast
        omega
      · rw [← hstop, addDays_addDays]
        congr 2
        push_cast
        omega
      · intro k hk
        cases k with
        | zero => simpa [addDays_zero] using h0
        | succ k =>
          have := hall k (by omega)
          rw [addDays_addDays] at this
          rw [← this]
          congr 2
          push_cast
          omega
    · have h0f : isSkipped P t = false := by simpa using h0
      refine ⟨0, by omega, ?_, ?_, ?_⟩
      · simp [skipDays, h0f, addDays_zero]
      · simpa [addDays_zero] using h0f
      · intro k hk
        omega

end

section

/-- In a time zone at or east of UTC, `getNextBusinessDay` returns the first
date, from the start plus the offset on, that is a business day; it comes
within twelve days, before the bound of the loop is reached. -/
theorem getNextBusinessDay_spec (P : Platform) (now : Int) (start : Option Int) (offset : Int)
    (h0 : 0 ≤ P.tzOffset) (h1 : P.tzOffset < 1440) :
    ∃ n : Nat, n < 12 ∧
      getNextBusinessDay P now start offset = addDays (addDays (start.getD now) offset) n ∧
      businessDay (localDay P (getNextBusinessDay P now start offset)) = true ∧
      ∀ i : Nat, i < n →
        businessDay (localDay P (addDays (addDays (start.getD now) offset) i)) = false := by
  obtain ⟨i, hi, hb⟩ := business_near (localDay P (addDays (start.getD now) offset))
  have hskip : ∀ k : Nat, isSkipped P (addDays (addDays (start.getD now) offset) k) =
      !businessDay (localDay P (addDays (start.getD now) offset) + k) := by
    intro k
    rw [isSkipped_eq P _ h0 h1, localDay_addDays]
  have hlen : HOLIDAY_LIST.length = 211 := by rfl
  obtain ⟨n, _, hres, hstop, hall⟩ := skipDays_spec P (7 * (HOLIDAY_LIST.length + 1))
    (addDays (start.getD now) offset) ⟨i, by omega, by rw [hskip, hb]; rfl⟩
  have hn : n < 12 := by
    by_contra hge
    have := hall i (by omega)
    rw [hskip, hb] at this
    cases this
  refine ⟨n, hn, hres, ?_, ?_⟩
  · have hr : getNextBusinessDay P now start offset =
        addDays (addDays (start.getD now) offset) n := hres
    rw [hr, localDay_addDays]
    rw [hskip] at hstop
    simpa using hstop
  · intro k hk
    have := hall k hk
    rw [hskip] at this
    rw [localDay_addDays]
    simpa using this

/-- In a script time zone at or east of UTC (as in Japan), for every start
date and every integer offset, `getNextBusinessDay` comes out of its loop
before the bound on the number of rounds is reached, and the date it returns
is not a Saturday, not a Sunday, and not a date of `HOLIDAY_LIST`, compared by
calendar date. -/
theorem getNextBusinessDay_business (P : Platform) (now : Int) (start : Option Int)
    (offset : Int) (h0 : 0 ≤ P.tzOffset) (h1 : P.tzOffset < 1440) :
    isSkipped P (getNextBusinessDay P now start offset) = false
      ∧ getDay P (getNextBusinessDay P now start offset) ≠ 0
      ∧ getDay P (getNextBusinessDay P now start offset) ≠ 6
      ∧ localDay P (getNextBusinessDay P now start offset) ∉ holidayDays
      ∧ (getFullYear P (getNextBusinessDay P now start offset),
          getMonth1 P (getNextBusinessDay P now start offset),
          getDate P (getNextBusinessDay P now start offset)) ∉ holidayDays.map civilFromDays := by
  obtain ⟨n, _, _, hb, _⟩ := getNextBusinessDay_spec P now start offset h0 h1
  have hs : isSkipped P (getNextBusinessDay P now start offset) = false := by
    rw [isSkipped_eq P _ h0 h1, hb]
    rfl
  simp only [businessDay, isWeekendDay, Bool.and_eq_true, Bool.not_eq_true', Bool.or_eq_false_iff,
    beq_eq_false_iff_ne, ne_eq] at hb
  obtain ⟨⟨hd0, hd6⟩, hh⟩ := hb
  have hmem : localDay P (getNextBusinessDay P now start offset) ∉ holidayDays := by
    intro hm
    have : holidayDays.contains (localDay P (getNextBusinessDay P now start offset)) = true :=
      List.contains_iff_exists_mem_beq.mpr ⟨_, hm, beq_self_eq_true _⟩
    rw [this] at hh
    cases hh
  refine ⟨hs, hd0, hd6, hmem, ?_⟩
  intro hm
  obtain ⟨d, hd, heq⟩ := List.mem_map.mp hm
  simp only [getFullYear, getMonth1, getDate] at heq
  have hc : civilFromDays d = civilFromDays (localDay P (getNextBusinessDay P now start offset)) :=
    Prod.ext (by rw [heq]) (Prod.ext (by rw [heq]) (by rw [heq]))
  rw [civilFromDays_injective _ _ hc] at hd
  exact hmem hd

set_option maxRecDepth 100000 in
/-- The statement of `getNextBusinessDay_business` for the host in Japan and
the start 2024-12-31, noon, with offset 1. -/
theorem getNextBusinessDay_business_witness :
    isSkipped sampleHost (getNextBusinessDay sampleHost 0 (some 1735614000000) 1) = false
      ∧ getDay sampleHost (getNextBusinessDay sampleHost 0 (some 1735614000000) 1) ≠ 0
      ∧ getDay sampleHost (getNextBusinessDay sampleHost 0 (some 1735614000000) 1) ≠ 6
      ∧ localDay sampleHost (getNextBusinessDay sampleHost 0 (some 1735614000000) 1) ∉
          holidayDays
      ∧ (getFullYear sampleHost (getNextBusinessDay sampleHost 0 (some 1735614000000) 1),
          getMonth1 sampleHost (getNextBusinessDay sampleHost 0 (some 1735614000000) 1),
          getDate sampleHost (getNextBusinessDay sampleHost 0 (some 1735614000000) 1)) ∉
            holidayDays.map civilFromDays :=
  getNextBusinessDay_business sampleHost 0 (some 1735614000000) 1 (by decide) (by decide)

/-- In a script time zone at or east of UTC (as in Japan), for every start
date and every integer offset, `getNextBusinessDay` returns the earliest
date on or after the start plus the offset that is a business day:
it is that date plus `n` days, every date before it from the start plus the
offset on is a Saturday, a Sunday or a listed holiday, and it is the start
plus the offset itself when that is a business day. -/
theorem getNextBusinessDay_earliest (P : Platform) (now : Int) (start : Option Int)
    (offset : Int) (h0 : 0 ≤ P.tzOffset) (h1 : P.tzOffset < 1440) :
    ∃ n : Nat,
      getNextBusinessDay P now start offset = addDays (addDays (start.getD now) offset) n
      ∧ businessDay (localDay P (getNextBusinessDay P now start offset)) = true
      ∧ (∀ i : Nat, i < n →
          businessDay (localDay P (addDays (addDays (start.getD now) offset) i)) = false)
      ∧ (businessDay (localDay P (addDays (start.getD now) offset)) = true →
          getNextBusinessDay P now start offset = addDays (start.getD now) offset) := by
  obtain ⟨n, _, hres, hb, hall⟩ := getNextBusinessDay_spec P now start offset h0 h1
  refine ⟨n, hres, hb, hall, ?_⟩
  intro hfirst
  cases n with
  | zero => simpa [addDays_zero] using hres
  | succ k =>
    have := hall 0 (by omega)
    simp only [Nat.cast_zero, addDays_zero] at this
    rw [hfirst] at this
    cases this

set_option maxRecDepth 100000 in
/-- The statement of `getNextBusinessDay_earliest` for the host in Japan and
the start 2024-12-31, noon, with offset 1: the holiday 2025-01-01 is passed
over and the date returned is 2025-01-02. -/
theorem getNextBusinessDay_earliest_witness :
    (∃ n : Nat,
      getNextBusinessDay sampleHost 0 (some 1735614000000) 1 =
        addDays (addDays ((some 1735614000000 : Option Int).getD 0) 1) n
      ∧ businessDay (localDay sampleHost (getNextBusinessDay sampleHost 0 (some 1735614000000) 1))
        = true
      ∧ (∀ i : Nat, i < n → businessDay (localDay sampleHost
          (addDays (addDays ((some 1735614000000 : Option Int).getD 0) 1) i)) = false)
      ∧ (businessDay (localDay sampleHost
          (addDays ((some 1735614000000 : Option Int).getD 0) 1)) = true →
          getNextBusinessDay sampleHost 0 (some 1735614000000) 1 =
            addDays ((some 1735614000000 : Option Int).getD 0) 1))
      ∧ civilFromDays (localDay sampleHost 1735614000000) = (2024, 12, 31)
      ∧ civilFromDays (localDay sampleHost
          (getNextBusinessDay sampleHost 0 (some 1735614000000) 1)) = (2025, 1, 2) :=
  ⟨getNextBusinessDay_earliest sampleHost 0 (some 1735614000000) 1 (by decide) (by decide),
    by rfl, by rfl⟩

set_option maxRecDepth 1000000 in
/-- C17 fails in a script time zone west of UTC: five hours behind UTC, for
the start 2024-12-31, noon, and the offset 1, `getNextBusinessDay` returns
2025-01-01, noon, a Wednesday whose calendar date is in `HOLIDAY_LIST`. The
entries of the list are parsed as midnight UTC and compared by local calendar
date, so each holiday is taken for the local day before it. -/
theorem getNextBusinessDay_west_holiday :
    getNextBusinessDay westHost 0 (some 1735664400000) 1 = 1735750800000
      ∧ formatDateForHoliday westHost 1735750800000 = "2025-01-01".toList
      ∧ "2025-01-01" ∈ HOLIDAY_LIST
      ∧ localDay westHost 1735750800000 ∈ holidayDays := by
  refine ⟨by rfl, by rfl, by decide, by decide⟩

set_option maxRecDepth 1000000 in
/-- C18 fails in a script time zone west of UTC: five hours behind UTC, for
the start 2024-12-31, noon, and the offset 1, the date `getNextBusinessDay`
returns is the start plus one day, 2025-01-01, which is a listed holiday and
no business day; the earliest business day from there on is the start plus two
days, 2025-01-02. The day before, 2024-12-31, is taken for the holiday. -/
theorem getNextBusinessDay_west_not_earliest :
    getNextBusinessDay westHost 0 (some 1735664400000) 1 = addDays 1735664400000 1
      ∧ businessDay (localDay westHost (addDays 1735664400000 1)) = false
      ∧ businessDay (localDay westHost (addDays 1735664400000 2)) = true
      ∧ formatDateForHoliday westHost (addDays 1735664400000 2) = "2025-01-02".toList
      ∧ isSkipped westHost 1735664400000 = true
      ∧ businessDay (localDay westHost 1735664400000) = true := by
  refine ⟨by rfl, by rfl, by rfl, by rfl, by rfl, by rfl⟩

end

section

open TemplateEngine

/-! ## The pattern of a token -/

/-- A word character has no meaning of its own in a pattern. -/
theorem word_plain (c : Char) (h : isWordChar c = true) :
    c ≠ '^' ∧ c ≠ '$' ∧ c ≠ '\\' ∧ c ≠ '(' ∧ c ≠ ')' ∧ c ≠ '|' ∧ c ≠ '.' ∧ c ≠ '[' ∧ c ≠ '*' ∧
      c ≠ '+' ∧ c ≠ '?' ∧ c ≠ '{' := by
  refine ⟨?_, ?_, ?_, ?_, ?_, ?_, ?_, ?_, ?_, ?_, ?_, ?_⟩ <;>
    exact ne_of_word c _ h (by decide)

theorem parseSimpleAtom_word (c : Char) (t : Str) (h : isWordChar c = true) :
    parseSimpleAtom (c :: t) = some (.char c, t) := by
  obtain ⟨h1, h2, h3, h4, h5, h6, h7, h8, h9, h10, h11, h12⟩ := word_plain c h
  unfold parseSimpleAtom
  split <;> simp_all

theorem parseQuantifier_none (a : Re) (c : Char) (t : Str)
    (h : c ≠ '*' ∧ c ≠ '+' ∧ c ≠ '?' ∧ c ≠ '{') :
    parseQuantifier a (c :: t) = some (a, c :: t) := by
  obtain ⟨h1, h2, h3, h4⟩ := h
  unfold parseQuantifier
  split <;> simp_all

theorem parseTerm_word (fuel : Nat) (c d : Char) (t : Str) (g : Nat) (h : isWordChar c = true)
    (hd : d ≠ '*' ∧ d ≠ '+' ∧ d ≠ '?' ∧ d ≠ '{') :
    parseTerm (fuel + 1) (c :: d :: t) g = some (.char c, d :: t, g) := by
  obtain ⟨h1, h2, h3, h4, h5, h6, h7, h8, h9, h10, h11, h12⟩ := word_plain c h
  unfold parseTerm
  split <;> simp_all [parseSimpleAtom_word, parseQuantifier_none]

/-- The parser reads the characters of a name one by one. -/
theorem parseAlternative_word (g : Nat) (d : Char) (r : Str)
    (hd : d ≠ '*' ∧ d ≠ '+' ∧ d ≠ '?' ∧ d ≠ '{') :
    ∀ (key : Str), (∀ ch ∈ key, isWordChar ch = true) → ∀ (fuel : Nat) (acc : List Re),
      parseAlternative (fuel + key.length + 1) (key ++ d :: r) g acc =
        parseAlternative (fuel + 1) (d :: r) g ((key.map Re.char).reverse ++ acc) := by
  intro key
  induction key with
  | nil => intro _ fuel acc; rfl
  | cons c t ih =>
    intro hw fuel acc
    have hc : isWordChar c = true := hw c (by simp)
    have ht : ∀ ch ∈ t, isWordChar ch = true := fun ch hch => hw ch (by simp [hch])
    obtain ⟨h1, h2, h3, h4, h5, h6, h7, h8, h9, h10, h11, h12⟩ := word_plain c hc
    have hnext : ∃ e u, t ++ d :: r = e :: u ∧ (e ≠ '*' ∧ e ≠ '+' ∧ e ≠ '?' ∧ e ≠ '{') := by
      cases t with
      | nil => exact ⟨d, r, rfl, hd⟩
      | cons e u =>
        obtain ⟨_, _, _, _, _, _, _, _, k9, k10, k11, k12⟩ := word_plain e (ht e (by simp))
        exact ⟨e, u ++ d :: r, rfl, k9, k10, k11, k12⟩
    obtain ⟨e, u, heu, he⟩ := hnext
    have hfuel : fuel + (c :: t).length + 1 = (fuel + t.length + 1) + 1 := by
      simp only [List.length_cons]; omega
    rw [hfuel, List.cons_append]
    rw [parseAlternative]
    have hpipe : (c == '|' || c == ')') = false := by simp [h5, h6]
    rw [hpipe, heu]
    simp only [Bool.false_eq_true, if_false]
    rw [show fuel + t.length + 1 = (fuel + t.length) + 1 from rfl, parseTerm_word _ c e u g hc he]
    simp only
    rw [← heu, ih ht fuel (Re.char c :: acc)]
    simp

end

section

open TemplateEngine

theorem parseAlternative_token_head (fuel g : Nat) (c : Char) (t : Str) (hc : c ≠ '?') :
    parseAlternative (fuel + 4) ('{' :: '{' :: '\\' :: 's' :: '*' :: c :: t) g [] =
      parseAlternative (fuel + 1) (c :: t) g
        [Re.star (.chr isWhiteSpace), Re.char '{', Re.char '{'] := by
  have h1 : parseTerm (fuel + 3) ('{' :: '{' :: '\\' :: 's' :: '*' :: c :: t) g =
      some (Re.char '{', '{' :: '\\' :: 's' :: '*' :: c :: t, g) := by rfl
  have h2 : parseTerm (fuel + 2) ('{' :: '\\' :: 's' :: '*' :: c :: t) g =
      some (Re.char '{', '\\' :: 's' :: '*' :: c :: t, g) := by rfl
  have h3 : parseTerm (fuel + 1) ('\\' :: 's' :: '*' :: c :: t) g =
      some (Re.star (.chr isWhiteSpace), c :: t, g) := by
    have hq : parseQuantifier (.chr isWhiteSpace) ('*' :: c :: t) =
        some (Re.star (.chr isWhiteSpace), c :: t) := by
      unfold parseQuantifier
      simp only
      split
      · rename_i heq
        simp only [List.cons.injEq] at heq
        exact absurd heq.1 hc
      · rfl
    have ha : parseSimpleAtom ('\\' :: 's' :: '*' :: c :: t) =
        some (.chr isWhiteSpace, '*' :: c :: t) := by rfl
    rw [parseTerm]
    · simp only [ha, hq]
    all_goals simp
  rw [show fuel + 4 = (fuel + 3) + 1 from rfl, parseAlternative]
  simp only [show ('{' == '|' || '{' == ')') = false by decide, Bool.false_eq_true, if_false, h1]
  rw [show fuel + 3 = (fuel + 2) + 1 from rfl, parseAlternative]
  simp only [show ('{' == '|' || '{' == ')') = false by decide, Bool.false_eq_true, if_false, h2]
  rw [show fuel + 2 = (fuel + 1) + 1 from rfl, parseAlternative]
  simp only [show ('\\' == '|' || '\\' == ')') = false by decide, Bool.false_eq_true, if_false, h3]

theorem parseAlternative_token_tail (fuel g : Nat) (acc : List Re) :
    parseAlternative (fuel + 4) "\\s*\x7d\x7d".toList g acc =
      some (Re.seqs (Re.char '}' :: Re.char '}' :: Re.star (.chr isWhiteSpace) :: acc).reverse,
        [], g) := by
  rfl

end

section

open TemplateEngine

/-- The pattern `new RegExp` compiles for a key that is a name. -/
theorem compileRegExp_token (key : Str) (hw : ∀ ch ∈ key, isWordChar ch = true) :
    compileRegExp (tokenSource key) = some (tokenRe key, 0) := by
  have hsrc : tokenSource key =
      '{' :: '{' :: '\\' :: 's' :: '*' :: (key ++ '\\' :: "s*\x7d\x7d".toList) := by
    simp [tokenSource]
  have hlen2 : 4 * (tokenSource key).length + 4 = (3 * key.length + 39 + key.length + 4) + 1 := by
    simp only [tokenSource, List.length_append]
    have h1 : "\x7b\x7b\\s*".toList.length = 5 := by decide
    have h2 : "\\s*\x7d\x7d".toList.length = 5 := by decide
    omega
  have hnext : ∃ c t, key ++ '\\' :: "s*\x7d\x7d".toList = c :: t ∧ c ≠ '?' := by
    cases key with
    | nil => exact ⟨'\\', _, rfl, by decide⟩
    | cons c t => exact ⟨c, _, rfl, (word_plain c (hw c (by simp))).2.2.2.2.2.2.2.2.2.2.1⟩
  obtain ⟨c, t, hct, hc⟩ := hnext
  have hd : ('\\' : Char) ≠ '*' ∧ ('\\' : Char) ≠ '+' ∧ ('\\' : Char) ≠ '?' ∧ ('\\' : Char) ≠ '{' := by
    decide
  have halt : parseAlternative (3 * key.length + 39 + key.length + 4) (tokenSource key) 0 [] =
      some (tokenRe key, [], 0) := by
    rw [hsrc, hct, parseAlternative_token_head _ _ c t hc, ← hct,
      parseAlternative_word 0 '\\' _ hd key hw (3 * key.length + 39),
      show 3 * key.length + 39 + 1 = (3 * key.length + 36) + 4 from rfl]
    rw [show '\\' :: "s*\x7d\x7d".toList = "\\s*\x7d\x7d".toList from rfl, parseAlternative_token_tail]
    simp [tokenRe, Re.seqs]
  rw [compileRegExp, hlen2, parseDisjunction, halt]

end

section

open TemplateEngine Re

/-- The characters of a key, then the closing part of a token pattern, do not
match another name followed by the closing braces. -/
theorem matchRe_name_other :
    ∀ (key name : Str), (∀ ch ∈ key, isWordChar ch = true) →
      (∀ ch ∈ name, isWordChar ch = true) → key ≠ name → ∀ (l : Str) (c : Caps) (k : Cont),
      matchRe (seqs (key.map Re.char ++
        [Re.star (.chr isWhiteSpace), Re.char '}', Re.char '}'])) ⟨l, name ++ "\x7d\x7d".toList⟩ c k =
        none := by
  intro key
  induction key with
  | nil =>
    intro name _ hn hne l c k
    cases name with
    | nil => exact absurd rfl hne
    | cons n ns =>
      have hnw : isWordChar n = true := hn n (by simp)
      have hws : isWhiteSpace n = false := not_ws_of_word n hnw
      have hb : n ≠ '}' := ne_of_word n '}' hnw (by decide)
      show matchRe (seq (Re.star (.chr isWhiteSpace)) (seq (Re.char '}') (Re.char '}')))
        ⟨l, n :: (ns ++ "\x7d\x7d".toList)⟩ c k = none
      rw [matchRe_seq, Re.star, matchRe_class_zero _ _ _ _ _ _
        (by intro ch t h; simp only [List.cons.injEq] at h; rw [← h.1]; exact hws)]
      rw [matchRe_seq, matchRe_char_cons, if_neg hb]
  | cons a as ih =>
    intro name hk hn hne l c k
    have haw : isWordChar a = true := hk a (by simp)
    have has : ∀ ch ∈ as, isWordChar ch = true := fun ch hch => hk ch (by simp [hch])
    have hseq : seqs ((a :: as).map Re.char ++
        [Re.star (.chr isWhiteSpace), Re.char '}', Re.char '}']) =
        seq (Re.char a) (seqs (as.map Re.char ++
          [Re.star (.chr isWhiteSpace), Re.char '}', Re.char '}'])) := by
      cases as <;> rfl
    rw [hseq, matchRe_seq]
    cases name with
    | nil =>
      have hb : '}' ≠ a := (ne_of_word a '}' haw (by decide)).symm
      show matchRe (Re.char a) ⟨l, '}' :: '}' :: []⟩ c _ = none
      rw [matchRe_char_cons, if_neg hb]
    | cons n ns =>
      show matchRe (Re.char a) ⟨l, n :: (ns ++ "\x7d\x7d".toList)⟩ c _ = none
      rw [matchRe_char_cons]
      by_cases hna : n = a
      · subst hna
        have hne2 : as ≠ ns := fun h => hne (by rw [h])
        rw [if_pos rfl]
        exact ih ns has (fun ch hch => hn ch (by simp [hch])) hne2 _ c k
      · rw [if_neg hna]

/-- The pattern of a key does not match the token of another name. -/
theorem matchAt_token_other (key name : Str) (hk : ∀ ch ∈ key, isWordChar ch = true)
    (hn : ∀ ch ∈ name, isWordChar ch = true) (hne : key ≠ name) (l : Str) :
    matchAt (tokenRe key) ⟨l, token name⟩ = none := by
  have hseq : tokenRe key = seq (Re.char '{') (seq (Re.char '{') (seq (Re.star (.chr isWhiteSpace))
      (seqs (key.map Re.char ++ [Re.star (.chr isWhiteSpace), Re.char '}', Re.char '}'])))) := by
    cases key <;> rfl
  have hws : ∀ ch t, name ++ "\x7d\x7d".toList = ch :: t → isWhiteSpace ch = false := by
    intro ch t h
    cases name with
    | nil =>
      simp only [List.nil_append, String.toList, List.cons.injEq] at h
      rw [← h.1]; decide
    | cons n ns =>
      simp only [List.cons_append, List.cons.injEq] at h
      rw [← h.1]
      exact not_ws_of_word n (hn n (by simp))
  rw [matchAt, hseq, matchRe_seq]
  show matchRe (Re.char '{') ⟨l, '{' :: '{' :: (name ++ "\x7d\x7d".toList)⟩ [] _ = none
  rw [matchRe_char_cons, if_pos rfl, matchRe_seq, matchRe_char_cons, if_pos rfl]
  rw [matchRe_seq, Re.star, matchRe_class_zero _ _ _ _ _ _ hws]
  exact matchRe_name_other key name hk hn hne _ _ _

/-- The pattern of a key matches only where the text starts with two opening
braces. -/
theorem matchAt_token_braces (key : Str) (l s : Str) (h : ¬ "\x7b\x7b".toList <+: s) :
    matchAt (tokenRe key) ⟨l, s⟩ = none := by
  have hseq : tokenRe key = seq (Re.char '{') (seq (Re.char '{') (seq (Re.star (.chr isWhiteSpace))
      (seqs (key.map Re.char ++ [Re.star (.chr isWhiteSpace), Re.char '}', Re.char '}'])))) := by
    cases key <;> rfl
  rw [matchAt, hseq, matchRe_seq]
  cases s with
  | nil => exact matchRe_chr_nil _ _ _ _
  | cons a t =>
    rw [matchRe_char_cons]
    by_cases ha : a = '{'
    · subst ha
      rw [if_pos rfl, matchRe_seq]
      cases t with
      | nil => exact matchRe_chr_nil _ _ _ _
      | cons b u =>
        rw [matchRe_char_cons]
        by_cases hb : b = '{'
        · subst hb
          exact absurd (by simp [String.toList] : "\x7b\x7b".toList <+: '{' :: '{' :: u) h
        · rw [if_neg hb]
    · rw [if_neg ha]

end

section

open TemplateEngine Re

/-- Inside the token of a name, two opening braces stand only at its start. -/
theorem token_suffix_braces (name s : Str) (hn : ∀ ch ∈ name, isWordChar ch = true)
    (hs : s <:+ token name) (hb : "\x7b\x7b".toList <+: s) : s = token name := by
  have hno : ∀ ch ∈ name ++ "\x7d\x7d".toList, ch ≠ '{' := by
    intro ch hch
    rcases List.mem_append.mp hch with h | h
    · exact ne_of_word ch '{' (hn ch h) (by decide)
    · have h2 : ch = '}' := by simpa [String.toList] using h
      rw [h2]; decide
  obtain ⟨u, hu⟩ := hb
  have hu2 : s = '{' :: '{' :: u := by rw [← hu]; rfl
  have htok : token name = '{' :: '{' :: (name ++ "\x7d\x7d".toList) := rfl
  rw [htok] at hs ⊢
  rcases List.suffix_cons_iff.mp hs with h | h
  · exact h
  · rcases List.suffix_cons_iff.mp h with h2 | h2
    · rw [hu2] at h2
      simp only [List.cons.injEq, true_and] at h2
      have hmem : '{' ∈ name ++ "\x7d\x7d".toList := by rw [← h2]; simp
      exact absurd rfl (hno '{' hmem)
    · have hmem : '{' ∈ name ++ "\x7d\x7d".toList := h2.subset (by rw [hu2]; simp)
      exact absurd rfl (hno '{' hmem)

/-- The pattern of a key matches nowhere in the token of another name. -/
theorem matchAt_token_nowhere (key name : Str) (hk : ∀ ch ∈ key, isWordChar ch = true)
    (hn : ∀ ch ∈ name, isWordChar ch = true) (hne : key ≠ name) (l s : Str)
    (hs : s <:+ token name) : matchAt (tokenRe key) ⟨l, s⟩ = none := by
  by_cases hb : "\x7b\x7b".toList <+: s
  · rw [token_suffix_braces name s hn hs hb]
    exact matchAt_token_other key name hk hn hne l
  · exact matchAt_token_braces key l s hb

/-- One round of pass 1 leaves the token of another name as it is. -/
theorem replaceVariable_other (P : Platform) (key name : Str) (value : JSValue)
    (hk : ∀ ch ∈ key, isWordChar ch = true) (hn : ∀ ch ∈ name, isWordChar ch = true)
    (hne : key ≠ name) : replaceVariable P (token name) key value = .ok (token name) := by
  simp only [replaceVariable, compileRegExp_token key hk, replaceAllStr]
  rw [replaceAll_no_match _ _ _ (fun l s hs => matchAt_token_nowhere key name hk hn hne l s hs)]

/-- Pass 1 leaves the token of a name as it is when every key of the bag is a
name and none is that name. -/
theorem replaceBasicVariables_other (P : Platform) (name : Str)
    (hn : ∀ ch ∈ name, isWordChar ch = true) :
    ∀ (vars : Bag), (∀ key ∈ bagKeys vars, ∀ ch ∈ key, isWordChar ch = true) →
      name ∉ bagKeys vars → replaceBasicVariables P (token name) vars = .ok (token name) := by
  intro vars
  induction vars with
  | nil => intro _ _; rfl
  | cons e rest ih =>
    obtain ⟨key, value⟩ := e
    intro hk hnot
    have hcons : bagKeys ((key, value) :: rest) = key :: bagKeys rest := rfl
    rw [hcons] at hk hnot
    have hkey : ∀ ch ∈ key, isWordChar ch = true := hk key (List.mem_cons_self _ _)
    have hne : key ≠ name := by
      intro h
      exact hnot (h ▸ List.mem_cons_self _ _)
    simp only [replaceBasicVariables, replaceVariable_other P key name value hkey hn hne]
    exact ih (fun k hkm => hk k (List.mem_cons_of_mem _ hkm))
      (fun h => hnot (List.mem_cons_of_mem _ h))

end

section

open TemplateEngine Re

/-- C11 at the failing input: `processLoops` hands the text of a list element
to `String.prototype.replace` as a replacement string, so an element with a
dollar sign is not bound to `item` character for character. With the list
`["$&"]` the body `<item>` token comes out as the token itself instead of
`<$&>`, and the element `US$$5` comes out as `US$5`. The lists `["a","b","c"]`
and `[]`, an absent list and a value that is not a list render as the claim
says. -/
theorem processLoops_dollar :
    processLoops sampleHost "\x7b\x7bfor item in LIST\x7d\x7d<\x7b\x7bitem\x7d\x7d>\x7b\x7bendfor\x7d\x7d".toList
        [("LIST".toList, .arr [.str "$&".toList])] = .ok "<\x7b\x7bitem\x7d\x7d>".toList
      ∧ processLoops sampleHost "\x7b\x7bfor item in LIST\x7d\x7d<\x7b\x7bitem\x7d\x7d>\x7b\x7bendfor\x7d\x7d".toList
        [("LIST".toList, .arr [.str "US$$5".toList])] = .ok "<US$5>".toList
      ∧ processLoops sampleHost "\x7b\x7bfor item in LIST\x7d\x7d<\x7b\x7bitem\x7d\x7d>\x7b\x7bendfor\x7d\x7d".toList
        [("LIST".toList, .arr [.str "a".toList, .str "b".toList, .str "c".toList])] =
          .ok "<a><b><c>".toList
      ∧ processLoops sampleHost "\x7b\x7bfor item in LIST\x7d\x7d<\x7b\x7bitem\x7d\x7d>\x7b\x7bendfor\x7d\x7d".toList
        [("LIST".toList, .arr [])] = .ok []
      ∧ processLoops sampleHost "\x7b\x7bfor item in LIST\x7d\x7d<\x7b\x7bitem\x7d\x7d>\x7b\x7bendfor\x7d\x7d".toList
        [] = .ok []
      ∧ processLoops sampleHost "\x7b\x7bfor item in LIST\x7d\x7d<\x7b\x7bitem\x7d\x7d>\x7b\x7bendfor\x7d\x7d".toList
        [("LIST".toList, .str "abc".toList)] = .ok [] := by
  refine ⟨?_, ?_, ?_, ?_, ?_, ?_⟩ <;> rfl

/-- C19 as stated fails: pass 1 runs before the special variables are
resolved, so an entry of the bag named `version`, `appName` or `today` takes
the place of the token: the bag value is rendered (the empty string when it is
`null`), not the configured version, title or the date of the clock. -/
theorem processTemplate_bag_shadows :
    processTemplate sampleHost 1736132400000 (token "version".toList)
        [("version".toList, .str "9.9".toList)] = .ok "9.9".toList
      ∧ processTemplate sampleHost 1736132400000 (token "appName".toList)
        [("appName".toList, .str "Mine".toList)] = .ok "Mine".toList
      ∧ processTemplate sampleHost 1736132400000 (token "today".toList)
        [("today".toList, .str "never".toList)] = .ok "never".toList
      ∧ processTemplate sampleHost 1736132400000 (token "version".toList)
        [("version".toList, .null)] = .ok []
      ∧ processTemplate sampleHost 1736132400000 (token "version".toList) [] =
        .ok configVersion := by
  refine ⟨?_, ?_, ?_, ?_, ?_⟩ <;> rfl

theorem isDigit_ofNat (m : Nat) (h : m < 10) : isDigit (Char.ofNat (48 + m)) = true := by
  interval_cases m <;> decide

/-- The decimal text of a number is made of digits. -/
theorem natDigits_digit : ∀ (fuel n : Nat), ∀ ch ∈ natDigits fuel n, isDigit ch = true := by
  intro fuel
  induction fuel with
  | zero => intro n ch h; simp [natDigits] at h
  | succ f ih =>
    intro n ch h
    unfold natDigits at h
    split at h
    · rename_i hlt
      have hch : ch = Char.ofNat (48 + n) := by simpa using h
      rw [hch]
      exact isDigit_ofNat n hlt
    · rcases List.mem_append.mp h with h1 | h1
      · exact ih _ ch h1
      · have hch : ch = Char.ofNat (48 + n % 10) := by simpa using h1
        rw [hch]
        exact isDigit_ofNat (n % 10) (Nat.mod_lt _ (by decide))

/-- The characters of the text `formatDate` makes. -/
theorem formatDate_chars (P : Platform) (d : Option Int) :
    ∀ ch ∈ formatDate P d, isDigit ch = true ∨ ch = ' ' ∨ ch = '月' ∨ ch = '日' := by
  intro ch h
  cases d with
  | none => simp [formatDate] at h
  | some t =>
    simp only [formatDate, List.mem_append] at h
    rcases h with ((h | h) | h) | h
    · exact Or.inl (natDigits_digit _ _ ch h)
    · have h2 : ch ∈ [' ', '月', ' '] := h
      simp only [List.mem_cons, List.mem_singleton, List.not_mem_nil, or_false] at h2
      rcases h2 with h2 | h2 | h2
      · exact Or.inr (Or.inl h2)
      · exact Or.inr (Or.inr (Or.inl h2))
      · exact Or.inr (Or.inl h2)
    · exact Or.inl (natDigits_digit _ _ ch h)
    · have h2 : ch ∈ [' ', '日'] := h
      simp only [List.mem_cons, List.mem_singleton, List.not_mem_nil, or_false] at h2
      rcases h2 with h2 | h2
      · exact Or.inr (Or.inl h2)
      · exact Or.inr (Or.inr (Or.inr h2))

/-- The text `formatDate` makes holds no dollar sign and no opening brace. -/
theorem formatDate_plain (P : Platform) (d : Option Int) :
    ∀ ch ∈ formatDate P d, ch ≠ '$' ∧ ch ≠ '{' := by
  intro ch h
  rcases formatDate_chars P d ch h with h1 | h1 | h1 | h1
  · constructor
    · intro h2; rw [h2] at h1; exact absurd h1 (by decide)
    · intro h2; rw [h2] at h1; exact absurd h1 (by decide)
  · rw [h1]; constructor <;> decide
  · rw [h1]; constructor <;> decide
  · rw [h1]; constructor <;> decide

end

section

open TemplateEngine Re

/-- Passes 2 to 4 leave the three tokens named in C19 as they are, whatever
the bag holds. -/
theorem passes_special (P : Platform) (vars : Bag) :
    (processLoops P (processConditionals (token "version".toList) vars) vars =
        .ok (token "version".toList)
      ∧ processFunctions P (token "version".toList) vars = token "version".toList)
    ∧ (processLoops P (processConditionals (token "appName".toList) vars) vars =
        .ok (token "appName".toList)
      ∧ processFunctions P (token "appName".toList) vars = token "appName".toList)
    ∧ (processLoops P (processConditionals (token "today".toList) vars) vars =
        .ok (token "today".toList)
      ∧ processFunctions P (token "today".toList) vars = token "today".toList) := by
  refine ⟨⟨?_, ?_⟩, ⟨?_, ?_⟩, ⟨?_, ?_⟩⟩ <;> rfl

/-- A replacement of a whole token by a text without a dollar sign. -/
theorem replaceAllStr_whole (name r : Str) (hr : ∀ ch ∈ r, ch ≠ '$')
    (h : ∀ x : Str, replaceAllStr (lit (token name)) 0 x (token name) =
      expandReplacement 0 ⟨token name, [], [], []⟩ x ++ []) :
    replaceAllStr (lit (token name)) 0 r (token name) = r := by
  rw [h r, expandReplacement_plain 0 _ r hr, List.append_nil]

/-- Pass 5 on the token `version`. -/
theorem special_version (P : Platform) (now : Int) :
    processSpecialVariables P now (token "version".toList) = configVersion := by
  have h1 : ∀ r : Str, replaceAllStr (lit "\x7b\x7btoday\x7d\x7d".toList) 0 r (token "version".toList) =
      token "version".toList := fun _ => rfl
  have h2 : ∀ r : Str, replaceAllStr (lit "\x7b\x7bnow\x7d\x7d".toList) 0 r (token "version".toList) =
      token "version".toList := fun _ => rfl
  have h3 : ∀ r : Str, replaceAllStr (lit "\x7b\x7btimestamp\x7d\x7d".toList) 0 r
      (token "version".toList) = token "version".toList := fun _ => rfl
  have h4 : ∀ r : Str, replaceAllStr (lit "\x7b\x7bnextBusinessDay\x7d\x7d".toList) 0 r
      (token "version".toList) = token "version".toList := fun _ => rfl
  have h5 : replaceAllStr (lit "\x7b\x7bversion\x7d\x7d".toList) 0 configVersion (token "version".toList) =
      configVersion := rfl
  have h6 : replaceAllStr (lit "\x7b\x7bappName\x7d\x7d".toList) 0 configTitle configVersion =
      configVersion := rfl
  simp only [processSpecialVariables, h1, h2, h3, h4, h5, h6]

/-- Pass 5 on the token `appName`. -/
theorem special_appName (P : Platform) (now : Int) :
    processSpecialVariables P now (token "appName".toList) = configTitle := by
  have h1 : ∀ r : Str, replaceAllStr (lit "\x7b\x7btoday\x7d\x7d".toList) 0 r (token "appName".toList) =
      token "appName".toList := fun _ => rfl
  have h2 : ∀ r : Str, replaceAllStr (lit "\x7b\x7bnow\x7d\x7d".toList) 0 r (token "appName".toList) =
      token "appName".toList := fun _ => rfl
  have h3 : ∀ r : Str, replaceAllStr (lit "\x7b\x7btimestamp\x7d\x7d".toList) 0 r
      (token "appName".toList) = token "appName".toList := fun _ => rfl
  have h4 : ∀ r : Str, replaceAllStr (lit "\x7b\x7bnextBusinessDay\x7d\x7d".toList) 0 r
      (token "appName".toList) = token "appName".toList := fun _ => rfl
  have h5 : ∀ r : Str, replaceAllStr (lit "\x7b\x7bversion\x7d\x7d".toList) 0 r
      (token "appName".toList) = token "appName".toList := fun _ => rfl
  have h6 : replaceAllStr (lit "\x7b\x7bappName\x7d\x7d".toList) 0 configTitle (token "appName".toList) =
      configTitle := rfl
  simp only [processSpecialVariables, h1, h2, h3, h4, h5, h6]

end

section

open TemplateEngine Re

/-- A literal pattern that starts with an opening brace changes nothing in a
text without one. -/
theorem replaceAllStr_lit_brace (p r s : Str) (m : Nat) (hs : ∀ ch ∈ s, ch ≠ '{') :
    replaceAllStr (lit ('{' :: p)) m r s = s := by
  rw [replaceAllStr]
  apply replaceAll_no_match
  intro l t ht
  rw [matchAt]
  apply matchRe_lit_none
  intro hp
  obtain ⟨u, hu⟩ := hp
  have hmem : '{' ∈ s := ht.subset (by
    have hu2 : '{' :: (p ++ u) = t := hu
    rw [← hu2]; exact List.mem_cons_self _ _)
  exact hs '{' hmem rfl

/-- Pass 5 on the token `today`. -/
theorem special_today (P : Platform) (now : Int) :
    processSpecialVariables P now (token "today".toList) = formatDate P (some now) := by
  have hd : ∀ ch ∈ formatDate P (some now), ch ≠ '$' :=
    fun ch h => (formatDate_plain P (some now) ch h).1
  have hb : ∀ ch ∈ formatDate P (some now), ch ≠ '{' :=
    fun ch h => (formatDate_plain P (some now) ch h).2
  have h1 : replaceAllStr (lit "\x7b\x7btoday\x7d\x7d".toList) 0 (formatDate P (some now))
      (token "today".toList) = formatDate P (some now) :=
    replaceAllStr_whole "today".toList _ hd (fun _ => rfl)
  have h2 : ∀ (p r : Str), replaceAllStr (lit ('{' :: p)) 0 r (formatDate P (some now)) =
      formatDate P (some now) := fun p r => replaceAllStr_lit_brace p r _ 0 hb
  simp only [processSpecialVariables, h1]
  rw [show "\x7b\x7bnow\x7d\x7d".toList = '{' :: "\x7bnow\x7d\x7d".toList from rfl, h2,
    show "\x7b\x7btimestamp\x7d\x7d".toList = '{' :: "\x7btimestamp\x7d\x7d".toList from rfl, h2,
    show "\x7b\x7bnextBusinessDay\x7d\x7d".toList = '{' :: "\x7bnextBusinessDay\x7d\x7d".toList from rfl,
    h2, show "\x7b\x7bversion\x7d\x7d".toList = '{' :: "\x7bversion\x7d\x7d".toList from rfl, h2,
    show "\x7b\x7bappName\x7d\x7d".toList = '{' :: "\x7bappName\x7d\x7d".toList from rfl, h2]

end

section

open TemplateEngine Re

/-- What `processTemplate` makes of the token of a name that pass 1 leaves
alone. -/
theorem processTemplate_untouched (P : Platform) (now : Int) (name : Str) (vars : Bag)
    (hn : ∀ ch ∈ name, isWordChar ch = true)
    (hkeys : ∀ key ∈ bagKeys vars, ∀ ch ∈ key, isWordChar ch = true)
    (hnot : name ∉ bagKeys vars) (hlinks : processLinks (token name) = token name)
    (hloops : processLoops P (processConditionals (token name) vars) vars = .ok (token name))
    (hfun : processFunctions P (token name) vars = token name) :
    processTemplate P now (token name) vars =
      .ok (processSpecialVariables P now (token name)) := by
  simp only [processTemplate, hlinks, replaceBasicVariables_other P name hn vars hkeys hnot,
    hloops, hfun]

/-- C19, as the code has it: the special variables are resolved in the last
pass, after the entries of the bag have been substituted. For every bag whose
keys are names (letters, digits, underscores), the template `version` token
renders as the configured version when no key is `version`, the `appName`
token as the configured title when no key is `appName`, and the `today` token
as the date of the clock when no key is `today`; the other entries of the bag
do not matter. -/
theorem processTemplate_special (P : Platform) (now : Int) (vars : Bag)
    (hkeys : ∀ key ∈ bagKeys vars, ∀ ch ∈ key, isWordChar ch = true) :
    ("version".toList ∉ bagKeys vars →
        processTemplate P now (token "version".toList) vars = .ok configVersion)
      ∧ ("appName".toList ∉ bagKeys vars →
        processTemplate P now (token "appName".toList) vars = .ok configTitle)
      ∧ ("today".toList ∉ bagKeys vars →
        processTemplate P now (token "today".toList) vars = .ok (formatDate P (some now))) := by
  obtain ⟨⟨hv1, hv2⟩, ⟨ha1, ha2⟩, ⟨ht1, ht2⟩⟩ := passes_special P vars
  refine ⟨fun h => ?_, fun h => ?_, fun h => ?_⟩
  · rw [processTemplate_untouched P now _ vars (by decide) hkeys h rfl hv1 hv2,
      special_version]
  · rw [processTemplate_untouched P now _ vars (by decide) hkeys h rfl ha1 ha2,
      special_appName]
  · rw [processTemplate_untouched P now _ vars (by decide) hkeys h rfl ht1 ht2,
      special_today]

/-- The statement of `processTemplate_special` at a bag with the entries
`name` and `now`: the three tokens render from the configuration and the
clock (6 January 2025 in Tokyo). -/
theorem processTemplate_special_witness :
    processTemplate sampleHost 1736132400000 (token "version".toList)
        [("name".toList, .str "Ann".toList), ("now".toList, .str "x".toList)] = .ok "1.0.0".toList
      ∧ processTemplate sampleHost 1736132400000 (token "appName".toList)
        [("name".toList, .str "Ann".toList), ("now".toList, .str "x".toList)] =
          .ok "PolicyPlayBook - Auto Email Generator".toList
      ∧ processTemplate sampleHost 1736132400000 (token "today".toList)
        [("name".toList, .str "Ann".toList), ("now".toList, .str "x".toList)] =
          .ok "1 月 6 日".toList :=
  have h := processTemplate_special sampleHost 1736132400000
    [("name".toList, .str "Ann".toList), ("now".toList, .str "x".toList)] (by decide)
  ⟨h.1 (by decide), h.2.1 (by decide), by rw [h.2.2 (by decide)]; rfl⟩

end

section

/-- C27 as stated fails: `set` with a negative number of minutes stores an
entry whose expiry is not null and lies before its creation time: with the
clock at 1736132400000 and `ttl = -1` the stored expiry is 1736132340000. -/
theorem set_negative_ttl :
    getProperty (CacheService.set (sampleWorld "Hello" "[]") "k".toList (.str "v".toList) (-1))
        "cache_k".toList =
      some (.json (.obj [("value".toList, .str "v".toList),
        ("expiry".toList, .num (.ofInt 1736132340000)),
        ("created".toList, .num (.ofInt 1736132400000))]))
      ∧ JSNum.lt (JSNum.ofInt 1736132340000) (JSNum.ofInt 1736132400000) = true := by
  constructor
  · rfl
  · decide

/-- C27, as the code has it: the entry `set` stores holds the clock as its
creation time and, for a number of minutes other than zero, the clock plus
that many minutes as its expiry (`null` for zero). So the expiry is strictly
greater than the creation time for every positive number of minutes, and
strictly smaller for every negative one. -/
theorem set_expiry_created (w : World) (key : Str) (value : JSValue) (ttl : Int) :
    ∃ fs, getProperty (CacheService.set w key value ttl) (CacheService.keyPrefix ++ key) =
        some (.json (.obj fs))
      ∧ field (.obj fs) "created".toList = .num (.ofInt w.now)
      ∧ field (.obj fs) "expiry".toList =
        (if ttl ≠ 0 then .num (.ofInt (w.now + ttl * 60 * 1000)) else .null)
      ∧ (0 < ttl → JSNum.lt (field (.obj fs) "created".toList).toNumber
          (field (.obj fs) "expiry".toList).toNumber = true)
      ∧ (ttl < 0 → JSNum.lt (field (.obj fs) "expiry".toList).toNumber
          (field (.obj fs) "created".toList).toNumber = true) := by
  have hlt : ∀ a b : Int, a < b → JSNum.lt (JSNum.ofInt a) (JSNum.ofInt b) = true := by
    intro a b hab
    simp only [JSNum.ofInt, JSNum.lt]
    simp [hab]
  have hentry : ∃ fs, getProperty (CacheService.set w key value ttl)
      (CacheService.keyPrefix ++ key) = some (.json (.obj fs))
      ∧ field (.obj fs) "created".toList = .num (.ofInt w.now)
      ∧ field (.obj fs) "expiry".toList =
        (if ttl ≠ 0 then .num (.ofInt (w.now + ttl * 60 * 1000)) else .null) := by
    simp only [CacheService.set, getProperty_setProperty]
    by_cases h0 : ttl ≠ 0
    · simp only [if_pos h0]
      cases value <;> exact ⟨_, rfl, rfl, rfl⟩
    · simp only [if_neg h0]
      cases value <;> exact ⟨_, rfl, rfl, rfl⟩
  obtain ⟨fs, h1, h2, h3⟩ := hentry
  refine ⟨fs, h1, h2, h3, ?_, ?_⟩
  · intro hpos
    have h0 : ttl ≠ 0 := by omega
    rw [h2, h3, if_pos h0]
    exact hlt _ _ (by omega)
  · intro hneg
    have h0 : ttl ≠ 0 := by omega
    rw [h2, h3, if_pos h0]
    exact hlt _ _ (by omega)

end

section

/-! ## The two holiday tests -/

theorem toNat_ofNat_digit (m : Nat) (h : m < 10) : (Char.ofNat (48 + m)).toNat = 48 + m := by
  interval_cases m <;> rfl

theorem digitsValue_append (b : Nat) : ∀ (s t : Str) (acc : Nat),
    digitsValue b (s ++ t) acc = (digitsValue b s acc).bind (fun v => digitsValue b t v) := by
  intro s
  induction s with
  | nil => intro t acc; rfl
  | cons c r ih =>
    intro t acc
    simp only [List.cons_append, digitsValue]
    split
    · split
      · exact ih t _
      · rfl
    · rfl

theorem digitsValue_digit (m acc : Nat) (h : m < 10) :
    digitsValue 10 [Char.ofNat (48 + m)] acc = some (acc * 10 + m) := by
  simp only [digitsValue, toNat_ofNat_digit m h]
  have h1 : 48 ≤ 48 + m ∧ 48 + m ≤ 57 := by omega
  simp [h1, h]

/-- Reading the decimal text of a number gives the number back. -/
theorem digitsValue_natDigits : ∀ (fuel n : Nat), n < fuel →
    digitsValue 10 (natDigits fuel n) 0 = some n := by
  intro fuel
  induction fuel with
  | zero => intro n h; omega
  | succ f ih =>
    intro n h
    unfold natDigits
    split
    · rename_i hlt
      rw [digitsValue_digit n 0 hlt]; simp
    · rename_i hge
      rw [digitsValue_append, ih (n / 10) (by omega)]
      simp only [Option.bind]
      rw [digitsValue_digit (n % 10) (n / 10) (Nat.mod_lt _ (by decide))]
      congr 1
      omega

theorem digitsValue_natToStr (n : Nat) : digitsValue 10 (natToStr n) 0 = some n :=
  digitsValue_natDigits (n + 1) n (Nat.lt_succ_self n)

end

section

/-- The month of a civil date lies between 1 and 12, its day between 1 and
31. -/
theorem civil_bounds (z : Int) :
    1 ≤ (civilFromDays z).2.1 ∧ (civilFromDays z).2.1 ≤ 12 ∧
      1 ≤ (civilFromDays z).2.2 ∧ (civilFromDays z).2.2 ≤ 31 := by
  have h0 : 0 ≤ z + 719468 - (z + 719468) / 146097 * 146097 := by omega
  have h1 : z + 719468 - (z + 719468) / 146097 * 146097 ≤ 146096 := by omega
  simp only [civilFromDays]
  generalize (z + 719468) / 146097 = era at *
  generalize z + 719468 - era * 146097 = doe at *
  have hd0 := doy_ge doe _ h0 h1 rfl
  have hd1 := doy_le doe _ h0 h1 rfl
  generalize (doe - doe / 1460 + doe / 36524 - doe / 146096) / 365 = yoe at *
  generalize doe - (365 * yoe + yoe / 4 - yoe / 100) = doy at *
  have hmp0 : 0 ≤ (5 * doy + 2) / 153 := by omega
  have hmp1 : (5 * doy + 2) / 153 ≤ 11 := by omega
  have hdd0 : 1 ≤ doy - (153 * ((5 * doy + 2) / 153) + 2) / 5 + 1 := by omega
  have hdd1 : doy - (153 * ((5 * doy + 2) / 153) + 2) / 5 + 1 ≤ 31 := by omega
  generalize (5 * doy + 2) / 153 = mp at *
  generalize doy - (153 * mp + 2) / 5 + 1 = d at *
  refine ⟨?_, ?_, ?_, ?_⟩
  · split <;> omega
  · split <;> omega
  · omega
  · omega

end

section

/-- A number below 100 padded to two places: two digits that read as the
number. -/
theorem pad2_digits (m : Nat) (h : m < 100) :
    ∃ a b, padStart0 2 (natToStr m) = [a, b] ∧ digitsValue 10 [a, b] 0 = some m := by
  interval_cases m <;> exact ⟨_, _, rfl, rfl⟩

/-- Where the text `formatDateForHoliday` makes reads as an ISO date, it reads
as midnight UTC of the local day it was made from. -/
theorem parse_formatDateForHoliday (P : Platform) (t t2 : Int)
    (h : parseIsoDate (formatDateForHoliday P t) = some t2) :
    t2 = localDay P t * msPerDay := by
  obtain ⟨hm1, hm12, hd1, hd31⟩ := civil_bounds (localDay P t)
  have hrt := civil_roundtrip (localDay P t)
  simp only [formatDateForHoliday, getFullYear, getMonth1, getDate] at h
  generalize (civilFromDays (localDay P t)).1 = Y at *
  generalize (civilFromDays (localDay P t)).2.1 = M at *
  generalize (civilFromDays (localDay P t)).2.2 = D at *
  obtain ⟨a, b, hab, hmv⟩ := pad2_digits M (by omega)
  obtain ⟨c, d, hcd, hdv⟩ := pad2_digits D (by omega)
  rw [hab, hcd] at h
  have hy : ∀ y1 y2 y3 y4, intToStr Y = [y1, y2, y3, y4] → isDigit y1 = true →
      digitsValue 10 [y1, y2, y3, y4] 0 = some Y.toNat ∧ (Y.toNat : Int) = Y := by
    intro y1 y2 y3 y4 hs hdig
    unfold intToStr at hs
    split at hs
    · simp only [List.cons.injEq] at hs
      rw [← hs.1] at hdig
      exact absurd hdig (by decide)
    · rename_i hneg
      have hnat : Y.natAbs = Y.toNat := by omega
      rw [hnat] at hs
      rw [← hs, digitsValue_natToStr]
      exact ⟨rfl, by omega⟩
  rcases hL : intToStr Y with _ | ⟨y1, _ | ⟨y2, _ | ⟨y3, _ | ⟨y4, _ | ⟨y5, L⟩⟩⟩⟩⟩
  · rw [hL] at h; simp [parseIsoDate] at h
  · rw [hL] at h; simp [parseIsoDate] at h
  · rw [hL] at h; simp [parseIsoDate] at h
  · rw [hL] at h; simp [parseIsoDate] at h
  · rw [hL] at h
    simp only [List.cons_append, List.nil_append, parseIsoDate] at h
    split at h
    · rename_i hall
      have hdig : isDigit y1 = true := by
        simp only [List.all_cons, Bool.and_eq_true] at hall
        exact hall.1
      obtain ⟨hyv, hyi⟩ := hy y1 y2 y3 y4 hL hdig
      rw [hyv, hmv, hdv] at h
      simp only [Option.getD_some] at h
      split at h
      · simp only [Option.some.injEq] at h
        rw [← h, hyi, hrt]
      · cases h
    · cases h
  · rw [hL] at h
    simp only [List.cons_append, parseIsoDate] at h
    split at h
    · rename_i heq
      have hlen := congrArg List.length heq
      simp only [List.length_cons, List.length_append, List.length_nil] at hlen
      omega
    · cases h

end

section

theorem formatDateForHoliday_civil (P : Platform) (t : Int) :
    formatDateForHoliday P t = formatCivil (civilFromDays (localDay P t)) := rfl

set_option maxRecDepth 100000 in
set_option maxHeartbeats 2000000 in
/-- Every entry of `HOLIDAY_LIST` is the text `formatDateForHoliday` makes of
its own date. -/
theorem holidays_format :
    HOLIDAY_LIST.all (fun h => match parseIsoDate h.toList with
      | some t => h.toList == formatCivil (civilFromDays (t / msPerDay))
      | none => false) = true := by
  rfl

end

section

theorem all_mem {α : Type} (p : α → Bool) : ∀ (L : List α), L.all p = true → ∀ x ∈ L, p x = true := by
  intro L h x hx
  exact List.all_eq_true.mp h x hx

/-- The text of a date is listed in `HOLIDAY_LIST` exactly when its local day
is one of the holidays. -/
theorem holiday_text_iff (P : Platform) (t : Int) :
    (HOLIDAY_LIST.map String.toList).contains (formatDateForHoliday P t) =
      holidayDays.contains (localDay P t) := by
  rw [Bool.eq_iff_iff]
  simp only [List.contains_iff_exists_mem_beq, beq_iff_eq, List.mem_map]
  constructor
  · rintro ⟨s, ⟨h, hh, rfl⟩, hs⟩
    have hp := all_mem _ HOLIDAY_LIST holidays_parse h hh
    cases hparse : parseIsoDate h.toList with
    | none => rw [hparse] at hp; cases hp
    | some tt =>
      have ht := parse_formatDateForHoliday P t tt (by rw [hs, hparse])
      refine ⟨localDay P t, ?_, rfl⟩
      simp only [holidayDays, List.mem_filterMap]
      refine ⟨h, hh, ?_⟩
      rw [hparse, Option.map_some', ht]
      congr 1
      simp only [msPerDay]
      omega
  · rintro ⟨d, hd, hdt⟩
    simp only [holidayDays, List.mem_filterMap] at hd
    obtain ⟨h, hh, hmap⟩ := hd
    have hf := all_mem _ HOLIDAY_LIST holidays_format h hh
    cases hparse : parseIsoDate h.toList with
    | none => rw [hparse] at hmap; cases hmap
    | some tt =>
      rw [hparse] at hf hmap
      simp only [Option.map_some', Option.some.injEq] at hmap
      have hfe : h.toList = formatCivil (civilFromDays (tt / msPerDay)) := by simpa using hf
      refine ⟨h.toList, ⟨h, hh, rfl⟩, ?_⟩
      rw [hfe, hmap, ← hdt, formatDateForHoliday_civil]

/-- The test `isBusinessDay` on a date: its local day is a business day. -/
theorem isBusinessDay_eq (P : Platform) (t : Int) :
    isBusinessDay P t = businessDay (localDay P t) := by
  simp only [isBusinessDay, holiday_text_iff, businessDay, isWeekendDay, getDay]
  cases ((localDay P t + 4) % 7 == 0) <;> cases ((localDay P t + 4) % 7 == 6) <;>
    cases (holidayDays.contains (localDay P t)) <;> rfl

/-- In a script time zone at or east of UTC (as in Japan), the two holiday
tests agree: the loop of `getNextBusinessDay` goes on at a date
exactly when `isBusinessDay` is false for it; so for every start date and
every integer offset `isBusinessDay(getNextBusinessDay(start, offset))` is
true. (West of UTC the parsed entries of `HOLIDAY_LIST`, midnight UTC, fall on
the local day before, and the hypothesis cannot be dropped.) -/
theorem isBusinessDay_getNextBusinessDay (P : Platform) (now : Int) (start : Option Int)
    (offset : Int) (h0 : 0 ≤ P.tzOffset) (h1 : P.tzOffset < 1440) :
    isBusinessDay P (getNextBusinessDay P now start offset) = true
      ∧ ∀ t : Int, isSkipped P t = !isBusinessDay P t := by
  obtain ⟨n, _, _, hb, _⟩ := getNextBusinessDay_spec P now start offset h0 h1
  exact ⟨by rw [isBusinessDay_eq, hb], fun t => by rw [isSkipped_eq P t h0 h1, isBusinessDay_eq]⟩

/-- The statement of `isBusinessDay_getNextBusinessDay` in Tokyo for the start
31 December 2024 and the offset 1: the date returned, 2 January 2025, passes
`isBusinessDay`, and New Year's Day is skipped by the loop and fails
`isBusinessDay`. -/
theorem isBusinessDay_getNextBusinessDay_witness :
    isBusinessDay sampleHost (getNextBusinessDay sampleHost 0 (some 1735614000000) 1) = true
      ∧ isSkipped sampleHost 1735700400000 = true
      ∧ isBusinessDay sampleHost 1735700400000 = false :=
  have h := isBusinessDay_getNextBusinessDay sampleHost 0 (some 1735614000000) 1
    (by decide) (by decide)
  have hs : isBusinessDay sampleHost 1735700400000 = false := by rfl
  ⟨h.1, by rw [h.2, hs]; rfl, hs⟩

set_option maxRecDepth 1000000 in
/-- C29 fails in a script time zone west of UTC: five hours behind UTC, for
the start 2024-12-31, noon, and the offset 1, `isBusinessDay` is false for the
date `getNextBusinessDay` returns, 2025-01-01: the loop of
`getNextBusinessDay` does not take it for a holiday, `isBusinessDay` does; and
the loop takes 2024-12-31 for a holiday, which `isBusinessDay` accepts. -/
theorem isBusinessDay_getNextBusinessDay_west :
    isBusinessDay westHost (getNextBusinessDay westHost 0 (some 1735664400000) 1) = false
      ∧ isSkipped westHost (getNextBusinessDay westHost 0 (some 1735664400000) 1) = false
      ∧ isSkipped westHost 1735664400000 = true
      ∧ isBusinessDay westHost 1735664400000 = true := by
  refine ⟨by rfl, by rfl, by rfl, by rfl⟩

end

section

open TemplateEngine

/-- C26 at the failing input: for the template
`Hello {{name}}, {{if vip}}welcome back{{endif}}` the list `variables` of
`analyzeTemplate` holds every token between double braces, the control tokens
`if vip` and `endif` included, so the complexity is 3 + 2 × 1 = 5 and not
1 + 2 × 1 = 3. The counts of conditionals, loops and functions are as the
claim has them. -/
theorem analyzeTemplate_counts_control_tokens :
    analyzeTemplate "Hello \x7b\x7bname\x7d\x7d, \x7b\x7bif vip\x7d\x7dwelcome back\x7b\x7bendif\x7d\x7d".toList =
      { vars := ["name".toList, "if vip".toList, "endif".toList],
        conditionals := ["vip".toList], loops := [], functions := [], complexity := 5 }
    ∧ analyzeTemplate "\x7b\x7bfor x in xs\x7d\x7d\x7b\x7bupper(x)\x7d\x7d\x7b\x7bendfor\x7d\x7d".toList =
      { vars := ["for x in xs".toList, "upper(x)".toList, "endfor".toList],
        conditionals := [], loops := ["x in xs".toList], functions := ["upper".toList],
        complexity := 7 } := by
  constructor <;> rfl

/-- C28 at the failing inputs: `replaceBasicVariables` puts the key into the
source of a pattern as it is. The key `a.c` replaces the token of `abc`; the
key `(` makes `new RegExp` throw; the key `|a|` changes a template without
braces; and the key `a+b` does not replace its own token. -/
theorem replaceBasicVariables_key_pattern :
    replaceBasicVariables sampleHost "\x7b\x7babc\x7d\x7d".toList [("a.c".toList, .str "X".toList)] =
        .ok "X".toList
      ∧ replaceBasicVariables sampleHost "\x7b\x7babc\x7d\x7d".toList [("(".toList, .str "X".toList)] =
        .error "Invalid regular expression: /\x7b\x7b\\s*(\\s*\x7d\x7d/: Syntax error".toList
      ∧ replaceBasicVariables sampleHost "no braces".toList [("|a|".toList, .str "X".toList)] =
        .ok "no brXces".toList
      ∧ replaceBasicVariables sampleHost "\x7b\x7ba+b\x7d\x7d".toList [("a+b".toList, .str "X".toList)] =
        .ok "\x7b\x7ba+b\x7d\x7d".toList := by
  refine ⟨?_, ?_, ?_, ?_⟩ <;> rfl

end

section

/-! ## Scanning a text piece by piece -/

/-- A suffix of `a ++ b` is a suffix of `b`, or a non-empty suffix of `a`
followed by `b`. -/
theorem suffix_append_cases (a b s : Str) (h : s <:+ a ++ b) :
    s <:+ b ∨ ∃ a2, a2 ≠ [] ∧ a2 <:+ a ∧ s = a2 ++ b := by
  induction a with
  | nil => exact Or.inl h
  | cons c t ih =>
    rcases List.suffix_cons_iff.mp h with h1 | h1
    · exact Or.inr ⟨c :: t, by simp, List.suffix_refl _, h1⟩
    · rcases ih h1 with h2 | ⟨a2, hne, hs, he⟩
      · exact Or.inl h2
      · exact Or.inr ⟨a2, hne, hs.trans (List.suffix_cons c t), he⟩

/-- Where the pattern matches at no position inside `a`, the scan passes `a`
character by character. -/
theorem pieces_skip (r : Re) (b : Str) :
    ∀ (a : Str) (fuel : Nat) (left : Str),
      (∀ l a2, a2 ≠ [] → a2 <:+ a → matchAt r ⟨l, a2 ++ b⟩ = none) →
      pieces r (fuel + a.length) left (a ++ b) =
        a.map .text ++ pieces r fuel (a.reverse ++ left) b := by
  intro a
  induction a with
  | nil => intro fuel left _; simp
  | cons c t ih =>
    intro fuel left h
    have hc : matchAt r ⟨left, (c :: t) ++ b⟩ = none :=
      h left (c :: t) (by simp) (List.suffix_refl _)
    have ht : ∀ l a2, a2 ≠ [] → a2 <:+ t → matchAt r ⟨l, a2 ++ b⟩ = none :=
      fun l a2 hne hs => h l a2 hne (hs.trans (List.suffix_cons c t))
    have hfuel : fuel + (c :: t).length = (fuel + t.length) + 1 := by
      simp only [List.length_cons]; omega
    rw [hfuel, List.cons_append, pieces]
    rw [List.cons_append] at hc
    simp only [hc]
    rw [ih fuel (c :: left) ht]
    simp

/-- At a match that is not empty, the scan records it and goes on behind
it. -/
theorem pieces_hit (r : Re) (fuel : Nat) (left m rest : Str) (y : Pos) (caps : Caps)
    (hm : matchAt r ⟨left, m ++ rest⟩ = some (y, caps)) (hy : y.rest = rest) (hne : m ≠ []) :
    pieces r (fuel + 1) left (m ++ rest) =
      .hit ⟨m, caps, left.reverse, rest⟩ :: pieces r fuel (m.reverse ++ left) rest := by
  have hlen : (m ++ rest).length - rest.length = m.length := by simp
  have hlen0 : m.length ≠ 0 := fun h0 => hne (List.length_eq_zero.mp h0)
  simp only [pieces, hm, hy, hlen, hlen0, if_false, List.take_left']

theorem render_append_text (f : MatchInfo → Str) (a : Str) (ps : List Piece) :
    render f (a.map .text ++ ps) = a ++ render f ps := by
  induction a with
  | nil => rfl
  | cons c t ih => simp [render, ih]

theorem hits_append_text (a : Str) (ps : List Piece) :
    hits (a.map .text ++ ps) = hits ps := by
  induction a with
  | nil => rfl
  | cons c t ih => simp [hits, ih]

/-- A replacement over a text `a` without a match followed by `b`: `a` stays,
and `b` is scanned with `a` to its left. -/
theorem replaceAll_skip (r : Re) (f : MatchInfo → Str) (a b : Str)
    (h : ∀ l a2, a2 ≠ [] → a2 <:+ a → matchAt r ⟨l, a2 ++ b⟩ = none) :
    replaceAll r f (a ++ b) = a ++ render f (pieces r (b.length + 1) a.reverse b) := by
  have hfuel : (a ++ b).length + 1 = (b.length + 1) + a.length := by
    simp only [List.length_append]; omega
  rw [replaceAll, hfuel, pieces_skip r b a _ [] h, render_append_text, List.append_nil]

end

section

open TemplateEngine Re

theorem opensWith_seq_lit (c : Char) (p : Str) (r : Re) : OpensWith (seq (lit (c :: p)) r) c := by
  intro l s hs
  rw [matchAt, matchRe_seq]
  apply matchRe_lit_none
  rintro ⟨u, hu⟩
  exact hs (p ++ u) hu.symm

theorem opensWith_lit (c : Char) (p : Str) : OpensWith (lit (c :: p)) c := by
  intro l s hs
  rw [matchAt]
  apply matchRe_lit_none
  rintro ⟨u, hu⟩
  exact hs (p ++ u) hu.symm

theorem opensWith_seq_char (c : Char) (r : Re) : OpensWith (seq (Re.char c) r) c := by
  intro l s hs
  rw [matchAt, matchRe_seq]
  cases s with
  | nil => exact matchRe_chr_nil _ _ _ _
  | cons a t =>
    rw [matchRe_char_cons, if_neg (fun h => hs t (by rw [h]))]

theorem opensWith_conditional : OpensWith conditionalRegex '{' := opensWith_seq_lit _ _ _

theorem opensWith_existence : OpensWith existenceRegex '{' := opensWith_seq_lit _ _ _

theorem opensWith_loop : OpensWith loopRegex '{' := opensWith_seq_lit _ _ _

theorem opensWith_function (name : Str) : OpensWith (functionRegex name) '{' :=
  opensWith_seq_lit _ _ _

theorem opensWith_token (key : Str) : OpensWith (tokenRe key) '{' := by
  have hseq : tokenRe key = seq (Re.char '{') (seq (Re.char '{') (seq (Re.star (.chr isWhiteSpace))
      (seqs (key.map Re.char ++ [Re.star (.chr isWhiteSpace), Re.char '}', Re.char '}'])))) := by
    cases key <;> rfl
  rw [hseq]
  exact opensWith_seq_char _ _

theorem opensWith_link : OpensWith linkRegex '[' := opensWith_seq_char _ _

theorem opensWith_blankLines : OpensWith blankLinesRegex '\n' := opensWith_seq_char _ _

/-- A pattern that opens with `c` matches nowhere in a text without `c`. -/
theorem no_match_plain (r : Re) (c : Char) (x : Str) (hr : OpensWith r c)
    (hx : ∀ ch ∈ x, ch ≠ c) (l s : Str) (hs : s <:+ x) : matchAt r ⟨l, s⟩ = none := by
  apply hr
  intro t ht
  exact hx c (hs.subset (by rw [ht]; exact List.mem_cons_self _ _)) rfl

/-- A replacement by a pattern that opens with `c` changes nothing in a text
without `c`. -/
theorem replaceAll_plain (r : Re) (c : Char) (f : MatchInfo → Str) (x : Str)
    (hr : OpensWith r c) (hx : ∀ ch ∈ x, ch ≠ c) : replaceAll r f x = x :=
  replaceAll_no_match r f x (no_match_plain r c x hr hx)

theorem replaceAllStr_plain (r : Re) (c : Char) (m : Nat) (rep x : Str)
    (hr : OpensWith r c) (hx : ∀ ch ∈ x, ch ≠ c) : replaceAllStr r m rep x = x :=
  replaceAll_plain r c _ x hr hx

theorem renderM_text (f : MatchInfo → Except Str Str) (s : Str) :
    renderM f (s.map .text) = .ok s := by
  induction s with
  | nil => rfl
  | cons c t ih => simp [renderM, ih]

theorem replaceAllM_plain (r : Re) (c : Char) (f : MatchInfo → Except Str Str) (x : Str)
    (hr : OpensWith r c) (hx : ∀ ch ∈ x, ch ≠ c) : replaceAllM r f x = .ok x := by
  rw [replaceAllM, pieces_no_match r x _ [] (no_match_plain r c x hr hx), renderM_text]

/-- A replacement by a pattern that opens with `c` over a text `a` without `c`
followed by `b`: `a` stays, and `b` is scanned with `a` to its left. -/
theorem replaceAll_front (r : Re) (c : Char) (f : MatchInfo → Str) (a b : Str)
    (hr : OpensWith r c) (ha : ∀ ch ∈ a, ch ≠ c) :
    replaceAll r f (a ++ b) = a ++ render f (pieces r (b.length + 1) a.reverse b) := by
  apply replaceAll_skip
  intro l a2 hne hs
  apply hr
  intro t ht
  cases a2 with
  | nil => exact hne rfl
  | cons d u =>
    simp only [List.cons_append, List.cons.injEq] at ht
    exact ha d (hs.subset (List.mem_cons_self _ _)) ht.1

end

section

open TemplateEngine Re

/-- A letter is none of the characters the end-to-end example has to keep out
of the name. -/
theorem alpha_plain (c : Char) (h : c.isAlpha = true) : c ≠ '$' ∧ c ≠ '{' ∧ c ≠ '\n' := by
  refine ⟨?_, ?_, ?_⟩ <;> intro hc <;> rw [hc] at h <;> exact absurd h (by decide)

/-- Pass 1 on the template of the example with the value `N` of `name`. -/
theorem hello_name (P : Platform) (N : Str) (hN : ∀ c ∈ N, c ≠ '$') :
    replaceVariable P helloTemplate "name".toList (.str N) =
      .ok (("Hello ".toList ++ N ++ ", ".toList) ++
        "\x7b\x7bif vip\x7d\x7dwelcome back\x7b\x7bendif\x7d\x7d".toList) := by
  have h : replaceVariable P helloTemplate "name".toList (.str N) =
      .ok ("Hello ".toList ++ (expandReplacement 0
        ⟨"\x7b\x7bname\x7d\x7d".toList, [], "Hello ".toList,
          ", \x7b\x7bif vip\x7d\x7dwelcome back\x7b\x7bendif\x7d\x7d".toList⟩ N ++
        ", \x7b\x7bif vip\x7d\x7dwelcome back\x7b\x7bendif\x7d\x7d".toList)) := by
    rfl
  rw [h, expandReplacement_plain 0 _ N hN]
  simp

theorem hello_front (N : Str) (hN : ∀ c ∈ N, c ≠ '{') :
    ∀ ch ∈ "Hello ".toList ++ N ++ ", ".toList, ch ≠ '{' := by
  intro ch h
  simp only [List.mem_append] at h
  rcases h with (h | h) | h
  · intro hc; rw [hc] at h; exact absurd h (by decide)
  · exact hN ch h
  · intro hc; rw [hc] at h; exact absurd h (by decide)

/-- Pass 1 for the key `vip` leaves the text of the example as it is. -/
theorem hello_vip (P : Platform) (N : Str) (v : JSValue) (hN : ∀ c ∈ N, c ≠ '{') :
    replaceVariable P (("Hello ".toList ++ N ++ ", ".toList) ++
        "\x7b\x7bif vip\x7d\x7dwelcome back\x7b\x7bendif\x7d\x7d".toList) "vip".toList v =
      .ok (("Hello ".toList ++ N ++ ", ".toList) ++
        "\x7b\x7bif vip\x7d\x7dwelcome back\x7b\x7bendif\x7d\x7d".toList) := by
  simp only [replaceVariable, compileRegExp_token "vip".toList (by decide), replaceAllStr]
  rw [replaceAll_front _ '{' _ _ _ (opensWith_token _) (hello_front N hN)]
  rfl

/-- Pass 2 on the text of the example. -/
theorem hello_conditionals (N : Str) (vars : Bag) (hN : ∀ c ∈ N, c ≠ '{') :
    processConditionals (("Hello ".toList ++ N ++ ", ".toList) ++
        "\x7b\x7bif vip\x7d\x7dwelcome back\x7b\x7bendif\x7d\x7d".toList) vars =
      ("Hello ".toList ++ N ++ ", ".toList) ++
        (if (getProp vars "vip".toList).truthy && !(trim (getProp vars "vip".toList).toStr).isEmpty
          then "welcome back".toList else []) := by
  simp only [processConditionals]
  rw [replaceAll_front _ '{' _ _ _ opensWith_conditional (hello_front N hN)]
  have h1 : ∀ (f : MatchInfo → Str) (l : Str), render f (pieces conditionalRegex
      ("\x7b\x7bif vip\x7d\x7dwelcome back\x7b\x7bendif\x7d\x7d".toList.length + 1) l
      "\x7b\x7bif vip\x7d\x7dwelcome back\x7b\x7bendif\x7d\x7d".toList) =
      "\x7b\x7bif vip\x7d\x7dwelcome back\x7b\x7bendif\x7d\x7d".toList := fun _ _ => rfl
  rw [h1, replaceAll_front _ '{' _ _ _ opensWith_existence (hello_front N hN)]
  congr 1
  have h2 : ∀ (f : MatchInfo → Str) (l : Str), render f (pieces existenceRegex
      ("\x7b\x7bif vip\x7d\x7dwelcome back\x7b\x7bendif\x7d\x7d".toList.length + 1) l
      "\x7b\x7bif vip\x7d\x7dwelcome back\x7b\x7bendif\x7d\x7d".toList) =
      f ⟨"\x7b\x7bif vip\x7d\x7dwelcome back\x7b\x7bendif\x7d\x7d".toList,
        [(2, "welcome back".toList), (1, "vip".toList)], l.reverse, []⟩ ++ [] := fun _ _ => rfl
  rw [h2, List.append_nil]
  rfl

end

section

open TemplateEngine Re

/-- Passes 3 to 5 leave a text without an opening brace as it is. -/
theorem plain_passes (P : Platform) (now : Int) (x : Str) (vars : Bag)
    (hx : ∀ ch ∈ x, ch ≠ '{') :
    processLoops P x vars = .ok x ∧ processFunctions P x vars = x
      ∧ processSpecialVariables P now x = x := by
  refine ⟨?_, ?_, ?_⟩
  · exact replaceAllM_plain _ '{' _ x opensWith_loop hx
  · simp only [processFunctions, replaceAll_plain _ '{' _ x (opensWith_function _) hx]
  · have h : ∀ (p r : Str), replaceAllStr (lit ('{' :: p)) 0 r x = x :=
      fun p r => replaceAllStr_lit_brace p r x 0 hx
    simp only [processSpecialVariables]
    rw [show "\x7b\x7btoday\x7d\x7d".toList = '{' :: "\x7btoday\x7d\x7d".toList from rfl, h,
      show "\x7b\x7bnow\x7d\x7d".toList = '{' :: "\x7bnow\x7d\x7d".toList from rfl, h,
      show "\x7b\x7btimestamp\x7d\x7d".toList = '{' :: "\x7btimestamp\x7d\x7d".toList from rfl, h,
      show "\x7b\x7bnextBusinessDay\x7d\x7d".toList = '{' :: "\x7bnextBusinessDay\x7d\x7d".toList
        from rfl, h,
      show "\x7b\x7bversion\x7d\x7d".toList = '{' :: "\x7bversion\x7d\x7d".toList from rfl, h,
      show "\x7b\x7bappName\x7d\x7d".toList = '{' :: "\x7bappName\x7d\x7d".toList from rfl, h]

/-- The post-processing of a text without a line feed only trims it. -/
theorem postProcessContent_plain (x : Str) (hx : ∀ ch ∈ x, ch ≠ '\n') :
    postProcessContent x = trim x := by
  rw [postProcessContent, replaceAllStr_plain _ '\n' _ _ x opensWith_blankLines hx]

end

section

open TemplateEngine Re

theorem dropWhile_all_append (p : Char → Bool) (u v : Str) (hu : ∀ c ∈ u, p c = true) :
    (u ++ v).dropWhile p = v.dropWhile p := by
  induction u with
  | nil => rfl
  | cons c t ih =>
    rw [List.cons_append, List.dropWhile_cons, if_pos (hu c (List.mem_cons_self _ _))]
    exact ih (fun ch hch => hu ch (List.mem_cons_of_mem _ hch))

/-- Trimming a text that starts and ends with characters other than white
space, followed by white space, gives the text. -/
theorem trim_core (a d : Char) (t w : Str) (ha : isWhiteSpace a = false)
    (hd : isWhiteSpace d = false) (hw : ∀ c ∈ w, isWhiteSpace c = true) :
    trim (a :: (t ++ d :: w)) = a :: (t ++ [d]) := by
  have h1 : (a :: (t ++ d :: w)).dropWhile isWhiteSpace = a :: (t ++ d :: w) := by
    rw [List.dropWhile_cons, ha]; rfl
  have h2 : (a :: (t ++ d :: w)).reverse = w.reverse ++ (d :: (t.reverse ++ [a])) := by
    simp
  have h3 : (w.reverse ++ (d :: (t.reverse ++ [a]))).dropWhile isWhiteSpace =
      d :: (t.reverse ++ [a]) := by
    rw [dropWhile_all_append _ _ _ (fun c hc => hw c (List.mem_reverse.mp hc)),
      List.dropWhile_cons, hd]
    rfl
  rw [trim, h1, h2, h3]
  simp

end

section

open TemplateEngine Re

/-- What `processTemplate` and `postProcessContent` make of the template of
the example, in terms of the value of `vip`. -/
theorem renderTemplate_hello (P : Platform) (now : Int) (N : Str) (vars : Bag)
    (hN : ∀ c ∈ N, c ≠ '$' ∧ c ≠ '{' ∧ c ≠ '\n')
    (hpass1 : replaceBasicVariables P helloTemplate vars =
      .ok (("Hello ".toList ++ N ++ ", ".toList) ++
        "\x7b\x7bif vip\x7d\x7dwelcome back\x7b\x7bendif\x7d\x7d".toList)) :
    renderTemplate P now helloTemplate vars =
      .ok (if (getProp vars "vip".toList).truthy && !(trim (getProp vars "vip".toList).toStr).isEmpty
        then "Hello ".toList ++ N ++ ", welcome back".toList
        else "Hello ".toList ++ N ++ ",".toList) := by
  have hb : ∀ c ∈ N, c ≠ '{' := fun c hc => (hN c hc).2.1
  have hn : ∀ c ∈ N, c ≠ '\n' := fun c hc => (hN c hc).2.2
  have hlinks : processLinks helloTemplate = helloTemplate := by rfl
  simp only [renderTemplate, processTemplate, hlinks, hpass1, hello_conditionals N vars hb]
  generalize ((getProp vars "vip".toList).truthy &&
    !(trim (getProp vars "vip".toList).toStr).isEmpty) = b
  cases b
  · have hx : ∀ ch ∈ ("Hello ".toList ++ N ++ ", ".toList) ++ [], ch ≠ '{' := by
      rw [List.append_nil]; exact hello_front N hb
    obtain ⟨h3, h4, h5⟩ := plain_passes P now _ vars hx
    have hx2 : ∀ ch ∈ ("Hello ".toList ++ N ++ ", ".toList) ++ [], ch ≠ '\n' := by
      intro ch h
      simp only [List.append_nil, List.mem_append] at h
      rcases h with (h | h) | h
      · intro hc; rw [hc] at h; exact absurd h (by decide)
      · exact hn ch h
      · intro hc; rw [hc] at h; exact absurd h (by decide)
    simp only [Bool.false_eq_true, if_false, h3, h4, h5, postProcessContent_plain _ hx2]
    have ht := trim_core 'H' ',' ("ello ".toList ++ N) [' '] (by decide) (by decide) (by decide)
    have he1 : ("Hello ".toList ++ N ++ ", ".toList) ++ [] =
        'H' :: (("ello ".toList ++ N) ++ ',' :: [' ']) := by simp
    have he2 : "Hello ".toList ++ N ++ ",".toList = 'H' :: (("ello ".toList ++ N) ++ [',']) := by
      simp
    rw [he1, ht, he2]
  · have hx : ∀ ch ∈ ("Hello ".toList ++ N ++ ", ".toList) ++ "welcome back".toList, ch ≠ '{' := by
      intro ch h
      rcases List.mem_append.mp h with h | h
      · exact hello_front N hb ch h
      · intro hc; rw [hc] at h; exact absurd h (by decide)
    obtain ⟨h3, h4, h5⟩ := plain_passes P now _ vars hx
    have hx2 : ∀ ch ∈ ("Hello ".toList ++ N ++ ", ".toList) ++ "welcome back".toList,
        ch ≠ '\n' := by
      intro ch h
      simp only [List.mem_append] at h
      rcases h with ((h | h) | h) | h
      · intro hc; rw [hc] at h; exact absurd h (by decide)
      · exact hn ch h
      · intro hc; rw [hc] at h; exact absurd h (by decide)
      · intro hc; rw [hc] at h; exact absurd h (by decide)
    simp only [if_true, h3, h4, h5, postProcessContent_plain _ hx2]
    have ht := trim_core 'H' 'k' ("ello ".toList ++ N ++ ", welcome bac".toList) []
      (by decide) (by decide) (by simp)
    have he1 : ("Hello ".toList ++ N ++ ", ".toList) ++ "welcome back".toList =
        'H' :: (("ello ".toList ++ N ++ ", welcome bac".toList) ++ ['k']) := by simp
    have he2 : "Hello ".toList ++ N ++ ", welcome back".toList =
        'H' :: (("ello ".toList ++ N ++ ", welcome bac".toList) ++ ['k']) := by simp
    rw [he1, ht, he2]

end

section

open TemplateEngine Re

/-- C25: `processTemplate` followed by `postProcessContent` renders the
template `Hello {{name}}, {{if vip}}welcome back{{endif}}` as
`Hello N, welcome back` for the bag `{name: N, vip: V}` and as `Hello N,` for
the bag `{name: N}`, for every name `N` without a dollar sign, an opening
brace or a line feed (so for every `N` made of letters) and every string `V`
that is not empty after trimming. -/
theorem renderTemplate_hello_vip (P : Platform) (now : Int) (N V : Str)
    (hN : ∀ c ∈ N, c ≠ '$' ∧ c ≠ '{' ∧ c ≠ '\n') (hV : trim V ≠ []) :
    renderTemplate P now helloTemplate [("name".toList, .str N), ("vip".toList, .str V)] =
        .ok ("Hello ".toList ++ N ++ ", welcome back".toList)
      ∧ renderTemplate P now helloTemplate [("name".toList, .str N)] =
        .ok ("Hello ".toList ++ N ++ ",".toList) := by
  have hd : ∀ c ∈ N, c ≠ '$' := fun c hc => (hN c hc).1
  have hb : ∀ c ∈ N, c ≠ '{' := fun c hc => (hN c hc).2.1
  constructor
  · have hpass1 : replaceBasicVariables P helloTemplate
        [("name".toList, .str N), ("vip".toList, .str V)] =
        .ok (("Hello ".toList ++ N ++ ", ".toList) ++
          "\x7b\x7bif vip\x7d\x7dwelcome back\x7b\x7bendif\x7d\x7d".toList) := by
      simp only [replaceBasicVariables, hello_name P N hd, hello_vip P N _ hb]
    rw [renderTemplate_hello P now N _ hN hpass1]
    have hget : getProp [("name".toList, JSValue.str N), ("vip".toList, .str V)] "vip".toList =
        .str V := by rfl
    have hne : V ≠ [] := by
      intro h0
      exact hV (by rw [h0]; rfl)
    have hc : ((JSValue.str V).truthy && !(trim (JSValue.str V).toStr).isEmpty) = true := by
      have h1 : (JSValue.str V).truthy = true := by
        cases V with
        | nil => exact absurd rfl hne
        | cons c t => rfl
      have h2 : (trim (JSValue.str V).toStr).isEmpty = false := by
        have h3 : (JSValue.str V).toStr = V := rfl
        rw [h3]
        cases htv : trim V with
        | nil => exact absurd htv hV
        | cons c t => rfl
      rw [h1, h2]; rfl
    rw [hget, hc, if_pos rfl]
  · have hpass1 : replaceBasicVariables P helloTemplate [("name".toList, .str N)] =
        .ok (("Hello ".toList ++ N ++ ", ".toList) ++
          "\x7b\x7bif vip\x7d\x7dwelcome back\x7b\x7bendif\x7d\x7d".toList) := by
      simp only [replaceBasicVariables, hello_name P N hd]
    rw [renderTemplate_hello P now N _ hN hpass1]
    have hget : getProp [("name".toList, JSValue.str N)] "vip".toList = .undefined := by rfl
    rw [hget]
    rfl

/-- The statement of `renderTemplate_hello_vip` for the name `Amy` and the
value `yes`. -/
theorem renderTemplate_hello_vip_witness :
    renderTemplate sampleHost 1736132400000 helloTemplate
        [("name".toList, .str "Amy".toList), ("vip".toList, .str "yes".toList)] =
        .ok "Hello Amy, welcome back".toList
      ∧ renderTemplate sampleHost 1736132400000 helloTemplate
        [("name".toList, .str "Amy".toList)] = .ok "Hello Amy,".toList :=
  renderTemplate_hello_vip sampleHost 1736132400000 "Amy".toList "yes".toList
    (by decide) (by decide)

end

section

open TemplateEngine Re

/-! ## Function calls -/

/-- The token of a call of the function `fn` on `arg`: `{{fn(arg)}}`. -/
theorem callToken_eq (fn arg post : Str) :
    callToken fn arg ++ post =
      ("\x7b\x7b".toList ++ fn ++ "(".toList) ++ (arg ++ (")\x7d\x7d".toList ++ post)) := by
  simp [callToken]

/-- The pattern of a function matches the token of a call of it on a name as a
whole and captures the name. -/
theorem matchAt_function (l fn name post : Str) (hname : name ≠ [])
    (hword : ∀ ch ∈ name, isWordChar ch = true) :
    ∃ y, matchAt (functionRegex fn) ⟨l, callToken fn name ++ post⟩ = some (y, [(1, name)]) ∧
      y.rest = post := by
  rw [callToken_eq]
  simp only [matchAt, functionRegex, Re.seqs, matchRe_seq, Re.plus]
  rw [matchRe_lit, matchRe_group]
  rw [matchRe_class_greedy isWordChar _ 1 name _ _ _ ?_ hword ?_
    (Nat.one_le_iff_ne_zero.mpr (fun h => hname (List.length_eq_zero.mp h)))]
  rotate_left
  · intro y cy ch t hy hch
    obtain ⟨yl, yr⟩ := y
    simp only at hy
    subst hy
    simp only []
    apply matchRe_lit_none
    intro hp
    obtain ⟨u, hu⟩ := hp
    injection hu with hu _
    subst hu
    revert hch
    decide
  · intro ch t ht
    injection ht with ht _
    subst ht
    decide
  simp only [take_append_sub]
  rw [matchRe_lit]
  exact ⟨_, rfl, rfl⟩

end

section

open TemplateEngine Re

/-- A replacement over a text with one match `m` between two texts without the
character the pattern opens with. -/
theorem replaceAll_one (r : Re) (c : Char) (f : MatchInfo → Str) (pre m post : Str) (caps : Caps)
    (hr : OpensWith r c) (hpre : ∀ ch ∈ pre, ch ≠ c) (hpost : ∀ ch ∈ post, ch ≠ c)
    (hm : ∀ l, ∃ y, matchAt r ⟨l, m ++ post⟩ = some (y, caps) ∧ y.rest = post) (hne : m ≠ []) :
    replaceAll r f (pre ++ (m ++ post)) = pre ++ (f ⟨m, caps, pre, post⟩ ++ post) := by
  rw [replaceAll_front r c f pre (m ++ post) hr hpre]
  obtain ⟨y, hy, hrest⟩ := hm pre.reverse
  rw [pieces_hit r _ pre.reverse m post y caps hy hrest hne,
    pieces_no_match r post _ _ (no_match_plain r c post hr hpost)]
  simp [render, render_text]

/-- Two names followed by an opening parenthesis: if one text starts with the
other, the names are the same. -/
theorem name_paren_start : ∀ (g fn : Str) (rest : Str), (∀ ch ∈ g, isWordChar ch = true) →
    (∀ ch ∈ fn, isWordChar ch = true) → (g ++ '(' :: []) <+: (fn ++ '(' :: rest) → g = fn := by
  intro g
  induction g with
  | nil =>
    intro fn rest _ hfn h
    cases fn with
    | nil => rfl
    | cons a t =>
      obtain ⟨u, hu⟩ := h
      simp only [List.nil_append, List.cons_append, List.cons.injEq] at hu
      have ha := hfn a (List.mem_cons_self _ _)
      rw [← hu.1] at ha
      exact absurd ha (by decide)
  | cons b g2 ih =>
    intro fn rest hg hfn h
    cases fn with
    | nil =>
      obtain ⟨u, hu⟩ := h
      simp only [List.nil_append, List.cons_append, List.cons.injEq] at hu
      have hb := hg b (List.mem_cons_self _ _)
      rw [hu.1] at hb
      exact absurd hb (by decide)
    | cons a t =>
      obtain ⟨u, hu⟩ := h
      simp only [List.cons_append, List.cons.injEq] at hu
      have := ih t rest (fun ch hch => hg ch (List.mem_cons_of_mem _ hch))
        (fun ch hch => hfn ch (List.mem_cons_of_mem _ hch)) ⟨u, hu.2⟩
      rw [hu.1, this]

/-- The pattern of a function `g` matches nowhere in a text that holds, between
texts without an opening brace, one token of a call of another function. -/
theorem no_match_other_function (g fn arg pre post : Str)
    (hg : ∀ ch ∈ g, isWordChar ch = true) (hfn : ∀ ch ∈ fn, isWordChar ch = true)
    (hne : g ≠ fn) (harg : ∀ ch ∈ arg, ch ≠ '{')
    (hpre : ∀ ch ∈ pre, ch ≠ '{') (hpost : ∀ ch ∈ post, ch ≠ '{') (l s : Str)
    (hs : s <:+ pre ++ (callToken fn arg ++ post)) :
    matchAt (functionRegex g) ⟨l, s⟩ = none := by
  have hbody : ∀ ch ∈ fn ++ '(' :: (arg ++ (")\x7d\x7d".toList ++ post)), ch ≠ '{' := by
    intro ch h
    simp only [List.mem_append, List.mem_cons] at h
    rcases h with h | h | h | h | h
    · exact ne_of_word ch '{' (hfn ch h) (by decide)
    · rw [h]; decide
    · exact harg ch h
    · intro hc; rw [hc] at h; exact absurd h (by decide)
    · exact hpost ch h
  have htok : callToken fn arg ++ post =
      '{' :: '{' :: (fn ++ '(' :: (arg ++ (")\x7d\x7d".toList ++ post))) := by
    simp [callToken]
  have hlit : ∀ s2, ¬ ("\x7b\x7b".toList ++ g ++ "(".toList) <+: s2 →
      matchAt (functionRegex g) ⟨l, s2⟩ = none := by
    intro s2 h2
    simp only [matchAt, functionRegex, Re.seqs, matchRe_seq]
    exact matchRe_lit_none _ _ _ _ h2
  rcases suffix_append_cases pre _ s hs with h1 | ⟨a2, hne2, hsuf, he⟩
  · rw [htok] at h1
    rcases List.suffix_cons_iff.mp h1 with h2 | h2
    · apply hlit
      rw [h2]
      rintro ⟨u, hu⟩
      have hp : (g ++ '(' :: []) <+: (fn ++ '(' :: (arg ++ (")\x7d\x7d".toList ++ post))) := by
        refine ⟨u, ?_⟩
        simpa using hu
      exact hne (name_paren_start g fn _ hg hfn hp)
    · rcases List.suffix_cons_iff.mp h2 with h3 | h3
      · apply hlit
        rw [h3]
        rintro ⟨u, hu⟩
        cases fn with
        | nil =>
          simp only [List.nil_append, String.toList, List.cons_append, List.cons.injEq] at hu
          exact absurd hu.2.1 (by decide)
        | cons a t =>
          simp only [String.toList, List.cons_append, List.nil_append, List.cons.injEq] at hu
          exact hbody a (by simp) hu.2.1.symm
      · exact no_match_plain _ '{' _ (opensWith_function g) hbody l s h3
  · apply opensWith_function g
    intro t ht
    cases a2 with
    | nil => exact hne2 rfl
    | cons d u =>
      rw [he] at ht
      simp only [List.cons_append, List.cons.injEq] at ht
      exact hpre d (hsuf.subset (List.mem_cons_self _ _)) ht.1

end

section

open TemplateEngine Re

theorem word_no_brace (s : Str) (h : ∀ ch ∈ s, isWordChar ch = true) : ∀ ch ∈ s, ch ≠ '{' :=
  fun ch hch => ne_of_word ch '{' (h ch hch) (by decide)

theorem mem_three (a b c : Str) (ha : ∀ ch ∈ a, ch ≠ '{') (hb : ∀ ch ∈ b, ch ≠ '{')
    (hc : ∀ ch ∈ c, ch ≠ '{') : ∀ ch ∈ a ++ (b ++ c), ch ≠ '{' := by
  intro ch h
  simp only [List.mem_append] at h
  rcases h with h | h | h
  · exact ha ch h
  · exact hb ch h
  · exact hc ch h

/-- The pass of one function `fn` of `processFunctions` on a text that holds,
between texts without an opening brace, one token of a call of `fn` on a
name. -/
theorem replaceAll_call (fn name pre post : Str) (f : MatchInfo → Str) (hname : name ≠ [])
    (hword : ∀ ch ∈ name, isWordChar ch = true)
    (hpre : ∀ ch ∈ pre, ch ≠ '{') (hpost : ∀ ch ∈ post, ch ≠ '{') :
    replaceAll (functionRegex fn) f (pre ++ (callToken fn name ++ post)) =
      pre ++ (f ⟨callToken fn name, [(1, name)], pre, post⟩ ++ post) :=
  replaceAll_one _ '{' f pre _ post _ (opensWith_function fn) hpre hpost
    (fun l => matchAt_function l fn name post hname hword) (by simp [callToken])

/-- The pass of a function `g` of `processFunctions` leaves the token of a call
of another function as it is. -/
theorem replaceAll_other_call (g fn arg pre post : Str) (f : MatchInfo → Str)
    (hg : ∀ ch ∈ g, isWordChar ch = true) (hfn : ∀ ch ∈ fn, isWordChar ch = true)
    (hne : g ≠ fn) (harg : ∀ ch ∈ arg, ch ≠ '{')
    (hpre : ∀ ch ∈ pre, ch ≠ '{') (hpost : ∀ ch ∈ post, ch ≠ '{') :
    replaceAll (functionRegex g) f (pre ++ (callToken fn arg ++ post)) =
      pre ++ (callToken fn arg ++ post) :=
  replaceAll_no_match _ _ _
    (no_match_other_function g fn arg pre post hg hfn hne harg hpre hpost)

/-- C24, as the code has it: the four passes of `processFunctions` run one
after the other, each over the text the passes before it have produced. For a
name `NAME` (word characters) whose value in the bag is a non-empty string `v`,
and a token between texts without an opening brace: the token of `upper(NAME)`
renders as the upper-cased `v` and the token of `formatECID(NAME)` as
`formatECID(v)` when that text holds no opening brace (the later passes read
it); the token of `lower(NAME)`, the last pass, renders as the lower-cased `v`;
and the token of a call of a function other than the four is left as it
is. The value is read from the bag, not from the text around the token. -/
theorem processFunctions_one (P : Platform) (vars : Bag) (name v pre post : Str)
    (hname : name ≠ []) (hword : ∀ ch ∈ name, isWordChar ch = true)
    (hval : getProp vars name = .str v) (hv : v ≠ [])
    (hpre : ∀ ch ∈ pre, ch ≠ '{') (hpost : ∀ ch ∈ post, ch ≠ '{') :
    ((∀ ch ∈ P.toUpperCase v, ch ≠ '{') →
        processFunctions P (pre ++ (callToken "upper".toList name ++ post)) vars =
          pre ++ (P.toUpperCase v ++ post))
      ∧ processFunctions P (pre ++ (callToken "lower".toList name ++ post)) vars =
          pre ++ (P.toLowerCase v ++ post)
      ∧ ((∀ ch ∈ (formatECID (.str v)).toStr, ch ≠ '{') →
        processFunctions P (pre ++ (callToken "formatECID".toList name ++ post)) vars =
          pre ++ ((formatECID (.str v)).toStr ++ post))
      ∧ (∀ fn arg : Str, (∀ ch ∈ fn, isWordChar ch = true) → (∀ ch ∈ arg, ch ≠ '{') →
        fn ≠ "formatDate".toList → fn ≠ "formatECID".toList → fn ≠ "upper".toList →
        fn ≠ "lower".toList →
        processFunctions P (pre ++ (callToken fn arg ++ post)) vars =
          pre ++ (callToken fn arg ++ post)) := by
  have hnb := word_no_brace name hword
  have htruthy : (JSValue.str v).truthy = true := by
    cases v with
    | nil => exact absurd rfl hv
    | cons c t => rfl
  have harg : ∀ (m b a : Str), arg ⟨m, [(1, name)], b, a⟩ 1 = name := fun _ _ _ => rfl
  have hstr : (JSValue.str v).toStr = v := rfl
  refine ⟨?_, ?_, ?_, ?_⟩
  · intro hU
    simp only [processFunctions]
    rw [replaceAll_other_call "formatDate".toList "upper".toList name pre post _ (by decide)
        (by decide) (by decide) hnb hpre hpost,
      replaceAll_other_call "formatECID".toList "upper".toList name pre post _ (by decide)
        (by decide) (by decide) hnb hpre hpost,
      replaceAll_call "upper".toList name pre post _ hname hword hpre hpost]
    simp only [harg, hval, htruthy, hstr, if_true]
    rw [replaceAll_plain _ '{' _ _ (opensWith_function _) (mem_three _ _ _ hpre hU hpost)]
  · simp only [processFunctions]
    rw [replaceAll_other_call "formatDate".toList "lower".toList name pre post _ (by decide)
        (by decide) (by decide) hnb hpre hpost,
      replaceAll_other_call "formatECID".toList "lower".toList name pre post _ (by decide)
        (by decide) (by decide) hnb hpre hpost,
      replaceAll_other_call "upper".toList "lower".toList name pre post _ (by decide)
        (by decide) (by decide) hnb hpre hpost,
      replaceAll_call "lower".toList name pre post _ hname hword hpre hpost]
    simp only [harg, hval, htruthy, hstr, if_true]
  · intro hE
    simp only [processFunctions]
    rw [replaceAll_other_call "formatDate".toList "formatECID".toList name pre post _ (by decide)
        (by decide) (by decide) hnb hpre hpost,
      replaceAll_call "formatECID".toList name pre post _ hname hword hpre hpost]
    simp only [harg, hval, htruthy, hstr, if_true]
    rw [replaceAll_plain _ '{' _ _ (opensWith_function _) (mem_three _ _ _ hpre hE hpost),
      replaceAll_plain _ '{' _ _ (opensWith_function _) (mem_three _ _ _ hpre hE hpost)]
  · intro fn arg hfn harg2 h1 h2 h3 h4
    simp only [processFunctions]
    rw [replaceAll_other_call "formatDate".toList fn arg pre post _ (by decide) hfn
        (fun h => h1 h.symm) harg2 hpre hpost,
      replaceAll_other_call "formatECID".toList fn arg pre post _ (by decide) hfn
        (fun h => h2 h.symm) harg2 hpre hpost,
      replaceAll_other_call "upper".toList fn arg pre post _ (by decide) hfn
        (fun h => h3 h.symm) harg2 hpre hpost,
      replaceAll_other_call "lower".toList fn arg pre post _ (by decide) hfn
        (fun h => h4 h.symm) harg2 hpre hpost]

end

section

open TemplateEngine Re

/-- The statement of `processFunctions_one` for the bag `{name: "Amy"}` and a
token between `Dear ` and `!`. -/
theorem processFunctions_one_witness :
    processFunctions sampleHost ("Dear ".toList ++ (callToken "upper".toList "name".toList ++
        "!".toList)) [("name".toList, .str "Amy".toList)] = "Dear AMY!".toList
      ∧ processFunctions sampleHost ("Dear ".toList ++ (callToken "lower".toList "name".toList ++
        "!".toList)) [("name".toList, .str "Amy".toList)] = "Dear amy!".toList
      ∧ processFunctions sampleHost ("Dear ".toList ++ (callToken "formatECID".toList
        "name".toList ++ "!".toList)) [("name".toList, .str "Amy".toList)] = "Dear Amy!".toList
      ∧ processFunctions sampleHost ("Dear ".toList ++ (callToken "trim".toList "name".toList ++
        "!".toList)) [("name".toList, .str "Amy".toList)] =
          "Dear \x7b\x7btrim(name)\x7d\x7d!".toList :=
  have h := processFunctions_one sampleHost [("name".toList, .str "Amy".toList)] "name".toList
    "Amy".toList "Dear ".toList "!".toList (by decide) (by decide) (by rfl) (by decide)
    (by decide) (by decide)
  ⟨h.1 (by decide), h.2.1, h.2.2.1 (by decide),
    h.2.2.2 "trim".toList "name".toList (by decide) (by decide) (by decide) (by decide)
      (by decide) (by decide)⟩

/-- C24 as stated fails: a value that holds the token of a later pass is
expanded again. With the bag `{A: "{{lower(A)}}"}` the token of
`formatECID(A)` renders as `{{lower(a)}}`, not as `formatECID(v)`, which is
`v` itself; and a name that is not made of word characters is not a call at
all: the token of `upper(first name)` is left as it is. -/
theorem processFunctions_reexpands :
    processFunctions sampleHost (callToken "formatECID".toList "A".toList)
        [("A".toList, .str (callToken "lower".toList "A".toList))] =
        callToken "lower".toList "a".toList
      ∧ (formatECID (.str (callToken "lower".toList "A".toList))).toStr =
        callToken "lower".toList "A".toList
      ∧ processFunctions sampleHost (callToken "upper".toList "first name".toList)
        [("first name".toList, .str "amy".toList)] = callToken "upper".toList "first name".toList := by
  refine ⟨?_, ?_, ?_⟩ <;> rfl

end

section

open TemplateEngine Re

/-! ## The blank-line pattern -/

/-- A greedy quantifier from zero over a character class, on a run of the
class followed by a text that does not start with a character of the class:
what follows the quantifier is tried after the whole run first, then after
ever shorter parts of it. -/
theorem repLoop_class_back (p : Char → Bool) (k : Cont) :
    ∀ (R : Str) (fuel : Nat) (l r : Str) (c : Caps),
      (∀ ch ∈ R, p ch = true) → (∀ ch t, r = ch :: t → p ch = false) → R.length < fuel →
      repLoop (matchRe (.chr p)) (clearCaps []) true fuel 0 none ⟨l, R ++ r⟩ c k =
        back k l R r c := by
  intro R
  induction R with
  | nil =>
    intro fuel l r c _ hr hfuel
    obtain ⟨f, rfl⟩ : ∃ f, fuel = f + 1 := ⟨fuel - 1, by simp at hfuel; omega⟩
    have hm : ∀ d : Cont, matchRe (.chr p) ⟨l, r⟩ (clearCaps [] c) d = none := by
      intro d
      cases r with
      | nil => exact matchRe_chr_nil _ _ _ _
      | cons ch t => rw [matchRe_chr_cons, hr ch t rfl]; simp
    simp [repLoop, hm, back]
  | cons a R ih =>
    intro fuel l r c hrun hr hfuel
    obtain ⟨f, rfl⟩ : ∃ f, fuel = f + 1 := ⟨fuel - 1, by simp at hfuel; omega⟩
    have hpa : p a = true := hrun a (by simp)
    have hrun2 : ∀ ch ∈ R, p ch = true := fun ch h => hrun ch (by simp [h])
    have hf : R.length < f := by simp at hfuel; omega
    simp only [repLoop, clearCaps_nil, List.cons_append, matchRe_chr_cons, hpa, if_true]
    simp only [List.length_cons, List.length_append]
    have hne : ¬ (True ∧ R.length + r.length = R.length + r.length + 1) := by omega
    simp only [hne, if_false, Nat.zero_sub, Option.map_none', reduceCtorEq, ne_eq,
      not_true_eq_false]
    rw [ih f (a :: l) r c hrun2 hr hf]
    simp [back]

/-- The matcher form of `repLoop_class_back`. -/
theorem matchRe_star_back (p : Char → Bool) (k : Cont) (R l r : Str) (c : Caps)
    (hR : ∀ ch ∈ R, p ch = true) (hr : ∀ ch t, r = ch :: t → p ch = false) :
    matchRe (Re.star (.chr p)) ⟨l, R ++ r⟩ c k = back k l R r c := by
  rw [Re.star, matchRe_rep]
  exact repLoop_class_back p k R _ l r c hR hr (by simp; omega)

end

section

open TemplateEngine Re

theorem cutLast_cons (a : Char) (R : Str) :
    cutLast (a :: R) =
      match cutLast R with
      | some (pre, post) => some (a :: pre, post)
      | none => if a = '\n' then some ([], R) else none := rfl

theorem cutLast_none (R : Str) : cutLast R = none ↔ R.count '\n' = 0 := by
  induction R with
  | nil => simp [cutLast]
  | cons a R ih =>
    rw [cutLast_cons]
    cases h : cutLast R with
    | some v =>
      have hc : R.count '\n' ≠ 0 := fun h0 => by
        rw [ih.mpr h0] at h; cases h
      simp only [reduceCtorEq, false_iff]
      rw [List.count_cons]
      omega
    | none =>
      have hc : R.count '\n' = 0 := ih.mp h
      by_cases ha : a = '\n'
      · subst ha
        simp [List.count_cons]
      · simp only [if_neg ha, true_iff]
        rw [List.count_cons, hc]
        simp [ha]

/-- The last step of the pattern, a line feed after `\s*`: it is found at the
last line feed of the run. -/
theorem back_last (r : Str) (hr : ∀ ch t, r = ch :: t → isWhiteSpace ch = false) :
    ∀ (R l : Str) (c : Caps),
      back (fun y cy => matchRe (Re.char '\n') y cy (fun z cz => some (z, cz))) l R r c =
        (cutLast R).map (fun e => (⟨'\n' :: (e.1.reverse ++ l), e.2 ++ r⟩, c)) := by
  intro R
  induction R with
  | nil =>
    intro l c
    simp only [back, cutLast, Option.map_none']
    cases r with
    | nil => exact matchRe_chr_nil _ _ _ _
    | cons ch t =>
      rw [matchRe_char_cons, if_neg]
      intro h
      have := hr ch t rfl
      rw [h] at this
      exact absurd this (by decide)
  | cons a R ih =>
    intro l c
    simp only [back, ih (a :: l) c]
    rw [cutLast_cons]
    cases h : cutLast R with
    | some v =>
      obtain ⟨pre, post⟩ := v
      simp [Option.orElse]
    | none =>
      simp only [Option.map_none', Option.orElse]
      rw [matchRe_char_cons]
      by_cases ha : a = '\n'
      · subst ha
        simp
      · simp [ha]

end

section

open TemplateEngine Re

/-- The pattern behind its first line feed and first `\s*`: a line feed,
`\s*`, a line feed. -/
theorem blank_tail_at (r : Str) (hr : ∀ ch t, r = ch :: t → isWhiteSpace ch = false)
    (R l : Str) (c : Caps) (hR : ∀ ch ∈ R, isWhiteSpace ch = true) :
    matchRe (Re.char '\n') ⟨l, '\n' :: (R ++ r)⟩ c
        (fun y cy => matchRe (Re.star (.chr isWhiteSpace)) y cy
          (fun y2 c2 => matchRe (Re.char '\n') y2 c2 (fun z cz => some (z, cz)))) =
      (cutLast R).map (fun e => (⟨'\n' :: (e.1.reverse ++ '\n' :: l), e.2 ++ r⟩, c)) := by
  rw [matchRe_char_cons, if_pos rfl, matchRe_star_back _ _ R _ r c hR hr, back_last r hr]

/-- The pattern behind its first line feed: where the run holds two line feeds
or more, the match ends at the last of them. -/
theorem back_two (r : Str) (hr : ∀ ch t, r = ch :: t → isWhiteSpace ch = false) :
    ∀ (R l : Str) (c : Caps), (∀ ch ∈ R, isWhiteSpace ch = true) →
      back (fun y cy => matchRe (Re.char '\n') y cy
          (fun y1 c1 => matchRe (Re.star (.chr isWhiteSpace)) y1 c1
            (fun y2 c2 => matchRe (Re.char '\n') y2 c2 (fun z cz => some (z, cz))))) l R r c =
        if 2 ≤ R.count '\n' then
          (cutLast R).map (fun e => (⟨'\n' :: (e.1.reverse ++ l), e.2 ++ r⟩, c))
        else none := by
  intro R
  induction R with
  | nil =>
    intro l c _
    have h0 : ¬ 2 ≤ ([] : Str).count '\n' := by simp
    rw [if_neg h0]
    simp only [back]
    cases r with
    | nil => exact matchRe_chr_nil _ _ _ _
    | cons ch t =>
      rw [matchRe_char_cons, if_neg]
      intro h
      have := hr ch t rfl
      rw [h] at this
      exact absurd this (by decide)
  | cons a R ih =>
    intro l c hR
    have hR2 : ∀ ch ∈ R, isWhiteSpace ch = true := fun ch h => hR ch (by simp [h])
    simp only [back, ih (a :: l) c hR2]
    rw [cutLast_cons]
    by_cases h2 : 2 ≤ R.count '\n'
    · have h3 : 2 ≤ (a :: R).count '\n' := by rw [List.count_cons]; omega
      rw [if_pos h2, if_pos h3]
      cases h : cutLast R with
      | some v =>
        obtain ⟨pre, post⟩ := v
        simp [Option.orElse]
      | none =>
        have := (cutLast_none R).mp h
        omega
    · rw [if_neg h2]
      simp only [Option.orElse]
      by_cases ha : a = '\n'
      · subst ha
        rw [blank_tail_at r hr R l c hR2]
        cases h : cutLast R with
        | some v =>
          obtain ⟨pre, post⟩ := v
          have hc : R.count '\n' ≠ 0 := fun h0 => by
            rw [(cutLast_none R).mpr h0] at h; cases h
          have h3 : 2 ≤ ('\n' :: R).count '\n' := by
            rw [List.count_cons_self]; omega
          rw [if_pos h3]
          simp
        | none =>
          have hc := (cutLast_none R).mp h
          have h3 : ¬ 2 ≤ ('\n' :: R).count '\n' := by
            rw [List.count_cons_self]; omega
          rw [if_neg h3]
          rfl
      · rw [matchRe_char_cons, if_neg ha]
        have h3 : ¬ 2 ≤ (a :: R).count '\n' := by
          rw [List.count_cons]
          have : (a == '\n') = false := by simpa using ha
          simp [this]; omega
        rw [if_neg h3]

/-- The blank-line pattern at a line feed followed by a run `R` of white space
and a text `r` that does not start with white space: it matches exactly when
`R` holds two line feeds or more, and the match ends behind the last of
them. -/
theorem matchAt_blank (l R r : Str) (hR : ∀ ch ∈ R, isWhiteSpace ch = true)
    (hr : ∀ ch t, r = ch :: t → isWhiteSpace ch = false) :
    matchAt blankLinesRegex ⟨l, '\n' :: (R ++ r)⟩ =
      if 2 ≤ R.count '\n' then
        (cutLast R).map (fun e => (⟨'\n' :: (e.1.reverse ++ '\n' :: l), e.2 ++ r⟩, []))
      else none := by
  simp only [matchAt, blankLinesRegex, Re.seqs, matchRe_seq]
  rw [matchRe_char_cons, if_pos rfl, matchRe_star_back _ _ R _ r _ hR hr]
  exact back_two r hr R _ _ hR

end

section

open TemplateEngine Re

theorem leadingBreaks_nil : leadingBreaks [] = 0 := rfl

theorem leadingBreaks_break (t : Str) : leadingBreaks ('\n' :: t) = leadingBreaks t + 1 := by
  have h : isWhiteSpace '\n' = true := by decide
  simp [leadingBreaks, List.takeWhile_cons, h]

theorem leadingBreaks_space (c : Char) (t : Str) (hc : isWhiteSpace c = true) (hn : c ≠ '\n') :
    leadingBreaks (c :: t) = leadingBreaks t := by
  simp [leadingBreaks, List.takeWhile_cons, hc, List.count_cons, hn]

theorem leadingBreaks_other (c : Char) (t : Str) (hc : isWhiteSpace c = false) :
    leadingBreaks (c :: t) = 0 := by
  simp [leadingBreaks, List.takeWhile_cons, hc]

theorem leadingBreaks_cons_le (c : Char) (t : Str) : leadingBreaks (c :: t) ≤ leadingBreaks t + 1 := by
  by_cases hn : c = '\n'
  · subst hn; rw [leadingBreaks_break]
  · cases hc : isWhiteSpace c with
    | true => rw [leadingBreaks_space c t hc hn]; omega
    | false => rw [leadingBreaks_other c t hc]; omega

/-- A text is the white space it starts with followed by a text that does not
start with white space. -/
theorem split_space (t : Str) :
    ∃ R r, t = R ++ r ∧ (∀ ch ∈ R, isWhiteSpace ch = true) ∧
      (∀ ch u, r = ch :: u → isWhiteSpace ch = false) ∧ leadingBreaks t = R.count '\n' := by
  refine ⟨t.takeWhile isWhiteSpace, t.dropWhile isWhiteSpace,
    (List.takeWhile_append_dropWhile _ _).symm, ?_, ?_, rfl⟩
  · intro ch h
    exact List.mem_takeWhile_imp h
  · intro ch u h
    induction t with
    | nil => simp at h
    | cons a t ih =>
      rw [List.dropWhile_cons] at h
      split at h
      · exact ih h
      · rename_i ha
        injection h with h1 _
        rw [← h1]
        simpa using ha

theorem cutLast_some (R pre post : Str) (h : cutLast R = some (pre, post)) :
    R = pre ++ '\n' :: post ∧ post.count '\n' = 0 := by
  induction R generalizing pre with
  | nil => simp [cutLast] at h
  | cons a R ih =>
    rw [cutLast_cons] at h
    cases hc : cutLast R with
    | some v =>
      obtain ⟨p2, q2⟩ := v
      rw [hc] at h
      simp only [Option.some.injEq, Prod.mk.injEq] at h
      obtain ⟨h1, h2⟩ := h
      subst h1 h2
      obtain ⟨i1, i2⟩ := ih p2 hc
      exact ⟨by rw [i1]; rfl, i2⟩
    | none =>
      rw [hc] at h
      simp only at h
      split at h
      · rename_i ha
        simp only [Option.some.injEq, Prod.mk.injEq] at h
        obtain ⟨h1, h2⟩ := h
        subst h1 h2 ha
        exact ⟨rfl, (cutLast_none _).mp hc⟩
      · cases h

/-- The white space behind the last line feed of a run, followed by a text
that does not start with white space, starts with no line feed. -/
theorem leadingBreaks_post (post r : Str) (hp : ∀ ch ∈ post, isWhiteSpace ch = true)
    (hc : post.count '\n' = 0) (hr : ∀ ch u, r = ch :: u → isWhiteSpace ch = false) :
    leadingBreaks (post ++ r) = 0 := by
  induction post with
  | nil =>
    cases r with
    | nil => rfl
    | cons a u => exact leadingBreaks_other a u (hr a u rfl)
  | cons a t ih =>
    have ha : a ≠ '\n' := by
      intro h
      rw [h, List.count_cons_self] at hc
      omega
    have hc2 : t.count '\n' = 0 := by
      rw [List.count_cons] at hc
      omega
    rw [List.cons_append, leadingBreaks_space a _ (hp a (by simp)) ha]
    exact ih (fun ch h => hp ch (by simp [h])) hc2

/-- What a match of the blank-line pattern tells: the text starts with white
space that holds three line feeds or more, the match is not empty, and behind
it the text starts with no line feed. -/
theorem matchAt_blank_some (l s : Str) (y : Pos) (c : Caps)
    (h : matchAt blankLinesRegex ⟨l, s⟩ = some (y, c)) :
    3 ≤ leadingBreaks s ∧ leadingBreaks y.rest = 0 ∧ y.rest.length < s.length ∧
      (∃ m, s = m ++ y.rest) := by
  cases s with
  | nil => rw [opensWith_blankLines l [] (by simp)] at h; cases h
  | cons a t =>
    by_cases ha : a = '\n'
    · subst ha
      obtain ⟨R, r, ht, hR, hr, hlb⟩ := split_space t
      rw [ht, matchAt_blank l R r hR hr] at h
      split at h
      · rename_i h2
        cases hc : cutLast R with
        | none => rw [hc] at h; cases h
        | some v =>
          obtain ⟨pre, post⟩ := v
          rw [hc] at h
          simp only [Option.map_some', Option.some.injEq, Prod.mk.injEq] at h
          obtain ⟨hy, _⟩ := h
          obtain ⟨hR2, hpc⟩ := cutLast_some R pre post hc
          have hpost : ∀ ch ∈ post, isWhiteSpace ch = true :=
            fun ch hch => hR ch (by rw [hR2]; simp [hch])
          rw [← hy]
          refine ⟨?_, ?_, ?_, ?_⟩
          · rw [leadingBreaks_break, hlb]; omega
          · exact leadingBreaks_post post r hpost hpc hr
          · rw [ht, hR2]; simp; omega
          · exact ⟨'\n' :: (pre ++ ['\n']), by rw [ht, hR2]; simp⟩
      · cases h
    · rw [opensWith_blankLines l (a :: t) (fun u hu => ha (by injection hu))] at h
      cases h

/-- Where the blank-line pattern does not match at a line feed, the white
space from there on holds at most two line feeds. -/
theorem matchAt_blank_none (l t : Str) (h : matchAt blankLinesRegex ⟨l, '\n' :: t⟩ = none) :
    leadingBreaks ('\n' :: t) ≤ 2 := by
  obtain ⟨R, r, ht, hR, hr, hlb⟩ := split_space t
  rw [ht, matchAt_blank l R r hR hr] at h
  rw [leadingBreaks_break, hlb]
  split at h
  · rename_i h2
    cases hc : cutLast R with
    | none =>
      have := (cutLast_none R).mp hc
      omega
    | some v => rw [hc] at h; cases h
  · omega

end

section

open TemplateEngine Re

theorem calm_nil : Calm [] := by
  intro s hs
  rw [List.suffix_nil.mp hs]
  exact Nat.zero_le _

theorem calm_cons (c : Char) (o : Str) (ho : Calm o) (hc : leadingBreaks (c :: o) ≤ 2) :
    Calm (c :: o) := by
  intro s hs
  rcases List.suffix_cons_iff.mp hs with h | h
  · rw [h]; exact hc
  · exact ho s h

theorem calm_suffix (x s : Str) (hx : Calm x) (hs : s <:+ x) : Calm s :=
  fun u hu => hx u (hu.trans hs)

theorem leadingBreaks_append_le (s t : Str) : leadingBreaks s ≤ leadingBreaks (s ++ t) := by
  induction s with
  | nil => exact Nat.zero_le _
  | cons a u ih =>
    by_cases hn : a = '\n'
    · subst hn
      rw [List.cons_append, leadingBreaks_break, leadingBreaks_break]
      omega
    · cases hc : isWhiteSpace a with
      | true =>
        rw [List.cons_append, leadingBreaks_space a _ hc hn, leadingBreaks_space a _ hc hn]
        exact ih
      | false =>
        rw [leadingBreaks_other a _ hc]
        exact Nat.zero_le _

theorem calm_initial (x p : Str) (hx : Calm x) (hp : p <+: x) : Calm p := by
  obtain ⟨t, ht⟩ := hp
  intro s hs
  obtain ⟨u, hu⟩ := hs
  have h1 : (s ++ t) <:+ x := ⟨u, by rw [← ht, ← hu]; simp⟩
  exact Nat.le_trans (leadingBreaks_append_le s t) (hx _ h1)

/-- The blank-line pattern matches nowhere in a text without a run of white
space that holds more than two line feeds. -/
theorem calm_no_match (x : Str) (hx : Calm x) (l s : Str) (hs : s <:+ x) :
    matchAt blankLinesRegex ⟨l, s⟩ = none := by
  cases h : matchAt blankLinesRegex ⟨l, s⟩ with
  | none => rfl
  | some v =>
    obtain ⟨y, c⟩ := v
    have h3 := (matchAt_blank_some l s y c h).1
    have h2 := hx s hs
    omega

/-- The replacement of the blank lines leaves a text in which no run of white
space holds more than two line feeds; and the text it leaves starts with no
more line feeds than the input. -/
theorem collapse_calm : ∀ (fuel : Nat) (left rest : Str), rest.length < fuel →
    Calm (render (fun info => expandReplacement 0 info ['\n', '\n'])
        (pieces blankLinesRegex fuel left rest)) ∧
      leadingBreaks (render (fun info => expandReplacement 0 info ['\n', '\n'])
        (pieces blankLinesRegex fuel left rest)) ≤ leadingBreaks rest := by
  intro fuel
  induction fuel with
  | zero => intro left rest h; omega
  | succ f ih =>
    intro left rest hlen
    cases hm : matchAt blankLinesRegex ⟨left, rest⟩ with
    | some v =>
      obtain ⟨y, c⟩ := v
      obtain ⟨h3, h0, hlt, m, hm2⟩ := matchAt_blank_some left rest y c hm
      have hn : rest.length - y.rest.length ≠ 0 := by omega
      obtain ⟨ic, il⟩ := ih ((List.take (rest.length - y.rest.length) rest).reverse ++ left)
        y.rest (by omega)
      have hp : pieces blankLinesRegex (f + 1) left rest =
          .hit ⟨rest.take (rest.length - y.rest.length), c, left.reverse, y.rest⟩ ::
            pieces blankLinesRegex f ((rest.take (rest.length - y.rest.length)).reverse ++ left)
              y.rest := by
        simp only [pieces, hm, hn, if_false]
      rw [hp]
      simp only [render]
      have hrep : ∀ info : MatchInfo, expandReplacement 0 info ['\n', '\n'] = ['\n', '\n'] :=
        fun _ => rfl
      rw [hrep]
      generalize render (fun info => expandReplacement 0 info ['\n', '\n'])
        (pieces blankLinesRegex f ((List.take (rest.length - y.rest.length) rest).reverse ++ left)
          y.rest) = o at ic il
      have hl0 : leadingBreaks o = 0 := by omega
      have h1 : leadingBreaks ('\n' :: o) = 1 := by rw [leadingBreaks_break, hl0]
      have h2 : leadingBreaks ('\n' :: '\n' :: o) = 2 := by rw [leadingBreaks_break, h1]
      show Calm ('\n' :: '\n' :: o) ∧ leadingBreaks ('\n' :: '\n' :: o) ≤ leadingBreaks rest
      exact ⟨calm_cons _ _ (calm_cons _ _ ic (by omega)) (by omega), by omega⟩
    | none =>
      cases rest with
      | nil =>
        have hp : pieces blankLinesRegex (f + 1) left [] = [] := by simp only [pieces, hm]
        rw [hp]
        exact ⟨calm_nil, Nat.le_refl _⟩
      | cons ch t =>
        have hp : pieces blankLinesRegex (f + 1) left (ch :: t) =
            .text ch :: pieces blankLinesRegex f (ch :: left) t := by simp only [pieces, hm]
        rw [hp]
        simp only [render]
        obtain ⟨ic, il⟩ := ih (ch :: left) t (by simp at hlen; omega)
        generalize render (fun info => expandReplacement 0 info ['\n', '\n'])
          (pieces blankLinesRegex f (ch :: left) t) = o at ic il
        have ho2 : leadingBreaks o ≤ 2 := ic o (List.suffix_refl _)
        by_cases hn : ch = '\n'
        · subst hn
          have hb := matchAt_blank_none left t hm
          rw [leadingBreaks_break] at hb
          have h1 : leadingBreaks ('\n' :: o) = leadingBreaks o + 1 := leadingBreaks_break o
          refine ⟨calm_cons _ _ ic (by omega), ?_⟩
          rw [leadingBreaks_break t, h1]
          omega
        · cases hc : isWhiteSpace ch with
          | true =>
            have h1 := leadingBreaks_space ch o hc hn
            refine ⟨calm_cons _ _ ic (by omega), ?_⟩
            rw [h1, leadingBreaks_space ch t hc hn]
            exact il
          | false =>
            have h1 := leadingBreaks_other ch o hc
            refine ⟨calm_cons _ _ ic (by omega), ?_⟩
            rw [h1]
            exact Nat.zero_le _

end

section

open TemplateEngine Re

theorem trim_eq (x : Str) : trim x = List.rdropWhile isWhiteSpace (x.dropWhile isWhiteSpace) := rfl

/-- Trimming twice is trimming once. -/
theorem trim_trim (x : Str) : trim (trim x) = trim x := by
  rw [trim_eq x]
  generalize hz : x.dropWhile isWhiteSpace = z
  have hzd : z.dropWhile isWhiteSpace = z := by
    rw [← hz]; exact List.dropWhile_idempotent _ _
  have hy : (List.rdropWhile isWhiteSpace z).dropWhile isWhiteSpace =
      List.rdropWhile isWhiteSpace z := by
    obtain ⟨t, ht⟩ : List.rdropWhile isWhiteSpace z <+: z := List.rdropWhile_prefix _ _
    cases hr : List.rdropWhile isWhiteSpace z with
    | nil => rfl
    | cons a u =>
      rw [hr] at ht
      have ha : isWhiteSpace a = false := by
        cases hws : isWhiteSpace a with
        | false => rfl
        | true =>
          rw [← ht, List.cons_append, List.dropWhile_cons, if_pos hws] at hzd
          have hlen := (List.dropWhile_suffix (l := u ++ t) isWhiteSpace).length_le
          rw [hzd] at hlen
          simp at hlen
      rw [List.dropWhile_cons, ha]
      rfl
  rw [trim_eq, hy, List.rdropWhile_idempotent]

theorem trim_inside (x : Str) : ∃ a b, x = a ++ trim x ++ b := by
  obtain ⟨a, ha⟩ : x.dropWhile isWhiteSpace <:+ x := List.dropWhile_suffix _
  obtain ⟨b, hb⟩ : List.rdropWhile isWhiteSpace (x.dropWhile isWhiteSpace) <+:
      x.dropWhile isWhiteSpace := List.rdropWhile_prefix _ _
  refine ⟨a, b, ?_⟩
  rw [trim_eq, List.append_assoc, hb, ha]

theorem calm_trim (x : Str) (hx : Calm x) : Calm (trim x) := by
  obtain ⟨a, b, h⟩ := trim_inside x
  have h1 : Calm (trim x ++ b) := calm_suffix x _ hx ⟨a, by rw [List.append_assoc] at h; exact h.symm⟩
  exact calm_initial _ _ h1 ⟨b, rfl⟩

/-- The replacement of the blank lines changes nothing in a text without a run
of white space that holds more than two line feeds. -/
theorem collapse_of_calm (x : Str) (hx : Calm x) :
    replaceAllStr blankLinesRegex 0 ['\n', '\n'] x = x :=
  replaceAll_no_match _ _ x (calm_no_match x hx)

theorem postProcessContent_calm (s : Str) : Calm (postProcessContent s) := by
  rw [postProcessContent]
  exact calm_trim _ (collapse_calm _ [] s (Nat.lt_succ_self _)).1

/-- A trimmed text does not begin with white space. -/
theorem trim_head (y : Str) (c : Char) (h : (trim y).head? = some c) : isWhiteSpace c = false := by
  rw [trim_eq] at h
  obtain ⟨t, ht⟩ : List.rdropWhile isWhiteSpace (y.dropWhile isWhiteSpace) <+:
      y.dropWhile isWhiteSpace := List.rdropWhile_prefix _ _
  cases hr : List.rdropWhile isWhiteSpace (y.dropWhile isWhiteSpace) with
  | nil =>
    rw [hr] at h
    cases h
  | cons a u =>
    rw [hr] at h ht
    have hac : a = c := by
      simpa using h
    have hnot := List.head?_dropWhile_not isWhiteSpace y
    rw [← ht] at hnot
    simp only [List.cons_append, List.head?_cons] at hnot
    rw [← hac]
    exact hnot

/-- A trimmed text does not end with white space. -/
theorem trim_last (y : Str) (c : Char) (h : (trim y).getLast? = some c) :
    isWhiteSpace c = false := by
  rw [trim_eq] at h
  by_cases hl : List.rdropWhile isWhiteSpace (y.dropWhile isWhiteSpace) = []
  · rw [hl] at h
    cases h
  · have hnot := List.rdropWhile_last_not (p := isWhiteSpace) (l := y.dropWhile isWhiteSpace) hl
    rw [List.getLast?_eq_getLast _ hl] at h
    have hc : (List.rdropWhile isWhiteSpace (y.dropWhile isWhiteSpace)).getLast hl = c := by
      simpa using h
    rw [hc] at hnot
    simpa using hnot

/-- C30: `postProcessContent` is idempotent, and one application leaves no
match of the blank-line pattern and no white space to trim: in the result the
pattern matches at no position, the replacement of the blank lines changes
nothing, trimming changes nothing, and the result neither begins nor ends with
white space. -/
theorem postProcessContent_idempotent (s : Str) :
    postProcessContent (postProcessContent s) = postProcessContent s
      ∧ (∀ l t : Str, t <:+ postProcessContent s → matchAt blankLinesRegex ⟨l, t⟩ = none)
      ∧ replaceAllStr blankLinesRegex 0 ['\n', '\n'] (postProcessContent s) =
          postProcessContent s
      ∧ trim (postProcessContent s) = postProcessContent s
      ∧ (∀ c, (postProcessContent s).head? = some c → isWhiteSpace c = false)
      ∧ (∀ c, (postProcessContent s).getLast? = some c → isWhiteSpace c = false) := by
  have hc := postProcessContent_calm s
  have htrim : trim (postProcessContent s) = postProcessContent s := by
    rw [postProcessContent, trim_trim]
  refine ⟨?_, fun l t ht => calm_no_match _ hc l t ht, collapse_of_calm _ hc, htrim, ?_, ?_⟩
  · have h1 : postProcessContent (postProcessContent s) = trim (postProcessContent s) := by
      conv_lhs => rw [postProcessContent]
      rw [collapse_of_calm _ hc]
    rw [h1, htrim]
  · intro c h
    rw [postProcessContent] at h
    exact trim_head _ c h
  · intro c h
    rw [postProcessContent] at h
    exact trim_last _ c h

end

section

open TemplateEngine Re

theorem cutLast_append (m post : Str) (hp : post.count '\n' = 0) :
    cutLast (m ++ '\n' :: post) = some (m, post) := by
  induction m with
  | nil =>
    rw [List.nil_append, cutLast_cons, (cutLast_none post).mpr hp]
    rfl
  | cons a t ih =>
    rw [List.cons_append, cutLast_cons, ih]

theorem count_zero_of_not_mem (x : Str) (h : ∀ ch ∈ x, ch ≠ '\n') : x.count '\n' = 0 :=
  List.count_eq_zero_of_not_mem (fun hm => h '\n' hm rfl)

/-- The blank-line pattern matches a run of white space that starts and ends
with a line feed and holds three or more, in front of a text without a line
feed, as a whole. -/
theorem matchAt_blank_run (l m y : Str) (hm : ∀ ch ∈ m, isWhiteSpace ch = true)
    (hc : 1 ≤ m.count '\n') (hy : ∀ ch ∈ y, ch ≠ '\n') :
    ∃ z, matchAt blankLinesRegex ⟨l, ('\n' :: (m ++ ['\n'])) ++ y⟩ = some (z, []) ∧ z.rest = y := by
  obtain ⟨yw, yr, hsplit, hyw, hyr, _⟩ := split_space y
  have hywc : yw.count '\n' = 0 :=
    count_zero_of_not_mem yw (fun ch h => hy ch (by rw [hsplit]; simp [h]))
  have hshape : ('\n' :: (m ++ ['\n'])) ++ y = '\n' :: ((m ++ '\n' :: yw) ++ yr) := by
    rw [hsplit]; simp
  have hR : ∀ ch ∈ m ++ '\n' :: yw, isWhiteSpace ch = true := by
    intro ch h
    simp only [List.mem_append, List.mem_cons] at h
    rcases h with h | h | h
    · exact hm ch h
    · rw [h]; decide
    · exact hyw ch h
  have hcount : 2 ≤ (m ++ '\n' :: yw).count '\n' := by
    rw [List.count_append, List.count_cons_self]; omega
  rw [hshape, matchAt_blank l _ yr hR hyr, if_pos hcount, cutLast_append m yw hywc]
  exact ⟨_, rfl, by rw [hsplit]⟩

/-- C21 as stated fails: lines that hold only white space count as blank.
The text `a`, line feed, space, line feed, space, line feed, `b` has no three
line feeds in a row, and still its three line feeds and the spaces between
them are replaced by two line feeds. -/
theorem postProcessContent_space_lines :
    postProcessContent "a\n \n \nb".toList = "a\n\nb".toList
      ∧ postProcessContent "a\n\n\n\n\nb".toList = "a\n\nb".toList
      ∧ postProcessContent "a\n\nb".toList = "a\n\nb".toList := by
  refine ⟨?_, ?_, ?_⟩ <;> rfl

/-- C21, as the code has it: for every text, the result of
`postProcessContent` is trimmed and holds no run of white space with more
than two line feeds, so no three line feeds in a row; a text that holds no
such run is only trimmed; and a run of white space that starts and ends with a
line feed and holds three or more, between texts without a line feed, is
replaced by exactly two line feeds. -/
theorem postProcessContent_spec (s : Str) :
    trim (postProcessContent s) = postProcessContent s
      ∧ Calm (postProcessContent s)
      ∧ ¬ ['\n', '\n', '\n'] <:+: postProcessContent s
      ∧ (Calm s → postProcessContent s = trim s)
      ∧ (∀ x m y : Str, (∀ ch ∈ x, ch ≠ '\n') → (∀ ch ∈ y, ch ≠ '\n') →
          (∀ ch ∈ m, isWhiteSpace ch = true) → 1 ≤ m.count '\n' →
          postProcessContent (x ++ (('\n' :: (m ++ ['\n'])) ++ y)) =
            trim (x ++ (['\n', '\n'] ++ y))) := by
  have hcalm := postProcessContent_calm s
  refine ⟨?_, hcalm, ?_, ?_, ?_⟩
  · rw [postProcessContent, trim_trim]
  · rintro ⟨a, b, hab⟩
    have hsuf : (['\n', '\n', '\n'] ++ b) <:+ postProcessContent s :=
      ⟨a, by rw [← hab]; simp⟩
    have h2 := hcalm _ hsuf
    have h3 : 3 ≤ leadingBreaks (['\n', '\n', '\n'] ++ b) := by
      show 3 ≤ leadingBreaks ('\n' :: '\n' :: '\n' :: b)
      rw [leadingBreaks_break, leadingBreaks_break, leadingBreaks_break]
      omega
    omega
  · intro hs
    rw [postProcessContent, collapse_of_calm s hs]
  · intro x m y hx hy hm hc
    rw [postProcessContent, replaceAllStr,
      replaceAll_one blankLinesRegex '\n' _ x ('\n' :: (m ++ ['\n'])) y [] opensWith_blankLines
        hx hy (fun l => matchAt_blank_run l m y hm hc hy) (by simp)]
    rfl

end

section

open TemplateEngine DatabaseService

/-! ## Reads through a cold cache -/

theorem find_map_other (k k2 : Str) (v : Stored) (hne : k2 ≠ k) : ∀ l : List (Str × Stored),
    (l.map (fun e => if e.1 == k then (k, v) else e)).find? (fun e => e.1 == k2) =
      l.find? (fun e => e.1 == k2)
  | [] => rfl
  | e :: r => by
    have ih := find_map_other k k2 v hne r
    by_cases hk : e.1 = k
    · have h1 : (e.1 == k) = true := by simpa using hk
      have h2 : (k == k2) = false := by simpa using fun h => hne h.symm
      have h3 : (e.1 == k2) = false := by rw [hk]; exact h2
      simp only [List.map_cons, h1, if_true, List.find?_cons, h2, h3, ih]
    · have h1 : (e.1 == k) = false := by simpa using hk
      simp only [List.map_cons, h1, Bool.false_eq_true, if_false, List.find?_cons, ih]

theorem getProperty_setProperty_ne (w : World) (k k2 : Str) (v : Stored) (hne : k2 ≠ k) :
    getProperty (setProperty w k v) k2 = getProperty w k2 := by
  simp only [getProperty, setProperty]
  split
  · rw [find_map_other k k2 v hne]
  · have h2 : (k == k2) = false := by simpa using fun h => hne h.symm
    rw [List.find?_append]
    cases hf : w.props.find? (fun e => e.1 == k2) with
    | some x => rfl
    | none => simp [List.find?_cons, h2]

/-- A `set` under one key does not change what is stored under another. -/
theorem getProperty_set_other (w : World) (key k2 : Str) (value : JSValue) (ttl : Int)
    (hne : k2 ≠ CacheService.keyPrefix ++ key) :
    getProperty (CacheService.set w key value ttl) k2 = getProperty w k2 := by
  simp only [CacheService.set]
  exact getProperty_setProperty_ne w _ k2 _ hne

/-- A `get` under a key that holds nothing returns `null` and changes
nothing. -/
theorem get_of_none (w : World) (key : Str)
    (h : getProperty w (CacheService.keyPrefix ++ key) = none) :
    CacheService.get w key = (.null, w) := by
  simp only [CacheService.get, h]

/-- The method `getSheetData` when the cache holds nothing for the sheet: the
values of the sheet, and the cache changes under the key of the sheet
only. -/
theorem getSheetData_cold (w : World) (name : Str) (rows : List (List JSValue))
    (hs : sheetValues w name = some rows)
    (hmiss : getProperty w (CacheService.keyPrefix ++ ("sheet_data_".toList ++ name)) = none) :
    ∃ w1, getSheetData w name = (.ok (.arr (rows.map .arr)), w1) ∧
      (∀ k2, k2 ≠ CacheService.keyPrefix ++ ("sheet_data_".toList ++ name) →
        getProperty w1 k2 = getProperty w k2) ∧
      w1.optionsSheet = w.optionsSheet ∧ w1.footersSheet = w.footersSheet ∧ w1.now = w.now := by
  simp only [getSheetData, get_of_none w _ hmiss, JSValue.truthy, Bool.false_eq_true, if_false, hs]
  cases rows with
  | nil => exact ⟨w, rfl, fun _ _ => rfl, rfl, rfl, rfl⟩
  | cons r rs =>
    exact ⟨_, rfl, fun k2 hk => getProperty_set_other w _ k2 _ _ hk, rfl, rfl, rfl⟩

end

section

open TemplateEngine DatabaseService

/-- The loop of `getActiveFooter` over rows of a sheet: the first active
footer. -/
theorem findActiveFooterRow_rows (P : Platform) : ∀ rs : List (List JSValue),
    findActiveFooterRow P (rs.map .arr) = .ok ((rs.find? activeFooterRow).map .arr)
  | [] => rfl
  | r :: rs => by
    have ih := findActiveFooterRow_rows P rs
    simp only [List.map_cons, findActiveFooterRow, JSValue.isNullish, Bool.false_eq_true, if_false,
      List.find?_cons]
    have hc : ((cell (.arr r) 0).truthy && (cell (.arr r) 3).strictEq (.bool true)) =
        activeFooterRow r := rfl
    rw [hc]
    cases activeFooterRow r with
    | true => rfl
    | false => simpa using ih

/-- The method `getActiveFooter` when the cache holds nothing: the first
active footer of the sheet, or `null`; the cache changes under the keys of the
footers only. -/
theorem getActiveFooter_cold (P : Platform) (w : World) (hcold : w.props = []) :
    ∃ w1, getActiveFooter P w =
        (.ok (match firstActiveFooter w.footersSheet with
          | some row => footerOfRow (.arr row)
          | none => .null), w1) ∧
      getProperty w1 (CacheService.keyPrefix ++ "sheet_data_options".toList) = none ∧
      w1.optionsSheet = w.optionsSheet := by
  have hnone : ∀ k, getProperty w k = none := by
    intro k
    simp [getProperty, hcold]
  obtain ⟨w1, hdata, hframe, hopt, _, _⟩ := getSheetData_cold w "footers".toList w.footersSheet rfl
    (hnone _)
  have hmiss1 : getProperty w1 (CacheService.keyPrefix ++ "sheet_data_options".toList) = none := by
    rw [hframe _ (by decide)]
    exact hnone _
  simp only [getActiveFooter, get_of_none w _ (hnone _), JSValue.truthy, Bool.false_eq_true,
    if_false, hdata, elements]
  rw [← List.map_drop, findActiveFooterRow_rows]
  simp only [firstActiveFooter]
  cases hf : (w.footersSheet.drop 1).find? activeFooterRow with
  | none => exact ⟨w1, rfl, hmiss1, hopt⟩
  | some row =>
    refine ⟨_, rfl, ?_, hopt⟩
    rw [getProperty_set_other _ _ _ _ _ (by decide)]
    exact hmiss1

end

section

open TemplateEngine DatabaseService

theorem ownProp_setProp_ne (k k2 : Str) (v : JSValue) (hne : k2 ≠ k) : ∀ b : Bag,
    ownProp (setProp b k v) k2 = ownProp b k2
  | [] => by
    have h : (k == k2) = false := by simpa using fun h => hne h.symm
    simp [setProp, ownProp, List.find?_cons, h]
  | (k0, v0) :: r => by
    have ih := ownProp_setProp_ne k k2 v hne r
    simp only [ownProp] at ih ⊢
    simp only [setProp]
    by_cases h0 : k0 = k
    · have h1 : (k0 == k) = true := by simpa using h0
      have h2 : (k == k2) = false := by simpa using fun h => hne h.symm
      have h3 : (k0 == k2) = false := by rw [h0]; exact h2
      simp only [h1, if_true, List.find?_cons, h2, h3]
    · have h1 : (k0 == k) = false := by simpa using h0
      simp only [h1, Bool.false_eq_true, if_false, List.find?_cons]
      cases (k0 == k2) with
      | true => rfl
      | false => exact ih

theorem ownProp_setProp_same (k : Str) (v : JSValue) : ∀ b : Bag,
    ownProp (setProp b k v) k = some v
  | [] => by simp [setProp, ownProp, List.find?_cons]
  | (k0, v0) :: r => by
    have ih := ownProp_setProp_same k v r
    simp only [ownProp] at ih ⊢
    simp only [setProp]
    by_cases h0 : k0 = k
    · have h1 : (k0 == k) = true := by simpa using h0
      simp [h1, List.find?_cons]
    · have h1 : (k0 == k) = false := by simpa using h0
      simp only [h1, Bool.false_eq_true, if_false, List.find?_cons]
      exact ih

/-- An assignment to one property does not change what another reads. -/
theorem getProp_setProp_ne (b : Bag) (k k2 : Str) (v : JSValue) (hne : k2 ≠ k) :
    getProp (setProp b k v) k2 = getProp b k2 := by
  simp only [getProp, ownProp_setProp_ne k k2 v hne b]

/-- A property reads as what was assigned to it. -/
theorem getProp_setProp_same (b : Bag) (k : Str) (v : JSValue) :
    getProp (setProp b k v) k = v := by
  simp only [getProp, ownProp_setProp_same k v b]

/-- The steps of `preprocessVariables` before the footer leave the footer of
the bag alone. -/
theorem preprocessBasics_footer (P : Platform) (w : World) (vars : Bag) :
    getProp (preprocessBasics P w vars) "footer".toList = getProp vars "footer".toList := by
  have hne : ∀ k : Str, k ≠ "footer".toList → ∀ (b : Bag) (v : JSValue),
      getProp (setProp b k v) "footer".toList = getProp b "footer".toList :=
    fun k hk b v => getProp_setProp_ne b k _ v (fun h => hk h.symm)
  simp only [preprocessBasics]
  split <;> split <;> split <;>
    simp only [hne "formattedReplyDate".toList (by decide), hne "today".toList (by decide),
      hne "statusText".toList (by decide), hne "status".toList (by decide),
      hne "formattedECID".toList (by decide)]

end

section

open TemplateEngine DatabaseService

/-- One round of the conversion loop changes the bag under the name of its
variable only. -/
theorem convertOne_frame (P : Platform) (w : World) (b : Bag) (n : JSValue) (k : Str)
    (hne : n.toStr ≠ k) : getProp (convertOne P w b n).1 k = getProp b k := by
  unfold convertOne
  simp only
  split
  · rfl
  · split
    · rfl
    · split
      · rfl
      · split
        · exact getProp_setProp_ne b _ k _ (fun h => hne h.symm)
        · rfl
    · rfl

theorem convertAll_frame (P : Platform) (k : Str) : ∀ (names : List JSValue) (w : World) (b : Bag),
    (∀ n ∈ names, n.toStr ≠ k) → getProp (convertAll P names w b).1 k = getProp b k
  | [], _, _, _ => rfl
  | n :: rest, w, b, h => by
    simp only [convertAll]
    rw [convertAll_frame P k rest _ _ (fun m hm => h m (List.mem_cons_of_mem _ hm))]
    exact convertOne_frame P w b n k (h n (List.mem_cons_self _ _))

/-- The names the detection loop finds are first cells of rows. -/
theorem selectVariableNames_mem (P : Platform) : ∀ (rs acc names : List JSValue),
    selectVariableNames P rs acc = .ok names →
    ∀ n ∈ names, n ∈ acc ∨ ∃ row ∈ rs, n = cell row 0
  | [], acc, names, h, n, hn => by
    simp only [selectVariableNames, Except.ok.injEq] at h
    rw [← h] at hn
    exact Or.inl (List.mem_reverse.mp hn)
  | row :: rest, acc, names, h, n, hn => by
    simp only [selectVariableNames] at h
    split at h
    · cases h
    · split at h
      · rcases selectVariableNames_mem P rest _ names h n hn with h1 | ⟨r2, hr2, he⟩
        · rcases List.mem_cons.mp h1 with h2 | h2
          · exact Or.inr ⟨row, List.mem_cons_self _ _, h2⟩
          · exact Or.inl h2
        · exact Or.inr ⟨r2, List.mem_cons_of_mem _ hr2, he⟩
      · rcases selectVariableNames_mem P rest _ names h n hn with h1 | ⟨r2, hr2, he⟩
        · exact Or.inl h1
        · exact Or.inr ⟨r2, List.mem_cons_of_mem _ hr2, he⟩

/-- The conversion of the options leaves a property of the bag alone when the
cache holds nothing for the Options sheet and no row of the sheet is named
after the property. -/
theorem convertSelectOptionsToText_frame (P : Platform) (w : World) (b : Bag) (k : Str)
    (hmiss : getProperty w (CacheService.keyPrefix ++ "sheet_data_options".toList) = none)
    (hrows : ∀ row ∈ w.optionsSheet.drop 1, (row.getD 0 .undefined).toStr ≠ k) :
    getProp (convertSelectOptionsToText P w b).1 k = getProp b k := by
  obtain ⟨w1, hdata, _, _, _, _⟩ := getSheetData_cold w "options".toList w.optionsSheet rfl hmiss
  simp only [convertSelectOptionsToText, hdata, elements]
  split
  · rfl
  · rename_i names hnames
    apply convertAll_frame
    intro n hn
    rcases selectVariableNames_mem P _ [] names hnames n hn with h1 | ⟨row, hrow, he⟩
    · cases h1
    · rw [← List.map_drop] at hrow
      obtain ⟨r, hr, hre⟩ := List.mem_map.mp hrow
      rw [he, ← hre]
      exact hrows r hr

end

section

open TemplateEngine DatabaseService

/-- The footer step of `preprocessVariables` when the cache holds nothing. -/
theorem preprocessFooter_cold (P : Platform) (w : World) (b : Bag) (hcold : w.props = []) :
    ∃ w1, preprocessFooter P w b =
        (.ok (setProp b "footer".toList
          (if footerWanted (getProp b "footer".toList) then footerContent w.footersSheet
            else .str [])), w1) ∧
      getProperty w1 (CacheService.keyPrefix ++ "sheet_data_options".toList) = none ∧
      w1.optionsSheet = w.optionsSheet := by
  have hnone : ∀ k, getProperty w k = none := by
    intro k
    simp [getProperty, hcold]
  unfold preprocessFooter
  simp only
  have hw : ((getProp b "footer".toList).strictEq (.bool true) ||
      (getProp b "footer".toList).strictEq (.str "true".toList) ||
      (getProp b "footer".toList).strictEq (.str "TRUE".toList)) =
      footerWanted (getProp b "footer".toList) := rfl
  rw [hw]
  cases footerWanted (getProp b "footer".toList) with
  | false => exact ⟨w, rfl, hnone _, rfl⟩
  | true =>
    obtain ⟨w1, hfooter, hmiss, hopt⟩ := getActiveFooter_cold P w hcold
    simp only [if_true, hfooter, footerContent]
    cases hf : firstActiveFooter w.footersSheet with
    | none => exact ⟨w1, rfl, hmiss, hopt⟩
    | some row =>
      refine ⟨w1, ?_, hmiss, hopt⟩
      have hcontent : field (footerOfRow (.arr row)) "footer_content".toList =
          row.getD 2 .undefined := rfl
      have htruthy : (footerOfRow (.arr row)).truthy = true := rfl
      simp only [hcontent, htruthy, Bool.true_and]
      cases (row.getD 2 .undefined).truthy <;> rfl

/-- With nothing in the cache and no Option defined for the variable `footer`,
`preprocessVariables` returns a bag whose `footer` is the content of
the first active footer (a row with an id whose active flag is `true`, in
storage order) when the footer of the input is `true`, `"true"` or `"TRUE"`,
the empty string when no footer is active, and the empty string for every
other input, a falsy or absent footer included. A content that is a string is
returned as it is. -/
theorem preprocessVariables_footer (P : Platform) (w : World) (vars : Bag)
    (hcold : w.props = [])
    (hopt : ∀ row ∈ w.optionsSheet.drop 1, (row.getD 0 .undefined).toStr ≠ "footer".toList) :
    (∃ bag w2, preprocessVariables P w vars = (.ok bag, w2) ∧
      getProp bag "footer".toList =
        if footerWanted (getProp vars "footer".toList) then footerContent w.footersSheet
        else .str [])
    ∧ (firstActiveFooter w.footersSheet = none → footerContent w.footersSheet = .str [])
    ∧ (∀ row s, firstActiveFooter w.footersSheet = some row → row.getD 2 .undefined = .str s →
        footerContent w.footersSheet = .str s) := by
  refine ⟨?_, ?_, ?_⟩
  · obtain ⟨w1, hfoot, hmiss, hsheet⟩ := preprocessFooter_cold P w (preprocessBasics P w vars) hcold
    refine ⟨(convertSelectOptionsToText P w1 (setProp (preprocessBasics P w vars) "footer".toList
        (if footerWanted (getProp (preprocessBasics P w vars) "footer".toList) then
          footerContent w.footersSheet else .str []))).1,
      (convertSelectOptionsToText P w1 (setProp (preprocessBasics P w vars) "footer".toList
        (if footerWanted (getProp (preprocessBasics P w vars) "footer".toList) then
          footerContent w.footersSheet else .str []))).2, ?_, ?_⟩
    · unfold preprocessVariables
      rw [hfoot]
    · rw [convertSelectOptionsToText_frame P w1 _ _ hmiss (by rw [hsheet]; exact hopt),
        getProp_setProp_same, preprocessBasics_footer]
  · intro h
    unfold footerContent
    rw [h]
  · intro row s h hs
    unfold footerContent
    rw [h]
    simp only [hs]
    cases s with
    | nil => rfl
    | cons c t => rfl

/-- In `footerWorld` a footer `true` becomes the content of the first active
footer, `"Regards"`, and a footer `"yes"` becomes the empty string. -/
theorem preprocessVariables_footer_witness :
    (∃ bag w2, preprocessVariables sampleHost footerWorld [("footer".toList, .bool true)] =
        (.ok bag, w2) ∧ getProp bag "footer".toList = .str "Regards".toList) ∧
    (∃ bag w2, preprocessVariables sampleHost footerWorld [("footer".toList, .str "yes".toList)] =
        (.ok bag, w2) ∧ getProp bag "footer".toList = .str []) :=
  ⟨(preprocessVariables_footer sampleHost footerWorld [("footer".toList, .bool true)] rfl
      (by decide)).1,
    (preprocessVariables_footer sampleHost footerWorld [("footer".toList, .str "yes".toList)] rfl
      (by decide)).1⟩

set_option maxRecDepth 1000000 in
/-- C23 fails after an edit of the Footers sheet: `preprocessVariables` with
the footer `true` ran in `footerWorld` and cached the active footer,
`Regards`; its content was then changed in the sheet to `Best wishes` and the
trigger `onEdit` ran for the edit, deleting nothing; a minute later
`preprocessVariables` with the footer `true` still returns `Regards`, where the
content of the first active footer in storage order is `Best wishes`. -/
theorem preprocessVariables_stale_footer :
    (∃ bag w, preprocessVariables sampleHost (onEdit footerEdited (some ("Footers".toList, 3)))
        [("footer".toList, .bool true)] = (.ok bag, w) ∧
      getProp bag "footer".toList = .str "Regards".toList)
    ∧ footerContent footerEdited.footersSheet = .str "Best wishes".toList
    ∧ firstActiveFooter footerEdited.footersSheet =
        some [.str "F2".toList, .str "Standard".toList, .str "Best wishes".toList, .bool true]
    ∧ onEdit footerEdited (some ("Footers".toList, 3)) = footerEdited :=
  ⟨⟨_, _, rfl, rfl⟩, rfl, rfl, rfl⟩

end

section

open TemplateEngine DatabaseService

/-! ## Reads through a warm cache -/

/-- The entry that `set` writes for a serialisable value. -/
theorem entry_of_set (w : World) (key : Str) (value : JSValue) (ttl : Nat)
    (hv : isJsonValue value = true) :
    getProperty (CacheService.set w key value ttl) (CacheService.keyPrefix ++ key) =
      some (.json (.obj [("value".toList, value),
        ("expiry".toList, if (ttl : Int) ≠ 0 then .num (.ofInt (w.now + (ttl : Int) * 60 * 1000))
          else .null),
        ("created".toList, .num (.ofInt w.now))])) := by
  simp only [CacheService.set, getProperty_setProperty, jsonImage, jsonImageFields_cons _ _ _ hv]
  by_cases h0 : (ttl : Int) ≠ 0
  · simp only [if_pos h0]
    rfl
  · simp only [if_neg h0]
    rfl

/-- A `get` of an entry written at the present clock reading returns its
value and changes nothing. -/
theorem get_of_entry (w : World) (key : Str) (value : JSValue) (ttl : Nat)
    (h : getProperty w (CacheService.keyPrefix ++ key) =
      some (.json (.obj [("value".toList, value),
        ("expiry".toList, if (ttl : Int) ≠ 0 then .num (.ofInt (w.now + (ttl : Int) * 60 * 1000))
          else .null),
        ("created".toList, .num (.ofInt w.now))]))) :
    CacheService.get w key = (value, w) := by
  have hexp := expired_of_set w w _ ttl rfl
    (show field (.obj [("value".toList, value),
        ("expiry".toList, if (ttl : Int) ≠ 0 then .num (.ofInt (w.now + (ttl : Int) * 60 * 1000))
          else .null),
        ("created".toList, .num (.ofInt w.now))]) "expiry".toList = _ from rfl)
  simp only [CacheService.get, h, JSValue.isNullish, hexp]
  rfl

theorem areJsonValues_rows : ∀ rows : List (List JSValue),
    (∀ row ∈ rows, areJsonValues row = true) → areJsonValues (rows.map .arr) = true
  | [], _ => rfl
  | r :: rs, h => by
    simp only [List.map_cons, areJsonValues, isJsonValue, Bool.and_eq_true]
    exact ⟨h r (List.mem_cons_self _ _),
      areJsonValues_rows rs (fun row hrow => h row (List.mem_cons_of_mem _ hrow))⟩

/-- The method `getSheetData` on the Options sheet when the cache holds the
sheet: the cached rows, and nothing changes. -/
theorem getSheetData_warm (w : World) (rows : List JSValue) (ttl : Nat)
    (h : getProperty w (CacheService.keyPrefix ++ "sheet_data_options".toList) =
      some (.json (.obj [("value".toList, .arr rows),
        ("expiry".toList, if (ttl : Int) ≠ 0 then .num (.ofInt (w.now + (ttl : Int) * 60 * 1000))
          else .null),
        ("created".toList, .num (.ofInt w.now))]))) :
    getSheetData w "options".toList = (.ok (.arr rows), w) := by
  have hget := get_of_entry w "sheet_data_options".toList (.arr rows) ttl h
  have hkey : "sheet_data_".toList ++ "options".toList = "sheet_data_options".toList := rfl
  simp only [getSheetData, hkey, hget, JSValue.truthy, if_true]

/-- The loop of `getOptionsByVariable` over rows of a sheet: the option
objects of the active options of the variable. -/
theorem collectOptions_rows (P : Platform) (name : JSValue) : ∀ rs : List (List JSValue),
    collectOptions P name (rs.map .arr) =
      .ok ((rs.filter (activeOptionRow name)).map optionOfRow)
  | [] => rfl
  | r :: rs => by
    have ih := collectOptions_rows P name rs
    have hc : ((cell (.arr r) 0).strictEq name && (cell (.arr r) 4).strictEq (.bool true)) =
        activeOptionRow name r := rfl
    simp only [List.map_cons, collectOptions, JSValue.isNullish, Bool.false_eq_true, if_false, ih,
      hc, List.filter_cons]
    cases activeOptionRow name r with
    | true => rfl
    | false => rfl

theorem optionKey_ne_sheetKey (s : Str) :
    CacheService.keyPrefix ++ "sheet_data_options".toList ≠
      CacheService.keyPrefix ++ ("options_by_variable_".toList ++ s) := by
  intro h
  have h2 := List.append_cancel_left h
  have h3 : some 's' = some 'o' := congrArg List.head? h2
  exact absurd h3 (by decide)

theorem optionKey_ne (s t : Str) (hne : s ≠ t) :
    CacheService.keyPrefix ++ ("options_by_variable_".toList ++ t) ≠
      CacheService.keyPrefix ++ ("options_by_variable_".toList ++ s) := by
  intro h
  exact hne (List.append_cancel_left (List.append_cancel_left h)).symm

/-- The method `getOptionsByVariable` when the cache holds the Options sheet
and nothing for the variable: the active options of the variable, sorted, which
it writes to the cache under the key of the variable. -/
theorem getOptionsByVariable_warm (P : Platform) (w : World) (sheet : List (List JSValue))
    (name : JSValue) (ttl : Nat) (hname : name.truthy = true)
    (h : getProperty w (CacheService.keyPrefix ++ "sheet_data_options".toList) =
      some (.json (.obj [("value".toList, .arr (sheet.map .arr)),
        ("expiry".toList, if (ttl : Int) ≠ 0 then .num (.ofInt (w.now + (ttl : Int) * 60 * 1000))
          else .null),
        ("created".toList, .num (.ofInt w.now))])))
    (hmiss : getProperty w
      (CacheService.keyPrefix ++ ("options_by_variable_".toList ++ name.toStr)) = none) :
    getOptionsByVariable P w name =
      match sortBy (compareOptions P) (activeOptions sheet name) with
      | .error e => (.error e, w)
      | .ok sorted => (.ok (.arr sorted),
          CacheService.set w ("options_by_variable_".toList ++ name.toStr) (.arr sorted) 30) := by
  have hdata := getSheetData_warm w (sheet.map .arr) ttl h
  have hcollect : collectOptions P name ((elements (.arr (sheet.map .arr))).drop 1) =
      .ok (activeOptions sheet name) := by
    simp only [elements, ← List.map_drop, collectOptions_rows, activeOptions]
  have hnull : JSValue.null.truthy = false := rfl
  simp only [getOptionsByVariable, hname, Bool.not_true, Bool.false_eq_true, if_false,
    get_of_none w _ hmiss, hnull, hdata, hcollect]

end

section

open TemplateEngine DatabaseService

/-! ## The conversion of one select variable -/

theorem binaryInsertionSort_mem (cmp : JSValue → JSValue → Except Str Int) :
    ∀ (rest sorted out : List JSValue), binaryInsertionSort cmp sorted rest = .ok out →
    ∀ o ∈ out, o ∈ sorted ∨ o ∈ rest
  | [], sorted, out, h, o, ho => by
    simp only [binaryInsertionSort, Except.ok.injEq] at h
    rw [← h] at ho
    exact Or.inl ho
  | pivot :: rest, sorted, out, h, o, ho => by
    simp only [binaryInsertionSort] at h
    cases hi : searchSlot cmp pivot sorted sorted.length 0 sorted.length with
    | error e => simp [hi] at h
    | ok i =>
      simp only [hi] at h
      rcases binaryInsertionSort_mem cmp rest _ out h o ho with h1 | h1
      · rcases List.mem_append.mp h1 with h2 | h2
        · exact Or.inl (List.mem_of_mem_take h2)
        · rcases List.mem_cons.mp h2 with h3 | h3
          · exact Or.inr (h3 ▸ List.mem_cons_self _ _)
          · exact Or.inl (List.mem_of_mem_drop h3)
      · exact Or.inr (List.mem_cons_of_mem _ h1)

theorem countAndMakeRun_mem (cmp : JSValue → JSValue → Except Str Int) (first second : JSValue)
    (rest run others : List JSValue)
    (h : countAndMakeRun cmp first second rest = .ok (run, others)) :
    (∀ o ∈ run, o ∈ first :: second :: rest) ∧ (∀ o ∈ others, o ∈ rest) := by
  simp only [countAndMakeRun] at h
  cases hc : cmp second first with
  | error e => simp [hc] at h
  | ok order =>
    simp only [hc] at h
    cases hn : runTail cmp (decide (order < 0)) second rest with
    | error e => simp [hn] at h
    | ok n =>
      simp only [hn, Except.ok.injEq, Prod.mk.injEq] at h
      obtain ⟨hrun, hothers⟩ := h
      have hsub : ∀ o ∈ first :: second :: rest.take n, o ∈ first :: second :: rest := by
        intro o ho
        rcases List.mem_cons.mp ho with h1 | h1
        · exact h1 ▸ List.mem_cons_self _ _
        · rcases List.mem_cons.mp h1 with h2 | h2
          · exact List.mem_cons_of_mem _ (h2 ▸ List.mem_cons_self _ _)
          · exact List.mem_cons_of_mem _ (List.mem_cons_of_mem _ (List.mem_of_mem_take h2))
      constructor
      · intro o ho
        rw [← hrun] at ho
        by_cases hd : order < 0
        · simp only [hd, decide_True, if_true] at ho
          exact hsub o (List.mem_reverse.mp ho)
        · simp only [hd, decide_False, Bool.false_eq_true, if_false] at ho
          exact hsub o ho
      · intro o ho
        rw [← hothers] at ho
        exact List.mem_of_mem_drop ho

/-- The sort returns values of the list it sorts. -/
theorem sortBy_mem (cmp : JSValue → JSValue → Except Str Int) :
    ∀ (l out : List JSValue), sortBy cmp l = .ok out → ∀ o ∈ out, o ∈ l
  | [], out, h, o, ho => by
    simp only [sortBy, Except.ok.injEq] at h
    rw [← h] at ho
    exact ho
  | [x], out, h, o, ho => by
    simp only [sortBy, Except.ok.injEq] at h
    rw [← h] at ho
    exact ho
  | first :: second :: rest, out, h, o, ho => by
    simp only [sortBy] at h
    cases hc : countAndMakeRun cmp first second rest with
    | error e => simp [hc] at h
    | ok pair =>
      obtain ⟨run, others⟩ := pair
      simp only [hc] at h
      obtain ⟨hrun, hothers⟩ := countAndMakeRun_mem cmp first second rest run others hc
      rcases binaryInsertionSort_mem cmp others run out h o ho with h1 | h1
      · exact hrun o h1
      · exact List.mem_cons_of_mem _ (List.mem_cons_of_mem _ (hothers o h1))

/-- The sorted options of a variable are option objects. -/
theorem sorted_options (P : Platform) (sheet : List (List JSValue)) (name : JSValue)
    (sorted : List JSValue)
    (h : sortBy (compareOptions P) (activeOptions sheet name) = .ok sorted) :
    ∀ o ∈ sorted, o.isNullish = false ∧ o.truthy = true := by
  intro o ho
  have h1 := sortBy_mem _ _ _ h o ho
  simp only [activeOptions, List.mem_map] at h1
  obtain ⟨row, _, hrow⟩ := h1
  rw [← hrow]
  exact ⟨rfl, rfl⟩

/-- The call `find` on option objects: the first that matches, or
`undefined`. -/
theorem findOption_objects (P : Platform) (text : Str) : ∀ l : List JSValue,
    (∀ o ∈ l, o.isNullish = false) →
    findOption P text l = some ((l.find? (optionMatches P text)).getD .undefined)
  | [], _ => rfl
  | o :: r, h => by
    have ih := findOption_objects P text r (fun x hx => h x (List.mem_cons_of_mem _ hx))
    have ho := h o (List.mem_cons_self _ _)
    have hm : (P.toUpperCase (field o "value".toList).toStr == P.toUpperCase text) =
        optionMatches P text o := rfl
    simp only [findOption, ho, Bool.false_eq_true, if_false, hm, List.find?_cons]
    cases optionMatches P text o with
    | true => rfl
    | false => simpa using ih

end

section

open TemplateEngine DatabaseService

/-- The body of the conversion loop for a variable that the bag has. -/
theorem convertOne_present (P : Platform) (w : World) (b : Bag) (n : JSValue)
    (h : getProp b n.toStr ≠ .undefined) :
    convertOne P w b n =
      match getOptionsByVariable P w n with
      | (.error _, w1) => (b, w1)
      | (.ok (.arr (o :: os)), w1) =>
        (match findOption P (selectText (getProp b n.toStr)) (o :: os) with
        | none => (b, w1)
        | some m => if m.truthy then (setProp b n.toStr (field m "label".toList), w1) else (b, w1))
      | (.ok _, w1) => (b, w1) := by
  unfold convertOne
  cases hcur : getProp b n.toStr with
  | undefined => exact absurd hcur h
  | null => rfl
  | bool x => rfl
  | num x => rfl
  | str x => rfl
  | arr x => rfl
  | obj x => rfl
  | native x => rfl

/-- The body of the conversion loop for a variable that the bag lacks. -/
theorem convertOne_absent (P : Platform) (w : World) (b : Bag) (n : JSValue)
    (h : getProp b n.toStr = .undefined) : convertOne P w b n = (b, w) := by
  unfold convertOne
  rw [h]
  rfl

/-- The body of the conversion loop when the cache holds the Options sheet and
nothing for the variable: the value of the variable becomes `convertedValue`,
and the cache changes under the key of the variable at most. -/
theorem convertOne_warm (P : Platform) (w : World) (sheet : List (List JSValue)) (b : Bag)
    (s : Str) (ttl : Nat) (hs : s ≠ [])
    (h : getProperty w (CacheService.keyPrefix ++ "sheet_data_options".toList) =
      some (.json (.obj [("value".toList, .arr (sheet.map .arr)),
        ("expiry".toList, if (ttl : Int) ≠ 0 then .num (.ofInt (w.now + (ttl : Int) * 60 * 1000))
          else .null),
        ("created".toList, .num (.ofInt w.now))])))
    (hmiss : getProperty w
      (CacheService.keyPrefix ++ ("options_by_variable_".toList ++ s)) = none) :
    getProp (convertOne P w b (.str s)).1 s = convertedValue P sheet s (getProp b s) ∧
    ((convertOne P w b (.str s)).2 = w ∨
      ∃ v, (convertOne P w b (.str s)).2 =
        CacheService.set w ("options_by_variable_".toList ++ s) v 30) := by
  have hstr : (JSValue.str s).toStr = s := rfl
  have htruthy : (JSValue.str s).truthy = true := by
    cases s with
    | nil => exact absurd rfl hs
    | cons c t => rfl
  by_cases hcur : getProp b s = .undefined
  · rw [convertOne_absent P w b (.str s) hcur, hcur]
    exact ⟨rfl, Or.inl rfl⟩
  · have hconv : convertedValue P sheet s (getProp b s) =
        match sortBy (compareOptions P) (activeOptions sheet (.str s)) with
        | .error _ => getProp b s
        | .ok sorted =>
          match sorted.find? (optionMatches P (selectText (getProp b s))) with
          | some o => field o "label".toList
          | none => getProp b s := by
      unfold convertedValue
      cases hc : getProp b s with
      | undefined => exact absurd hc hcur
      | null => rfl
      | bool x => rfl
      | num x => rfl
      | str x => rfl
      | arr x => rfl
      | obj x => rfl
      | native x => rfl
    rw [convertOne_present P w b (.str s) hcur, hconv,
      getOptionsByVariable_warm P w sheet (.str s) ttl htruthy h hmiss]
    simp only [hstr]
    cases hsort : sortBy (compareOptions P) (activeOptions sheet (.str s)) with
    | error e => exact ⟨rfl, Or.inl rfl⟩
    | ok sorted =>
      have hobj := sorted_options P sheet (.str s) sorted hsort
      cases sorted with
      | nil => exact ⟨rfl, Or.inr ⟨_, rfl⟩⟩
      | cons o os =>
        simp only [findOption_objects P _ (o :: os) (fun x hx => (hobj x hx).1)]
        cases hfind : (o :: os).find? (optionMatches P (selectText (getProp b s))) with
        | none => exact ⟨rfl, Or.inr ⟨_, rfl⟩⟩
        | some m =>
          have hm := (hobj m (List.mem_of_find?_eq_some hfind)).2
          simp only [Option.getD_some, hm, if_true]
          exact ⟨getProp_setProp_same b s _, Or.inr ⟨_, rfl⟩⟩

end

section

open TemplateEngine DatabaseService

/-! ## The conversion loop -/

/-- The conversion loop when the cache holds the Options sheet and nothing for
the variables of the loop, which are distinct names: each of them gets its
`convertedValue`. -/
theorem convertAll_warm (P : Platform) (sheet : List (List JSValue)) (ttl : Nat) :
    ∀ (names : List JSValue) (w : World) (b : Bag),
    (∀ n ∈ names, ∃ s, n = .str s ∧ s ≠ []) → names.Nodup →
    getProperty w (CacheService.keyPrefix ++ "sheet_data_options".toList) =
      some (.json (.obj [("value".toList, .arr (sheet.map .arr)),
        ("expiry".toList, if (ttl : Int) ≠ 0 then .num (.ofInt (w.now + (ttl : Int) * 60 * 1000))
          else .null),
        ("created".toList, .num (.ofInt w.now))])) →
    (∀ s, JSValue.str s ∈ names → getProperty w
      (CacheService.keyPrefix ++ ("options_by_variable_".toList ++ s)) = none) →
    ∀ s, JSValue.str s ∈ names →
      getProp (convertAll P names w b).1 s = convertedValue P sheet s (getProp b s)
  | [], _, _, _, _, _, _, s, hs => by cases hs
  | n :: rest, w, b, hstr, hnodup, hentry, hmiss, s, hs => by
    obtain ⟨s0, hn, hs0⟩ := hstr n (List.mem_cons_self _ _)
    subst hn
    have hnd := List.nodup_cons.mp hnodup
    obtain ⟨hval, hworld⟩ := convertOne_warm P w sheet b s0 ttl hs0 hentry
      (hmiss s0 (List.mem_cons_self _ _))
    have hrest : ∀ t, JSValue.str t ∈ rest → t ≠ s0 := by
      intro t ht h0
      exact hnd.1 (h0 ▸ ht)
    have hkeep : ∀ k, k ≠ CacheService.keyPrefix ++ ("options_by_variable_".toList ++ s0) →
        getProperty (convertOne P w b (.str s0)).2 k = getProperty w k := by
      intro k hk
      rcases hworld with h1 | ⟨v, h1⟩
      · rw [h1]
      · rw [h1]
        exact getProperty_set_other w _ k _ _ hk
    have hnow : (convertOne P w b (.str s0)).2.now = w.now := by
      rcases hworld with h1 | ⟨v, h1⟩
      · rw [h1]
      · rw [h1]
        rfl
    simp only [convertAll]
    by_cases hss : s = s0
    · subst hss
      rw [convertAll_frame P s rest _ _ (by
        intro m hm
        obtain ⟨t, hmt, _⟩ := hstr m (List.mem_cons_of_mem _ hm)
        subst hmt
        exact hrest t hm)]
      exact hval
    · have hmem : JSValue.str s ∈ rest := by
        rcases List.mem_cons.mp hs with h1 | h1
        · exact absurd (JSValue.str.inj h1) hss
        · exact h1
      rw [convertAll_warm P sheet ttl rest _ _
        (fun m hm => hstr m (List.mem_cons_of_mem _ hm)) hnd.2
        (by rw [hkeep _ (optionKey_ne_sheetKey s0), hnow]; exact hentry)
        (fun t ht => by
          rw [hkeep _ (optionKey_ne s0 t (fun h => hrest t ht h.symm))]
          exact hmiss t (List.mem_cons_of_mem _ ht)) s hmem]
      rw [convertOne_frame P w b (.str s0) s (fun h => hss h.symm)]

theorem strictEq_str (v : JSValue) (s : Str) (h : v.strictEq (.str s) = true) : v = .str s := by
  cases v with
  | str a =>
    have ha : (a == s) = true := h
    rw [eq_of_beq ha]
  | undefined => cases h
  | null => cases h
  | bool x => cases h
  | num x => cases h
  | arr x => cases h
  | obj x => cases h
  | native x => cases h

theorem any_strictEq_str (s : Str) : ∀ acc : List JSValue,
    acc.any (fun n => n.strictEq (.str s)) = true ↔ JSValue.str s ∈ acc := by
  intro acc
  rw [List.any_eq_true]
  constructor
  · rintro ⟨x, hx, hxs⟩
    rw [← strictEq_str x s hxs]
    exact hx
  · intro h
    refine ⟨_, h, ?_⟩
    show (s == s) = true
    exact beq_self_eq_true s

/-- The detection loop over rows of a sheet whose first cells are strings: it
does not fail, and finds distinct names, not empty, among them the name of
every active row with a name. -/
theorem selectVariableNames_rows (P : Platform) : ∀ (rs : List (List JSValue)) (acc : List JSValue),
    (∀ row ∈ rs, ∃ s, row.getD 0 .undefined = .str s) →
    (∀ n ∈ acc, ∃ s, n = .str s ∧ s ≠ []) → acc.Nodup →
    ∃ names, selectVariableNames P (rs.map .arr) acc = .ok names ∧
      (∀ n ∈ names, ∃ s, n = .str s ∧ s ≠ []) ∧ names.Nodup ∧
      (∀ n ∈ acc, n ∈ names) ∧
      (∀ row ∈ rs, (row.getD 0 .undefined).truthy = true →
        (row.getD 4 .undefined).strictEq (.bool true) = true → row.getD 0 .undefined ∈ names)
  | [], acc, _, hacc, hnd => by
    refine ⟨acc.reverse, rfl, ?_, List.nodup_reverse.mpr hnd, ?_, ?_⟩
    · intro n hn
      exact hacc n (List.mem_reverse.mp hn)
    · intro n hn
      exact List.mem_reverse.mpr hn
    · intro row hrow
      cases hrow
  | r :: rs, acc, hrows, hacc, hnd => by
    obtain ⟨s, hs⟩ := hrows r (List.mem_cons_self _ _)
    have hc0 : cell (.arr r) 0 = .str s := hs
    have hc4 : cell (.arr r) 4 = r.getD 4 .undefined := rfl
    simp only [List.map_cons, selectVariableNames, JSValue.isNullish, Bool.false_eq_true, if_false,
      hc0, hc4]
    by_cases hcond : ((JSValue.str s).truthy && (r.getD 4 .undefined).strictEq (.bool true)
        && !acc.any (fun n => n.strictEq (.str s))) = true
    · rw [if_pos hcond]
      simp only [Bool.and_eq_true, Bool.not_eq_true', ← Bool.not_eq_true] at hcond
      obtain ⟨⟨ht, _⟩, hnot⟩ := hcond
      have hnotmem : JSValue.str s ∉ acc := fun h => hnot ((any_strictEq_str s acc).mpr h)
      have hsne : s ≠ [] := by
        intro h0
        rw [h0] at ht
        cases ht
      obtain ⟨names, hnames, h1, h2, h3, h4⟩ := selectVariableNames_rows P rs (.str s :: acc)
        (fun row hrow => hrows row (List.mem_cons_of_mem _ hrow))
        (by
          intro n hn
          rcases List.mem_cons.mp hn with h | h
          · exact ⟨s, h, hsne⟩
          · exact hacc n h)
        (List.nodup_cons.mpr ⟨hnotmem, hnd⟩)
      refine ⟨names, hnames, h1, h2, fun n hn => h3 n (List.mem_cons_of_mem _ hn), ?_⟩
      intro row hrow htr hact
      rcases List.mem_cons.mp hrow with h | h
      · rw [h, hs]
        exact h3 _ (List.mem_cons_self _ _)
      · exact h4 row h htr hact
    · rw [if_neg hcond]
      obtain ⟨names, hnames, h1, h2, h3, h4⟩ := selectVariableNames_rows P rs acc
        (fun row hrow => hrows row (List.mem_cons_of_mem _ hrow)) hacc hnd
      refine ⟨names, hnames, h1, h2, h3, ?_⟩
      intro row hrow htr hact
      rcases List.mem_cons.mp hrow with h | h
      · rw [h, hs] at htr
        rw [h] at hact
        rw [h, hs]
        have hany : acc.any (fun n => n.strictEq (.str s)) = true := by
          cases hany : acc.any (fun n => n.strictEq (.str s)) with
          | true => rfl
          | false =>
            rw [htr, hact, hany] at hcond
            exact absurd rfl hcond
        exact h3 _ ((any_strictEq_str s acc).mp hany)
      · exact h4 row h htr hact

/-- A variable without an active option keeps its value. -/
theorem convertedValue_none (P : Platform) (sheet : List (List JSValue)) (s : Str)
    (current : JSValue) (h : activeOptions sheet (.str s) = []) :
    convertedValue P sheet s current = current := by
  unfold convertedValue
  rw [h]
  cases current <;> rfl

end

section

open TemplateEngine DatabaseService

/-! ## The conversion of select options -/

/-- The method `getSheetData` on an Options sheet with rows when the cache
holds nothing: the rows, which it writes to the cache. -/
theorem getSheetData_cold_options (w : World) (hcold : w.props = [])
    (hrows : w.optionsSheet ≠ []) :
    getSheetData w "options".toList =
      (.ok (.arr (w.optionsSheet.map .arr)),
        CacheService.set w "sheet_data_options".toList (.arr (w.optionsSheet.map .arr)) 10) := by
  have hnone : getProperty w (CacheService.keyPrefix ++ ("sheet_data_".toList ++ "options".toList))
      = none := by
    simp [getProperty, hcold]
  have hs : sheetValues w "options".toList = some w.optionsSheet := rfl
  have hnull : JSValue.null.truthy = false := rfl
  simp only [getSheetData, get_of_none w _ hnone, hnull, Bool.false_eq_true, if_false, hs]
  cases hsheet : w.optionsSheet with
  | nil => exact absurd hsheet hrows
  | cons r rs => rfl

/-- With nothing in the cache and first cells that are strings, on an
Options sheet of serialisable cells, the conversion gives the variable `name`
its `convertedValue`. -/
theorem convertSelectOptionsToText_value (P : Platform) (w : World) (vars : Bag)
    (hcold : w.props = [])
    (hjson : ∀ row ∈ w.optionsSheet, areJsonValues row = true)
    (hnames : ∀ row ∈ w.optionsSheet.drop 1, ∃ s, row.getD 0 .undefined = .str s)
    (name : Str) :
    getProp (convertSelectOptionsToText P w vars).1 name =
      if name = [] then getProp vars name
      else convertedValue P w.optionsSheet name (getProp vars name) := by
  have hnone : ∀ k, getProperty w k = none := by
    intro k
    simp [getProperty, hcold]
  by_cases hrows : w.optionsSheet = []
  · have hdata : getSheetData w "options".toList = (.ok (.arr []), w) := by
      have hs : sheetValues w "options".toList = some w.optionsSheet := rfl
      have hnull : JSValue.null.truthy = false := rfl
      simp only [getSheetData, get_of_none w _ (hnone _), hnull, Bool.false_eq_true, if_false, hs,
        hrows]
      rfl
    have hres : convertSelectOptionsToText P w vars = (vars, w) := by
      simp only [convertSelectOptionsToText, hdata]
      rfl
    rw [hres]
    split
    · rfl
    · rw [convertedValue_none P _ name _ (by rw [hrows]; rfl)]
  · have hdata := getSheetData_cold_options w hcold hrows
    obtain ⟨names, hsel, hstr, hnodup, _, hall⟩ :=
      selectVariableNames_rows P (w.optionsSheet.drop 1) [] hnames
        (fun n hn => by cases hn) List.nodup_nil
    have hres : convertSelectOptionsToText P w vars =
        convertAll P names
          (CacheService.set w "sheet_data_options".toList (.arr (w.optionsSheet.map .arr)) 10)
          vars := by
      simp only [convertSelectOptionsToText, hdata, elements, ← List.map_drop, hsel]
    rw [hres]
    have hentry := entry_of_set w "sheet_data_options".toList (.arr (w.optionsSheet.map .arr)) 10
      (areJsonValues_rows _ hjson)
    by_cases hmem : JSValue.str name ∈ names
    · obtain ⟨t, ht, hne⟩ := hstr _ hmem
      have hname : name ≠ [] := by
        rw [JSValue.str.inj ht]
        exact hne
      rw [if_neg hname]
      exact convertAll_warm P w.optionsSheet 10 names _ vars hstr hnodup hentry
        (fun t _ => by
          rw [getProperty_set_other w _ _ _ _ (fun h => optionKey_ne_sheetKey t h.symm)]
          exact hnone _) name hmem
    · rw [convertAll_frame P name names _ vars (by
        intro n hn h
        obtain ⟨t, ht, _⟩ := hstr n hn
        subst ht
        have h2 : t = name := h
        exact hmem (h2 ▸ hn))]
      split
      · rfl
      · rename_i hname
        rw [convertedValue_none]
        simp only [activeOptions, List.map_eq_nil_iff, List.filter_eq_nil_iff]
        intro row hrow hact
        simp only [activeOptionRow, Bool.and_eq_true] at hact
        have h0 := strictEq_str _ _ hact.1
        have htr : (row.getD 0 .undefined).truthy = true := by
          rw [h0]
          cases name with
          | nil => exact absurd rfl hname
          | cons c t => rfl
        exact hmem (h0 ▸ hall row hrow htr hact.2)

/-- With nothing in the cache, on an Options sheet of serialisable cells whose
first cells are strings, `convertSelectOptionsToText` gives every variable `name` (not the empty name) the value `convertedValue`:
nothing if the bag lacks the variable; else the label of the first option that
matches the string form of the value (booleans as `TRUE` and `FALSE`), ignoring
case, among the active options of the variable sorted by sort order, then
label, where a sort order that is empty or 0 counts as 999; and the value
itself when no option matches or the sort throws. Options that are not active
are not among them, and an entry under the empty name or under a name without
an active option is returned as it was. -/
theorem convertSelectOptionsToText_spec (P : Platform) (w : World) (vars : Bag)
    (hcold : w.props = [])
    (hjson : ∀ row ∈ w.optionsSheet, areJsonValues row = true)
    (hnames : ∀ row ∈ w.optionsSheet.drop 1, ∃ s, row.getD 0 .undefined = .str s) :
    (∀ name : Str, name ≠ [] →
      getProp (convertSelectOptionsToText P w vars).1 name =
        convertedValue P w.optionsSheet name (getProp vars name)) ∧
    (∀ k : Str, k = [] ∨ activeOptions w.optionsSheet (.str k) = [] →
      getProp (convertSelectOptionsToText P w vars).1 k = getProp vars k) := by
  constructor
  · intro name hname
    rw [convertSelectOptionsToText_value P w vars hcold hjson hnames name, if_neg hname]
  · intro k hk
    rw [convertSelectOptionsToText_value P w vars hcold hjson hnames k]
    split
    · rfl
    · rename_i hne
      rcases hk with h | h
      · exact absurd h hne
      · exact convertedValue_none P _ k _ h

/-- The first cells of the rows of `optionsWorld` are strings. -/
theorem optionsWorld_names :
    ∀ row ∈ optionsWorld.optionsSheet.drop 1, ∃ s, row.getD 0 .undefined = .str s := by
  intro row hrow
  simp only [optionsWorld, List.drop, List.mem_cons, List.mem_nil_iff, or_false] at hrow
  rcases hrow with h | h | h | h <;> exact ⟨_, by rw [h]; rfl⟩

/-- In `optionsWorld` the value `B` of the variable `tone` becomes the label
`Bee`, the value `c`, which only an option that is not active has, stays, and
so does the entry `other`. -/
theorem convertSelectOptionsToText_spec_witness :
    getProp (convertSelectOptionsToText sampleHost optionsWorld
      [("tone".toList, .str "B".toList), ("other".toList, .str "b".toList)]).1 "tone".toList =
        .str "Bee".toList ∧
    getProp (convertSelectOptionsToText sampleHost optionsWorld
      [("tone".toList, .str "c".toList)]).1 "tone".toList = .str "c".toList ∧
    getProp (convertSelectOptionsToText sampleHost optionsWorld
      [("tone".toList, .str "B".toList), ("other".toList, .str "b".toList)]).1 "other".toList =
        .str "b".toList :=
  ⟨((convertSelectOptionsToText_spec sampleHost optionsWorld
      [("tone".toList, .str "B".toList), ("other".toList, .str "b".toList)] rfl (by decide)
      optionsWorld_names).1 "tone".toList (by decide)).trans rfl,
    ((convertSelectOptionsToText_spec sampleHost optionsWorld
      [("tone".toList, .str "c".toList)] rfl (by decide)
      optionsWorld_names).1 "tone".toList (by decide)).trans rfl,
    (convertSelectOptionsToText_spec sampleHost optionsWorld
      [("tone".toList, .str "B".toList), ("other".toList, .str "b".toList)] rfl (by decide)
      optionsWorld_names).2 "other".toList (Or.inr rfl)⟩

/-- C22 fails for an option with the sort order 0: in `optionsWorld` the
active options `a` (label `Zero`, sort order 0) and `A` (label `Five`, sort
order 5) of the variable `tone` both match the value `a`; the first of them in
(sortOrder, label) order is `Zero`, and `convertSelectOptionsToText` returns
`Five`, because `getOptionsByVariable` reads the sort order as `row[3] || 999`
and so sorts the option `Zero` as 999. -/
theorem convertSelectOptionsToText_zero_sort_order :
    getProp (convertSelectOptionsToText sampleHost optionsWorld
      [("tone".toList, .str "a".toList)]).1 "tone".toList = .str "Five".toList ∧
    labelByStoredOrder sampleHost optionsWorld.optionsSheet "tone".toList (.str "a".toList) =
      .str "Zero".toList :=
  ⟨rfl, rfl⟩

end

section

open TemplateEngine Re

/-! ## Pass 1 on a text with one token -/

theorem tokenRe_seq (key : Str) :
    tokenRe key = seq (Re.char '{') (seq (Re.char '{') (seq (Re.star (.chr isWhiteSpace))
      (seqs (key.map Re.char ++ [Re.star (.chr isWhiteSpace), Re.char '}', Re.char '}'])))) := by
  cases key <;> rfl

theorem token_append (name post : Str) :
    token name ++ post = '{' :: '{' :: (name ++ '}' :: '}' :: post) := by
  simp [token]

theorem name_seq (a : Char) (as : Str) :
    seqs ((a :: as).map Re.char ++ [Re.star (.chr isWhiteSpace), Re.char '}', Re.char '}']) =
      seq (Re.char a) (seqs (as.map Re.char ++
        [Re.star (.chr isWhiteSpace), Re.char '}', Re.char '}'])) := by
  cases as <;> rfl

/-- The characters of a key, then the closing part of a token pattern, match
the key followed by the closing braces. -/
theorem matchRe_name_self :
    ∀ (key : Str), (∀ ch ∈ key, isWordChar ch = true) → ∀ (l post : Str) (c : Caps) (k : Cont),
      matchRe (seqs (key.map Re.char ++
        [Re.star (.chr isWhiteSpace), Re.char '}', Re.char '}'])) ⟨l, key ++ '}' :: '}' :: post⟩ c k =
        k ⟨'}' :: '}' :: (key.reverse ++ l), post⟩ c := by
  intro key
  induction key with
  | nil =>
    intro _ l post c k
    show matchRe (seq (Re.star (.chr isWhiteSpace)) (seq (Re.char '}') (Re.char '}')))
      ⟨l, '}' :: '}' :: post⟩ c k = _
    rw [matchRe_seq, Re.star, matchRe_class_zero _ _ _ _ _ _
      (by intro ch t h; simp only [List.cons.injEq] at h; rw [← h.1]; decide)]
    rw [matchRe_seq, matchRe_char_cons, if_pos rfl, matchRe_char_cons, if_pos rfl]
    rfl
  | cons a as ih =>
    intro hk l post c k
    have has : ∀ ch ∈ as, isWordChar ch = true := fun ch hch => hk ch (by simp [hch])
    rw [name_seq, matchRe_seq]
    show matchRe (Re.char a) ⟨l, a :: (as ++ '}' :: '}' :: post)⟩ c _ = _
    rw [matchRe_char_cons, if_pos rfl, ih has (a :: l) post c k]
    simp

/-- The pattern of a key matches the token of the key as a whole. -/
theorem matchAt_token_self (key : Str) (hk : ∀ ch ∈ key, isWordChar ch = true) (l post : Str) :
    ∃ y, matchAt (tokenRe key) ⟨l, token key ++ post⟩ = some (y, []) ∧ y.rest = post := by
  have hws : ∀ ch t, key ++ '}' :: '}' :: post = ch :: t → isWhiteSpace ch = false := by
    intro ch t h
    cases key with
    | nil =>
      simp only [List.nil_append, List.cons.injEq] at h
      rw [← h.1]; decide
    | cons n ns =>
      simp only [List.cons_append, List.cons.injEq] at h
      rw [← h.1]
      exact not_ws_of_word n (hk n (by simp))
  rw [matchAt, tokenRe_seq, token_append, matchRe_seq, matchRe_char_cons, if_pos rfl, matchRe_seq,
    matchRe_char_cons, if_pos rfl, matchRe_seq, Re.star, matchRe_class_zero _ _ _ _ _ _ hws]
  exact ⟨_, matchRe_name_self key hk ('{' :: '{' :: l) post [] (fun y cy => some (y, cy)), rfl⟩

/-- The characters of a key, then the closing part of a token pattern, do not
match another name followed by the closing braces and more text. -/
theorem matchRe_name_other_post :
    ∀ (key name : Str), (∀ ch ∈ key, isWordChar ch = true) →
      (∀ ch ∈ name, isWordChar ch = true) → key ≠ name → ∀ (l post : Str) (c : Caps) (k : Cont),
      matchRe (seqs (key.map Re.char ++
        [Re.star (.chr isWhiteSpace), Re.char '}', Re.char '}']))
        ⟨l, name ++ '}' :: '}' :: post⟩ c k = none := by
  intro key
  induction key with
  | nil =>
    intro name _ hn hne l post c k
    cases name with
    | nil => exact absurd rfl hne
    | cons n ns =>
      have hnw : isWordChar n = true := hn n (by simp)
      have hws : isWhiteSpace n = false := not_ws_of_word n hnw
      have hb : n ≠ '}' := ne_of_word n '}' hnw (by decide)
      show matchRe (seq (Re.star (.chr isWhiteSpace)) (seq (Re.char '}') (Re.char '}')))
        ⟨l, n :: (ns ++ '}' :: '}' :: post)⟩ c k = none
      rw [matchRe_seq, Re.star, matchRe_class_zero _ _ _ _ _ _
        (by intro ch t h; simp only [List.cons.injEq] at h; rw [← h.1]; exact hws)]
      rw [matchRe_seq, matchRe_char_cons, if_neg hb]
  | cons a as ih =>
    intro name hk hn hne l post c k
    have haw : isWordChar a = true := hk a (by simp)
    have has : ∀ ch ∈ as, isWordChar ch = true := fun ch hch => hk ch (by simp [hch])
    rw [name_seq, matchRe_seq]
    cases name with
    | nil =>
      have hb : '}' ≠ a := (ne_of_word a '}' haw (by decide)).symm
      show matchRe (Re.char a) ⟨l, '}' :: '}' :: post⟩ c _ = none
      rw [matchRe_char_cons, if_neg hb]
    | cons n ns =>
      show matchRe (Re.char a) ⟨l, n :: (ns ++ '}' :: '}' :: post)⟩ c _ = none
      rw [matchRe_char_cons]
      by_cases hna : n = a
      · subst hna
        have hne2 : as ≠ ns := fun h => hne (by rw [h])
        rw [if_pos rfl]
        exact ih ns has (fun ch hch => hn ch (by simp [hch])) hne2 _ post c k
      · rw [if_neg hna]

/-- The pattern of a key does not match the token of another name, whatever
follows the token. -/
theorem matchAt_token_other_post (key name : Str) (hk : ∀ ch ∈ key, isWordChar ch = true)
    (hn : ∀ ch ∈ name, isWordChar ch = true) (hne : key ≠ name) (l post : Str) :
    matchAt (tokenRe key) ⟨l, token name ++ post⟩ = none := by
  have hws : ∀ ch t, name ++ '}' :: '}' :: post = ch :: t → isWhiteSpace ch = false := by
    intro ch t h
    cases name with
    | nil =>
      simp only [List.nil_append, List.cons.injEq] at h
      rw [← h.1]; decide
    | cons n ns =>
      simp only [List.cons_append, List.cons.injEq] at h
      rw [← h.1]
      exact not_ws_of_word n (hn n (by simp))
  rw [matchAt, tokenRe_seq, token_append, matchRe_seq, matchRe_char_cons, if_pos rfl, matchRe_seq,
    matchRe_char_cons, if_pos rfl, matchRe_seq, Re.star, matchRe_class_zero _ _ _ _ _ _ hws]
  exact matchRe_name_other_post key name hk hn hne _ _ _ _

/-- The pattern of a key matches nowhere in a text that holds, between texts
without an opening brace, the token of another name. -/
theorem token_no_match (key name pre post : Str) (hk : ∀ ch ∈ key, isWordChar ch = true)
    (hn : ∀ ch ∈ name, isWordChar ch = true) (hne : key ≠ name)
    (hpre : ∀ ch ∈ pre, ch ≠ '{') (hpost : ∀ ch ∈ post, ch ≠ '{') (l s : Str)
    (hs : s <:+ pre ++ (token name ++ post)) : matchAt (tokenRe key) ⟨l, s⟩ = none := by
  have hbody : ∀ ch ∈ name ++ '}' :: '}' :: post, ch ≠ '{' := by
    intro ch h
    simp only [List.mem_append, List.mem_cons] at h
    rcases h with h | h | h | h
    · exact ne_of_word ch '{' (hn ch h) (by decide)
    · rw [h]; decide
    · rw [h]; decide
    · exact hpost ch h
  rcases suffix_append_cases pre _ s hs with h1 | ⟨a2, hne2, hsuf, he⟩
  · rw [token_append] at h1
    rcases List.suffix_cons_iff.mp h1 with h2 | h2
    · rw [h2, ← token_append]
      exact matchAt_token_other_post key name hk hn hne l post
    · rcases List.suffix_cons_iff.mp h2 with h3 | h3
      · apply matchAt_token_braces
        rw [h3]
        rintro ⟨u, hu⟩
        have hu2 : '{' :: '{' :: u = '{' :: (name ++ '}' :: '}' :: post) := hu
        simp only [List.cons.injEq, true_and] at hu2
        have hmem : '{' ∈ name ++ '}' :: '}' :: post := by rw [← hu2]; simp
        exact hbody '{' hmem rfl
      · exact no_match_plain _ '{' _ (opensWith_token key) hbody l s h3
  · apply opensWith_token key
    intro t ht
    cases a2 with
    | nil => exact hne2 rfl
    | cons d u =>
      rw [he] at ht
      simp only [List.cons_append, List.cons.injEq] at ht
      exact hpre d (hsuf.subset (List.mem_cons_self _ _)) ht.1

/-- One round of pass 1 leaves a text as it is when the pattern of the key
matches nowhere in it. -/
theorem replaceVariable_inert (P : Platform) (text key : Str) (value : JSValue)
    (hk : ∀ ch ∈ key, isWordChar ch = true)
    (h : ∀ l s, s <:+ text → matchAt (tokenRe key) ⟨l, s⟩ = none) :
    replaceVariable P text key value = .ok text := by
  simp only [replaceVariable, compileRegExp_token key hk, replaceAllStr]
  rw [replaceAll_no_match _ _ _ h]

/-- Pass 1 leaves a text as it is when the pattern of no key of the bag matches
in it. -/
theorem replaceBasicVariables_inert (P : Platform) (text : Str) :
    ∀ (vars : Bag), (∀ key ∈ bagKeys vars, (∀ ch ∈ key, isWordChar ch = true) ∧
        ∀ l s, s <:+ text → matchAt (tokenRe key) ⟨l, s⟩ = none) →
      replaceBasicVariables P text vars = .ok text := by
  intro vars
  induction vars with
  | nil => intro _; rfl
  | cons e rest ih =>
    obtain ⟨key, value⟩ := e
    intro h
    have hcons : bagKeys ((key, value) :: rest) = key :: bagKeys rest := rfl
    rw [hcons] at h
    obtain ⟨hkey, hno⟩ := h key (List.mem_cons_self _ _)
    simp only [replaceBasicVariables, replaceVariable_inert P text key value hkey hno]
    exact ih (fun k hkm => h k (List.mem_cons_of_mem _ hkm))

/-- Pass 1 over a bag in two parts: the second part works on the text the
first part leaves. -/
theorem replaceBasicVariables_append (P : Platform) :
    ∀ (x y : Bag) (content : Str),
      replaceBasicVariables P content (x ++ y) =
        match replaceBasicVariables P content x with
        | .ok processed => replaceBasicVariables P processed y
        | .error e => .error e := by
  intro x
  induction x with
  | nil => intro y content; rfl
  | cons e rest ih =>
    obtain ⟨k, v⟩ := e
    intro y content
    simp only [List.cons_append, replaceBasicVariables]
    cases replaceVariable P content k v with
    | error e => rfl
    | ok processed => exact ih y processed

/-- One round of pass 1 on a text that holds the token of the key once, between
texts without an opening brace: the token is replaced by the value. -/
theorem replaceVariable_token (P : Platform) (key pre post value : Str)
    (hk : ∀ ch ∈ key, isWordChar ch = true) (hpre : ∀ ch ∈ pre, ch ≠ '{')
    (hpost : ∀ ch ∈ post, ch ≠ '{') (hv : ∀ ch ∈ value, ch ≠ '$') :
    replaceVariable P (pre ++ (token key ++ post)) key (.str value) =
      .ok (pre ++ (value ++ post)) := by
  have hne : token key ≠ [] := by simp [token]
  have hrep : (if (JSValue.str value).isNullish then [] else (JSValue.str value).toStr) = value :=
    rfl
  simp only [replaceVariable, compileRegExp_token key hk, replaceAllStr, hrep]
  rw [replaceAll_one (tokenRe key) '{' _ pre (token key) post [] (opensWith_token key) hpre hpost
    (fun l => matchAt_token_self key hk l post) hne]
  simp only [expandReplacement_plain 0 _ value hv]

end

section

open TemplateEngine Re

/-- C1, as the code has it: pass 1 goes through the bag once, in bag order, and
each entry is replaced in the text that the entries before it have left: for
every template and every bag in two parts, the second part works on the output
of the first. So a token inside a substituted value is expanded when its key
comes later in the bag and stays literal when its key comes earlier. For every
two names `a` and
`b` of word characters, texts `p`, `q`, `u`, `v` and `X` without an opening
brace (`u`, `v` and `X` without a dollar sign), and further entries anywhere in
the bag under names other than `a` and `b`: the template `p{{a}}q` renders as
`p u X v q` when the entry `a: u{{b}}v` stands before the entry `b: X`, and as
`p u{{b}}v q` when it stands after it. -/
theorem replaceBasicVariables_single_pass (P : Platform) (a b p q u v X : Str)
    (bag1 bag2 bag3 : Bag)
    (ha : ∀ ch ∈ a, isWordChar ch = true) (hb : ∀ ch ∈ b, isWordChar ch = true) (hab : a ≠ b)
    (hp : ∀ ch ∈ p, ch ≠ '{') (hq : ∀ ch ∈ q, ch ≠ '{')
    (hu : ∀ ch ∈ u, ch ≠ '{' ∧ ch ≠ '$') (hv : ∀ ch ∈ v, ch ≠ '{' ∧ ch ≠ '$')
    (hX : ∀ ch ∈ X, ch ≠ '{' ∧ ch ≠ '$')
    (hothers : ∀ key ∈ bagKeys (bag1 ++ bag2 ++ bag3),
      (∀ ch ∈ key, isWordChar ch = true) ∧ key ≠ a ∧ key ≠ b) :
    (∀ (content : Str) (x y : Bag),
      replaceBasicVariables P content (x ++ y) =
        match replaceBasicVariables P content x with
        | .ok processed => replaceBasicVariables P processed y
        | .error e => .error e)
    ∧ replaceBasicVariables P (p ++ (token a ++ q))
        (bag1 ++ (a, .str (u ++ (token b ++ v))) :: (bag2 ++ (b, .str X) :: bag3)) =
      .ok (p ++ (u ++ (X ++ (v ++ q))))
    ∧ replaceBasicVariables P (p ++ (token a ++ q))
        (bag1 ++ (b, .str X) :: (bag2 ++ (a, .str (u ++ (token b ++ v))) :: bag3)) =
      .ok (p ++ (u ++ (token b ++ (v ++ q)))) := by
  have hkeys : ∀ (bag : Bag), (∀ e ∈ bag, e ∈ bag1 ++ bag2 ++ bag3) → ∀ key ∈ bagKeys bag,
      (∀ ch ∈ key, isWordChar ch = true) ∧ key ≠ a ∧ key ≠ b := by
    intro bag hsub key hkey
    obtain ⟨e, he, hek⟩ := List.mem_map.mp hkey
    exact hothers key (List.mem_map.mpr ⟨e, hsub e he, hek⟩)
  have h1 := hkeys bag1 (fun e he => List.mem_append_left _ (List.mem_append_left _ he))
  have h2 := hkeys bag2 (fun e he => List.mem_append_left _ (List.mem_append_right _ he))
  have h3 := hkeys bag3 (fun e he => List.mem_append_right _ he)
  have hpu : ∀ ch ∈ p ++ u, ch ≠ '{' := by
    intro ch h
    rcases List.mem_append.mp h with h | h
    · exact hp ch h
    · exact (hu ch h).1
  have hvq : ∀ ch ∈ v ++ q, ch ≠ '{' := by
    intro ch h
    rcases List.mem_append.mp h with h | h
    · exact (hv ch h).1
    · exact hq ch h
  have hplain : ∀ ch ∈ p ++ (u ++ (X ++ (v ++ q))), ch ≠ '{' := by
    intro ch h
    simp only [List.mem_append] at h
    rcases h with h | h | h | h | h
    · exact hp ch h
    · exact (hu ch h).1
    · exact (hX ch h).1
    · exact (hv ch h).1
    · exact hq ch h
  have htb : '$' ∉ token b := by
    intro h
    rw [show token b = '{' :: '{' :: (b ++ ['}', '}']) from rfl] at h
    simp only [List.mem_cons, List.mem_append, List.mem_nil_iff, or_false] at h
    rcases h with h | h | h | h | h
    · exact absurd h (by decide)
    · exact absurd h (by decide)
    · exact absurd (hb '$' h) (by decide)
    · exact absurd h (by decide)
    · exact absurd h (by decide)
  have hvalue : ∀ ch ∈ u ++ (token b ++ v), ch ≠ '$' := by
    intro ch h
    simp only [List.mem_append] at h
    rcases h with h | h | h
    · exact (hu ch h).2
    · intro hc
      exact htb (hc ▸ h)
    · exact (hv ch h).2
  -- the texts the loop goes through
  have ht1 : p ++ ((u ++ (token b ++ v)) ++ q) = (p ++ u) ++ (token b ++ (v ++ q)) := by
    simp only [List.append_assoc]
  have ht2 : (p ++ u) ++ (X ++ (v ++ q)) = p ++ (u ++ (X ++ (v ++ q))) := by
    simp only [List.append_assoc]
  have ht3 : (p ++ u) ++ (token b ++ (v ++ q)) = p ++ (u ++ (token b ++ (v ++ q))) := by
    simp only [List.append_assoc]
  -- entries under other names change none of them
  have inertA : ∀ bag : Bag, (∀ key ∈ bagKeys bag,
      (∀ ch ∈ key, isWordChar ch = true) ∧ key ≠ a ∧ key ≠ b) →
      replaceBasicVariables P (p ++ (token a ++ q)) bag = .ok (p ++ (token a ++ q)) :=
    fun bag h => replaceBasicVariables_inert P _ bag (fun key hkey =>
      ⟨(h key hkey).1, token_no_match key a p q (h key hkey).1 ha (h key hkey).2.1 hp hq⟩)
  have inertB : ∀ bag : Bag, (∀ key ∈ bagKeys bag,
      (∀ ch ∈ key, isWordChar ch = true) ∧ key ≠ a ∧ key ≠ b) →
      replaceBasicVariables P ((p ++ u) ++ (token b ++ (v ++ q))) bag =
        .ok ((p ++ u) ++ (token b ++ (v ++ q))) :=
    fun bag h => replaceBasicVariables_inert P _ bag (fun key hkey =>
      ⟨(h key hkey).1, token_no_match key b (p ++ u) (v ++ q) (h key hkey).1 hb (h key hkey).2.2
        hpu hvq⟩)
  have inertX : ∀ bag : Bag, (∀ key ∈ bagKeys bag,
      (∀ ch ∈ key, isWordChar ch = true) ∧ key ≠ a ∧ key ≠ b) →
      replaceBasicVariables P (p ++ (u ++ (X ++ (v ++ q)))) bag =
        .ok (p ++ (u ++ (X ++ (v ++ q)))) :=
    fun bag h => replaceBasicVariables_inert P _ bag (fun key hkey =>
      ⟨(h key hkey).1, no_match_plain _ '{' _ (opensWith_token key) hplain⟩)
  have stepA : replaceVariable P (p ++ (token a ++ q)) a (.str (u ++ (token b ++ v))) =
      .ok ((p ++ u) ++ (token b ++ (v ++ q))) := by
    rw [replaceVariable_token P a p q _ ha hp hq hvalue, ht1]
  have stepB : replaceVariable P ((p ++ u) ++ (token b ++ (v ++ q))) b (.str X) =
      .ok (p ++ (u ++ (X ++ (v ++ q)))) := by
    rw [replaceVariable_token P b (p ++ u) (v ++ q) X hb hpu hvq (fun ch h => (hX ch h).2), ht2]
  have skipB : replaceVariable P (p ++ (token a ++ q)) b (.str X) = .ok (p ++ (token a ++ q)) :=
    replaceVariable_inert P _ b _ hb (token_no_match b a p q hb ha (fun h => hab h.symm) hp hq)
  refine ⟨fun content x y => replaceBasicVariables_append P x y content, ?_, ?_⟩
  · rw [replaceBasicVariables_append, inertA bag1 h1]
    simp only [replaceBasicVariables, stepA]
    rw [replaceBasicVariables_append, inertB bag2 h2]
    simp only [replaceBasicVariables, stepB]
    exact inertX bag3 h3
  · rw [replaceBasicVariables_append, inertA bag1 h1]
    simp only [replaceBasicVariables, skipB]
    rw [replaceBasicVariables_append, inertA bag2 h2]
    simp only [replaceBasicVariables, stepA]
    rw [inertB bag3 h3, ht3]

/-- The statement of `replaceBasicVariables_single_pass` for the template
`Dear {{a}}!`, the entries `a: "Mr {{b}} (VIP)"` and `b: "X"` in both orders,
and a further entry `c` before, between and after them. -/
theorem replaceBasicVariables_single_pass_witness :
    replaceBasicVariables sampleHost "Dear \x7b\x7ba\x7d\x7d!".toList
        [("c".toList, .str "1".toList),
          ("a".toList, .str "Mr \x7b\x7bb\x7d\x7d (VIP)".toList),
          ("d".toList, .str "\x7b\x7ba\x7d\x7d".toList),
          ("b".toList, .str "X".toList), ("e".toList, .null)] =
      .ok "Dear Mr X (VIP)!".toList
    ∧ replaceBasicVariables sampleHost "Dear \x7b\x7ba\x7d\x7d!".toList
        [("c".toList, .str "1".toList), ("b".toList, .str "X".toList),
          ("d".toList, .str "\x7b\x7ba\x7d\x7d".toList),
          ("a".toList, .str "Mr \x7b\x7bb\x7d\x7d (VIP)".toList), ("e".toList, .null)] =
      .ok "Dear Mr \x7b\x7bb\x7d\x7d (VIP)!".toList :=
  (replaceBasicVariables_single_pass sampleHost "a".toList "b".toList "Dear ".toList "!".toList
    "Mr ".toList " (VIP)".toList "X".toList [("c".toList, .str "1".toList)]
    [("d".toList, .str "\x7b\x7ba\x7d\x7d".toList)] [("e".toList, .null)]
    (by decide) (by decide) (by decide) (by decide) (by decide) (by decide) (by decide)
    (by decide) (by decide)).2

end

section

open TemplateEngine DatabaseService

/-! ## What the steps before the conversion leave of the Options data -/

theorem sameOptions_refl (w : World) : SameOptions w w := ⟨rfl, rfl, rfl⟩

theorem sameOptions_trans (w w2 w3 : World) (h1 : SameOptions w w2) (h2 : SameOptions w2 w3) :
    SameOptions w w3 :=
  ⟨h2.1.trans h1.1, h2.2.1.trans h1.2.1, h2.2.2.trans h1.2.2⟩

/-- A `get` under another key leaves the Options data as they are. -/
theorem sameOptions_get (w : World) (key : Str)
    (hne : CacheService.keyPrefix ++ "sheet_data_options".toList ≠ CacheService.keyPrefix ++ key) :
    SameOptions w (CacheService.get w key).2 := by
  rw [get_store]
  split
  · refine ⟨?_, rfl, rfl⟩
    rw [CacheService.delete, getProperty_deleteProperty, if_neg hne]
  · exact sameOptions_refl w

/-- A `set` under another key leaves the Options data as they are. -/
theorem sameOptions_set (w : World) (key : Str) (value : JSValue) (ttl : Int)
    (hne : CacheService.keyPrefix ++ "sheet_data_options".toList ≠ CacheService.keyPrefix ++ key) :
    SameOptions w (CacheService.set w key value ttl) :=
  ⟨getProperty_set_other w key _ value ttl hne, rfl, rfl⟩

theorem sheetKey_ne (name : Str) (hne : name ≠ "options".toList) :
    CacheService.keyPrefix ++ "sheet_data_options".toList ≠
      CacheService.keyPrefix ++ ("sheet_data_".toList ++ name) := by
  intro h
  have h2 := List.append_cancel_left h
  have h3 : "sheet_data_".toList ++ "options".toList = "sheet_data_".toList ++ name := h2
  exact hne (List.append_cancel_left h3).symm

/-- Reading another sheet leaves the Options data as they are. -/
theorem sameOptions_getSheetData (w : World) (name : Str) (hne : name ≠ "options".toList) :
    SameOptions w (getSheetData w name).2 := by
  have hget := sameOptions_get w ("sheet_data_".toList ++ name) (sheetKey_ne name hne)
  unfold getSheetData
  simp only
  split
  · exact hget
  · split
    · exact hget
    · split
      · exact hget
      · exact sameOptions_trans _ _ _ hget (sameOptions_set _ _ _ _ (sheetKey_ne name hne))

theorem templateKey_ne (id : Str) :
    CacheService.keyPrefix ++ "sheet_data_options".toList ≠
      CacheService.keyPrefix ++ ("template_".toList ++ id) := by
  intro h
  have h2 := List.append_cancel_left h
  have h3 : some 's' = some 't' := congrArg List.head? h2
  exact absurd h3 (by decide)

theorem sameOptions_getTemplate (P : Platform) (w : World) (id : Str) :
    SameOptions w (getTemplate P w id).2 := by
  have hget := sameOptions_get w ("template_".toList ++ id) (templateKey_ne id)
  have hsheet := sameOptions_getSheetData (CacheService.get w ("template_".toList ++ id)).2
    "templates".toList (by decide)
  have hboth := sameOptions_trans _ _ _ hget hsheet
  unfold getTemplate
  split
  · exact sameOptions_refl w
  · simp only
    split
    · exact hget
    · split
      · rename_i e w2 heq
        have : w2 = (getSheetData (CacheService.get w ("template_".toList ++ id)).2
            "templates".toList).2 := by rw [heq]
        rw [this]
        exact hboth
      · rename_i data w2 heq
        have hw2 : w2 = (getSheetData (CacheService.get w ("template_".toList ++ id)).2
            "templates".toList).2 := by rw [heq]
        split
        · rw [hw2]; exact hboth
        · rw [hw2]; exact hboth
        · rw [hw2]
          exact sameOptions_trans _ _ _ hboth (sameOptions_set _ _ _ _ (templateKey_ne id))

theorem sameOptions_getTemplateWithCache (P : Platform) (w : World) (id : Str) :
    SameOptions w (getTemplateWithCache P w id).2 := by
  have hget := sameOptions_get w ("template_".toList ++ id) (templateKey_ne id)
  have htem := sameOptions_getTemplate P (CacheService.get w ("template_".toList ++ id)).2 id
  have hboth := sameOptions_trans _ _ _ hget htem
  unfold getTemplateWithCache
  simp only
  split
  · exact hget
  · split
    · rename_i e w2 heq
      have : w2 = (getTemplate P (CacheService.get w ("template_".toList ++ id)).2 id).2 := by
        rw [heq]
      rw [this]
      exact hboth
    · rename_i template w2 heq
      have hw2 : w2 = (getTemplate P (CacheService.get w ("template_".toList ++ id)).2 id).2 := by
        rw [heq]
      split
      · rw [hw2]
        exact sameOptions_trans _ _ _ hboth (sameOptions_set _ _ _ _ (templateKey_ne id))
      · rw [hw2]; exact hboth

theorem sameOptions_getActiveFooter (P : Platform) (w : World) :
    SameOptions w (getActiveFooter P w).2 := by
  have hkey : CacheService.keyPrefix ++ "sheet_data_options".toList ≠
      CacheService.keyPrefix ++ "active_footer".toList := by decide
  have hget := sameOptions_get w "active_footer".toList hkey
  have hsheet := sameOptions_getSheetData (CacheService.get w "active_footer".toList).2
    "footers".toList (by decide)
  have hboth := sameOptions_trans _ _ _ hget hsheet
  unfold getActiveFooter
  simp only
  split
  · exact hget
  · split
    · rename_i e w2 heq
      have : w2 = (getSheetData (CacheService.get w "active_footer".toList).2
          "footers".toList).2 := by rw [heq]
      rw [this]
      exact hboth
    · rename_i data w2 heq
      have hw2 : w2 = (getSheetData (CacheService.get w "active_footer".toList).2
          "footers".toList).2 := by rw [heq]
      split
      · rw [hw2]; exact hboth
      · rw [hw2]; exact hboth
      · rw [hw2]
        exact sameOptions_trans _ _ _ hboth (sameOptions_set _ _ _ _ hkey)

end

section

open TemplateEngine DatabaseService

/-! ## What preprocessing leaves of the bag -/

/-- The value `get` returns depends on the entry under the key and on the
clock only. -/
theorem get_value_congr (w w2 : World) (key : Str)
    (hp : getProperty w2 (CacheService.keyPrefix ++ key) =
      getProperty w (CacheService.keyPrefix ++ key)) (hnow : w2.now = w.now) :
    (CacheService.get w2 key).1 = (CacheService.get w key).1 := by
  unfold CacheService.get
  rw [hp]
  cases getProperty w (CacheService.keyPrefix ++ key) with
  | none => rfl
  | some stored =>
    cases stored with
    | invalid => rfl
    | json data =>
      have hexp : CacheService.expired w2 data = CacheService.expired w data := by
        simp only [CacheService.expired, hnow]
      simp only [hexp]
      split
      · rfl
      · split <;> rfl

theorem get_sheets (w : World) (key : Str) :
    (CacheService.get w key).2.optionsSheet = w.optionsSheet := by
  rw [get_store]
  split <;> rfl

/-- What `getSheetData` returns for the Options sheet: the copy in the cache,
or the values of the sheet. -/
theorem getSheetData_options_value (w : World) :
    (getSheetData w "options".toList).1 =
      if (CacheService.get w "sheet_data_options".toList).1.truthy then
        .ok (CacheService.get w "sheet_data_options".toList).1
      else if w.optionsSheet.isEmpty then .ok (.arr [])
      else .ok (.arr (w.optionsSheet.map .arr)) := by
  have hkey : "sheet_data_".toList ++ "options".toList = "sheet_data_options".toList := rfl
  have hs : sheetValues (CacheService.get w "sheet_data_options".toList).2 "options".toList =
      some w.optionsSheet := by
    show some _ = some _
    rw [get_sheets]
  unfold getSheetData
  simp only [hkey]
  split
  · rfl
  · rw [hs]
    simp only
    split <;> rfl

/-- States that read the same Options data have the same select variables. -/
theorem selectNames_congr (w w2 : World) (h : SameOptions w w2) :
    selectNames w2 = selectNames w := by
  have hv : (getSheetData w2 "options".toList).1 = (getSheetData w "options".toList).1 := by
    rw [getSheetData_options_value, getSheetData_options_value,
      get_value_congr w w2 _ h.1 h.2.1, h.2.2]
  simp only [selectNames, optionsData, hv]

/-- The names the detection loop finds are names of active rows. -/
theorem selectVariableNames_active (P : Platform) : ∀ (rs acc names : List JSValue),
    selectVariableNames P rs acc = .ok names →
    ∀ n ∈ names, n ∈ acc ∨ ∃ row ∈ rs, n = cell row 0 ∧
      ((cell row 0).truthy && (cell row 4).strictEq (.bool true)) = true
  | [], acc, names, h, n, hn => by
    simp only [selectVariableNames, Except.ok.injEq] at h
    rw [← h] at hn
    exact Or.inl (List.mem_reverse.mp hn)
  | row :: rest, acc, names, h, n, hn => by
    simp only [selectVariableNames] at h
    split at h
    · cases h
    · split at h
      · rename_i hcond
        simp only [Bool.and_eq_true] at hcond
        rcases selectVariableNames_active P rest _ names h n hn with h1 | ⟨r2, hr2, he⟩
        · rcases List.mem_cons.mp h1 with h2 | h2
          · refine Or.inr ⟨row, List.mem_cons_self _ _, h2, ?_⟩
            rw [Bool.and_eq_true]
            exact hcond.1
          · exact Or.inl h2
        · exact Or.inr ⟨r2, List.mem_cons_of_mem _ hr2, he⟩
      · rcases selectVariableNames_active P rest _ names h n hn with h1 | ⟨r2, hr2, he⟩
        · exact Or.inl h1
        · exact Or.inr ⟨r2, List.mem_cons_of_mem _ hr2, he⟩

/-- The conversion of the options leaves the value of a variable that is no
select variable as it is. -/
theorem convertSelectOptionsToText_keeps (P : Platform) (w : World) (b : Bag) (k : Str)
    (hk : k ∉ selectNames w) :
    getProp (convertSelectOptionsToText P w b).1 k = getProp b k := by
  unfold convertSelectOptionsToText
  split
  · rfl
  · rename_i data w1 hdata
    split
    · rfl
    · rename_i names hnames
      apply convertAll_frame
      intro n hn hnk
      rcases selectVariableNames_active P _ [] names hnames n hn with h1 | ⟨row, hrow, he, hact⟩
      · cases h1
      · apply hk
        have hd : (getSheetData w "options".toList).1 = .ok data := by rw [hdata]
        simp only [selectNames, optionsData, hd]
        rw [← hnk, he]
        exact List.mem_map.mpr ⟨row, List.mem_filter.mpr ⟨hrow, hact⟩, rfl⟩

/-- The steps of `preprocessVariables` before the footer leave every value
alone but those of the keys they write. -/
theorem preprocessBasics_keeps (P : Platform) (w : World) (vars : Bag) (k : Str)
    (h1 : k ≠ "formattedECID".toList) (h2 : k ≠ "status".toList)
    (h3 : k ≠ "statusText".toList) (h4 : k ≠ "today".toList)
    (h5 : k ≠ "formattedReplyDate".toList) :
    getProp (preprocessBasics P w vars) k = getProp vars k := by
  have hne : ∀ k2 : Str, k ≠ k2 → ∀ (b : Bag) (v : JSValue),
      getProp (setProp b k2 v) k = getProp b k :=
    fun k2 hk b v => getProp_setProp_ne b k2 _ v hk
  simp only [preprocessBasics]
  split <;> split <;> split <;>
    simp only [hne _ h1, hne _ h2, hne _ h3, hne _ h4, hne _ h5]

/-- The footer step of `preprocessVariables` leaves the Options data as they
are. -/
theorem preprocessFooter_world (P : Platform) (w : World) (b : Bag) :
    SameOptions w (preprocessFooter P w b).2 := by
  have hfooter := sameOptions_getActiveFooter P w
  unfold preprocessFooter
  simp only
  split
  · cases hga : getActiveFooter P w with
    | mk res w1 =>
      rw [hga] at hfooter
      cases res with
      | error e => exact hfooter
      | ok footer =>
        simp only
        split <;> exact hfooter
  · exact sameOptions_refl w

/-- The footer step of `preprocessVariables` changes the bag under `footer`
only. -/
theorem preprocessFooter_bag (P : Platform) (w : World) (b processed : Bag) (k : Str)
    (hk : k ≠ "footer".toList) (h : (preprocessFooter P w b).1 = .ok processed) :
    getProp processed k = getProp b k := by
  unfold preprocessFooter at h
  simp only at h
  split at h
  · cases hga : getActiveFooter P w with
    | mk res w1 =>
      rw [hga] at h
      cases res with
      | error e => cases h
      | ok footer =>
        simp only at h
        split at h <;>
          (simp only [Except.ok.injEq] at h; rw [← h, getProp_setProp_ne _ _ _ _ hk])
  · simp only [Except.ok.injEq] at h
    rw [← h, getProp_setProp_ne _ _ _ _ hk]

/-- The method `preprocessVariables` leaves the value of a variable as the
caller gave it, unless the variable is one of the keys it writes or a select
variable. -/
theorem preprocessVariables_keeps (P : Platform) (w0 w : World) (vars processed : Bag) (k : Str)
    (hsame : SameOptions w0 w) (hk : k ∉ preprocessedKeys) (hsel : k ∉ selectNames w0)
    (h : (preprocessVariables P w vars).1 = .ok processed) :
    getProp processed k = getProp vars k := by
  have hkeys : k ≠ "formattedECID".toList ∧ k ≠ "status".toList ∧ k ≠ "statusText".toList ∧
      k ≠ "today".toList ∧ k ≠ "formattedReplyDate".toList ∧ k ≠ "footer".toList := by
    simp only [preprocessedKeys, List.mem_cons, List.mem_nil_iff, or_false, not_or] at hk
    exact hk
  unfold preprocessVariables at h
  split at h
  · cases h
  · rename_i b w1 heq
    have hb : (preprocessFooter P w (preprocessBasics P w vars)).1 = .ok b := by rw [heq]
    have hw1 : w1 = (preprocessFooter P w (preprocessBasics P w vars)).2 := by rw [heq]
    have hval := preprocessFooter_bag P w _ b k hkeys.2.2.2.2.2 hb
    have hopt := preprocessFooter_world P w (preprocessBasics P w vars)
    simp only [Except.ok.injEq] at h
    rw [← h, convertSelectOptionsToText_keeps P w1 b k, hval,
      preprocessBasics_keeps P w vars k hkeys.1 hkeys.2.1 hkeys.2.2.1 hkeys.2.2.2.1
        hkeys.2.2.2.2.1]
    rw [hw1, selectNames_congr w0 _ (sameOptions_trans _ _ _ hsame hopt)]
    exact hsel

end

section

open TemplateEngine DatabaseService

/-- C4, as the code has it: `generate` validates the bag that preprocessing
returns, and preprocessing writes the keys `formattedECID`, `status`,
`statusText`, `today`, `formattedReplyDate` and `footer` and may replace the
value of a select variable by a label. For every state, template id and raw
bag: when the required variables of the stored template are names none of
which is one of these keys or a select variable, and each has in the bag as the
caller supplies it a value that is not `null` or `undefined` and whose trimmed
string form is not empty, `generate` never returns the missing-variable
failure. The messages of built-in errors are taken not to begin with the words
of the missing-variable message. -/
theorem generate_no_missing_failure (P : Platform) (w : World) (templateId : Str) (vars : Bag)
    (hP : ∀ ne, ¬ "Required variables missing: ".toList <+: P.message ne)
    (hreq : ∀ template, (getTemplateWithCache P w templateId).1 = .ok template →
      ∃ rs : List Str,
        jsonParse (DatabaseService.orElse (field template "required_variables".toList)
          (.str "[]".toList)).toStr = some (.arr (rs.map .str)) ∧
        ∀ r ∈ rs, isMissing (getProp vars r) = false ∧ r ∉ preprocessedKeys ∧
          r ∉ selectNames w) :
    ∀ msg tid stamp, (generate P w templateId vars).1 = .failure msg tid stamp →
      ¬ "Required variables missing: ".toList <+: msg := by
  intro msg tid stamp h
  have hprocessed : ∀ template processed,
      (getTemplateWithCache P w templateId).1 = .ok template →
      (preprocessVariables P (getTemplateWithCache P w templateId).2 vars).1 = .ok processed →
      ∃ rs : List Str,
        jsonParse (DatabaseService.orElse (field template "required_variables".toList)
          (.str "[]".toList)).toStr = some (.arr (rs.map .str)) ∧
        ∀ r ∈ rs, isMissing (getProp processed r) = false := by
    intro template processed ht hp
    obtain ⟨rs, hparse, hrs⟩ := hreq template ht
    refine ⟨rs, hparse, ?_⟩
    intro r hr
    obtain ⟨hmiss, hkey, hsel⟩ := hrs r hr
    rw [preprocessVariables_keeps P w _ vars processed r
      (sameOptions_getTemplateWithCache P w templateId) hkey hsel hp]
    exact hmiss
  unfold generate at h
  split at h
  · rename_i result w1 hb
    obtain ⟨c, t, n, cat, sub, g, k, hr⟩ := generateBody_ok P w templateId vars result (by rw [hb])
    subst hr
    cases h
  · rename_i message w1 hb
    injection h with h1 h2 h3
    subst h1
    exact generateBody_error P w templateId vars _ hP hprocessed (by rw [hb])

set_option maxRecDepth 1000000 in
/-- The statement of `generate_no_missing_failure` for a template that
requires `name` and a bag that supplies it, with an ECID of five digits:
`generate` fails, and the failure is not the missing-variable failure. -/
theorem generate_no_missing_failure_witness :
    (generate sampleHost (sampleWorld "Hello \x7b\x7bname\x7d\x7d" "[\"name\"]") "welcome".toList
        [("name".toList, .str "Amy".toList), ("ecid".toList, .str "12345".toList)]).1 =
        .failure "Variable validation failed: Invalid ECID format: 12345. Must be 10 digits (e.g., 1234567890 or 123-456-7890).".toList
          "welcome".toList "2025-01-06T03:00:00.000Z".toList
      ∧ ¬ "Required variables missing: ".toList <+:
        "Variable validation failed: Invalid ECID format: 12345. Must be 10 digits (e.g., 1234567890 or 123-456-7890).".toList :=
  ⟨by rfl,
    generate_no_missing_failure sampleHost (sampleWorld "Hello \x7b\x7bname\x7d\x7d" "[\"name\"]")
    "welcome".toList [("name".toList, .str "Amy".toList), ("ecid".toList, .str "12345".toList)]
    sampleHost_messages
    (by
      intro template h1
      refine ⟨["name".toList], ?_, ?_⟩
      · have e1 : (getTemplateWithCache sampleHost
            (sampleWorld "Hello \x7b\x7bname\x7d\x7d" "[\"name\"]") "welcome".toList).1 =
            .ok (templateOfRow (.arr [.str "welcome".toList, .str "general".toList,
              .str "greeting".toList, .str "Welcome".toList,
              .str "Hello \x7b\x7bname\x7d\x7d".toList, .str "[\"name\"]".toList,
              .str "[]".toList, .bool true, .str "2025-01-01".toList, .str "2025-01-01".toList,
              .str "System".toList, .str []])) := by rfl
        rw [e1] at h1
        injection h1 with h1
        subst h1
        rfl
      · intro r hr
        have hr2 : r = "name".toList := by simpa using hr
        subst hr2
        exact ⟨rfl, by decide, by decide⟩)
    _ _ _ (by rfl)⟩

end

end PlayBook
